import Mathlib

/-! # Brainrot language front end: lexer, parser and lowering

A shallow embedding of `src/src/Lexer.cpp`, `src/src/parser.cpp` and
`src/src/codegen.cpp`, with the properties of the specification stated and
proved over it.

Conventions of the embedding.

* A `std::string` is a `List Char` (`Str`); every element stands for one `char`.
* The lexer state `(source, start, current)` is carried as the not yet consumed
  suffix `source[current..]`; the text `source.substr(start, current - start)` of a
  token is the list of characters consumed since `start`.  The `line` counter and
  the diagnostics written to `std::cerr` have no influence on the tokens and are
  left out.
* A C++ exception is a value of `Err` in the `Except` monad.
* Loops and recursion that are not structural take a `fuel : Nat`; running out of
  fuel is the distinguished error `Err.fuel`.
-/

namespace Brainrot

/-- A `std::string`, one `Char` for each `char`. -/
abbrev Str := List Char

/-- The ways a stage of the compiler can stop without a result. -/
inductive Err where
  /-- `throw std::runtime_error(msg)`. -/
  | runtime (msg : Str)
  /-- `std::out_of_range` thrown by `std::stoi` or `std::stod`. -/
  | outOfRange (fn : Str)
  /-- `std::invalid_argument` thrown by `std::stoi` or `std::stod`. -/
  | invalidArgument (fn : Str)
  /-- A `std::vector` access outside `[0, size)` (undefined behaviour in C++). -/
  | outOfBounds
  /-- The model ran out of fuel. -/
  | fuel
deriving DecidableEq, Repr

deriving instance DecidableEq for Except

/-! ## Tokens (`include/lexer.h`) -/

inductive TokenType where
  | TOK_YAP | TOK_FR | TOK_NO_CAP | TOK_CAP | TOK_BET | TOK_GOON | TOK_BRUH
  | TOK_SOLULU | TOK_DELULU | TOK_OOF | TOK_POOKIE | TOK_GOATED | TOK_OHIO
  | TOK_YEET | TOK_YOINK | TOK_SQUAD | TOK_SIGMA | TOK_GHOST | TOK_COOK
  | TOK_LEFT_PAREN | TOK_RIGHT_PAREN | TOK_LEFT_BRACE | TOK_RIGHT_BRACE
  | TOK_LEFT_BRACKET | TOK_RIGHT_BRACKET | TOK_COMMA | TOK_DOT | TOK_MINUS
  | TOK_PLUS | TOK_SEMICOLON | TOK_SLASH | TOK_STAR | TOK_BANG | TOK_EQUAL
  | TOK_LESS | TOK_GREATER
  | TOK_BANG_EQUAL | TOK_EQUAL_EQUAL | TOK_LESS_EQUAL | TOK_GREATER_EQUAL
  | TOK_IDENTIFIER | TOK_STRING_LITERAL | TOK_NUMBER_LITERAL
  | TOK_EOF
deriving DecidableEq, Repr

open TokenType

structure Token where
  type : TokenType
  lexeme : Str
  isFloat : Bool := false
deriving DecidableEq, Repr

/-! ## Numbers: `double`, `std::stod`, `std::stoi`, `std::to_string`

The lexer and the parser read numbers with the C++ standard library.  Only
non-negative finite values arise from the unsigned decimal texts the lexer
builds, so a `double` is modelled by a mantissa and a binary exponent.
-/

/-- A non-negative finite `double`: the value `m * 2 ^ e`. -/
structure Dbl where
  m : Nat
  e : Int
deriving DecidableEq, Repr

/-- The exact value of a `Dbl`. -/
def Dbl.toRat (v : Dbl) : ℚ := (v.m : ℚ) * (2 : ℚ) ^ v.e

/-- The test `value == std::floor(value)` of a non-negative finite `double`. -/
def Dbl.isIntegral (v : Dbl) : Bool :=
  if 0 ≤ v.e then true else v.m % 2 ^ v.e.natAbs == 0

/-- The integer part of a non-negative finite `double` (truncation). -/
def Dbl.trunc (v : Dbl) : Nat :=
  if 0 ≤ v.e then v.m * 2 ^ v.e.toNat else v.m / 2 ^ v.e.natAbs

/-- The conversion `(int)value` of a non-negative `double` to a 32-bit `int`.  It
truncates; a value that does not fit is undefined behaviour in C++, for which the
model takes what the x86-64 conversion instruction returns, `INT_MIN`. -/
def Dbl.toInt (v : Dbl) : Int :=
  if v.trunc < 2 ^ 31 then (v.trunc : Int) else -(2 ^ 31 : Int)

/-- C++ `isdigit` restricted to the test the sources spell out, `'0' <= c <= '9'`. -/
def isDigit (c : Char) : Bool := decide ('0' ≤ c) && decide (c ≤ '9')

/-- The value of a decimal digit character. -/
def digitVal (c : Char) : Nat := c.toNat - '0'.toNat

/-- The number a run of decimal digits denotes. -/
def digitsToNat (s : Str) : Nat := s.foldl (fun acc c => 10 * acc + digitVal c) 0

/-- Numerator and denominator of `n / d` scaled by `2 ^ (-e)`. -/
def scaled (n d : Nat) (e : Int) : Nat × Nat :=
  if 0 ≤ e then (n, d * 2 ^ e.toNat) else (n * 2 ^ e.natAbs, d)

/-- Halving loop behind `ilog2`; `fuel` bounds the number of halvings. -/
def ilog2Loop : Nat → Nat → Nat
  | 0, _ => 0
  | fuel + 1, n => if n < 2 then 0 else ilog2Loop fuel (n / 2) + 1

/-- The position of the leading bit of `n`: `2 ^ ilog2 n ≤ n < 2 ^ (ilog2 n + 1)` for
`0 < n`. -/
def ilog2 (n : Nat) : Nat := ilog2Loop n n

/-- The binary exponent of the 53-bit significand of `n / d` (`0 < n`, `0 < d`):
the `e` with `2 ^ 52 ≤ n / (d * 2 ^ e) < 2 ^ 53`, not below the subnormal exponent
`-1074`. -/
def binExp (n d : Nat) : Int :=
  let e0 : Int := (ilog2 n : Int) - (ilog2 d : Int) - 52
  let s := scaled n d e0
  let e1 : Int := if 2 ^ 52 * s.2 ≤ s.1 then e0 else e0 - 1
  max e1 (-1074)

/-- Correctly rounded (round to nearest, ties to even) conversion of the rational
`n / d`, `0 < d`, to binary64, as `strtod` performs it.  A result of `2 ^ 1024` or
more, and an inexact result below `2 ^ (-1022)`, set `ERANGE`, which `std::stod`
turns into `std::out_of_range`. -/
def roundBinary64 (n d : Nat) : Except Err Dbl :=
  if n = 0 then .ok ⟨0, 0⟩
  else
    let e := binExp n d
    let s := scaled n d e
    let q := s.1 / s.2
    let r := s.1 % s.2
    let m := if s.2 < 2 * r ∨ (2 * r = s.2 ∧ q % 2 = 1) then q + 1 else q
    if 971 < e ∨ (e = 971 ∧ 2 ^ 53 ≤ m) then .error (.outOfRange "stod".toList)
    else if m < 2 ^ 52 ∧ r ≠ 0 then .error (.outOfRange "stod".toList)
    else .ok ⟨m, e⟩

/-- The function `std::stod` on an unsigned decimal text `D`, `D.F` or `.F` followed by
anything: the longest such prefix is converted.  Text that has no digit there
throws `std::invalid_argument`.  A sign, leading blanks, an exponent and the
hexadecimal and `inf`/`nan` forms, none of which the lexer produces, are not
modelled. -/
def stod (s : Str) : Except Err Dbl :=
  let ip := s.takeWhile isDigit
  let fp := match s.dropWhile isDigit with
    | '.' :: r => r.takeWhile isDigit
    | _ => []
  if ip = [] ∧ fp = [] then .error (.invalidArgument "stod".toList)
  else roundBinary64 (digitsToNat (ip ++ fp)) (10 ^ fp.length)

/-- The function `std::to_string(int)`. -/
def to_string (i : Int) : Str :=
  if i < 0 then '-' :: Nat.toDigits 10 i.natAbs else Nat.toDigits 10 i.natAbs

/-- C `isspace` in the "C" locale, which `std::stoi` uses to skip leading blanks. -/
def isSpace (c : Char) : Bool :=
  c == ' ' || c == '\t' || c == '\n' || c == '\x0b' || c == '\x0c' || c == '\r'

/-- The function `std::stoi(str)` in base 10: leading blanks, an optional sign, then
the longest run of digits; no digit is `std::invalid_argument`, a value outside
the 32-bit `int` range is `std::out_of_range`. -/
def stoi (s : Str) : Except Err Int :=
  let s1 := s.dropWhile isSpace
  let (neg, s2) := match s1 with
    | '-' :: r => (true, r)
    | '+' :: r => (false, r)
    | _ => (false, s1)
  let ds := s2.takeWhile isDigit
  if ds = [] then .error (.invalidArgument "stoi".toList)
  else
    let v : Int := if neg then -(digitsToNat ds : Int) else (digitsToNat ds : Int)
    if v < -(2 ^ 31 : Int) ∨ (2 ^ 31 : Int) ≤ v then .error (.outOfRange "stoi".toList)
    else .ok v

/-! ## Lexer (`src/Lexer.cpp`) -/

/-- `Lexer::isAlpha`. -/
def isAlpha (c : Char) : Bool :=
  (decide ('a' ≤ c) && decide (c ≤ 'z')) || (decide ('A' ≤ c) && decide (c ≤ 'Z')) || c == '_'

/-- `Lexer::isAlphaNumeric`. -/
def isAlphaNumeric (c : Char) : Bool := isAlpha c || isDigit c

/-- `Lexer::peek`: the current character, `'\0'` at the end of the source. -/
def peek (rest : Str) : Char :=
  match rest with
  | [] => '\x00'
  | c :: _ => c

/-- `Lexer::peekNext`: the character after the current one, `'\0'` when there is none. -/
def peekNext (rest : Str) : Char :=
  match rest with
  | _ :: c :: _ => c
  | _ => '\x00'

/-- `Lexer::match`: consumes the current character when it is `expected`. -/
def lexMatch (expected : Char) (rest : Str) : Bool × Str :=
  match rest with
  | [] => (false, [])
  | c :: cs => if c ≠ expected then (false, c :: cs) else (true, cs)

/-- The static table `keywords` of `Lexer::identifier`. -/
def keywords : List (Str × TokenType) :=
  [("yap".toList, TOK_YAP), ("fr".toList, TOK_FR), ("no_cap".toList, TOK_NO_CAP),
   ("cap".toList, TOK_CAP), ("bet".toList, TOK_BET), ("goon".toList, TOK_GOON),
   ("bruh".toList, TOK_BRUH), ("solulu".toList, TOK_SOLULU), ("delulu".toList, TOK_DELULU),
   ("oof".toList, TOK_OOF), ("pookie".toList, TOK_POOKIE), ("goated".toList, TOK_GOATED),
   ("ohio".toList, TOK_OHIO), ("yeet".toList, TOK_YEET), ("yoink".toList, TOK_YOINK),
   ("squad".toList, TOK_SQUAD), ("sigma".toList, TOK_SIGMA), ("ghost".toList, TOK_GHOST),
   ("cook".toList, TOK_COOK)]

/-- `Lexer::string`, entered after the opening quote: the token added, if any, and
the rest of the source. -/
def lexString (rest : Str) : Option Token × Str :=
  let value := rest.takeWhile (fun c => c != '"')
  match rest.dropWhile (fun c => c != '"') with
  | [] => (none, [])
  | _ :: rest1 => (some ⟨TOK_STRING_LITERAL, value, false⟩, rest1)

/-- `Lexer::number`, entered after its first digit `c`. -/
def number (c : Char) (rest : Str) : Except Err (Token × Str) :=
  let numStr := c :: rest.takeWhile isDigit
  let rest1 := rest.dropWhile isDigit
  if peek rest1 == '.' && isDigit (peekNext rest1) then
    let numStr := numStr ++ '.' :: (rest1.drop 1).takeWhile isDigit
    let rest2 := (rest1.drop 1).dropWhile isDigit
    match stod numStr with
    | .error err => .error err
    | .ok value =>
      if value.isIntegral then .ok (⟨TOK_NUMBER_LITERAL, to_string value.toInt, false⟩, rest2)
      else .ok (⟨TOK_NUMBER_LITERAL, numStr, true⟩, rest2)
  else .ok (⟨TOK_NUMBER_LITERAL, numStr, false⟩, rest1)

/-- `Lexer::identifier`, entered after its first character `c`. -/
def identifier (c : Char) (rest : Str) : Token × Str :=
  let text := c :: rest.takeWhile isAlphaNumeric
  let type := match keywords.lookup text with
    | some t => t
    | none => TOK_IDENTIFIER
  (⟨type, text, false⟩, rest.dropWhile isAlphaNumeric)

/-- The two-character operators of `Lexer::scanToken`: `addToken(match('=') ? two : one)`. -/
def lexOperator (c : Char) (two one : TokenType) (rest : Str) : Option Token × Str :=
  let r := lexMatch '=' rest
  if r.1 then (some ⟨two, [c, '='], false⟩, r.2) else (some ⟨one, [c], false⟩, r.2)

/-- `Lexer::scanToken` with `c = advance()` already taken: the token added to
`tokens`, if any, and the rest of the source. -/
def scanToken (c : Char) (rest : Str) : Except Err (Option Token × Str) :=
  if c = '(' then .ok (some ⟨TOK_LEFT_PAREN, [c], false⟩, rest)
  else if c = ')' then .ok (some ⟨TOK_RIGHT_PAREN, [c], false⟩, rest)
  else if c = '{' then .ok (some ⟨TOK_LEFT_BRACE, [c], false⟩, rest)
  else if c = '}' then .ok (some ⟨TOK_RIGHT_BRACE, [c], false⟩, rest)
  else if c = '[' then .ok (some ⟨TOK_LEFT_BRACKET, [c], false⟩, rest)
  else if c = ']' then .ok (some ⟨TOK_RIGHT_BRACKET, [c], false⟩, rest)
  else if c = ',' then .ok (some ⟨TOK_COMMA, [c], false⟩, rest)
  else if c = '.' then .ok (some ⟨TOK_DOT, [c], false⟩, rest)
  else if c = '-' then .ok (some ⟨TOK_MINUS, [c], false⟩, rest)
  else if c = '+' then .ok (some ⟨TOK_PLUS, [c], false⟩, rest)
  else if c = ';' then .ok (some ⟨TOK_SEMICOLON, [c], false⟩, rest)
  else if c = '*' then .ok (some ⟨TOK_STAR, [c], false⟩, rest)
  else if c = '/' then .ok (some ⟨TOK_SLASH, [c], false⟩, rest)
  else if c = '!' then .ok (lexOperator c TOK_BANG_EQUAL TOK_BANG rest)
  else if c = '=' then .ok (lexOperator c TOK_EQUAL_EQUAL TOK_EQUAL rest)
  else if c = '<' then .ok (lexOperator c TOK_LESS_EQUAL TOK_LESS rest)
  else if c = '>' then .ok (lexOperator c TOK_GREATER_EQUAL TOK_GREATER rest)
  else if c = ' ' ∨ c = '\r' ∨ c = '\t' then .ok (none, rest)
  else if c = '\n' then .ok (none, rest)
  else if c = '"' then .ok (lexString rest)
  else if isDigit c then
    match number c rest with
    | .error err => .error err
    | .ok (t, rest1) => .ok (some t, rest1)
  else if isAlpha c then
    let r := identifier c rest
    .ok (some r.1, r.2)
  else .ok (none, rest)

/-- The loop of `Lexer::scanTokens`: `while (!isAtEnd()) { start = current; scanToken(); }`
followed by `tokens.push_back({TOK_EOF, "", false})`. -/
def scanLoop : Nat → Str → List Token → Except Err (List Token)
  | _, [], tokens => .ok (tokens ++ [⟨TOK_EOF, [], false⟩])
  | 0, _ :: _, _ => .error .fuel
  | fuel + 1, c :: rest, tokens =>
    match scanToken c rest with
    | .error err => .error err
    | .ok (none, rest1) => scanLoop fuel rest1 tokens
    | .ok (some t, rest1) => scanLoop fuel rest1 (tokens ++ [t])

/-- `Lexer::scanTokens`.  Every iteration consumes a character, so the length of the
source is enough fuel. -/
def scanTokens (source : Str) : Except Err (List Token) :=
  scanLoop source.length source []

/-! ## Abstract syntax (`include/ast.h`) -/

/-- The payload of a `NumberExprAST`: the union of `doubleVal` and `intVal` together
with the flag `isFloat` that tells which one is stored. -/
inductive NumVal where
  /-- Built by `NumberExprAST(double)`: `isFloat = true`. -/
  | ofDouble (doubleVal : Dbl)
  /-- Built by `NumberExprAST(int)`: `isFloat = false`. -/
  | ofInt (intVal : Int)
deriving DecidableEq, Repr

/-- The classes derived from `AST::ExprAST`. -/
inductive ExprAST where
  | NumberExprAST (val : NumVal)
  | StringExprAST (value : Str)
  | VariableExprAST (name : Str)
  | BinaryExprAST (op : Char) (lhs rhs : ExprAST)
  | UnaryExprAST (op : Char) (operand : ExprAST)
  | CallExprAST (callee : Str) (args : List ExprAST)
  | GroupingExprAST (expression : ExprAST)
  | AssignExprAST (name : Str) (value : ExprAST)
deriving Repr

/-- The classes derived from `AST::StmtAST` that can stand in a statement list.  The
three clauses of a `BetStmtAST` are pointers the lowering tests for null. -/
inductive StmtAST where
  | YapStmtAST (args : List ExprAST)
  | SusStmtAST (condition : ExprAST) (thenBlock elseBlock : List StmtAST)
  | BetStmtAST (init : Option StmtAST) (condition : Option ExprAST)
      (increment : Option StmtAST) (body : List StmtAST)
  | BruhAST (name : Str) (args : List Str) (body : List StmtAST)
  | ExprStmtAST (expr : ExprAST)
  | VarDeclStmtAST (name : Str) (initializer : ExprAST)
deriving Repr

/-- The root `AST::CookAST`. -/
structure CookAST where
  body : List StmtAST
deriving Repr

open ExprAST StmtAST

/-! ## Parser (`src/parser.cpp`)

The member `tokens` is the first argument of every function and the member
`current` is the state threaded by `Parser`.  A member function that calls
`statement()`, `expression()` or `unary()` back takes that callee as an argument;
`unary` and `statement` tie the knot.
-/

/-- A member function of a class with mutable members `σ` that may throw: from the
members to a result and the new members, or an exception. -/
def StateExcept (σ α : Type) : Type := σ → Except Err (α × σ)

instance {σ : Type} : Monad (StateExcept σ) where
  pure a := fun s => .ok (a, s)
  bind p f := fun s =>
    match p s with
    | .error err => .error err
    | .ok (a, s1) => f a s1

/-- `throw`. -/
def StateExcept.fail {σ α : Type} (err : Err) : StateExcept σ α := fun _ => .error err

/-- `throw std::runtime_error(message)`. -/
def StateExcept.throwRuntime {σ α : Type} (message : Str) : StateExcept σ α :=
  StateExcept.fail (.runtime message)

/-- A computation of the parser; its state is the cursor `current`. -/
abbrev Parser (α : Type) : Type := StateExcept Nat α

/-- `Parser::peek`: `tokens[current]`. -/
def Parser.peek (tokens : List Token) : Parser Token := fun current =>
  match tokens[current]? with
  | some t => .ok (t, current)
  | none => .error .outOfBounds

/-- `Parser::previous`: `tokens[current - 1]`; with `current = 0` the unsigned index
wraps around and lies outside the vector. -/
def Parser.previous (tokens : List Token) : Parser Token := fun current =>
  if current = 0 then .error .outOfBounds
  else
    match tokens[current - 1]? with
    | some t => .ok (t, current)
    | none => .error .outOfBounds

/-- `Parser::isAtEnd`. -/
def Parser.isAtEnd (tokens : List Token) : Parser Bool := do
  let t ← Parser.peek tokens
  pure (t.type == TOK_EOF)

/-- `Parser::advance`. -/
def Parser.advance (tokens : List Token) : Parser Token := do
  if !(← Parser.isAtEnd tokens) then
    (fun current => .ok ((), current + 1) : Parser Unit)
  Parser.previous tokens

/-- `Parser::check`. -/
def Parser.check (tokens : List Token) (type : TokenType) : Parser Bool := do
  if ← Parser.isAtEnd tokens then pure false
  else
    let t ← Parser.peek tokens
    pure (t.type == type)

/-- `Parser::match(TokenType)`. -/
def Parser.match (tokens : List Token) (type : TokenType) : Parser Bool := do
  if ← Parser.check tokens type then
    let _ ← Parser.advance tokens
    pure true
  else pure false

/-- `Parser::match(std::initializer_list<TokenType>)`. -/
def Parser.matchList (tokens : List Token) : List TokenType → Parser Bool
  | [] => pure false
  | type :: types => do
    if ← Parser.check tokens type then
      let _ ← Parser.advance tokens
      pure true
    else Parser.matchList tokens types

/-- The loop condition `match(a) || match(b)`. -/
def Parser.matchOr (tokens : List Token) (a b : TokenType) : Parser Bool := do
  if ← Parser.match tokens a then pure true else Parser.match tokens b

/-- `Parser::consume`. -/
def Parser.consume (tokens : List Token) (type : TokenType) (message : Str) :
    Parser Token := do
  if ← Parser.check tokens type then Parser.advance tokens
  else StateExcept.throwRuntime message

/-- `s[0]` of a `std::string`: its first character, `'\0'` when the string is empty. -/
def firstChar (s : Str) : Char :=
  match s with
  | [] => '\x00'
  | c :: _ => c

/-- The loop shared by `equality`, `comparison`, `term` and `factor`:
`while (cond) { op = previous(); right = sub(); expr = Binary(op.lexeme[0], expr, right); }`. -/
def Parser.binaryLoop (tokens : List Token) (cond : Parser Bool) (sub : Parser ExprAST) :
    Nat → ExprAST → Parser ExprAST
  | 0, _ => StateExcept.fail .fuel
  | fuel + 1, expr => do
    if ← cond then
      let op ← Parser.previous tokens
      let right ← sub
      Parser.binaryLoop tokens cond sub fuel (BinaryExprAST (firstChar op.lexeme) expr right)
    else pure expr

/-- `Parser::factor`, calling back `unary`. -/
def Parser.factor (tokens : List Token) (unary : Parser ExprAST) (fuel : Nat) :
    Parser ExprAST := do
  let expr ← unary
  Parser.binaryLoop tokens (Parser.matchOr tokens TOK_STAR TOK_SLASH) unary fuel expr

/-- `Parser::term`. -/
def Parser.term (tokens : List Token) (unary : Parser ExprAST) (fuel : Nat) :
    Parser ExprAST := do
  let expr ← Parser.factor tokens unary fuel
  Parser.binaryLoop tokens (Parser.matchOr tokens TOK_PLUS TOK_MINUS)
    (Parser.factor tokens unary fuel) fuel expr

/-- `Parser::comparison`. -/
def Parser.comparison (tokens : List Token) (unary : Parser ExprAST) (fuel : Nat) :
    Parser ExprAST := do
  let expr ← Parser.term tokens unary fuel
  Parser.binaryLoop tokens
    (Parser.matchList tokens [TOK_GREATER, TOK_GREATER_EQUAL, TOK_LESS, TOK_LESS_EQUAL])
    (Parser.term tokens unary fuel) fuel expr

/-- `Parser::equality`. -/
def Parser.equality (tokens : List Token) (unary : Parser ExprAST) (fuel : Nat) :
    Parser ExprAST := do
  let expr ← Parser.comparison tokens unary fuel
  Parser.binaryLoop tokens (Parser.matchOr tokens TOK_EQUAL_EQUAL TOK_BANG_EQUAL)
    (Parser.comparison tokens unary fuel) fuel expr

/-- The conversion of a number token in `Parser::primary`; the `catch` block logs and
rethrows. -/
def numberOfToken (numToken : Token) : Except Err ExprAST :=
  if numToken.isFloat then
    match stod numToken.lexeme with
    | .error err => .error err
    | .ok value => .ok (NumberExprAST (.ofDouble value))
  else
    match stoi numToken.lexeme with
    | .error err => .error err
    | .ok value => .ok (NumberExprAST (.ofInt value))

/-- `Parser::primary`, calling back `expression`. -/
def Parser.primary (tokens : List Token) (expression : Parser ExprAST) : Parser ExprAST := do
  if ← Parser.match tokens TOK_NUMBER_LITERAL then
    let numToken ← Parser.previous tokens
    match numberOfToken numToken with
    | .error err => StateExcept.fail err
    | .ok e => pure e
  else if ← Parser.match tokens TOK_IDENTIFIER then
    let t ← Parser.previous tokens
    pure (VariableExprAST t.lexeme)
  else if ← Parser.match tokens TOK_STRING_LITERAL then
    let t ← Parser.previous tokens
    pure (StringExprAST t.lexeme)
  else if ← Parser.match tokens TOK_LEFT_PAREN then
    let expr ← expression
    let _ ← Parser.consume tokens TOK_RIGHT_PAREN "Expect ')' after expression.".toList
    pure (GroupingExprAST expr)
  else StateExcept.throwRuntime "Expected expression.".toList

/-- `Parser::unary`.  Its own recursion and the recursion through `primary` and
`expression` spend one unit of fuel each. -/
def Parser.unary (tokens : List Token) : Nat → Parser ExprAST
  | 0 => StateExcept.fail .fuel
  | fuel + 1 => do
    if ← Parser.matchOr tokens TOK_MINUS TOK_BANG then
      let op ← Parser.previous tokens
      let right ← Parser.unary tokens fuel
      pure (UnaryExprAST (firstChar op.lexeme) right)
    else
      Parser.primary tokens (Parser.equality tokens (Parser.unary tokens fuel) fuel)

/-- `Parser::expression`. -/
def Parser.expression (tokens : List Token) (fuel : Nat) : Parser ExprAST :=
  Parser.equality tokens (Parser.unary tokens fuel) fuel

/-- The loop of `Parser::block` and `Parser::parseCook`:
`while (!check(TOK_RIGHT_BRACE) && !isAtEnd()) statements.push_back(statement());`. -/
def Parser.statementLoop (tokens : List Token) (statement : Parser StmtAST) :
    Nat → List StmtAST → Parser (List StmtAST)
  | 0, _ => StateExcept.fail .fuel
  | fuel + 1, statements => do
    if ← Parser.check tokens TOK_RIGHT_BRACE then pure statements
    else if ← Parser.isAtEnd tokens then pure statements
    else
      let s ← statement
      Parser.statementLoop tokens statement fuel (statements ++ [s])

/-- `Parser::block`, calling back `statement`. -/
def Parser.block (tokens : List Token) (statement : Parser StmtAST) (fuel : Nat) :
    Parser (List StmtAST) := do
  let _ ← Parser.consume tokens TOK_LEFT_BRACE "Expected '\x7b' at start of block".toList
  let statements ← Parser.statementLoop tokens statement fuel []
  let _ ← Parser.consume tokens TOK_RIGHT_BRACE "Expected '\x7d' after block".toList
  pure statements

/-- The loop `do { args.push_back(expression()); } while (match(TOK_COMMA));` of
`Parser::yapStatement`. -/
def Parser.argsLoop (tokens : List Token) (expression : Parser ExprAST) :
    Nat → List ExprAST → Parser (List ExprAST)
  | 0, _ => StateExcept.fail .fuel
  | fuel + 1, args => do
    let e ← expression
    if ← Parser.match tokens TOK_COMMA then
      Parser.argsLoop tokens expression fuel (args ++ [e])
    else pure (args ++ [e])

/-- `Parser::yapStatement`. -/
def Parser.yapStatement (tokens : List Token) (fuel : Nat) : Parser StmtAST := do
  let _ ← Parser.consume tokens TOK_LEFT_PAREN "Expected '(' after 'yap'".toList
  let args ←
    if !(← Parser.check tokens TOK_RIGHT_PAREN) then
      Parser.argsLoop tokens (Parser.expression tokens fuel) fuel []
    else pure []
  let _ ← Parser.consume tokens TOK_RIGHT_PAREN "Expected ')' after arguments".toList
  let _ ← Parser.consume tokens TOK_SEMICOLON "Expected ';' after yap statement".toList
  pure (YapStmtAST args)

/-- `Parser::frStatement`, calling back `statement` through `block`. -/
def Parser.frStatement (tokens : List Token) (statement : Parser StmtAST) (fuel : Nat) :
    Parser StmtAST := do
  let _ ← Parser.consume tokens TOK_LEFT_PAREN "Expected '(' after 'fr'".toList
  let condition ← Parser.expression tokens fuel
  let _ ← Parser.consume tokens TOK_RIGHT_PAREN "Expected ')' after condition".toList
  let thenBlock ← Parser.block tokens statement fuel
  let elseBlock ←
    if ← Parser.match tokens TOK_CAP then Parser.block tokens statement fuel
    else pure []
  pure (SusStmtAST condition thenBlock elseBlock)

/-- `Parser::betStatement`. -/
def Parser.betStatement (tokens : List Token) (statement : Parser StmtAST) (fuel : Nat) :
    Parser StmtAST := do
  let _ ← Parser.consume tokens TOK_LEFT_PAREN "Expected '(' after 'bet'".toList
  let init ←
    if ← Parser.match tokens TOK_POOKIE then do
      let name ← Parser.consume tokens TOK_IDENTIFIER "Expected variable name".toList
      let _ ← Parser.consume tokens TOK_EQUAL "Expected '=' after variable name".toList
      let initializer ← Parser.expression tokens fuel
      pure (VarDeclStmtAST name.lexeme initializer)
    else do
      let name ← Parser.consume tokens TOK_IDENTIFIER "Expected variable name".toList
      let _ ← Parser.consume tokens TOK_EQUAL "Expected '=' after variable name".toList
      let value ← Parser.expression tokens fuel
      pure (ExprStmtAST (AssignExprAST name.lexeme value))
  let _ ← Parser.consume tokens TOK_COMMA "Expected ',' after initialization".toList
  let condition ← Parser.expression tokens fuel
  let _ ← Parser.consume tokens TOK_COMMA "Expected ',' after condition".toList
  let name ← Parser.consume tokens TOK_IDENTIFIER "Expected variable name".toList
  let _ ← Parser.consume tokens TOK_EQUAL "Expected '=' after variable name".toList
  let value ← Parser.expression tokens fuel
  let increment := ExprStmtAST (AssignExprAST name.lexeme value)
  let _ ← Parser.consume tokens TOK_RIGHT_PAREN "Expected ')' after for clauses".toList
  let body ← Parser.block tokens statement fuel
  pure (BetStmtAST (some init) (some condition) (some increment) body)

/-- The loop `do { parameters.push_back(consume(...).lexeme); } while (match(TOK_COMMA));`
of `Parser::bruhStatement`. -/
def Parser.paramsLoop (tokens : List Token) : Nat → List Str → Parser (List Str)
  | 0, _ => StateExcept.fail .fuel
  | fuel + 1, parameters => do
    let param ← Parser.consume tokens TOK_IDENTIFIER "Expected parameter name".toList
    if ← Parser.match tokens TOK_COMMA then
      Parser.paramsLoop tokens fuel (parameters ++ [param.lexeme])
    else pure (parameters ++ [param.lexeme])

/-- `Parser::bruhStatement`. -/
def Parser.bruhStatement (tokens : List Token) (statement : Parser StmtAST) (fuel : Nat) :
    Parser StmtAST := do
  let name ← Parser.consume tokens TOK_IDENTIFIER "Expected function name after 'bruh'".toList
  let _ ← Parser.consume tokens TOK_LEFT_PAREN "Expected '(' after function name".toList
  let parameters ←
    if !(← Parser.check tokens TOK_RIGHT_PAREN) then Parser.paramsLoop tokens fuel []
    else pure []
  let _ ← Parser.consume tokens TOK_RIGHT_PAREN "Expected ')' after parameters".toList
  let body ← Parser.block tokens statement fuel
  pure (BruhAST name.lexeme parameters body)

/-- `Parser::statement`.  The recursion through `block` spends one unit of fuel. -/
def Parser.statement (tokens : List Token) : Nat → Parser StmtAST
  | 0 => StateExcept.fail .fuel
  | fuel + 1 => do
    if ← Parser.match tokens TOK_YAP then Parser.yapStatement tokens fuel
    else if ← Parser.match tokens TOK_FR then
      Parser.frStatement tokens (Parser.statement tokens fuel) fuel
    else if ← Parser.match tokens TOK_BET then
      Parser.betStatement tokens (Parser.statement tokens fuel) fuel
    else if ← Parser.match tokens TOK_POOKIE then
      let name ← Parser.consume tokens TOK_IDENTIFIER "Expected variable name after 'pookie'".toList
      let _ ← Parser.consume tokens TOK_EQUAL "Expected '=' after variable name".toList
      let initializer ← Parser.expression tokens fuel
      let _ ← Parser.consume tokens TOK_SEMICOLON "Expected ';' after variable declaration".toList
      pure (VarDeclStmtAST name.lexeme initializer)
    else if ← Parser.match tokens TOK_NO_CAP then
      let _ ← Parser.consume tokens TOK_LEFT_PAREN "Expected '(' after 'no_cap'".toList
      let condition ← Parser.expression tokens fuel
      let _ ← Parser.consume tokens TOK_RIGHT_PAREN "Expected ')' after condition".toList
      let thenBlock ← Parser.block tokens (Parser.statement tokens fuel) fuel
      let elseBlock ←
        if ← Parser.match tokens TOK_CAP then
          Parser.block tokens (Parser.statement tokens fuel) fuel
        else pure []
      pure (SusStmtAST condition thenBlock elseBlock)
    else if ← Parser.match tokens TOK_BRUH then
      Parser.bruhStatement tokens (Parser.statement tokens fuel) fuel
    else StateExcept.throwRuntime "Expected statement".toList

/-- The body of `Parser::parseCook` as a computation on the cursor. -/
def Parser.cook (tokens : List Token) (fuel : Nat) : Parser CookAST := do
  if !(← Parser.match tokens TOK_COOK) then
    StateExcept.throwRuntime "Expected 'cook' at start of program".toList
  else
    let _ ← Parser.consume tokens TOK_LEFT_BRACE "Expected '\x7b' after 'cook'".toList
    let body ← Parser.statementLoop tokens (Parser.statement tokens fuel) fuel []
    let _ ← Parser.consume tokens TOK_RIGHT_BRACE "Expected '\x7d' after block".toList
    pure ⟨body⟩

/-- `Parser::parseCook` on a fresh parser (`current = 0`), with the final cursor.  No
loop runs and no recursion nests more often than there are tokens, so one unit
of fuel for each token and one more are enough. -/
def parseCookAt (tokens : List Token) : Except Err (CookAST × Nat) :=
  Parser.cook tokens (tokens.length + 1) 0

/-- `Parser::parseCook` on a fresh parser. -/
def parseCook (tokens : List Token) : Except Err CookAST :=
  match parseCookAt tokens with
  | .error err => .error err
  | .ok (ast, _) => .ok ast

/-! ## Lowering (`src/codegen.cpp`)

The backend (`llvm::IRBuilder`, `llvm::Module`) is a recorder: every call of the
lowering into it is kept as one operation of the block the builder points at, and
the value the call returns carries the type LLVM gives it.  What the backend does
with the operations afterwards (folding, verification, execution) lies outside.
-/

/-- The LLVM types the lowering tells apart with `getType()`. -/
inductive Ty where
  /-- The type `i1` of a comparison. -/
  | i1
  /-- The type `i32`. -/
  | i32
  /-- The type `double`. -/
  | double
  /-- A pointer. -/
  | ptr
deriving DecidableEq, Repr

/-- An `llvm::Value*`. -/
inductive Value where
  /-- The constant `ConstantInt::get(ctx, APInt(32, v))`, also `getInt32(v)`. -/
  | constInt (v : Int)
  /-- The constant `getInt1(b)`. -/
  | constBool (b : Bool)
  /-- The constant `ConstantFP::get(ctx, APFloat(v))`. -/
  | constFP (v : Dbl)
  /-- The pointer `CreateGlobalStringPtr(s)` returns. -/
  | globalString (s : Str)
  /-- The result of the instruction numbered `id`, of type `ty`. -/
  | reg (id : Nat) (ty : Ty)
deriving DecidableEq, Repr

/-- The function `Value::getType`. -/
def Value.type : Value → Ty
  | .constInt _ => .i32
  | .constBool _ => .i1
  | .constFP _ => .double
  | .globalString _ => .ptr
  | .reg _ ty => ty

/-- The test `getType()->isDoubleTy()`. -/
def Value.isDoubleTy (v : Value) : Bool := v.type == .double

/-- The test `getType()->isIntegerTy()`, true of every integer width. -/
def Value.isIntegerTy (v : Value) : Bool := v.type == .i32 || v.type == .i1

/-- The test `getType()->isPointerTy()`. -/
def Value.isPointerTy (v : Value) : Bool := v.type == .ptr

/-- The two-operand builder calls the lowering makes. -/
inductive BinOp where
  | FAdd | FSub | FMul | FDiv | FCmpOLT | FCmpOGT | FCmpOEQ | FCmpONE
  | Add | Sub | Mul | ICmpSLT | ICmpSGT | ICmpEQ
deriving DecidableEq, Repr

/-- Whether the operation is a comparison, whose result has type `i1`. -/
def BinOp.isCmp : BinOp → Bool
  | .FCmpOLT | .FCmpOGT | .FCmpOEQ | .FCmpONE | .ICmpSLT | .ICmpSGT | .ICmpEQ => true
  | _ => false

/-- Whether the operation belongs to the floating-point family. -/
def BinOp.isFloatOp : BinOp → Bool
  | .FAdd | .FSub | .FMul | .FDiv | .FCmpOLT | .FCmpOGT | .FCmpOEQ | .FCmpONE => true
  | _ => false

/-- One recorded builder call. -/
inductive Instr where
  /-- The call `CreateAlloca(getDoubleTy(), nullptr, name)`. -/
  | alloca (id : Nat) (name : Str)
  /-- The call `CreateLoad(getDoubleTy(), ptr, name)`. -/
  | load (id : Nat) (ptr : Value) (name : Str)
  /-- The call `CreateStore(val, ptr)`. -/
  | store (val ptr : Value)
  /-- The call `CreateSIToFP(v, getDoubleTy())`. -/
  | siToFP (id : Nat) (v : Value)
  /-- One of `CreateFAdd`, ..., `CreateICmpEQ`. -/
  | binary (id : Nat) (op : BinOp) (lhs rhs : Value)
  /-- The call `CreateFNeg(v, "negtmp")`. -/
  | fneg (id : Nat) (v : Value)
  /-- The call `CreateCall(callee, args)`. -/
  | call (id : Nat) (callee : Str) (args : List Value)
  /-- The call `CreateBr(dest)`. -/
  | br (dest : Nat)
  /-- The call `CreateCondBr(cond, ifTrue, ifFalse)`. -/
  | condBr (cond : Value) (ifTrue ifFalse : Nat)
  /-- The call `CreateRet(v)`. -/
  | ret (v : Value)
deriving DecidableEq, Repr

/-- An `llvm::BasicBlock` with the operations recorded into it. -/
structure BasicBlock where
  name : Str
  instrs : List Instr
deriving DecidableEq, Repr

/-- The members of `CodeGen` the lowering reads and writes.  A block is named by its
index in `blocks`, the order of creation. -/
structure CodeGen where
  /-- Functions of the module. -/
  functions : List Str
  /-- Global strings of the module, in order of creation. -/
  globals : List Str
  /-- Every block created so far. -/
  blocks : List BasicBlock
  /-- The blocks of `main` in the order they were inserted into the function. -/
  layout : List Nat
  /-- The block the builder inserts into. -/
  insertBlock : Nat
  /-- The symbol table `namedValues`. -/
  namedValues : List (Str × Value)
  /-- The number of the next instruction. -/
  nextId : Nat
deriving DecidableEq, Repr

/-- A member function of `CodeGen`. -/
abbrev Gen (α : Type) : Type := StateExcept CodeGen α

/-- Appends `i` to the block numbered `b`. -/
def appendInstr : List BasicBlock → Nat → Instr → List BasicBlock
  | [], _, _ => []
  | bb :: bbs, 0, i => { bb with instrs := bb.instrs ++ [i] } :: bbs
  | bb :: bbs, b + 1, i => bb :: appendInstr bbs b i

/-- Puts `i` at the beginning of the block numbered `b`. -/
def prependInstr : List BasicBlock → Nat → Instr → List BasicBlock
  | [], _, _ => []
  | bb :: bbs, 0, i => { bb with instrs := i :: bb.instrs } :: bbs
  | bb :: bbs, b + 1, i => bb :: prependInstr bbs b i

/-- Records an operation at the insertion point of `builder`. -/
def Gen.emit (i : Instr) : Gen Unit := fun g =>
  .ok ((), { g with blocks := appendInstr g.blocks g.insertBlock i })

/-- A fresh instruction number. -/
def Gen.fresh : Gen Nat := fun g => .ok (g.nextId, { g with nextId := g.nextId + 1 })

/-- The call `llvm::BasicBlock::Create(ctx, name, parent)`: with a parent function the
block is appended to it at once, without one it stays detached. -/
def Gen.createBlock (name : Str) (inFunction : Bool) : Gen Nat := fun g =>
  .ok (g.blocks.length,
    { g with blocks := g.blocks ++ [⟨name, []⟩],
             layout := if inFunction then g.layout ++ [g.blocks.length] else g.layout })

/-- The call `theFunction->insert(theFunction->end(), bb)`. -/
def Gen.insertIntoFunction (bb : Nat) : Gen Unit := fun g =>
  .ok ((), { g with layout := g.layout ++ [bb] })

/-- The call `builder->SetInsertPoint(bb)`. -/
def Gen.setInsertPoint (bb : Nat) : Gen Unit := fun g =>
  .ok ((), { g with insertBlock := bb })

/-- The lookup `namedValues.find(name)`. -/
def Gen.findNamed (name : Str) : Gen (Option Value) := fun g =>
  .ok (g.namedValues.lookup name, g)

/-- The assignment `namedValues[name] = v` of a `std::map`: one entry for each key. -/
def Gen.setNamed (name : Str) (v : Value) : Gen Unit := fun g =>
  .ok ((), { g with namedValues := (name, v) :: g.namedValues.filter (fun kv => kv.1 != name) })

/-- The call `builder->CreateGlobalStringPtr(s)`. -/
def Gen.createGlobalStringPtr (s : Str) : Gen Value := fun g =>
  .ok (.globalString s, { g with globals := g.globals ++ [s] })

/-- The call `builder->CreateLoad(getDoubleTy(), ptr, name)`: the result is a `double`. -/
def Gen.createLoad (ptr : Value) (name : Str) : Gen Value := do
  let id ← Gen.fresh
  Gen.emit (.load id ptr name)
  pure (.reg id .double)

/-- The call `builder->CreateStore(val, ptr)`. -/
def Gen.createStore (val ptr : Value) : Gen Unit := Gen.emit (.store val ptr)

/-- The call `builder->CreateSIToFP(v, getDoubleTy())`. -/
def Gen.createSIToFP (v : Value) : Gen Value := do
  let id ← Gen.fresh
  Gen.emit (.siToFP id v)
  pure (.reg id .double)

/-- A two-operand builder call: a comparison yields `i1`, any other operation the
type of its left operand. -/
def Gen.createBinary (op : BinOp) (lhs rhs : Value) : Gen Value := do
  let id ← Gen.fresh
  Gen.emit (.binary id op lhs rhs)
  pure (.reg id (if op.isCmp then .i1 else lhs.type))

/-- The call `builder->CreateFNeg(v, "negtmp")`. -/
def Gen.createFNeg (v : Value) : Gen Value := do
  let id ← Gen.fresh
  Gen.emit (.fneg id v)
  pure (.reg id v.type)

/-- The call `builder->CreateCall(callee, args)` of `printf`, which returns `i32`. -/
def Gen.createCall (callee : Str) (args : List Value) : Gen Value := do
  let id ← Gen.fresh
  Gen.emit (.call id callee args)
  pure (.reg id .i32)

/-- The alloca of `generateStmt`: `tempBuilder` inserts at the beginning of the entry
block of the function, block `0`. -/
def Gen.createEntryAlloca (name : Str) : Gen Value := fun g =>
  .ok (.reg g.nextId .ptr,
    { g with blocks := prependInstr g.blocks 0 (.alloca g.nextId name),
             nextId := g.nextId + 1 })

/-- The floating-point `switch` of `generateExpr` on the operator of a binary node. -/
def floatOp (op : Char) : Option BinOp :=
  if op = '+' then some .FAdd
  else if op = '-' then some .FSub
  else if op = '*' then some .FMul
  else if op = '/' then some .FDiv
  else if op = '<' then some .FCmpOLT
  else if op = '>' then some .FCmpOGT
  else if op = '=' then some .FCmpOEQ
  else none

/-- The integer `switch` of `generateExpr` without its case `'/'`. -/
def intOp (op : Char) : Option BinOp :=
  if op = '+' then some .Add
  else if op = '-' then some .Sub
  else if op = '*' then some .Mul
  else if op = '<' then some .ICmpSLT
  else if op = '>' then some .ICmpSGT
  else if op = '=' then some .ICmpEQ
  else none

/-- The part of `generateExpr` for a binary node after both operands are lowered. -/
def Gen.binaryOp (op : Char) (L R : Value) : Gen Value := do
  let lhsIsFloat := L.isDoubleTy
  let rhsIsFloat := R.isDoubleTy
  let needsFloat := lhsIsFloat || rhsIsFloat
  if needsFloat then
    let L ← if !lhsIsFloat then Gen.createSIToFP L else pure L
    let R ← if !rhsIsFloat then Gen.createSIToFP R else pure R
    match floatOp op with
    | some o => Gen.createBinary o L R
    | none => StateExcept.throwRuntime "Invalid binary operator".toList
  else if op = '/' then
    let L ← Gen.createSIToFP L
    let R ← Gen.createSIToFP R
    Gen.createBinary .FDiv L R
  else
    match intOp op with
    | some o => Gen.createBinary o L R
    | none => StateExcept.throwRuntime "Invalid binary operator".toList

mutual
/-- `CodeGen::generateExpr`. -/
def generateExpr : ExprAST → Gen Value
  | VariableExprAST name => do
    match ← Gen.findNamed name with
    | some ptr => Gen.createLoad ptr name
    | none => StateExcept.throwRuntime ("Unknown variable name: ".toList ++ name)
  | NumberExprAST (.ofDouble doubleVal) => pure (.constFP doubleVal)
  | NumberExprAST (.ofInt intVal) => pure (.constInt intVal)
  | StringExprAST value => Gen.createGlobalStringPtr value
  | BinaryExprAST op lhs rhs => do
    let L ← generateExpr lhs
    let R ← generateExpr rhs
    Gen.binaryOp op L R
  | UnaryExprAST op operand => do
    let operandVal ← generateExpr operand
    if op = '-' then Gen.createFNeg operandVal
    else StateExcept.throwRuntime "Invalid unary operator".toList
  | GroupingExprAST expression => generateExpr expression
  | AssignExprAST name value => do
    let v ← generateExpr value
    match ← Gen.findNamed name with
    | some ptr => do
      Gen.createStore v ptr
      pure v
    | none => StateExcept.throwRuntime ("Undefined variable: ".toList ++ name)
  | CallExprAST callee args =>
    if callee = "yap".toList then do
      let (formatStr, argsV) ← generateCallArgs args [] []
      let fmt ← Gen.createGlobalStringPtr (formatStr ++ ['\n'])
      Gen.createCall "printf".toList (fmt :: argsV)
    else StateExcept.throwRuntime ("Unknown function: ".toList ++ callee)
/-- The argument loop of the `yap` call in `generateExpr`. -/
def generateCallArgs : List ExprAST → Str → List Value → Gen (Str × List Value)
  | [], formatStr, argsV => pure (formatStr, argsV)
  | arg :: args, formatStr, argsV => do
    let argVal ← generateExpr arg
    let formatStr :=
      if argVal.isDoubleTy then formatStr ++ "%f".toList
      else if argVal.isIntegerTy then formatStr ++ "%d".toList
      else if argVal.isPointerTy then formatStr ++ "%s".toList
      else formatStr
    generateCallArgs args formatStr (argsV ++ [argVal])
end

/-- The test `dynamic_cast<AST::StringExprAST*>(arg)` of the print statement. -/
def isStringExpr : ExprAST → Bool
  | StringExprAST _ => true
  | _ => false

/-- The argument loop of the print statement in `generateStmt`. -/
def generateYapArgs : List ExprAST → Str → List Value → Gen (Str × List Value)
  | [], formatStr, printArgs => pure (formatStr, printArgs)
  | arg :: args, formatStr, printArgs => do
    let value ← generateExpr arg
    let formatStr :=
      if isStringExpr arg then formatStr ++ "%s".toList
      else if value.isDoubleTy then formatStr ++ "%.6f".toList
      else if value.isIntegerTy then formatStr ++ "%d".toList
      else formatStr
    generateYapArgs args formatStr (printArgs ++ [value])

/-- The coercion of a condition in `generateStmt`: a `double` is compared with `0.0`. -/
def Gen.condition (condValue : Value) : Gen Value :=
  if condValue.isDoubleTy then Gen.createBinary .FCmpONE condValue (.constFP ⟨0, 0⟩)
  else pure condValue

mutual
/-- `CodeGen::generateStmt`. -/
def generateStmt : StmtAST → Gen Unit
  | VarDeclStmtAST name initializer => do
    let alloca ← Gen.createEntryAlloca name
    let initVal ← generateExpr initializer
    Gen.createStore initVal alloca
    Gen.setNamed name alloca
  | YapStmtAST args => do
    let (formatStr, printArgs) ← generateYapArgs args [] []
    let fmt ← Gen.createGlobalStringPtr (formatStr ++ ['\n'])
    let _ ← Gen.createCall "printf".toList (fmt :: printArgs)
    pure ()
  | SusStmtAST condition thenBlock elseBlock => do
    let condValue ← generateExpr condition
    let condValue ← Gen.condition condValue
    let thenBB ← Gen.createBlock "then".toList true
    let elseBB ← Gen.createBlock "else".toList false
    let mergeBB ← Gen.createBlock "ifcont".toList false
    Gen.emit (.condBr condValue thenBB elseBB)
    Gen.setInsertPoint thenBB
    generateStmts thenBlock
    Gen.emit (.br mergeBB)
    Gen.insertIntoFunction elseBB
    Gen.setInsertPoint elseBB
    generateStmts elseBlock
    Gen.emit (.br mergeBB)
    Gen.insertIntoFunction mergeBB
    Gen.setInsertPoint mergeBB
  | BetStmtAST init condition increment body => do
    let condBB ← Gen.createBlock "loopcond".toList true
    let loopBB ← Gen.createBlock "loop".toList false
    let afterBB ← Gen.createBlock "afterloop".toList false
    generateOptStmt init
    Gen.emit (.br condBB)
    Gen.setInsertPoint condBB
    let condValue ←
      match condition with
      | some c => do
        let condValue ← generateExpr c
        Gen.condition condValue
      | none => pure (.constBool true)
    Gen.emit (.condBr condValue loopBB afterBB)
    Gen.insertIntoFunction loopBB
    Gen.setInsertPoint loopBB
    generateStmts body
    generateOptStmt increment
    Gen.emit (.br condBB)
    Gen.insertIntoFunction afterBB
    Gen.setInsertPoint afterBB
  | BruhAST _ _ _ => pure ()
  | ExprStmtAST expr => do
    let _ ← generateExpr expr
    pure ()
/-- The loops `for (const auto& stmt : list) generateStmt(stmt.get());`. -/
def generateStmts : List StmtAST → Gen Unit
  | [] => pure ()
  | stmt :: stmts => do
    generateStmt stmt
    generateStmts stmts
/-- The guarded calls `if (p) generateStmt(p.get());` on a clause of a loop. -/
def generateOptStmt : Option StmtAST → Gen Unit
  | none => pure ()
  | some stmt => generateStmt stmt
end

/-- The members of a `CodeGen` when `generateCode` reaches its statement loop: `printf`
declared, `main` created, and the builder at the block `entry`, block `0`. -/
def CodeGen.start : CodeGen :=
  { functions := ["printf".toList, "main".toList],
    globals := [],
    blocks := [⟨"entry".toList, []⟩],
    layout := [0],
    insertBlock := 0,
    namedValues := [],
    nextId := 0 }

/-- `CodeGen::generateCode` on a fresh `CodeGen`: the members after lowering. -/
def generateCode (ast : CookAST) : Except Err CodeGen :=
  match (do generateStmts ast.body; Gen.emit (.ret (.constInt 0)) : Gen Unit) CodeGen.start with
  | .error err => .error err
  | .ok (_, g) => .ok g

/-! ## Sources, token sequences and programs the properties speak about -/

/-- A token as `Lexer::addToken(type)` builds it: not a floating literal. -/
def tok (type : TokenType) (lexeme : String) : Token := ⟨type, lexeme.toList, false⟩

/-- The token `tokens.push_back({TOK_EOF, "", false})` ends every scan with. -/
def eofToken : Token := ⟨TOK_EOF, [], false⟩

/-- The source text `cook { pookie x = 5; yap(x); }`. -/
def roundTripSource : Str := "cook \x7b pookie x = 5; yap(x); \x7d".toList

/-- The fourteen tokens of `roundTripSource`. -/
def roundTripTokens : List Token :=
  [tok TOK_COOK "cook", tok TOK_LEFT_BRACE "\x7b", tok TOK_POOKIE "pookie",
   tok TOK_IDENTIFIER "x", tok TOK_EQUAL "=", tok TOK_NUMBER_LITERAL "5",
   tok TOK_SEMICOLON ";", tok TOK_YAP "yap", tok TOK_LEFT_PAREN "(",
   tok TOK_IDENTIFIER "x", tok TOK_RIGHT_PAREN ")", tok TOK_SEMICOLON ";",
   tok TOK_RIGHT_BRACE "\x7d", eofToken]

/-- The tree `Program[VarDecl(x, 5), Print[VariableRef(x)]]`. -/
def roundTripProgram : CookAST :=
  ⟨[VarDeclStmtAST "x".toList (NumberExprAST (.ofInt 5)),
    YapStmtAST [VariableExprAST "x".toList]]⟩

/-- The tokens `ts` are an operand with tree `e`: wherever they stand in a token
sequence, `Parser::unary` started at their first token parses exactly them into `e`,
given a unit of fuel for each of them.  A number, identifier or string token is one,
and so is whatever `Parser::primary` accepts in place. -/
def IsOperand (ts : List Token) (e : ExprAST) : Prop :=
  ∀ (tokens : List Token) (i fuel : Nat) (rest : List Token),
    tokens.drop i = ts ++ rest → ts.length ≤ fuel →
      Parser.unary tokens fuel i = .ok (e, i + ts.length)

/-- The tokens of the program `cook { yap(arg); }` for the tokens `arg` of the argument. -/
def yapProgramTokens (arg : List Token) : List Token :=
  [tok TOK_COOK "cook", tok TOK_LEFT_BRACE "\x7b", tok TOK_YAP "yap", tok TOK_LEFT_PAREN "("] ++
    arg ++ [tok TOK_RIGHT_PAREN ")", tok TOK_SEMICOLON ";", tok TOK_RIGHT_BRACE "\x7d", eofToken]

/-- The members after the builder has recorded the operations `is`, which define `ids`
new values, at its insertion point. -/
def CodeGen.record (g : CodeGen) (is : List Instr) (ids : Nat) : CodeGen :=
  { g with blocks := is.foldl (fun bs i => appendInstr bs g.insertBlock i) g.blocks,
           nextId := g.nextId + ids }

/-- The operations recorded in the block `b`. -/
def CodeGen.instrsOf (g : CodeGen) (b : Nat) : List Instr :=
  match g.blocks[b]? with
  | some bb => bb.instrs
  | none => []

/-- The number an operand stands for, given the numbers of the values defined so far. -/
def denoteValue (env : List (Nat × ℚ)) : Value → Option ℚ
  | .constInt v => some (v : ℚ)
  | .constFP v => some v.toRat
  | .reg id _ => env.lookup id
  | _ => none

/-- The exact arithmetic of the operation `op`, where it is one of `+ - * /`. -/
def denoteBinOp (op : BinOp) (a b : ℚ) : Option ℚ :=
  match op with
  | .FAdd | .Add => some (a + b)
  | .FSub | .Sub => some (a - b)
  | .FMul | .Mul => some (a * b)
  | .FDiv => if b = 0 then none else some (a / b)
  | _ => none

/-- The numbers the recorded conversions and arithmetic operations compute, in exact
arithmetic; a floating-point operation returns this number whenever a `double` can
hold it. -/
def denoteInstrs : List Instr → List (Nat × ℚ) → List (Nat × ℚ)
  | [], env => env
  | .siToFP id v :: is, env =>
    match denoteValue env v with
    | some q => denoteInstrs is ((id, q) :: env)
    | none => denoteInstrs is env
  | .binary id op a b :: is, env =>
    match denoteValue env a, denoteValue env b with
    | some x, some y =>
      match denoteBinOp op x y with
      | some q => denoteInstrs is ((id, q) :: env)
      | none => denoteInstrs is env
    | _, _ => denoteInstrs is env
  | _ :: is, env => denoteInstrs is env

/-- The members of `CodeGen` after lowering `roundTripProgram`, as the code leaves them:
the print call has the floating format `%.6f` and the `double` loaded from `x`. -/
def roundTripLowered : CodeGen :=
  { functions := ["printf".toList, "main".toList],
    globals := ["%.6f\n".toList],
    blocks := [⟨"entry".toList,
      [.alloca 0 "x".toList,
       .store (.constInt 5) (.reg 0 .ptr),
       .load 1 (.reg 0 .ptr) "x".toList,
       .call 2 "printf".toList [.globalString "%.6f\n".toList, .reg 1 .double],
       .ret (.constInt 0)]⟩],
    layout := [0],
    insertBlock := 0,
    namedValues := [("x".toList, .reg 0 .ptr)],
    nextId := 3 }

/-- The calls recorded in a list of operations: callee and arguments. -/
def callsOf : List Instr → List (Str × List Value)
  | [] => []
  | .call _ callee args :: is => (callee, args) :: callsOf is
  | _ :: is => callsOf is

/-- Every call recorded in a lowered program, block after block. -/
def CodeGen.calls (g : CodeGen) : List (Str × List Value) :=
  (g.blocks.map (fun bb => callsOf bb.instrs)).flatten

/-- What lowering an expression leaves alone. -/
def ExprFrame (g g' : CodeGen) : Prop :=
  g'.insertBlock = g.insertBlock ∧ g'.blocks.length = g.blocks.length ∧
    g'.layout = g.layout ∧ g'.namedValues = g.namedValues ∧
    ∀ b, b ≠ g.insertBlock → g'.blocks[b]? = g.blocks[b]?

/-- Every successful run of `p` relates the state before to the state after by `R`. -/
def Holds {σ α : Type} (R : σ → σ → Prop) (p : StateExcept σ α) : Prop :=
  ∀ s a s', p s = .ok (a, s') → R s s'

/-- What lowering a statement leaves alone: blocks are only added, the builder ends in
the block it started in or in a new one, the layout of the function only grows, and
every old block other than the entry block and the insertion block is untouched. -/
structure StmtFrame (g g' : CodeGen) : Prop where
  len_le : g.blocks.length ≤ g'.blocks.length
  insert : g'.insertBlock = g.insertBlock ∨ g.blocks.length ≤ g'.insertBlock
  valid : g.insertBlock < g.blocks.length → g'.insertBlock < g'.blocks.length
  layout : ∃ l, g'.layout = g.layout ++ l
  other : ∀ b, b < g.blocks.length → b ≠ 0 → b ≠ g.insertBlock → g'.blocks[b]? = g.blocks[b]?

/-- The members after `generateStmt` has created the blocks `then`, `else` and `ifcont`,
recorded the conditional branch on `cond` and moved the builder into `then`. -/
def CodeGen.openIf (g : CodeGen) (cond : Value) : CodeGen :=
  { g with
    blocks := appendInstr
      (g.blocks ++ [⟨"then".toList, []⟩, ⟨"else".toList, []⟩, ⟨"ifcont".toList, []⟩])
      g.insertBlock (.condBr cond g.blocks.length (g.blocks.length + 1)),
    layout := g.layout ++ [g.blocks.length],
    insertBlock := g.blocks.length }

/-- The members after `generateStmt` has recorded the branch to the block `dest`,
inserted the block `next` into the function and moved the builder into it. -/
def CodeGen.branchAndEnter (g : CodeGen) (dest next : Nat) : CodeGen :=
  { g with
    blocks := appendInstr g.blocks g.insertBlock (.br dest),
    layout := g.layout ++ [next],
    insertBlock := next }

/-- The members after `generateStmt` has created the blocks `loopcond`, `loop` and
`afterloop`, the first of them inside the function. -/
def CodeGen.openLoop (g : CodeGen) : CodeGen :=
  { g with
    blocks := g.blocks ++
      [⟨"loopcond".toList, []⟩, ⟨"loop".toList, []⟩, ⟨"afterloop".toList, []⟩],
    layout := g.layout ++ [g.blocks.length] }

/-- The members after `generateStmt` has recorded the branch to the block `condBB` and
moved the builder into it. -/
def CodeGen.enterCond (g : CodeGen) (condBB : Nat) : CodeGen :=
  { g with blocks := appendInstr g.blocks g.insertBlock (.br condBB), insertBlock := condBB }

/-- The members after `generateStmt` has recorded the conditional branch of a loop,
inserted the block `loopBB` into the function and moved the builder into it. -/
def CodeGen.enterBody (g : CodeGen) (cond : Value) (loopBB afterBB : Nat) : CodeGen :=
  { g with
    blocks := appendInstr g.blocks g.insertBlock (.condBr cond loopBB afterBB),
    layout := g.layout ++ [loopBB],
    insertBlock := loopBB }

mutual
/-- The names of the variable references in an expression that are not among `declared`,
in the order the lowering reaches them. -/
def unboundInExpr (declared : List Str) : ExprAST → List Str
  | VariableExprAST name => if name ∈ declared then [] else [name]
  | NumberExprAST _ => []
  | StringExprAST _ => []
  | BinaryExprAST _ lhs rhs => unboundInExpr declared lhs ++ unboundInExpr declared rhs
  | UnaryExprAST _ operand => unboundInExpr declared operand
  | GroupingExprAST expression => unboundInExpr declared expression
  | AssignExprAST _ value => unboundInExpr declared value
  | CallExprAST _ args => unboundInExprs declared args
/-- The same for a list of expressions. -/
def unboundInExprs (declared : List Str) : List ExprAST → List Str
  | [] => []
  | e :: es => unboundInExpr declared e ++ unboundInExprs declared es
end

mutual
/-- The names of the variable references in the lowered expression positions of a
statement that no declaration lowered before them binds, given the names `declared`
before the statement, together with the names declared after it.  The body of a function
declaration is not lowered and contributes nothing. -/
def unboundInStmt (declared : List Str) : StmtAST → List Str × List Str
  | VarDeclStmtAST name initializer => (unboundInExpr declared initializer, name :: declared)
  | YapStmtAST args => (unboundInExprs declared args, declared)
  | SusStmtAST condition thenBlock elseBlock =>
    let t := unboundInStmts declared thenBlock
    let e := unboundInStmts t.2 elseBlock
    (unboundInExpr declared condition ++ t.1 ++ e.1, e.2)
  | BetStmtAST init condition increment body =>
    let i := unboundInOptStmt declared init
    let c := match condition with
      | some c => unboundInExpr i.2 c
      | none => []
    let b := unboundInStmts i.2 body
    let n := unboundInOptStmt b.2 increment
    (i.1 ++ c ++ b.1 ++ n.1, n.2)
  | BruhAST _ _ _ => ([], declared)
  | ExprStmtAST expr => (unboundInExpr declared expr, declared)
/-- The same for a list of statements. -/
def unboundInStmts (declared : List Str) : List StmtAST → List Str × List Str
  | [] => ([], declared)
  | s :: ss =>
    let a := unboundInStmt declared s
    let b := unboundInStmts a.2 ss
    (a.1 ++ b.1, b.2)
/-- The same for an optional statement. -/
def unboundInOptStmt (declared : List Str) : Option StmtAST → List Str × List Str
  | none => ([], declared)
  | some s => unboundInStmt declared s
end

/-- The names in `declared` are the names the symbol table binds. -/
def Bound (g : CodeGen) (declared : List Str) : Prop :=
  ∀ n, n ∈ declared ↔ g.namedValues.lookup n ≠ none

/-! ## What the parser reads of its token sequence -/

/-- Two token sequences hold the same tokens at the first `n` positions. -/
def Agree (tokens tokens' : List Token) (n : Nat) : Prop :=
  ∀ i, i < n → tokens'[i]? = tokens[i]?

/-- Whenever `p` returns, the cursor has not moved back and `p'` returns the same from the
same cursor once the two token sequences agree up to and including the final cursor
(the one token of lookahead). -/
def Local (tokens tokens' : List Token) {α : Type} (p p' : Parser α) : Prop :=
  ∀ c a c', p c = .ok (a, c') →
    c ≤ c' ∧ (Agree tokens tokens' (c' + 1) → p' c = .ok (a, c'))

/-! ## What the lexer ensures of its tokens -/

/-- The first character of the text of a binary operator token as `Lexer::scanToken`
adds it. -/
def operatorChar : TokenType → Option Char
  | TOK_PLUS => some '+'
  | TOK_MINUS => some '-'
  | TOK_STAR => some '*'
  | TOK_SLASH => some '/'
  | TOK_LESS => some '<'
  | TOK_LESS_EQUAL => some '<'
  | TOK_GREATER => some '>'
  | TOK_GREATER_EQUAL => some '>'
  | TOK_EQUAL_EQUAL => some '='
  | TOK_BANG_EQUAL => some '!'
  | _ => none

/-- What holds of every token `Lexer::scanToken` adds: it is not the end-of-input token,
and the text of an operator token begins with the character of the operator. -/
def Token.Lexed (t : Token) : Prop :=
  t.type ≠ TOK_EOF ∧ ∀ c, operatorChar t.type = some c → firstChar t.lexeme = c

/-- The characters `Lexer::scanToken` is said to skip: white space (space, tab, carriage
return, newline) and whatever is not a digit, a letter, an underscore, a double quote
or one of the punctuation and operator characters. -/
def isSkipped (c : Char) : Bool :=
  c == ' ' || c == '\t' || c == '\r' || c == '\n' ||
    !(isDigit c || isAlpha c || c == '"' || "()\x7b\x7d[],.-+;*/!=<>".toList.contains c)

/-- The literal `1` followed by 309 zeros and `.5`, a number beyond the largest `double`. -/
def hugeLiteral : Str := '1' :: List.replicate 309 '0' ++ ".5".toList

/-! ## What the parser returns -/

/-- Every result `p` returns satisfies `P`. -/
def Returns {α : Type} (P : α → Prop) (p : Parser α) : Prop :=
  ∀ c a c', p c = .ok (a, c') → P a

mutual
/-- Whether the statement is no expression statement and no block inside it holds an
expression statement. -/
def noBareExpr : StmtAST → Bool
  | ExprStmtAST _ => false
  | VarDeclStmtAST _ _ => true
  | YapStmtAST _ => true
  | SusStmtAST _ thenBlock elseBlock => noBareExprs thenBlock && noBareExprs elseBlock
  | BetStmtAST _ _ _ body => noBareExprs body
  | BruhAST _ _ body => noBareExprs body
/-- The same of every statement of a block. -/
def noBareExprs : List StmtAST → Bool
  | [] => true
  | s :: ss => noBareExpr s && noBareExprs ss
end

/-- The token types `Parser::statement` begins a statement with. -/
def statementStarts : List TokenType :=
  [TOK_YAP, TOK_FR, TOK_BET, TOK_POOKIE, TOK_NO_CAP, TOK_BRUH]

mutual
/-- The operator tags of the binary nodes of an expression. -/
def binaryOps : ExprAST → List Char
  | BinaryExprAST op lhs rhs => op :: (binaryOps lhs ++ binaryOps rhs)
  | UnaryExprAST _ operand => binaryOps operand
  | GroupingExprAST expression => binaryOps expression
  | AssignExprAST _ value => binaryOps value
  | CallExprAST _ args => binaryOpsList args
  | NumberExprAST _ => []
  | StringExprAST _ => []
  | VariableExprAST _ => []
/-- The same of a list of expressions. -/
def binaryOpsList : List ExprAST → List Char
  | [] => []
  | e :: es => binaryOps e ++ binaryOpsList es
end

mutual
/-- The operator tags of the binary nodes of a statement. -/
def binaryOpsStmt : StmtAST → List Char
  | YapStmtAST args => binaryOpsList args
  | SusStmtAST condition thenBlock elseBlock =>
    binaryOps condition ++ (binaryOpsStmts thenBlock ++ binaryOpsStmts elseBlock)
  | BetStmtAST init condition increment body =>
    binaryOpsOpt init ++ ((match condition with
      | some c => binaryOps c
      | none => []) ++ (binaryOpsOpt increment ++ binaryOpsStmts body))
  | BruhAST _ _ body => binaryOpsStmts body
  | ExprStmtAST expr => binaryOps expr
  | VarDeclStmtAST _ initializer => binaryOps initializer
/-- The same of a list of statements. -/
def binaryOpsStmts : List StmtAST → List Char
  | [] => []
  | s :: ss => binaryOpsStmt s ++ binaryOpsStmts ss
/-- The same of an optional statement. -/
def binaryOpsOpt : Option StmtAST → List Char
  | none => []
  | some s => binaryOpsStmt s
end

/-- The operator tags the parser gives binary nodes on the tokens of the lexer. -/
def lexedOperators : List Char := "+-*/<>=!".toList

/-- The tokens of an operator type begin with the character of the operator, as the
tokens of the lexer do. -/
def LexedTokens (tokens : List Token) : Prop :=
  ∀ t ∈ tokens, ∀ c, operatorChar t.type = some c → firstChar t.lexeme = c

/-! ## Replacing the or-equal comparison tokens -/

/-- The replacement on one token: the token `<=` becomes the token `<` and the token `>=`
the token `>`; every other token stays. -/
def relaxComparison (t : Token) : Token :=
  if t.type = TOK_LESS_EQUAL ∧ t.lexeme = "<=".toList then
    { t with type := TOK_LESS, lexeme := "<".toList }
  else if t.type = TOK_GREATER_EQUAL ∧ t.lexeme = ">=".toList then
    { t with type := TOK_GREATER, lexeme := ">".toList }
  else t

/-- The token types `Parser::comparison` matches. -/
def comparisonTypes : List TokenType :=
  [TOK_GREATER, TOK_GREATER_EQUAL, TOK_LESS, TOK_LESS_EQUAL]

/-! ## Print statements, declarations and assignments -/

/-- The calls `generateExpr(arg.get())` of the print statement, one for each argument in
order: the lowered values. -/
def generateExprs : List ExprAST → Gen (List Value)
  | [] => pure []
  | arg :: args => do
    let value ← generateExpr arg
    let values ← generateExprs args
    pure (value :: values)

/-- The format token the print statement of `generateStmt` adds for an argument with the
lowered value `value`. -/
def yapFormatToken (arg : ExprAST) (value : Value) : Str :=
  if isStringExpr arg then "%s".toList
  else if value.isDoubleTy then "%.6f".toList
  else if value.isIntegerTy then "%d".toList
  else []

/-- The format string of a print statement: a token for each argument, then a newline. -/
def yapFormat (args : List ExprAST) (values : List Value) : Str :=
  (List.zipWith yapFormatToken args values).flatten ++ ['\n']

/-- `CodeGen::getFormatString`. -/
def getFormatString (exprValue : Value) : Gen Value :=
  if exprValue.isDoubleTy then Gen.createGlobalStringPtr "%.6f\n".toList
  else if exprValue.isIntegerTy then Gen.createGlobalStringPtr "%d\n".toList
  else if exprValue.isPointerTy then Gen.createGlobalStringPtr "%s\n".toList
  else StateExcept.throwRuntime "Unsupported type for yap statement".toList

/-- The source text `cook { yap(("hi")); }`. -/
def groupedStringSource : Str := "cook \x7b yap((\"hi\")); \x7d".toList

/-- The tree `Program[Print[Grouping(StringLiteral(hi))]]`. -/
def groupedStringProgram : CookAST :=
  ⟨[YapStmtAST [GroupingExprAST (StringExprAST "hi".toList)]]⟩

/-- The members after the alloca of a declaration of `name` is put at the beginning of the
entry block. -/
def CodeGen.withEntryAlloca (g : CodeGen) (name : Str) : CodeGen :=
  { g with blocks := prependInstr g.blocks 0 (.alloca g.nextId name), nextId := g.nextId + 1 }

/-- The members after `x` has been declared with initializer `1`. -/
def afterDeclareX : CodeGen :=
  { CodeGen.start with
    blocks := [⟨"entry".toList, [.alloca 0 "x".toList, .store (.constInt 1) (.reg 0 .ptr)]⟩],
    namedValues := [("x".toList, .reg 0 .ptr)],
    nextId := 1 }

/-! ## The lowering of loops -/

/-- The words of the keyword table of `Lexer::identifier`, as the specification lists
them. -/
def keywordWords : List Str :=
  ["yap".toList, "fr".toList, "no_cap".toList, "cap".toList, "bet".toList, "goon".toList,
   "bruh".toList, "solulu".toList, "delulu".toList, "oof".toList, "pookie".toList,
   "goated".toList, "ohio".toList, "yeet".toList, "yoink".toList, "squad".toList,
   "sigma".toList, "ghost".toList, "cook".toList]

/-! ## The levels of binary operators -/

/-- The operator token types of the four levels of binary chains: `factor`, `term`,
`comparison` and `equality`. -/
def operatorLevels : List (List TokenType) :=
  [[TOK_STAR, TOK_SLASH], [TOK_PLUS, TOK_MINUS],
   [TOK_GREATER, TOK_GREATER_EQUAL, TOK_LESS, TOK_LESS_EQUAL],
   [TOK_EQUAL_EQUAL, TOK_BANG_EQUAL]]

/-! ## Decimal texts and open strings -/

/-- The integer a decimal text denotes: a run of digits, or `-` and a run of digits. -/
def decimalValue (s : Str) : Int :=
  match s with
  | '-' :: r => -(digitsToNat r : Int)
  | _ => (digitsToNat s : Int)

/-- The texts of the number tokens that are not floats: a non-empty run of decimal
digits, or what `std::to_string` makes of a 32-bit `int`. -/
def IntegerText (s : Str) : Prop :=
  (s ≠ [] ∧ ∀ x ∈ s, isDigit x = true) ∨
    ∃ i : Int, -(2 ^ 31 : Int) ≤ i ∧ i < 2 ^ 31 ∧ s = to_string i

/-- Whether the loop of `Lexer::scanTokens` reaches the report "Unterminated string" of
`Lexer::string`: a call of `scanToken` on `"` that adds no token. -/
def reportsUnterminated : Nat → Str → Bool
  | _, [] => false
  | 0, _ :: _ => false
  | fuel + 1, c :: rest =>
    match scanToken c rest with
    | .error _ => false
    | .ok (ot, rest1) => (c == '"' && ot.isNone) || reportsUnterminated fuel rest1

/-- Whether the scan of a source leaves a string open: `Lexer::string` reaches the end of
the source before a closing quote. -/
def leavesStringOpen (source : Str) : Bool := reportsUnterminated source.length source

/-! ## Token accesses within bounds -/

/-- The last token of the sequence is the end-of-input token: a token that is not the
end-of-input token has a token after it. -/
def EndsWithEof (tokens : List Token) : Prop :=
  ∀ c t, tokens[c]? = some t → t.type ≠ TOK_EOF → c + 1 < tokens.length

/-- The cursor `c` stands on a token, and no token in front of it is the end-of-input
token: the cursor has not moved past the first end-of-input token. -/
def Parser.Within (tokens : List Token) (c : Nat) : Prop :=
  c < tokens.length ∧ ∀ i t, i < c → tokens[i]? = some t → t.type ≠ TOK_EOF

/-- The number of tokens a `match` consumes: one when it returns `true`. -/
def matchStep (b : Bool) : Nat := if b = true then 1 else 0

/-- From every cursor at `lo` or after it that is within the tokens, the computation `p`
makes no access outside of the token vector and does not run out of fuel; when it
returns `a`, the cursor has moved forward by `d a` tokens at least and is within the
tokens. -/
def Safe (tokens : List Token) (lo : Nat) {α : Type} (p : Parser α) (d : α → Nat) : Prop :=
  ∀ c, lo ≤ c → Parser.Within tokens c →
    (∀ err, p c = .error err → err ≠ .outOfBounds ∧ err ≠ .fuel) ∧
      ∀ a c', p c = .ok (a, c') → c + d a ≤ c' ∧ Parser.Within tokens c'

/-! ## The two spellings of the conditional keyword -/

/-- The token types of the two spellings of the conditional keyword. -/
def conditionalTypes : List TokenType := [TOK_FR, TOK_NO_CAP]

/-- The spelling `fr` of the conditional keyword: a token `fr` or `no_cap` becomes the
token `fr`; every other token stays. -/
def frSpelling (t : Token) : Token :=
  if t.type ∈ conditionalTypes then ⟨TOK_FR, "fr".toList, false⟩ else t

/-- The exception with `fr` for `no_cap` in the message of the missing parenthesis, the
one place where an exception of the parser names the keyword. -/
def frMessage : Err → Err
  | .runtime m =>
    if m = "Expected '(' after 'no_cap'".toList then .runtime "Expected '(' after 'fr'".toList
    else .runtime m
  | e => e

/-- Two computations of the parser that return the same and throw the same, up to the
keyword named in the message. -/
def SameOutcome {α : Type} (p p' : Parser α) : Prop :=
  ∀ c, (p c).mapError frMessage = (p' c).mapError frMessage

/-! ## The shape of parsed programs and the exceptions of their lowering -/

/-- Whether the expression holds no call node and no assignment node. -/
def plainExpr : ExprAST → Bool
  | NumberExprAST _ => true
  | StringExprAST _ => true
  | VariableExprAST _ => true
  | BinaryExprAST _ lhs rhs => plainExpr lhs && plainExpr rhs
  | UnaryExprAST _ operand => plainExpr operand
  | GroupingExprAST expression => plainExpr expression
  | CallExprAST _ _ => false
  | AssignExprAST _ _ => false

/-- Whether the statement is an expression statement that wraps the assignment of a plain
expression. -/
def isAssignStmt : StmtAST → Bool
  | ExprStmtAST (AssignExprAST _ value) => plainExpr value
  | _ => false

/-- Whether the statement is the declaration of a variable with a plain initializer, or
an expression statement that wraps the assignment of a plain expression. -/
def isLoopInit : StmtAST → Bool
  | VarDeclStmtAST _ initializer => plainExpr initializer
  | s => isAssignStmt s

mutual
/-- The shape of the statements of the parser: the expressions are plain, and an
expression statement stands nowhere but as the init or the increment of a loop, where
it wraps an assignment; a loop has its three clauses. -/
def parsedStmt : StmtAST → Bool
  | YapStmtAST args => args.all plainExpr
  | SusStmtAST condition thenBlock elseBlock =>
    plainExpr condition && (parsedStmts thenBlock && parsedStmts elseBlock)
  | BetStmtAST init condition increment body =>
    (match init with
      | some s => isLoopInit s
      | none => false) &&
    ((match condition with
      | some c => plainExpr c
      | none => false) &&
    ((match increment with
      | some s => isAssignStmt s
      | none => false) && parsedStmts body))
  | BruhAST _ _ body => parsedStmts body
  | ExprStmtAST _ => false
  | VarDeclStmtAST _ initializer => plainExpr initializer
/-- The same of every statement of a list. -/
def parsedStmts : List StmtAST → Bool
  | [] => true
  | s :: ss => parsedStmt s && parsedStmts ss
end

/-- The messages of the exceptions of the lowering other than the one of an unknown
function. -/
def loweringMessage (m : Str) : Prop :=
  m = "Invalid binary operator".toList ∨ m = "Invalid unary operator".toList ∨
    (∃ name, m = "Unknown variable name: ".toList ++ name) ∨
    ∃ name, m = "Undefined variable: ".toList ++ name

/-- An exception `std::runtime_error` with one of the messages of `loweringMessage`. -/
def LoweringError (e : Err) : Prop := ∃ m, e = .runtime m ∧ loweringMessage m

/-- Every exception `p` throws satisfies `P`. -/
def Raises {σ α : Type} (P : Err → Prop) (p : StateExcept σ α) : Prop :=
  ∀ s e, p s = .error e → P e

/-- Whether the statement is an expression statement that wraps an assignment. -/
def clauseAssign : StmtAST → Bool
  | ExprStmtAST (AssignExprAST _ _) => true
  | _ => false

/-- Whether the statement is a variable declaration or an expression statement that
wraps an assignment. -/
def clauseInit : StmtAST → Bool
  | VarDeclStmtAST _ _ => true
  | s => clauseAssign s

mutual
/-- Whether every loop in the statement has its init, a declaration or an assignment,
its condition, and its increment, an assignment. -/
def completeLoops : StmtAST → Bool
  | BetStmtAST init condition increment body =>
    (match init with
      | some s => clauseInit s
      | none => false) &&
    (condition.isSome &&
    ((match increment with
      | some s => clauseAssign s
      | none => false) && completeLoopsList body))
  | SusStmtAST _ thenBlock elseBlock =>
    completeLoopsList thenBlock && completeLoopsList elseBlock
  | BruhAST _ _ body => completeLoopsList body
  | YapStmtAST _ => true
  | ExprStmtAST _ => true
  | VarDeclStmtAST _ _ => true
/-- The same of every statement of a list. -/
def completeLoopsList : List StmtAST → Bool
  | [] => true
  | s :: ss => completeLoops s && completeLoopsList ss
end

mutual
/-- Whether `generateStmt` on the statement comes to a loop whose condition is absent,
for which it takes the constant `true`: the statements `generateStmt` calls itself on
are the clauses and the body of a loop and the blocks of a conditional. -/
def lowersAbsentCondition : StmtAST → Bool
  | BetStmtAST init condition increment body =>
    condition.isNone || (lowersAbsentConditionOpt init ||
      (lowersAbsentConditionList body || lowersAbsentConditionOpt increment))
  | SusStmtAST _ thenBlock elseBlock =>
    lowersAbsentConditionList thenBlock || lowersAbsentConditionList elseBlock
  | BruhAST _ _ _ => false
  | YapStmtAST _ => false
  | ExprStmtAST _ => false
  | VarDeclStmtAST _ _ => false
/-- The same of the statements of a list. -/
def lowersAbsentConditionList : List StmtAST → Bool
  | [] => false
  | s :: ss => lowersAbsentCondition s || lowersAbsentConditionList ss
/-- The same of a clause of a loop. -/
def lowersAbsentConditionOpt : Option StmtAST → Bool
  | none => false
  | some s => lowersAbsentCondition s
end

/-- The tokens of `cook \x7b bet (, , ) \x7b \x7d \x7d`. -/
def emptyClausesTokens : List Token :=
  [tok TOK_COOK "cook", tok TOK_LEFT_BRACE "\x7b", tok TOK_BET "bet", tok TOK_LEFT_PAREN "(",
   tok TOK_COMMA ",", tok TOK_COMMA ",", tok TOK_RIGHT_PAREN ")", tok TOK_LEFT_BRACE "\x7b",
   tok TOK_RIGHT_BRACE "\x7d", tok TOK_RIGHT_BRACE "\x7d", eofToken]

/-- The tokens of `cook \x7b bet (i = 0, i < 3, i = i + 1) \x7b yap(i); \x7d \x7d`. -/
def countingLoopTokens : List Token :=
  [tok TOK_COOK "cook", tok TOK_LEFT_BRACE "\x7b", tok TOK_BET "bet", tok TOK_LEFT_PAREN "(",
   tok TOK_IDENTIFIER "i", tok TOK_EQUAL "=", tok TOK_NUMBER_LITERAL "0", tok TOK_COMMA ",",
   tok TOK_IDENTIFIER "i", tok TOK_LESS "<", tok TOK_NUMBER_LITERAL "3", tok TOK_COMMA ",",
   tok TOK_IDENTIFIER "i", tok TOK_EQUAL "=", tok TOK_IDENTIFIER "i", tok TOK_PLUS "+",
   tok TOK_NUMBER_LITERAL "1", tok TOK_RIGHT_PAREN ")", tok TOK_LEFT_BRACE "\x7b",
   tok TOK_YAP "yap", tok TOK_LEFT_PAREN "(", tok TOK_IDENTIFIER "i",
   tok TOK_RIGHT_PAREN ")", tok TOK_SEMICOLON ";", tok TOK_RIGHT_BRACE "\x7d",
   tok TOK_RIGHT_BRACE "\x7d", eofToken]

/-- The program of `countingLoopTokens`. -/
def countingLoopProgram : CookAST :=
  ⟨[BetStmtAST
      (some (ExprStmtAST (AssignExprAST "i".toList (NumberExprAST (.ofInt 0)))))
      (some (BinaryExprAST '<' (VariableExprAST "i".toList) (NumberExprAST (.ofInt 3))))
      (some (ExprStmtAST (AssignExprAST "i".toList
        (BinaryExprAST '+' (VariableExprAST "i".toList) (NumberExprAST (.ofInt 1))))))
      [YapStmtAST [VariableExprAST "i".toList]]]⟩

/-! ## The exception of a lowering that fails -/

/-- The messages of the exceptions the lowering throws for a construct other than a
variable reference. -/
def otherLoweringMessage (m : Str) : Prop :=
  m = "Invalid binary operator".toList ∨ m = "Invalid unary operator".toList ∨
    (∃ name, m = "Undefined variable: ".toList ++ name) ∨
    ∃ callee, m = "Unknown function: ".toList ++ callee

/-- The exception `err` is the one of the first unbound reference of `unbound`, the names
referenced while unbound in lowering order, or one of another construct. -/
def FirstUnbound (unbound : List Str) (err : Err) : Prop :=
  (∃ first, unbound.head? = some first ∧
      err = .runtime ("Unknown variable name: ".toList ++ first)) ∨
    ∃ m, err = .runtime m ∧ otherLoweringMessage m

/-! # Lemmas -/

/-! ## Reasoning about `StateExcept` and the cursor primitives -/

@[simp] theorem StateExcept.bind_apply {σ α β : Type} (p : StateExcept σ α)
    (f : α → StateExcept σ β) (s : σ) :
    (p >>= f) s = match p s with
      | .error err => .error err
      | .ok (a, s1) => f a s1 := rfl

@[simp] theorem StateExcept.pure_apply {σ α : Type} (a : α) (s : σ) :
    (pure a : StateExcept σ α) s = .ok (a, s) := rfl

@[simp] theorem StateExcept.fail_apply {σ α : Type} (err : Err) (s : σ) :
    (StateExcept.fail err : StateExcept σ α) s = .error err := rfl

@[simp] theorem StateExcept.throwRuntime_apply {σ α : Type} (message : Str) (s : σ) :
    (StateExcept.throwRuntime message : StateExcept σ α) s = .error (.runtime message) := rfl

/-- A sequence that returns has returned from its first part. -/
theorem StateExcept.bind_ok {σ α β : Type} {p : StateExcept σ α} {f : α → StateExcept σ β}
    {s : σ} {r : β × σ} (h : (p >>= f) s = .ok r) :
    ∃ a s1, p s = .ok (a, s1) ∧ f a s1 = .ok r := by
  simp only [StateExcept.bind_apply] at h
  split at h
  · simp at h
  · rename_i a s1 hp
    exact ⟨a, s1, hp, h⟩

theorem Parser.peek_of_get {tokens : List Token} {i : Nat} {t : Token}
    (h : tokens[i]? = some t) : Parser.peek tokens i = .ok (t, i) := by
  simp [Parser.peek, h]

theorem Parser.previous_of_get {tokens : List Token} {i : Nat} {t : Token}
    (h : tokens[i]? = some t) : Parser.previous tokens (i + 1) = .ok (t, i + 1) := by
  simp [Parser.previous, h]

theorem Parser.isAtEnd_of_get {tokens : List Token} {i : Nat} {t : Token}
    (h : tokens[i]? = some t) : Parser.isAtEnd tokens i = .ok (t.type == TOK_EOF, i) := by
  simp [Parser.isAtEnd, Parser.peek_of_get h]

theorem Parser.check_of_get {tokens : List Token} {i : Nat} {t : Token}
    (h : tokens[i]? = some t) (type : TokenType) :
    Parser.check tokens type i = .ok (!(t.type == TOK_EOF) && t.type == type, i) := by
  simp only [Parser.check, StateExcept.bind_apply, Parser.isAtEnd_of_get h]
  by_cases hE : t.type = TOK_EOF <;> simp [hE, Parser.peek_of_get h]

theorem Parser.advance_of_get {tokens : List Token} {i : Nat} {t : Token}
    (h : tokens[i]? = some t) (hE : t.type ≠ TOK_EOF) :
    Parser.advance tokens i = .ok (t, i + 1) := by
  simp [Parser.advance, Parser.isAtEnd_of_get h, hE, Parser.previous_of_get h]

/-- A successful `match` moves the cursor by one. -/
theorem Parser.match_hit {tokens : List Token} {i : Nat} {t : Token} (type : TokenType)
    (h : tokens[i]? = some t) (hT : t.type = type) (hE : type ≠ TOK_EOF) :
    Parser.match tokens type i = .ok (true, i + 1) := by
  subst hT
  simp [Parser.match, Parser.check_of_get h, hE, Parser.advance_of_get h hE]

/-- A failed `match` leaves the cursor where it is. -/
theorem Parser.match_miss {tokens : List Token} {i : Nat} {t : Token} (type : TokenType)
    (h : tokens[i]? = some t) (hT : t.type ≠ type) :
    Parser.match tokens type i = .ok (false, i) := by
  simp [Parser.match, Parser.check_of_get h, hT]

theorem Parser.consume_hit {tokens : List Token} {i : Nat} {t : Token} (type : TokenType)
    (h : tokens[i]? = some t) (hT : t.type = type) (hE : type ≠ TOK_EOF) (message : Str) :
    Parser.consume tokens type message i = .ok (t, i + 1) := by
  subst hT
  simp [Parser.consume, Parser.check_of_get h, hE, Parser.advance_of_get h hE]

theorem Parser.consume_miss {tokens : List Token} {i : Nat} {t : Token} (type : TokenType)
    (h : tokens[i]? = some t) (hT : t.type ≠ type) (message : Str) :
    Parser.consume tokens type message i = .error (.runtime message) := by
  simp [Parser.consume, Parser.check_of_get h, hT]

theorem Parser.matchOr_miss {tokens : List Token} {i : Nat} {t : Token} (a b : TokenType)
    (h : tokens[i]? = some t) (ha : t.type ≠ a) (hb : t.type ≠ b) :
    Parser.matchOr tokens a b i = .ok (false, i) := by
  simp [Parser.matchOr, Parser.match_miss a h ha, Parser.match_miss b h hb]

theorem Parser.matchOr_hit {tokens : List Token} {i : Nat} {t : Token} (a b : TokenType)
    (h : tokens[i]? = some t) (hT : t.type = a ∨ t.type = b) (ha : a ≠ TOK_EOF)
    (hb : b ≠ TOK_EOF) : Parser.matchOr tokens a b i = .ok (true, i + 1) := by
  by_cases h1 : t.type = a
  · simp [Parser.matchOr, Parser.match_hit a h h1 ha]
  · have h2 : t.type = b := hT.resolve_left h1
    simp [Parser.matchOr, Parser.match_miss a h h1, Parser.match_hit b h h2 hb]

theorem Parser.matchList_miss {tokens : List Token} {i : Nat} {t : Token}
    (h : tokens[i]? = some t) (types : List TokenType) (hT : t.type ∉ types) :
    Parser.matchList tokens types i = .ok (false, i) := by
  induction types with
  | nil => rfl
  | cons ty tys ih =>
    have h1 : t.type ≠ ty := fun e => hT (by simp [e])
    have h2 : t.type ∉ tys := fun e => hT (by simp [e])
    simp [Parser.matchList, Parser.check_of_get h, h1, ih h2]

/-! ## The tokens from the cursor on -/

theorem drop_get {T : List Token} {i : Nat} {t : Token} {l : List Token}
    (h : T.drop i = t :: l) : T[i]? = some t := by
  have := List.getElem?_drop (L := T) (i := i) (j := 0)
  rw [h] at this
  simpa using this.symm

theorem drop_next {T : List Token} {i : Nat} {t : Token} {l : List Token}
    (h : T.drop i = t :: l) : T.drop (i + 1) = l := by
  rw [← List.drop_drop, h]
  rfl

theorem drop_skip {T : List Token} {i : Nat} {ts l : List Token}
    (h : T.drop i = ts ++ l) : T.drop (i + ts.length) = l := by
  rw [← List.drop_drop, h]
  simp

/-! ## Decimal digits -/

theorem isDigit_cases {c : Char} (h : isDigit c = true) :
    c = '0' ∨ c = '1' ∨ c = '2' ∨ c = '3' ∨ c = '4' ∨ c = '5' ∨ c = '6' ∨ c = '7' ∨
      c = '8' ∨ c = '9' := by
  simp only [isDigit, Bool.and_eq_true, decide_eq_true_eq] at h
  obtain ⟨h1, h2⟩ := h
  have h1' : 48 ≤ c.toNat := h1
  have h2' : c.toNat ≤ 57 := h2
  have hc : c = Char.ofNat c.toNat := by simp
  rw [hc]
  interval_cases c.toNat <;> simp

theorem digitChar_isDigit {k : Nat} (h : k < 10) : isDigit (Nat.digitChar k) = true := by
  interval_cases k <;> decide

theorem digitVal_digitChar {k : Nat} (h : k < 10) : digitVal (Nat.digitChar k) = k := by
  interval_cases k <;> decide

theorem digitVal_lt {c : Char} (h : isDigit c = true) : digitVal c < 10 := by
  rcases isDigit_cases h with h | h | h | h | h | h | h | h | h | h <;> subst h <;> decide

theorem digitsToNat_append (xs ys : Str) :
    digitsToNat (xs ++ ys) = digitsToNat xs * 10 ^ ys.length + digitsToNat ys := by
  unfold digitsToNat
  rw [List.foldl_append]
  generalize List.foldl (fun acc c => 10 * acc + digitVal c) 0 xs = a
  induction ys generalizing a with
  | nil => simp
  | cons y ys ih =>
    simp only [List.foldl_cons, List.length_cons]
    rw [ih, ih (10 * 0 + digitVal y)]
    ring

/-- The decimal text of a number: digits only, not empty, and read back as the number. -/
theorem toDigitsCore_spec (fuel : Nat) : ∀ (n : Nat) (ds : Str), n < fuel →
    ∃ pre : Str, Nat.toDigitsCore 10 fuel n ds = pre ++ ds ∧ pre ≠ [] ∧
      (∀ c ∈ pre, isDigit c = true) ∧ digitsToNat pre = n := by
  induction fuel with
  | zero => intro n ds h; omega
  | succ fuel ih =>
    intro n ds h
    have hd : n % 10 < 10 := Nat.mod_lt _ (by decide)
    by_cases h0 : n / 10 = 0
    · refine ⟨[Nat.digitChar (n % 10)], ?_, by simp, ?_, ?_⟩
      · simp [Nat.toDigitsCore, h0]
      · intro c hc
        simp only [List.mem_singleton] at hc
        subst hc
        exact digitChar_isDigit hd
      · simp only [digitsToNat, List.foldl_cons, List.foldl_nil, digitVal_digitChar hd]
        omega
    · have hlt : n / 10 < fuel := by omega
      obtain ⟨pre, h1, _, h3, h4⟩ := ih (n / 10) (Nat.digitChar (n % 10) :: ds) hlt
      refine ⟨pre ++ [Nat.digitChar (n % 10)], ?_, by simp, ?_, ?_⟩
      · simp [Nat.toDigitsCore, h0, h1]
      · intro c hc
        rcases List.mem_append.mp hc with hc | hc
        · exact h3 c hc
        · simp only [List.mem_singleton] at hc
          subst hc
          exact digitChar_isDigit hd
      · rw [digitsToNat_append, h4]
        simp only [digitsToNat, List.foldl_cons, List.foldl_nil, digitVal_digitChar hd,
          List.length_singleton]
        omega

theorem toDigits_spec (n : Nat) :
    Nat.toDigits 10 n ≠ [] ∧ (∀ c ∈ Nat.toDigits 10 n, isDigit c = true) ∧
      digitsToNat (Nat.toDigits 10 n) = n := by
  obtain ⟨pre, h1, h2, h3, h4⟩ := toDigitsCore_spec (n + 1) n [] (Nat.lt_succ_self n)
  simp only [List.append_nil] at h1
  unfold Nat.toDigits
  rw [h1]
  exact ⟨h2, h3, h4⟩

theorem takeWhile_digits (ds rest : Str) (c : Char) (hds : ∀ x ∈ ds, isDigit x = true)
    (hc : isDigit c = false) : (ds ++ c :: rest).takeWhile isDigit = ds := by
  induction ds with
  | nil => simp [List.takeWhile, hc]
  | cons d ds ih =>
    have hd : isDigit d = true := hds d (by simp)
    simp only [List.cons_append, List.takeWhile_cons, hd, if_true]
    rw [ih (fun x hx => hds x (by simp [hx]))]

theorem dropWhile_digits (ds rest : Str) (c : Char) (hds : ∀ x ∈ ds, isDigit x = true)
    (hc : isDigit c = false) : (ds ++ c :: rest).dropWhile isDigit = c :: rest := by
  induction ds with
  | nil => simp [List.dropWhile, hc]
  | cons d ds ih =>
    have hd : isDigit d = true := hds d (by simp)
    simp only [List.cons_append, List.dropWhile_cons, hd, if_true]
    rw [ih (fun x hx => hds x (by simp [hx]))]

theorem takeWhile_digits_end (ds : Str) (hds : ∀ x ∈ ds, isDigit x = true) :
    ds.takeWhile isDigit = ds := by
  induction ds with
  | nil => rfl
  | cons d ds ih =>
    have hd : isDigit d = true := hds d (by simp)
    simp only [List.takeWhile_cons, hd, if_true]
    rw [ih (fun x hx => hds x (by simp [hx]))]

theorem dropWhile_digits_end (ds : Str) (hds : ∀ x ∈ ds, isDigit x = true) :
    ds.dropWhile isDigit = [] := by
  induction ds with
  | nil => rfl
  | cons d ds ih =>
    have hd : isDigit d = true := hds d (by simp)
    simp only [List.dropWhile_cons, hd, if_true]
    rw [ih (fun x hx => hds x (by simp [hx]))]

/-! ## Lexing a decimal literal -/

theorem scanToken_digit (c : Char) (rest : Str) (h : isDigit c = true) :
    scanToken c rest =
      match number c rest with
      | .error err => .error err
      | .ok (t, rest1) => .ok (some t, rest1) := by
  rcases isDigit_cases h with h | h | h | h | h | h | h | h | h | h <;> subst h <;> rfl

theorem stod_decimal (D F : Str) (hD : ∀ x ∈ D, isDigit x = true) (hD0 : D ≠ [])
    (hF : ∀ x ∈ F, isDigit x = true) :
    stod (D ++ '.' :: F) = roundBinary64 (digitsToNat (D ++ F)) (10 ^ F.length) := by
  unfold stod
  rw [takeWhile_digits D F '.' hD (by decide), dropWhile_digits D F '.' hD (by decide)]
  simp [takeWhile_digits_end F hF, hD0]

theorem number_decimal (c : Char) (cs : Str) (f : Char) (fs : Str)
    (hcs : ∀ x ∈ cs, isDigit x = true) (hf : isDigit f = true)
    (hfs : ∀ x ∈ fs, isDigit x = true) :
    number c (cs ++ '.' :: f :: fs) =
      match stod (c :: cs ++ '.' :: f :: fs) with
      | .error err => .error err
      | .ok value =>
        if value.isIntegral then .ok (⟨TOK_NUMBER_LITERAL, to_string value.toInt, false⟩, [])
        else .ok (⟨TOK_NUMBER_LITERAL, c :: cs ++ '.' :: f :: fs, true⟩, []) := by
  have hF : ∀ x ∈ f :: fs, isDigit x = true := by
    intro x hx
    rcases List.mem_cons.mp hx with hx | hx
    · rw [hx]; exact hf
    · exact hfs x hx
  unfold number
  simp only [takeWhile_digits cs (f :: fs) '.' hcs (by decide),
    dropWhile_digits cs (f :: fs) '.' hcs (by decide), peek, peekNext, hf,
    List.drop_succ_cons, List.drop_zero, takeWhile_digits_end (f :: fs) hF,
    dropWhile_digits_end (f :: fs) hF, beq_self_eq_true, Bool.and_self, if_true,
    List.cons_append]

theorem scanTokens_single (c : Char) (rest : Str) (t : Token)
    (h : scanToken c rest = .ok (some t, [])) :
    scanTokens (c :: rest) = .ok [t, eofToken] := by
  simp [scanTokens, scanLoop, h, eofToken]

/-! ### The binary exponent and rounding -/

theorem ilog2Loop_le (fuel : Nat) : ∀ (n k : Nat), n < 2 ^ (k + 1) → ilog2Loop fuel n ≤ k := by
  induction fuel with
  | zero => intro n k _; simp [ilog2Loop]
  | succ fuel ih =>
    intro n k h
    unfold ilog2Loop
    by_cases h2 : n < 2
    · simp [h2]
    · simp only [h2, if_false]
      cases k with
      | zero => simp at h; omega
      | succ k =>
        have : n / 2 < 2 ^ (k + 1) := by
          rw [pow_succ] at h
          omega
        have := ih (n / 2) k this
        omega

theorem ilog2_le {n k : Nat} (h : n < 2 ^ (k + 1)) : ilog2 n ≤ k := ilog2Loop_le n n k h

theorem pow_ilog2Loop_le (fuel : Nat) : ∀ n : Nat, 0 < n → 2 ^ ilog2Loop fuel n ≤ n := by
  induction fuel with
  | zero => intro n h; simpa [ilog2Loop] using h
  | succ fuel ih =>
    intro n h
    unfold ilog2Loop
    by_cases h2 : n < 2
    · simpa [h2] using h
    · simp only [h2, if_false]
      have := ih (n / 2) (by omega)
      rw [pow_succ]
      omega

theorem pow_ilog2_le {n : Nat} (h : 0 < n) : 2 ^ ilog2 n ≤ n := pow_ilog2Loop_le n n h

theorem lt_pow_ilog2Loop (fuel : Nat) : ∀ n : Nat, n ≤ fuel → n < 2 ^ (ilog2Loop fuel n + 1) := by
  induction fuel with
  | zero => intro n h; simp [ilog2Loop]; omega
  | succ fuel ih =>
    intro n h
    unfold ilog2Loop
    by_cases h2 : n < 2
    · simp [h2]
    · simp only [h2, if_false]
      have := ih (n / 2) (by omega)
      rw [pow_succ]
      omega

theorem lt_pow_ilog2 (n : Nat) : n < 2 ^ (ilog2 n + 1) := lt_pow_ilog2Loop n n (Nat.le_refl n)

theorem le_ilog2 {n k : Nat} (h : 2 ^ k ≤ n) : k ≤ ilog2 n := by
  by_contra hlt
  have h1 : ilog2 n + 1 ≤ k := by omega
  have h2 := lt_pow_ilog2 n
  have h3 : 2 ^ (ilog2 n + 1) ≤ 2 ^ k := Nat.pow_le_pow_right (by decide) h1
  omega

theorem scaled_neg (n d k : Nat) (hk : 0 < k) : scaled n d (-(k : Int)) = (n * 2 ^ k, d) := by
  unfold scaled
  have h : ¬ (0 : Int) ≤ -(k : Int) := by omega
  simp [h]

/-- For a quotient below `2 ^ 50` whose denominator lies between `8` and `2 ^ 47` the
exponent is negative, and it normalizes the significand to at least `2 ^ 52`. -/
theorem binExp_neg_spec (n d : Nat) (hn0 : 0 < n) (hn : n < 2 ^ 50) (hd8 : 8 ≤ d)
    (hd : d < 2 ^ 47) :
    ∃ k : Nat, binExp n d = -(k : Int) ∧ 0 < k ∧ 2 ^ 52 * d ≤ n * 2 ^ k := by
  have hL : ilog2 n ≤ 49 := ilog2_le hn
  have hLd1 : 3 ≤ ilog2 d := le_ilog2 (by simpa using hd8)
  have hLd2 : ilog2 d ≤ 46 := ilog2_le hd
  have he0 : (ilog2 n : Int) - (ilog2 d : Int) - 52 = -((52 + ilog2 d - ilog2 n : Nat) : Int) := by
    omega
  have hk0 : 0 < 52 + ilog2 d - ilog2 n := by omega
  unfold binExp
  simp only [he0, scaled_neg n d _ hk0]
  by_cases hc : 2 ^ 52 * d ≤ n * 2 ^ (52 + ilog2 d - ilog2 n)
  · refine ⟨52 + ilog2 d - ilog2 n, ?_, hk0, hc⟩
    simp only [hc, if_true]
    omega
  · refine ⟨52 + ilog2 d - ilog2 n + 1, ?_, by omega, ?_⟩
    · simp only [hc, if_false]
      omega
    · have h1 : 2 ^ ilog2 n ≤ n := pow_ilog2_le hn0
      have h2 : d < 2 ^ (ilog2 d + 1) := lt_pow_ilog2 d
      have h3 : 2 ^ 52 * d ≤ 2 ^ 52 * 2 ^ (ilog2 d + 1) := Nat.mul_le_mul_left _ (Nat.le_of_lt h2)
      have h4 : 2 ^ ilog2 n * 2 ^ (52 + ilog2 d - ilog2 n + 1) ≤
          n * 2 ^ (52 + ilog2 d - ilog2 n + 1) := Nat.mul_le_mul_right _ h1
      have h5 : 2 ^ 52 * 2 ^ (ilog2 d + 1) =
          2 ^ ilog2 n * 2 ^ (52 + ilog2 d - ilog2 n + 1) := by
        rw [← pow_add, ← pow_add]
        congr 1
        omega
      omega

theorem isIntegral_neg (m k : Nat) (hk : 0 < k) :
    (Dbl.mk m (-(k : Int))).isIntegral = (m % 2 ^ k == 0) := by
  unfold Dbl.isIntegral
  have h : ¬ (0 : Int) ≤ -(k : Int) := by omega
  simp [h]

theorem trunc_neg (m k : Nat) (hk : 0 < k) : (Dbl.mk m (-(k : Int))).trunc = m / 2 ^ k := by
  unfold Dbl.trunc
  have h : ¬ (0 : Int) ≤ -(k : Int) := by omega
  simp [h]

/-- A whole number `N` written as the quotient `N * d / d` is converted exactly. -/
theorem roundBinary64_whole (N d : Nat) (hN : 0 < N) (hd8 : 8 ≤ d) (hd : d < 2 ^ 47)
    (hNd : N * d < 2 ^ 50) :
    ∃ v, roundBinary64 (N * d) d = .ok v ∧ v.isIntegral = true ∧ v.trunc = N := by
  have hn0 : 0 < N * d := Nat.mul_pos hN (by omega)
  obtain ⟨k, hk, hkpos, _⟩ := binExp_neg_spec (N * d) d hn0 hNd hd8 hd
  have hdpos : 0 < d := by omega
  have hq : N * d * 2 ^ k / d = N * 2 ^ k := by
    rw [Nat.mul_right_comm, Nat.mul_div_cancel _ hdpos]
  have hr : N * d * 2 ^ k % d = 0 := by
    rw [Nat.mul_right_comm]
    exact Nat.mul_mod_left _ _
  refine ⟨⟨N * 2 ^ k, -(k : Int)⟩, ?_, ?_, ?_⟩
  · unfold roundBinary64
    have h1 : ¬ (971 : Int) < -(k : Int) := by omega
    have h2 : ¬ (-(k : Int) = 971) := by omega
    have h3 : ¬ d < 0 := by omega
    have h4 : ¬ 0 = d := by omega
    simp [Nat.ne_of_gt hn0, hk, scaled_neg _ _ _ hkpos, hq, hr, h1, h2, h4]
  · rw [isIntegral_neg _ _ hkpos]
    simp
  · rw [trunc_neg _ _ hkpos]
    exact Nat.mul_div_cancel _ (Nat.pos_pow_of_pos _ (by decide))

/-- A quotient `n / d` that is not whole, with `n` below `2 ^ 50`, is converted to a
`double` that is not whole either: no digit is lost to rounding. -/
theorem roundBinary64_fractional (n d : Nat) (hn : n < 2 ^ 50) (hd8 : 8 ≤ d) (hd : d < 2 ^ 47)
    (hnd : n % d ≠ 0) :
    ∃ v, roundBinary64 n d = .ok v ∧ v.isIntegral = false := by
  have hn0 : 0 < n := by
    rcases Nat.eq_zero_or_pos n with h | h
    · subst h; simp at hnd
    · exact h
  obtain ⟨k, hk, hkpos, hnorm⟩ := binExp_neg_spec n d hn0 hn hd8 hd
  have hdpos : 0 < d := by omega
  have hP : 0 < 2 ^ k := Nat.pos_pow_of_pos _ (by decide)
  have hdm := Nat.div_add_mod (n * 2 ^ k) d
  have hrlt : n * 2 ^ k % d < d := Nat.mod_lt _ hdpos
  have hq52 : 2 ^ 52 ≤ n * 2 ^ k / d := (Nat.le_div_iff_mul_le hdpos).mpr hnorm
  have h1 : ¬ (971 : Int) < -(k : Int) := by omega
  have h2 : ¬ (-(k : Int) = 971) := by omega
  -- a significand divisible by `2 ^ k` would force `2 ^ (k + 1) ≤ d`
  have hbig : 2 ^ (k + 1) ≤ d → False := by
    intro h
    have h5 : 2 ^ 52 * 2 ^ (k + 1) ≤ n * 2 ^ k := le_trans (Nat.mul_le_mul_left _ h) hnorm
    have h6 : 2 ^ 52 * 2 ^ (k + 1) = 2 ^ 53 * 2 ^ k := by
      rw [pow_succ, pow_succ]
      ring
    rw [h6] at h5
    have := Nat.le_of_mul_le_mul_right h5 hP
    omega
  generalize hqd : n * 2 ^ k / d = q at hdm hq52
  generalize hrd : n * 2 ^ k % d = r at hdm hrlt
  by_cases hup : d < 2 * r ∨ (2 * r = d ∧ q % 2 = 1)
  · refine ⟨⟨q + 1, -(k : Int)⟩, ?_, ?_⟩
    · unfold roundBinary64
      have h7 : ¬ (q + 1 < 2 ^ 52 ∧ r ≠ 0) := by omega
      simp only [Nat.ne_of_gt hn0, hk, scaled_neg _ _ _ hkpos, hqd, hrd, if_false, hup, if_true]
      simp only [h1, h2, false_and, or_self, if_false, h7]
    · rw [isIntegral_neg _ _ hkpos]
      simp only [beq_eq_false_iff_ne, ne_eq]
      intro hm
      obtain ⟨M, hM⟩ := Nat.dvd_of_mod_eq_zero hm
      -- `d - r = 2 ^ k * (M * d - n)`
      have hdr : d - r = 2 ^ k * (M * d - n) := by
        have e1 : d * (2 ^ k * M) = d * q + d := by rw [← hM]; ring
        have e2 : 2 ^ k * (M * d) = n * 2 ^ k + (d - r) := by
          have : 2 ^ k * (M * d) = d * (2 ^ k * M) := by ring
          omega
        rw [Nat.mul_sub, e2]
        have : 2 ^ k * n = n * 2 ^ k := by ring
        omega
      have hpos : 0 < M * d - n := by
        rcases Nat.eq_zero_or_pos (M * d - n) with h | h
        · rw [h] at hdr; omega
        · exact h
      have : 2 ^ k ≤ d - r := by
        rw [hdr]
        exact Nat.le_mul_of_pos_right _ hpos
      apply hbig
      rw [pow_succ]
      omega
  · refine ⟨⟨q, -(k : Int)⟩, ?_, ?_⟩
    · unfold roundBinary64
      have h7 : ¬ (q < 2 ^ 52 ∧ r ≠ 0) := by omega
      simp only [Nat.ne_of_gt hn0, hk, scaled_neg _ _ _ hkpos, hqd, hrd, if_false, hup]
      simp only [h1, h2, false_and, or_self, if_false, h7]
    · rw [isIntegral_neg _ _ hkpos]
      simp only [beq_eq_false_iff_ne, ne_eq]
      intro hm
      obtain ⟨M, hM⟩ := Nat.dvd_of_mod_eq_zero hm
      have hr0 : r ≠ 0 := by
        intro h0
        apply hnd
        subst h0
        -- `n * 2 ^ k = d * q = d * 2 ^ k * M`, hence `n = d * M`
        have e1 : n * 2 ^ k = (d * M) * 2 ^ k := by rw [← hdm, hM]; ring
        have := Nat.eq_of_mul_eq_mul_right hP e1
        rw [this]
        exact Nat.mul_mod_right _ _
      have hrr : r = 2 ^ k * (n - d * M) := by
        have e1 : d * q = 2 ^ k * (d * M) := by rw [hM]; ring
        have e2 : 2 ^ k * n = n * 2 ^ k := by ring
        rw [Nat.mul_sub]
        omega
      have hpos : 0 < n - d * M := by
        rcases Nat.eq_zero_or_pos (n - d * M) with h | h
        · rw [h] at hrr; omega
        · exact h
      have : 2 ^ k ≤ r := by
        rw [hrr]
        exact Nat.le_mul_of_pos_right _ hpos
      apply hbig
      rw [pow_succ]
      omega

theorem digitsToNat_cons (x : Char) (xs : Str) :
    digitsToNat (x :: xs) = digitVal x * 10 ^ xs.length + digitsToNat xs := by
  have h := digitsToNat_append [x] xs
  simpa [digitsToNat] using h

theorem digitsToNat_lt (F : Str) (hF : ∀ x ∈ F, isDigit x = true) :
    digitsToNat F < 10 ^ F.length := by
  induction F with
  | nil => simp [digitsToNat]
  | cons x xs ih =>
    have hx := digitVal_lt (hF x (by simp))
    have hxs := ih (fun y hy => hF y (by simp [hy]))
    rw [digitsToNat_cons, List.length_cons, pow_succ]
    have : digitVal x * 10 ^ xs.length ≤ 9 * 10 ^ xs.length := Nat.mul_le_mul_right _ (by omega)
    omega

theorem digitsToNat_ne_zero (F : Str) (hF : ∀ x ∈ F, isDigit x = true)
    (hnz : ∃ x ∈ F, x ≠ '0') : digitsToNat F ≠ 0 := by
  induction F with
  | nil => simp at hnz
  | cons x xs ih =>
    rw [digitsToNat_cons]
    obtain ⟨y, hy, hy0⟩ := hnz
    have hP : 0 < 10 ^ xs.length := Nat.pos_pow_of_pos _ (by decide)
    rcases List.mem_cons.mp hy with hyx | hyxs
    · subst hyx
      have hv : digitVal y ≠ 0 := by
        rcases isDigit_cases (hF y (by simp)) with h | h | h | h | h | h | h | h | h | h <;>
          subst h <;> first | exact absurd rfl hy0 | decide
      have : 0 < digitVal y * 10 ^ xs.length := Nat.mul_pos (Nat.pos_of_ne_zero hv) hP
      omega
    · have := ih (fun z hz => hF z (by simp [hz])) ⟨y, hyxs, hy0⟩
      omega

/-! ## The loop of the lexer -/

theorem lookup_mem {α β : Type} [BEq α] [LawfulBEq α] {k : α} {v : β} :
    ∀ {l : List (α × β)}, l.lookup k = some v → (k, v) ∈ l
  | [], h => by simp at h
  | (a, b) :: l, h => by
    by_cases hk : k = a
    · subst hk
      simp only [List.lookup_cons, beq_self_eq_true] at h
      simp only [Option.some.injEq] at h
      subst h
      exact List.mem_cons_self _ _
    · have hb : (k == a) = false := by simpa using hk
      simp only [List.lookup_cons, hb] at h
      exact List.mem_cons_of_mem _ (lookup_mem h)

theorem identifier_lexed (c : Char) (rest : Str) : (identifier c rest).1.Lexed := by
  have key : ∀ kv ∈ keywords, kv.2 ≠ TOK_EOF ∧ operatorChar kv.2 = none := by decide
  unfold identifier Token.Lexed
  dsimp only
  cases h : keywords.lookup (c :: rest.takeWhile isAlphaNumeric) with
  | none => exact ⟨by simp, by simp [operatorChar]⟩
  | some ty =>
    obtain ⟨h1, h2⟩ := key _ (lookup_mem h)
    dsimp only at h1 h2 ⊢
    exact ⟨h1, fun c hc => by rw [h2] at hc; simp at hc⟩

theorem lexMatch_suffix (e : Char) (rest : Str) : (lexMatch e rest).2 <:+ rest := by
  cases rest with
  | nil => exact List.suffix_refl _
  | cons c cs =>
    unfold lexMatch
    by_cases h : c = e
    · simp only [h, ne_eq, not_true_eq_false, if_false]
      exact List.suffix_cons _ _
    · simp only [ne_eq, h, not_false_eq_true, if_true]
      exact List.suffix_refl _

theorem lexOperator_spec (c : Char) (two one : TokenType) (rest : Str)
    (h2 : two ≠ TOK_EOF) (h1 : one ≠ TOK_EOF)
    (o2 : ∀ x, operatorChar two = some x → c = x)
    (o1 : ∀ x, operatorChar one = some x → c = x) :
    (lexOperator c two one rest).2 <:+ rest ∧
      ∀ t, (lexOperator c two one rest).1 = some t → t.Lexed := by
  unfold lexOperator
  dsimp only
  by_cases hr : (lexMatch '=' rest).1 = true
  · simp only [hr, if_true, Option.some.injEq]
    refine ⟨lexMatch_suffix _ _, fun t ht => ?_⟩
    subst ht
    exact ⟨h2, fun x hx => o2 x hx⟩
  · simp only [hr, Bool.false_eq_true, if_false, Option.some.injEq]
    refine ⟨lexMatch_suffix _ _, fun t ht => ?_⟩
    subst ht
    exact ⟨h1, fun x hx => o1 x hx⟩

theorem lexString_spec (rest : Str) :
    (lexString rest).2 <:+ rest ∧ ∀ t, (lexString rest).1 = some t → t.Lexed := by
  unfold lexString
  have hs := List.dropWhile_suffix (fun c => c != '"') (l := rest)
  cases h : rest.dropWhile (fun c => c != '"') with
  | nil => exact ⟨List.nil_suffix, fun t ht => by simp at ht⟩
  | cons q r =>
    rw [h] at hs
    refine ⟨(List.suffix_cons q r).trans hs, fun t ht => ?_⟩
    simp only [Option.some.injEq] at ht
    subst ht
    exact ⟨by simp, by simp [operatorChar]⟩

/-- The only error of the rounding is the range error. -/
theorem roundBinary64_error (n d : Nat) (e : Err) (h : roundBinary64 n d = .error e) :
    e = .outOfRange "stod".toList := by
  unfold roundBinary64 at h
  dsimp only at h
  split_ifs at h <;> (cases h; rfl)

/-- The function `std::stod` finds a digit in every text that begins with one. -/
theorem stod_digit (c : Char) (s : Str) (hc : isDigit c = true) (e : Err)
    (h : stod (c :: s) = .error e) : e = .outOfRange "stod".toList := by
  unfold stod at h
  dsimp only at h
  simp only [List.takeWhile_cons, hc, if_true] at h
  rw [if_neg (by simp)] at h
  exact roundBinary64_error _ _ e h

theorem number_spec (c : Char) (rest : Str) (hc : isDigit c = true) :
    (∀ e, number c rest = .error e → e = .outOfRange "stod".toList ∧ '.' ∈ rest) ∧
      ∀ t rest1, number c rest = .ok (t, rest1) → rest1 <:+ rest ∧ t.Lexed := by
  have hs1 := List.dropWhile_suffix isDigit (l := rest)
  have hs2 : (rest.dropWhile isDigit).drop 1 <:+ rest := (List.drop_suffix _ _).trans hs1
  have hs3 := (List.dropWhile_suffix isDigit (l := (rest.dropWhile isDigit).drop 1)).trans hs2
  have hl : ∀ l b, (Token.mk TOK_NUMBER_LITERAL l b).Lexed := fun l b =>
    ⟨by simp, by simp [operatorChar]⟩
  unfold number
  simp only []
  split
  · rename_i hdot
    have hmem : '.' ∈ rest := by
      have : peek (rest.dropWhile isDigit) = '.' := by
        simp only [Bool.and_eq_true, beq_iff_eq] at hdot
        exact hdot.1
      cases hd : rest.dropWhile isDigit with
      | nil => rw [hd] at this; simp [peek] at this
      | cons x xs =>
        rw [hd] at this
        simp only [peek] at this
        subst this
        exact hs1.subset (by rw [hd]; exact List.mem_cons_self _ _)
    cases hst : stod (c :: List.takeWhile isDigit rest ++
        '.' :: List.takeWhile isDigit (List.drop 1 (List.dropWhile isDigit rest))) with
    | error e =>
      refine ⟨fun e' he' => ?_, fun t rest1 ht => ?_⟩
      · simp only [List.cons_append] at hst
        simp only [List.cons_append, hst, Except.error.injEq] at he'
        subst he'
        exact ⟨stod_digit c _ hc e hst, hmem⟩
      · simp only [List.cons_append] at hst
        simp [hst] at ht
    | ok v =>
      simp only [List.cons_append] at hst
      refine ⟨fun e' he' => ?_, fun t rest1 ht => ?_⟩
      · simp only [List.cons_append, hst] at he'
        split at he' <;> simp at he'
      · simp only [List.cons_append, hst] at ht
        split at ht
        · simp only [Except.ok.injEq, Prod.mk.injEq] at ht
          obtain ⟨rfl, rfl⟩ := ht
          exact ⟨hs3, hl _ _⟩
        · simp only [Except.ok.injEq, Prod.mk.injEq] at ht
          obtain ⟨rfl, rfl⟩ := ht
          exact ⟨hs3, hl _ _⟩
  · refine ⟨fun e he => by simp at he, fun t rest1 ht => ?_⟩
    simp only [Except.ok.injEq, Prod.mk.injEq] at ht
    obtain ⟨rfl, rfl⟩ := ht
    exact ⟨hs1, hl _ _⟩


theorem scanned_ok {rest : Str} (ot : Option Token) (rest1 : Str) (hs : rest1 <:+ rest)
    (hl : ∀ t, ot = some t → t.Lexed) :
    (∀ e, (Except.ok (ot, rest1) : Except Err (Option Token × Str)) = .error e →
        e = .outOfRange "stod".toList ∧ '.' ∈ rest) ∧
      ∀ ot' rest', (Except.ok (ot, rest1) : Except Err (Option Token × Str)) =
          .ok (ot', rest') → rest' <:+ rest ∧ ∀ t, ot' = some t → t.Lexed := by
  refine ⟨fun e he => by simp at he, fun ot' rest' h => ?_⟩
  simp only [Except.ok.injEq, Prod.mk.injEq] at h
  obtain ⟨rfl, rfl⟩ := h
  exact ⟨hs, hl⟩

theorem punctuation_lexed (ty : TokenType) (c : Char) (h1 : ty ≠ TOK_EOF)
    (h2 : ∀ x, operatorChar ty = some x → c = x) :
    ∀ t, some (Token.mk ty [c] false) = some t → t.Lexed := by
  intro t ht
  simp only [Option.some.injEq] at ht
  subst ht
  exact ⟨h1, h2⟩

/-- One call of `Lexer::scanToken`: it throws nothing but the range error of `std::stod`,
and then a `.` stands in the rest of the source; when it returns, what is left of the
source is a suffix of what was there, and the token added is as `Token.Lexed` says. -/
theorem scanToken_spec (c : Char) (rest : Str) :
    (∀ e, scanToken c rest = .error e → e = .outOfRange "stod".toList ∧ '.' ∈ rest) ∧
      ∀ ot rest1, scanToken c rest = .ok (ot, rest1) →
        rest1 <:+ rest ∧ ∀ t, ot = some t → t.Lexed := by
  unfold scanToken
  by_cases h : c = '('
  · rw [if_pos h]
    exact scanned_ok _ _ (List.suffix_refl _)
      (punctuation_lexed _ _ (by decide) (by simp [operatorChar]))
  rw [if_neg h]
  clear h
  by_cases h : c = ')'
  · rw [if_pos h]
    exact scanned_ok _ _ (List.suffix_refl _)
      (punctuation_lexed _ _ (by decide) (by simp [operatorChar]))
  rw [if_neg h]
  clear h
  by_cases h : c = '{'
  · rw [if_pos h]
    exact scanned_ok _ _ (List.suffix_refl _)
      (punctuation_lexed _ _ (by decide) (by simp [operatorChar]))
  rw [if_neg h]
  clear h
  by_cases h : c = '}'
  · rw [if_pos h]
    exact scanned_ok _ _ (List.suffix_refl _)
      (punctuation_lexed _ _ (by decide) (by simp [operatorChar]))
  rw [if_neg h]
  clear h
  by_cases h : c = '['
  · rw [if_pos h]
    exact scanned_ok _ _ (List.suffix_refl _)
      (punctuation_lexed _ _ (by decide) (by simp [operatorChar]))
  rw [if_neg h]
  clear h
  by_cases h : c = ']'
  · rw [if_pos h]
    exact scanned_ok _ _ (List.suffix_refl _)
      (punctuation_lexed _ _ (by decide) (by simp [operatorChar]))
  rw [if_neg h]
  clear h
  by_cases h : c = ','
  · rw [if_pos h]
    exact scanned_ok _ _ (List.suffix_refl _)
      (punctuation_lexed _ _ (by decide) (by simp [operatorChar]))
  rw [if_neg h]
  clear h
  by_cases h : c = '.'
  · rw [if_pos h]
    exact scanned_ok _ _ (List.suffix_refl _)
      (punctuation_lexed _ _ (by decide) (by simp [operatorChar]))
  rw [if_neg h]
  clear h
  by_cases h : c = '-'
  · rw [if_pos h]
    exact scanned_ok _ _ (List.suffix_refl _)
      (punctuation_lexed _ _ (by decide) (by simp [operatorChar, h]))
  rw [if_neg h]
  clear h
  by_cases h : c = '+'
  · rw [if_pos h]
    exact scanned_ok _ _ (List.suffix_refl _)
      (punctuation_lexed _ _ (by decide) (by simp [operatorChar, h]))
  rw [if_neg h]
  clear h
  by_cases h : c = ';'
  · rw [if_pos h]
    exact scanned_ok _ _ (List.suffix_refl _)
      (punctuation_lexed _ _ (by decide) (by simp [operatorChar]))
  rw [if_neg h]
  clear h
  by_cases h : c = '*'
  · rw [if_pos h]
    exact scanned_ok _ _ (List.suffix_refl _)
      (punctuation_lexed _ _ (by decide) (by simp [operatorChar, h]))
  rw [if_neg h]
  clear h
  by_cases h : c = '/'
  · rw [if_pos h]
    exact scanned_ok _ _ (List.suffix_refl _)
      (punctuation_lexed _ _ (by decide) (by simp [operatorChar, h]))
  rw [if_neg h]
  clear h
  by_cases h : c = '!'
  · rw [if_pos h]
    have := lexOperator_spec c TOK_BANG_EQUAL TOK_BANG rest (by decide) (by decide)
      (by simp [operatorChar, h]) (by simp [operatorChar])
    exact scanned_ok _ _ this.1 this.2
  rw [if_neg h]
  clear h
  by_cases h : c = '='
  · rw [if_pos h]
    have := lexOperator_spec c TOK_EQUAL_EQUAL TOK_EQUAL rest (by decide) (by decide)
      (by simp [operatorChar, h]) (by simp [operatorChar])
    exact scanned_ok _ _ this.1 this.2
  rw [if_neg h]
  clear h
  by_cases h : c = '<'
  · rw [if_pos h]
    have := lexOperator_spec c TOK_LESS_EQUAL TOK_LESS rest (by decide) (by decide)
      (by simp [operatorChar, h]) (by simp [operatorChar, h])
    exact scanned_ok _ _ this.1 this.2
  rw [if_neg h]
  clear h
  by_cases h : c = '>'
  · rw [if_pos h]
    have := lexOperator_spec c TOK_GREATER_EQUAL TOK_GREATER rest (by decide) (by decide)
      (by simp [operatorChar, h]) (by simp [operatorChar, h])
    exact scanned_ok _ _ this.1 this.2
  rw [if_neg h]
  clear h
  by_cases h : c = ' ' ∨ c = '\r' ∨ c = '\t'
  · rw [if_pos h]
    exact scanned_ok _ _ (List.suffix_refl _) (by simp)
  rw [if_neg h]
  clear h
  by_cases h : c = '\n'
  · rw [if_pos h]
    exact scanned_ok _ _ (List.suffix_refl _) (by simp)
  rw [if_neg h]
  clear h
  by_cases h : c = '"'
  · rw [if_pos h]
    exact scanned_ok _ _ (lexString_spec rest).1 (lexString_spec rest).2
  rw [if_neg h]
  clear h
  by_cases h : isDigit c = true
  · rw [if_pos h]
    obtain ⟨n1, n2⟩ := number_spec c rest h
    cases hn : number c rest with
    | error e =>
      refine ⟨fun e' he' => ?_, fun ot rest1 h => by simp at h⟩
      simp only [Except.error.injEq] at he'
      subst he'
      exact n1 e hn
    | ok p =>
      obtain ⟨t, rest1⟩ := p
      obtain ⟨m1, m2⟩ := n2 t rest1 hn
      exact scanned_ok _ _ m1 (fun t' ht' => by cases ht'; exact m2)
  rw [if_neg h]
  clear h
  by_cases h : isAlpha c = true
  · rw [if_pos h]
    exact scanned_ok _ _ (List.dropWhile_suffix _) (fun t ht => by
      cases ht; exact identifier_lexed c rest)
  rw [if_neg h]
  exact scanned_ok _ _ (List.suffix_refl _) (by simp)


/-- The loop of `scanTokens` with enough fuel: it ends with the tokens it had, the
tokens added since, and the end-of-input token, or with the range error. -/
theorem scanLoop_spec : ∀ (fuel : Nat) (s : Str) (toks : List Token), s.length ≤ fuel →
    (∃ ts, scanLoop fuel s toks = .ok (toks ++ ts ++ [eofToken]) ∧ ∀ t ∈ ts, t.Lexed) ∨
      (scanLoop fuel s toks = .error (.outOfRange "stod".toList) ∧ '.' ∈ s)
  | fuel, [], toks, _ => Or.inl ⟨[], by cases fuel <;> simp [scanLoop, eofToken], by simp⟩
  | 0, _ :: _, _, h => absurd h (by simp)
  | fuel + 1, c :: rest, toks, h => by
    obtain ⟨e1, e2⟩ := scanToken_spec c rest
    have hl : rest.length ≤ fuel := by simpa using h
    cases hs : scanToken c rest with
    | error e =>
      obtain ⟨rfl, hm⟩ := e1 e hs
      exact Or.inr ⟨by simp [scanLoop, hs], List.mem_cons_of_mem _ hm⟩
    | ok p =>
      obtain ⟨ot, rest1⟩ := p
      obtain ⟨hsuf, hlex⟩ := e2 ot rest1 hs
      have hl1 : rest1.length ≤ fuel := Nat.le_trans hsuf.length_le hl
      cases ot with
      | none =>
        rcases scanLoop_spec fuel rest1 toks hl1 with ⟨ts, h1, h2⟩ | ⟨h1, h2⟩
        · exact Or.inl ⟨ts, by simp [scanLoop, hs, h1], h2⟩
        · exact Or.inr ⟨by simp [scanLoop, hs, h1], List.mem_cons_of_mem _ (hsuf.subset h2)⟩
      | some t =>
        rcases scanLoop_spec fuel rest1 (toks ++ [t]) hl1 with ⟨ts, h1, h2⟩ | ⟨h1, h2⟩
        · refine Or.inl ⟨t :: ts, by simp [scanLoop, hs, h1], ?_⟩
          intro x hx
          rcases List.mem_cons.mp hx with rfl | hx
          · exact hlex _ rfl
          · exact h2 x hx
        · exact Or.inr ⟨by simp [scanLoop, hs, h1], List.mem_cons_of_mem _ (hsuf.subset h2)⟩

/-- More fuel than characters does not change the loop of `scanTokens`. -/
theorem scanLoop_fuel : ∀ (fuel fuel' : Nat) (s : Str) (toks : List Token),
    s.length ≤ fuel → s.length ≤ fuel' → scanLoop fuel s toks = scanLoop fuel' s toks
  | fuel, fuel', [], toks, _, _ => by cases fuel <;> cases fuel' <;> simp [scanLoop]
  | 0, _, _ :: _, _, h, _ => absurd h (by simp)
  | _ + 1, 0, _ :: _, _, _, h => absurd h (by simp)
  | fuel + 1, fuel' + 1, c :: rest, toks, h, h' => by
    have hl : rest.length ≤ fuel := by simpa using h
    have hl' : rest.length ≤ fuel' := by simpa using h'
    simp only [scanLoop]
    cases hs : scanToken c rest with
    | error e => rfl
    | ok p =>
      obtain ⟨ot, rest1⟩ := p
      have hsuf := ((scanToken_spec c rest).2 ot rest1 hs).1
      cases ot with
      | none =>
        exact scanLoop_fuel fuel fuel' rest1 toks (Nat.le_trans hsuf.length_le hl)
          (Nat.le_trans hsuf.length_le hl')
      | some t =>
        exact scanLoop_fuel fuel fuel' rest1 _ (Nat.le_trans hsuf.length_le hl)
          (Nat.le_trans hsuf.length_le hl')

/-- The tokens the loop of `scanTokens` starts with stay in front of the ones it adds. -/
theorem scanLoop_acc : ∀ (fuel : Nat) (s : Str) (pre toks : List Token),
    scanLoop fuel s (pre ++ toks) = (scanLoop fuel s toks).map (fun ts => pre ++ ts)
  | fuel, [], pre, toks => by cases fuel <;> simp [scanLoop, Except.map]
  | 0, _ :: _, _, _ => by simp [scanLoop, Except.map]
  | fuel + 1, c :: rest, pre, toks => by
    simp only [scanLoop]
    cases hs : scanToken c rest with
    | error e => rfl
    | ok p =>
      obtain ⟨ot, rest1⟩ := p
      cases ot with
      | none => exact scanLoop_acc fuel rest1 pre toks
      | some t =>
        simp only []
        rw [List.append_assoc]
        exact scanLoop_acc fuel rest1 pre (toks ++ [t])

/-- A character `Lexer::scanToken` adds no token for. -/
theorem scanTokens_skip (c : Char) (s : Str) (h : scanToken c s = .ok (none, s)) :
    scanTokens (c :: s) = scanTokens s := by
  simp [scanTokens, scanLoop, h]

/-- A token `Lexer::scanToken` adds, in front of the tokens of the rest. -/
theorem scanTokens_cons (c : Char) (s rest : Str) (t : Token)
    (h : scanToken c s = .ok (some t, rest)) :
    scanTokens (c :: s) = (scanTokens rest).map (fun ts => t :: ts) := by
  have hsuf := ((scanToken_spec c s).2 _ _ h).1
  have h1 : scanTokens (c :: s) = scanLoop s.length rest [t] := by
    simp [scanTokens, scanLoop, h]
  rw [h1, scanLoop_fuel s.length rest.length rest [t] hsuf.length_le (Nat.le_refl _)]
  exact scanLoop_acc rest.length rest [t] []


theorem scanToken_skipped (c : Char) (s : Str) (h : isSkipped c = true) :
    scanToken c s = .ok (none, s) := by
  simp only [isSkipped, Bool.or_eq_true, beq_iff_eq, Bool.not_eq_true', Bool.or_eq_false_iff,
    List.contains_eq_any_beq] at h
  rcases h with (((h | h) | h) | h) | h
  · subst h; rfl
  · subst h; rfl
  · subst h; rfl
  · subst h; rfl
  · obtain ⟨⟨⟨hd, ha⟩, hq⟩, hp⟩ := h
    simp only [String.toList, List.any_cons, List.any_nil, Bool.or_false, Bool.or_eq_false_iff,
      beq_eq_false_iff_ne, ne_eq] at hp hq
    simp [scanToken, hd, ha, hq, hp]

set_option maxRecDepth 100000 in
set_option exponentiation.threshold 2000 in
/-- On `hugeLiteral` the conversion `std::stod` in `Lexer::number` throws. -/
theorem scanTokens_hugeLiteral :
    scanTokens hugeLiteral = .error (.outOfRange "stod".toList) := by
  decide

/-- Every token of a scan but the last is as `Token.Lexed` says, and the last is the
end-of-input token. -/
theorem scanTokens_lexed (source : Str) (tokens : List Token)
    (h : scanTokens source = .ok tokens) :
    ∃ ts, tokens = ts ++ [eofToken] ∧ ∀ t ∈ ts, t.Lexed := by
  rcases scanLoop_spec source.length source [] (Nat.le_refl _) with ⟨ts, h1, h2⟩ | ⟨h1, _⟩
  · rw [scanTokens, h1] at h
    simp only [List.nil_append, Except.ok.injEq] at h
    exact ⟨ts, h.symm, h2⟩
  · rw [scanTokens, h1] at h
    simp at h

/-! ## Strings, words and runs of characters -/

theorem takeWhile_stop {p : Char → Bool} (l r : Str) (q : Char) (hl : ∀ x ∈ l, p x = true)
    (hq : p q = false) : (l ++ q :: r).takeWhile p = l := by
  induction l with
  | nil => simp [List.takeWhile, hq]
  | cons d ds ih =>
    have hd : p d = true := hl d (by simp)
    simp only [List.cons_append, List.takeWhile_cons, hd, if_true]
    rw [ih (fun x hx => hl x (by simp [hx]))]

theorem dropWhile_stop {p : Char → Bool} (l r : Str) (q : Char) (hl : ∀ x ∈ l, p x = true)
    (hq : p q = false) : (l ++ q :: r).dropWhile p = q :: r := by
  induction l with
  | nil => simp [List.dropWhile, hq]
  | cons d ds ih =>
    have hd : p d = true := hl d (by simp)
    simp only [List.cons_append, List.dropWhile_cons, hd, if_true]
    rw [ih (fun x hx => hl x (by simp [hx]))]

theorem takeWhile_all {p : Char → Bool} (l : Str) (hl : ∀ x ∈ l, p x = true) :
    l.takeWhile p = l := by
  induction l with
  | nil => rfl
  | cons d ds ih =>
    have hd : p d = true := hl d (by simp)
    simp only [List.takeWhile_cons, hd, if_true]
    rw [ih (fun x hx => hl x (by simp [hx]))]

theorem dropWhile_all {p : Char → Bool} (l : Str) (hl : ∀ x ∈ l, p x = true) :
    l.dropWhile p = [] := by
  induction l with
  | nil => rfl
  | cons d ds ih =>
    have hd : p d = true := hl d (by simp)
    simp only [List.dropWhile_cons, hd, if_true]
    rw [ih (fun x hx => hl x (by simp [hx]))]

theorem scanToken_quote (rest : Str) : scanToken '"' rest = .ok (lexString rest) := rfl

theorem isAlpha_not_digit {c : Char} (h : isAlpha c = true) : isDigit c = false := by
  cases hd : isDigit c with
  | false => rfl
  | true =>
    rcases isDigit_cases hd with e | e | e | e | e | e | e | e | e | e <;>
      (subst e; exact absurd h (by decide))

/-- A letter or underscore begins an identifier or keyword. -/
theorem scanToken_alpha (c : Char) (rest : Str) (h : isAlpha c = true) :
    scanToken c rest = .ok (some (identifier c rest).1, (identifier c rest).2) := by
  have ne : ∀ d : Char, isAlpha d = false → c ≠ d := fun d hd e => by
    rw [e, hd] at h
    exact absurd h (by decide)
  unfold scanToken
  rw [if_neg (ne '(' (by decide)), if_neg (ne ')' (by decide)), if_neg (ne '{' (by decide)),
    if_neg (ne '}' (by decide)), if_neg (ne '[' (by decide)), if_neg (ne ']' (by decide)),
    if_neg (ne ',' (by decide)), if_neg (ne '.' (by decide)), if_neg (ne '-' (by decide)),
    if_neg (ne '+' (by decide)), if_neg (ne ';' (by decide)), if_neg (ne '*' (by decide)),
    if_neg (ne '/' (by decide)), if_neg (ne '!' (by decide)), if_neg (ne '=' (by decide)),
    if_neg (ne '<' (by decide)), if_neg (ne '>' (by decide)),
    if_neg (fun e => by
      rcases e with e | e | e
      · exact ne _ (by decide) e
      · exact ne _ (by decide) e
      · exact ne _ (by decide) e),
    if_neg (ne '\n' (by decide)), if_neg (ne '"' (by decide)),
    if_neg (by rw [isAlpha_not_digit h]; decide), if_pos h]

theorem lookup_eq_none {α β : Type} [BEq α] [LawfulBEq α] (k : α) :
    ∀ l : List (α × β), k ∉ l.map Prod.fst → l.lookup k = none
  | [], _ => rfl
  | (a, b) :: l, h => by
    have h1 : k ≠ a := fun e => h (by simp [e])
    have h2 : k ∉ l.map Prod.fst := fun e => h (by simp [e])
    have hb : (k == a) = false := by simpa using h1
    simp only [List.lookup_cons, hb]
    exact lookup_eq_none k l h2

/-! ## The cases of a call of the scanner -/

/-- The cases of `Lexer::scanToken`, as functions of the rest of the source: a
one-character token, a one- or two-character operator, nothing, a string, a number or a
word. -/
theorem scanToken_elim (c : Char) (P : (Str → Except Err (Option Token × Str)) → Prop)
    (punct : ∀ ty : TokenType, ty ∉ [TOK_NUMBER_LITERAL, TOK_EOF] → c ≠ '"' →
      P (fun rest => .ok (some ⟨ty, [c], false⟩, rest)))
    (oper : ∀ two one : TokenType, two ∉ [TOK_NUMBER_LITERAL, TOK_EOF] →
      one ∉ [TOK_NUMBER_LITERAL, TOK_EOF] → c ≠ '"' →
      P (fun rest => .ok (lexOperator c two one rest)))
    (skip : c ≠ '"' → P (fun rest => .ok (none, rest)))
    (str : c = '"' → P (fun rest => .ok (lexString rest)))
    (num : isDigit c = true → P (fun rest =>
      match number c rest with
      | .error err => .error err
      | .ok (t, rest1) => .ok (some t, rest1)))
    (ident : isAlpha c = true → P (fun rest =>
      .ok (some (identifier c rest).1, (identifier c rest).2))) :
    P (scanToken c) := by
  show P (fun rest => scanToken c rest)
  unfold scanToken
  by_cases h : c = '('
  · simp only [if_pos h]
    exact punct _ (by decide) (by rw [h]; decide)
  simp only [if_neg h]
  clear h
  by_cases h : c = ')'
  · simp only [if_pos h]
    exact punct _ (by decide) (by rw [h]; decide)
  simp only [if_neg h]
  clear h
  by_cases h : c = '{'
  · simp only [if_pos h]
    exact punct _ (by decide) (by rw [h]; decide)
  simp only [if_neg h]
  clear h
  by_cases h : c = '}'
  · simp only [if_pos h]
    exact punct _ (by decide) (by rw [h]; decide)
  simp only [if_neg h]
  clear h
  by_cases h : c = '['
  · simp only [if_pos h]
    exact punct _ (by decide) (by rw [h]; decide)
  simp only [if_neg h]
  clear h
  by_cases h : c = ']'
  · simp only [if_pos h]
    exact punct _ (by decide) (by rw [h]; decide)
  simp only [if_neg h]
  clear h
  by_cases h : c = ','
  · simp only [if_pos h]
    exact punct _ (by decide) (by rw [h]; decide)
  simp only [if_neg h]
  clear h
  by_cases h : c = '.'
  · simp only [if_pos h]
    exact punct _ (by decide) (by rw [h]; decide)
  simp only [if_neg h]
  clear h
  by_cases h : c = '-'
  · simp only [if_pos h]
    exact punct _ (by decide) (by rw [h]; decide)
  simp only [if_neg h]
  clear h
  by_cases h : c = '+'
  · simp only [if_pos h]
    exact punct _ (by decide) (by rw [h]; decide)
  simp only [if_neg h]
  clear h
  by_cases h : c = ';'
  · simp only [if_pos h]
    exact punct _ (by decide) (by rw [h]; decide)
  simp only [if_neg h]
  clear h
  by_cases h : c = '*'
  · simp only [if_pos h]
    exact punct _ (by decide) (by rw [h]; decide)
  simp only [if_neg h]
  clear h
  by_cases h : c = '/'
  · simp only [if_pos h]
    exact punct _ (by decide) (by rw [h]; decide)
  simp only [if_neg h]
  clear h
  by_cases h : c = '!'
  · simp only [if_pos h]
    exact oper _ _ (by decide) (by decide) (by rw [h]; decide)
  simp only [if_neg h]
  clear h
  by_cases h : c = '='
  · simp only [if_pos h]
    exact oper _ _ (by decide) (by decide) (by rw [h]; decide)
  simp only [if_neg h]
  clear h
  by_cases h : c = '<'
  · simp only [if_pos h]
    exact oper _ _ (by decide) (by decide) (by rw [h]; decide)
  simp only [if_neg h]
  clear h
  by_cases h : c = '>'
  · simp only [if_pos h]
    exact oper _ _ (by decide) (by decide) (by rw [h]; decide)
  simp only [if_neg h]
  clear h
  by_cases h : c = ' ' ∨ c = '\r' ∨ c = '\t'
  · simp only [if_pos h]
    exact skip (by rcases h with h | h | h <;> (rw [h]; decide))
  simp only [if_neg h]
  clear h
  by_cases h : c = '\n'
  · simp only [if_pos h]
    exact skip (by rw [h]; decide)
  simp only [if_neg h]
  clear h
  by_cases hq : c = '"'
  · simp only [if_pos hq]
    exact str hq
  simp only [if_neg hq]
  by_cases h : isDigit c = true
  · simp only [if_pos h]
    exact num h
  simp only [if_neg h]
  clear h
  by_cases h : isAlpha c = true
  · simp only [if_pos h]
    exact ident h
  simp only [if_neg h]
  exact skip hq

/-- What holds of every token `Lexer::scanToken` adds and of the end-of-input token holds
of every token of a scan. -/
theorem scanLoop_all (P : Token → Prop)
    (hP : ∀ c rest t rest1, scanToken c rest = .ok (some t, rest1) → P t)
    (he : P eofToken) : ∀ (fuel : Nat) (s : Str) (toks out : List Token),
    scanLoop fuel s toks = .ok out → (∀ t ∈ toks, P t) → ∀ t ∈ out, P t
  | fuel, [], toks, out, h, ht => by
    have : out = toks ++ [eofToken] := by
      cases fuel <;> simpa [scanLoop, eofToken, eq_comm] using h
    subst this
    intro t hm
    rcases List.mem_append.mp hm with hm | hm
    · exact ht t hm
    · rw [List.mem_singleton.mp hm]; exact he
  | 0, _ :: _, _, _, h, _ => by simp [scanLoop] at h
  | fuel + 1, c :: rest, toks, out, h, ht => by
    simp only [scanLoop] at h
    cases hs : scanToken c rest with
    | error e => simp [hs] at h
    | ok p =>
      obtain ⟨ot, rest1⟩ := p
      cases ot with
      | none =>
        simp only [hs] at h
        exact scanLoop_all P hP he fuel rest1 toks out h ht
      | some t =>
        simp only [hs] at h
        refine scanLoop_all P hP he fuel rest1 (toks ++ [t]) out h (fun x hx => ?_)
        rcases List.mem_append.mp hx with hx | hx
        · exact ht x hx
        · rw [List.mem_singleton.mp hx]; exact hP c rest t rest1 hs

theorem keywords_not_number (text : Str) (ty : TokenType)
    (h : keywords.lookup text = some ty) : ty ≠ TOK_NUMBER_LITERAL := by
  have key : ∀ kv ∈ keywords, kv.2 ≠ TOK_NUMBER_LITERAL := by decide
  exact key _ (lookup_mem h)

/-- A number token comes from `Lexer::number`. -/
theorem scanToken_number (c : Char) (rest : Str) (t : Token) (rest1 : Str)
    (h : scanToken c rest = .ok (some t, rest1)) (ht : t.type = TOK_NUMBER_LITERAL) :
    isDigit c = true ∧ number c rest = .ok (t, rest1) := by
  revert rest t rest1
  refine scanToken_elim c (fun f => ∀ rest t rest1, f rest = .ok (some t, rest1) →
    t.type = TOK_NUMBER_LITERAL → isDigit c = true ∧ number c rest = .ok (t, rest1))
    ?_ ?_ ?_ ?_ ?_ ?_
  · intro ty hty _ rest t rest1 h ht
    simp only [Except.ok.injEq, Prod.mk.injEq, Option.some.injEq] at h
    obtain ⟨rfl, -⟩ := h
    exact absurd ht (fun e => hty (by simp [← e]))
  · intro two one h2 h1 _ rest t rest1 h ht
    unfold lexOperator at h
    dsimp only at h
    by_cases hr : (lexMatch '=' rest).1 = true
    · simp only [hr, if_true, Except.ok.injEq, Prod.mk.injEq, Option.some.injEq] at h
      obtain ⟨rfl, -⟩ := h
      exact absurd ht (fun e => h2 (by simp [← e]))
    · simp only [hr, Bool.false_eq_true, if_false, Except.ok.injEq, Prod.mk.injEq,
        Option.some.injEq] at h
      obtain ⟨rfl, -⟩ := h
      exact absurd ht (fun e => h1 (by simp [← e]))
  · intro _ rest t rest1 h
    simp at h
  · intro _ rest t rest1 h ht
    unfold lexString at h
    dsimp only at h
    cases hd : rest.dropWhile (fun c => c != '"') with
    | nil => simp [hd] at h
    | cons q r =>
      simp only [hd, Except.ok.injEq, Prod.mk.injEq, Option.some.injEq] at h
      obtain ⟨rfl, -⟩ := h
      simp at ht
  · intro hc rest t rest1 h ht
    refine ⟨hc, ?_⟩
    cases hn : number c rest with
    | error e => simp [hn] at h
    | ok p =>
      obtain ⟨t', r'⟩ := p
      simp only [hn, Except.ok.injEq, Prod.mk.injEq, Option.some.injEq] at h
      obtain ⟨rfl, rfl⟩ := h
      rfl
  · intro _ rest t rest1 h ht
    simp only [Except.ok.injEq, Prod.mk.injEq, Option.some.injEq] at h
    obtain ⟨rfl, -⟩ := h
    unfold identifier at ht
    dsimp only at ht
    cases hk : keywords.lookup (c :: rest.takeWhile isAlphaNumeric) with
    | none => simp [hk] at ht
    | some ty =>
      simp only [hk] at ht
      exact absurd ht (keywords_not_number _ _ hk)

theorem Dbl.toInt_range (v : Dbl) : -(2 ^ 31 : Int) ≤ v.toInt ∧ v.toInt < 2 ^ 31 := by
  unfold Dbl.toInt
  split
  · rename_i h
    constructor
    · have : (0 : Int) ≤ (v.trunc : Int) := Int.natCast_nonneg _
      omega
    · exact_mod_cast h
  · constructor <;> norm_num

/-- The text of a number token of `Lexer::number` that is not a float. -/
theorem number_integerText (c : Char) (rest : Str) (t : Token) (rest1 : Str)
    (hc : isDigit c = true) (h : number c rest = .ok (t, rest1)) (hf : t.isFloat = false) :
    IntegerText t.lexeme := by
  unfold number at h
  dsimp only at h
  split at h
  · split at h
    · simp at h
    · rename_i v hst
      split at h
      · simp only [Except.ok.injEq, Prod.mk.injEq] at h
        obtain ⟨rfl, -⟩ := h
        exact Or.inr ⟨v.toInt, v.toInt_range.1, v.toInt_range.2, rfl⟩
      · simp only [Except.ok.injEq, Prod.mk.injEq] at h
        obtain ⟨rfl, -⟩ := h
        simp at hf
  · simp only [Except.ok.injEq, Prod.mk.injEq] at h
    obtain ⟨rfl, -⟩ := h
    refine Or.inl ⟨by simp, fun x hx => ?_⟩
    rcases List.mem_cons.mp hx with rfl | hx
    · exact hc
    · exact (List.mem_takeWhile_imp hx)

theorem isDigit_not_sign (c : Char) (h : isDigit c = true) :
    isSpace c = false ∧ c ≠ '-' ∧ c ≠ '+' := by
  refine ⟨?_, ?_, ?_⟩
  · cases hs : isSpace c with
    | false => rfl
    | true =>
      simp only [isSpace, Bool.or_eq_true, beq_iff_eq] at hs
      rcases hs with ((((hs | hs) | hs) | hs) | hs) | hs <;>
        (subst hs; revert h; decide)
  · rintro rfl; revert h; decide
  · rintro rfl; revert h; decide

/-- The function `std::stoi` on a non-empty run of digits. -/
theorem stoi_digits (ds : Str) (hne : ds ≠ []) (hd : ∀ x ∈ ds, isDigit x = true) :
    stoi ds = if digitsToNat ds < 2 ^ 31 then .ok (digitsToNat ds : Int)
      else .error (.outOfRange "stoi".toList) := by
  cases ds with
  | nil => exact absurd rfl hne
  | cons c cs =>
    obtain ⟨h1, h2, h3⟩ := isDigit_not_sign c (hd c (List.mem_cons_self _ _))
    have ht : (c :: cs).takeWhile isDigit = c :: cs := takeWhile_all _ hd
    unfold stoi
    simp only [List.dropWhile_cons, h1, Bool.false_eq_true, if_false]
    have hm : ∀ m : Bool × Str, m = (false, c :: cs) →
        (if List.takeWhile isDigit m.2 = [] then
          (Except.error (Err.invalidArgument "stoi".toList) : Except Err Int)
        else
          if (if m.1 = true then -(digitsToNat (List.takeWhile isDigit m.2) : Int)
              else (digitsToNat (List.takeWhile isDigit m.2) : Int)) < -(2 ^ 31 : Int) ∨
              (2 ^ 31 : Int) ≤ (if m.1 = true then
                -(digitsToNat (List.takeWhile isDigit m.2) : Int)
              else (digitsToNat (List.takeWhile isDigit m.2) : Int)) then
            Except.error (Err.outOfRange "stoi".toList)
          else Except.ok (if m.1 = true then -(digitsToNat (List.takeWhile isDigit m.2) : Int)
              else (digitsToNat (List.takeWhile isDigit m.2) : Int))) =
        if digitsToNat (c :: cs) < 2 ^ 31 then .ok (digitsToNat (c :: cs) : Int)
        else .error (.outOfRange "stoi".toList) := by
      rintro m rfl
      simp only [ht, Bool.false_eq_true, if_false]
      rw [if_neg (by simp)]
      have hp : (0 : Int) ≤ (digitsToNat (c :: cs) : Int) := Int.natCast_nonneg _
      by_cases hlt : digitsToNat (c :: cs) < 2 ^ 31
      · have hlt' : (digitsToNat (c :: cs) : Int) < 2 ^ 31 := by exact_mod_cast hlt
        rw [if_pos hlt, if_neg (by omega)]
      · have hge : (2 ^ 31 : Int) ≤ (digitsToNat (c :: cs) : Int) := by
          exact_mod_cast Nat.le_of_not_lt hlt
        rw [if_neg hlt, if_pos (Or.inr hge)]
    refine hm _ ?_
    split
    · rename_i r hr
      simp only [List.cons.injEq] at hr
      exact absurd hr.1 h2
    · rename_i r hr
      simp only [List.cons.injEq] at hr
      exact absurd hr.1 h3
    · rfl

theorem decimalValue_digits (ds : Str) (hd : ∀ x ∈ ds, isDigit x = true) :
    decimalValue ds = (digitsToNat ds : Int) := by
  cases ds with
  | nil => rfl
  | cons c cs =>
    have h2 := (isDigit_not_sign c (hd c (List.mem_cons_self _ _))).2.1
    unfold decimalValue
    split
    · rename_i r hr
      simp only [List.cons.injEq] at hr
      exact absurd hr.1 h2
    · rfl

/-- The function `std::stoi` on `-` and a non-empty run of digits. -/
theorem stoi_negative (ds : Str) (hne : ds ≠ []) (hd : ∀ x ∈ ds, isDigit x = true)
    (hr : digitsToNat ds ≤ 2 ^ 31) : stoi ('-' :: ds) = .ok (-(digitsToNat ds : Int)) := by
  have ht : ds.takeWhile isDigit = ds := takeWhile_all _ hd
  have hs : isSpace '-' = false := by decide
  unfold stoi
  simp only [List.dropWhile_cons, hs, Bool.false_eq_true, if_false, ht, if_true]
  rw [if_neg hne]
  have hr' : (digitsToNat ds : Int) ≤ 2 ^ 31 := by exact_mod_cast hr
  have hp : (0 : Int) ≤ (digitsToNat ds : Int) := Int.natCast_nonneg _
  rw [if_neg (by omega)]

/-- What `Parser::primary` makes of a number token that is not a float and whose text
is a decimal text. -/
theorem numberOfToken_integerText (t : Token) (hf : t.isFloat = false)
    (h : IntegerText t.lexeme) :
    -(2 ^ 31 : Int) ≤ decimalValue t.lexeme ∧
      numberOfToken t = if decimalValue t.lexeme < 2 ^ 31
        then .ok (NumberExprAST (.ofInt (decimalValue t.lexeme)))
        else .error (.outOfRange "stoi".toList) := by
  have digits : ∀ ds : Str, t.lexeme = ds → ds ≠ [] → (∀ x ∈ ds, isDigit x = true) →
      -(2 ^ 31 : Int) ≤ decimalValue t.lexeme ∧
      numberOfToken t = if decimalValue t.lexeme < 2 ^ 31
        then .ok (NumberExprAST (.ofInt (decimalValue t.lexeme)))
        else .error (.outOfRange "stoi".toList) := by
    intro ds hl hne hd
    have hv := decimalValue_digits ds hd
    have hp : (0 : Int) ≤ (digitsToNat ds : Int) := Int.natCast_nonneg _
    rw [hl, hv]
    refine ⟨by omega, ?_⟩
    unfold numberOfToken
    rw [hf, hl, stoi_digits ds hne hd]
    by_cases hlt : digitsToNat ds < 2 ^ 31
    · have hlt' : (digitsToNat ds : Int) < 2 ^ 31 := by exact_mod_cast hlt
      rw [if_pos hlt, if_pos hlt']
      rfl
    · have hlt' : ¬ (digitsToNat ds : Int) < 2 ^ 31 := by
        intro hc
        exact hlt (by exact_mod_cast hc)
      rw [if_neg hlt, if_neg hlt']
      rfl
  rcases h with ⟨hne, hd⟩ | ⟨i, lo, hi, hl⟩
  · exact digits _ rfl hne hd
  · obtain ⟨dne, dd, dv⟩ := toDigits_spec i.natAbs
    unfold to_string at hl
    by_cases hi0 : i < 0
    · rw [if_pos hi0] at hl
      have hval : decimalValue t.lexeme = i := by
        rw [hl]
        show -(digitsToNat (Nat.toDigits 10 i.natAbs) : Int) = i
        rw [dv]
        omega
      have hst : stoi t.lexeme = .ok i := by
        rw [hl, stoi_negative _ dne dd (by rw [dv]; omega), dv]
        congr 1
        omega
      rw [hval]
      refine ⟨lo, ?_⟩
      unfold numberOfToken
      rw [hf, hst, if_pos hi]
      rfl
    · rw [if_neg hi0] at hl
      exact digits _ hl dne dd

/-- A run of characters cut short by a character outside of it, in front of anything. -/
theorem takeWhile_append_stop {p : Char → Bool} (q : Char) (r : Str) (hq : p q = false) :
    ∀ l : Str, (l ++ q :: r).takeWhile p = l.takeWhile p
  | [] => by simp [List.takeWhile_cons, hq]
  | x :: l => by
    simp only [List.cons_append, List.takeWhile_cons]
    rw [takeWhile_append_stop q r hq l]

theorem dropWhile_append_stop {p : Char → Bool} (q : Char) (r : Str) (hq : p q = false) :
    ∀ l : Str, (l ++ q :: r).dropWhile p = l.dropWhile p ++ q :: r
  | [] => by simp [List.dropWhile_cons, hq]
  | x :: l => by
    simp only [List.cons_append, List.dropWhile_cons]
    rw [dropWhile_append_stop q r hq l]
    split <;> rfl

theorem lexMatch_append (e q : Char) (r rest : Str) (hq : q ≠ e) :
    lexMatch e (rest ++ q :: r) = ((lexMatch e rest).1, (lexMatch e rest).2 ++ q :: r) := by
  cases rest with
  | nil => simp [lexMatch, hq]
  | cons x xs =>
    simp only [lexMatch, List.cons_append]
    by_cases hx : x = e
    · simp [hx]
    · simp [hx]

theorem identifier_append (c q : Char) (r rest : Str) (hq : isAlphaNumeric q = false) :
    identifier c (rest ++ q :: r) =
      ((identifier c rest).1, (identifier c rest).2 ++ q :: r) := by
  unfold identifier
  simp only [takeWhile_append_stop q r hq, dropWhile_append_stop q r hq]

theorem lexString_append (r rest : Str) (h : (lexString rest).1 ≠ none) :
    lexString (rest ++ '"' :: r) = ((lexString rest).1, (lexString rest).2 ++ '"' :: r) := by
  unfold lexString at h ⊢
  dsimp only at h ⊢
  rw [takeWhile_append_stop (p := fun c => c != '"') '"' r (by decide),
    dropWhile_append_stop (p := fun c => c != '"') '"' r (by decide)]
  cases hd : rest.dropWhile (fun c => c != '"') with
  | nil => simp [hd] at h
  | cons x xs => rfl

theorem peek_guard_append (q : Char) (r d : Str) (hq : isDigit q = false) (hd : q ≠ '.') :
    (peek (d ++ q :: r) == '.' && isDigit (peekNext (d ++ q :: r))) =
      (peek d == '.' && isDigit (peekNext d)) := by
  have h0 : isDigit '\x00' = false := by decide
  cases d with
  | nil => simp [peek, hd]
  | cons x xs =>
    cases xs with
    | nil => simp [peek, peekNext, hq, h0]
    | cons y ys => simp [peek, peekNext]

/-- `Lexer::number` in front of a character that is no digit and no `.`. -/
theorem number_append (c q : Char) (r rest : Str) (hq : isDigit q = false) (hd : q ≠ '.') :
    number c (rest ++ q :: r) =
      match number c rest with
      | .error err => .error err
      | .ok (t, rest1) => .ok (t, rest1 ++ q :: r) := by
  unfold number
  simp only [takeWhile_append_stop q r hq, dropWhile_append_stop q r hq,
    peek_guard_append q r _ hq hd]
  by_cases hg : (peek (rest.dropWhile isDigit) == '.' &&
      isDigit (peekNext (rest.dropWhile isDigit))) = true
  · have hdrop : (rest.dropWhile isDigit ++ q :: r).drop 1 =
        (rest.dropWhile isDigit).drop 1 ++ q :: r := by
      cases hx : rest.dropWhile isDigit with
      | nil => rw [hx] at hg; simp [peek] at hg
      | cons x xs => rfl
    simp only [hg, if_true, hdrop, takeWhile_append_stop q r hq,
      dropWhile_append_stop q r hq]
    cases stod (c :: List.takeWhile isDigit rest ++
        '.' :: List.takeWhile isDigit (List.drop 1 (List.dropWhile isDigit rest))) with
    | error e => rfl
    | ok v =>
      simp only []
      split <;> rfl
  · simp only [hg, Bool.false_eq_true, if_false]

/-- One call of `Lexer::scanToken` in front of an opening quote: what it adds and what it
leaves are the same, unless the call is the report of an unterminated string. -/
theorem scanToken_append (c : Char) (r rest : Str) (ot : Option Token) (rest1 : Str)
    (h : scanToken c rest = .ok (ot, rest1)) (hno : ¬(c = '"' ∧ ot = none)) :
    scanToken c (rest ++ '"' :: r) = .ok (ot, rest1 ++ '"' :: r) := by
  revert rest ot rest1
  refine scanToken_elim c (fun f => ∀ rest ot rest1, f rest = .ok (ot, rest1) →
    ¬(c = '"' ∧ ot = none) → f (rest ++ '"' :: r) = .ok (ot, rest1 ++ '"' :: r))
    ?_ ?_ ?_ ?_ ?_ ?_
  · intro ty _ _ rest ot rest1 h _
    simp only [Except.ok.injEq, Prod.mk.injEq] at h ⊢
    exact ⟨h.1, by rw [h.2]⟩
  · intro two one _ _ _ rest ot rest1 h _
    simp only [Except.ok.injEq] at h ⊢
    unfold lexOperator at h ⊢
    simp only [lexMatch_append '=' '"' r rest (by decide)]
    dsimp only at h ⊢
    by_cases hr : (lexMatch '=' rest).1 = true
    · simp only [hr, if_true, Prod.mk.injEq] at h ⊢
      exact ⟨h.1, by rw [h.2]⟩
    · simp only [hr, Bool.false_eq_true, if_false, Prod.mk.injEq] at h ⊢
      exact ⟨h.1, by rw [h.2]⟩
  · intro _ rest ot rest1 h _
    simp only [Except.ok.injEq, Prod.mk.injEq] at h ⊢
    exact ⟨h.1, by rw [h.2]⟩
  · intro hc rest ot rest1 h hno
    simp only [Except.ok.injEq] at h ⊢
    have hne : (lexString rest).1 ≠ none := by
      intro hn
      exact hno ⟨hc, by rw [h] at hn; exact hn⟩
    rw [lexString_append r rest hne, h]
  · intro hc rest ot rest1 h _
    have hq : isDigit '"' = false := by decide
    simp only [number_append c '"' r rest hq (by decide)]
    cases hn : number c rest with
    | error e => simp [hn] at h
    | ok p =>
      obtain ⟨t', r'⟩ := p
      simp only [hn, Except.ok.injEq, Prod.mk.injEq] at h ⊢
      exact ⟨h.1, by rw [h.2]⟩
  · intro hc rest ot rest1 h _
    have hq : isAlphaNumeric '"' = false := by decide
    simp only [identifier_append c '"' r rest hq]
    simp only [Except.ok.injEq, Prod.mk.injEq] at h ⊢
    exact ⟨h.1, by rw [h.2]⟩

/-- A string that finds no closing quote adds no token and takes the rest of the source. -/
theorem lexString_open (r : Str) (hr : '"' ∉ r) : lexString r = (none, []) := by
  unfold lexString
  have : r.dropWhile (fun c => c != '"') = [] :=
    dropWhile_all r (fun x hx => by
      simp only [bne_iff_ne, ne_eq]
      rintro rfl
      exact hr hx)
  simp only [this]

/-- The loop of `scanTokens` in front of an opening quote that finds no closing one. -/
theorem scanLoop_open (r : Str) (hr : '"' ∉ r) : ∀ (fuel : Nat) (p : Str)
    (toks out : List Token), p.length ≤ fuel → scanLoop fuel p toks = .ok out →
    reportsUnterminated fuel p = false →
    scanLoop (fuel + r.length + 1) (p ++ '"' :: r) toks = .ok out
  | fuel, [], toks, out, _, h, _ => by
    have ho : out = toks ++ [⟨TOK_EOF, [], false⟩] := by
      cases fuel <;> simpa [scanLoop, eq_comm] using h
    simp only [List.nil_append, scanLoop, scanToken_quote, lexString_open r hr, ho]
  | 0, _ :: _, _, _, hl, _, _ => absurd hl (by simp)
  | fuel + 1, c :: rest, toks, out, hl, h, hu => by
    have hl' : rest.length ≤ fuel := by simpa using hl
    simp only [scanLoop] at h
    simp only [reportsUnterminated] at hu
    cases hs : scanToken c rest with
    | error e => simp [hs] at h
    | ok pr =>
      obtain ⟨ot, rest1⟩ := pr
      have hsuf := ((scanToken_spec c rest).2 ot rest1 hs).1
      have hl1 : rest1.length ≤ fuel := Nat.le_trans hsuf.length_le hl'
      simp only [hs, Bool.or_eq_false_iff, Bool.and_eq_false_iff] at hu
      have hno : ¬(c = '"' ∧ ot = none) := by
        rintro ⟨rfl, rfl⟩
        rcases hu.1 with h1 | h1 <;> simp at h1
      have ha := scanToken_append c r rest ot rest1 hs hno
      have hf : fuel + 1 + r.length + 1 = (fuel + r.length + 1) + 1 := by omega
      rw [hf, List.cons_append]
      simp only [scanLoop, ha]
      cases ot with
      | none =>
        simp only [hs] at h
        exact scanLoop_open r hr fuel rest1 toks out hl1 h hu.2
      | some t =>
        simp only [hs] at h
        exact scanLoop_open r hr fuel rest1 (toks ++ [t]) out hl1 h hu.2

/-! ## Evaluating the parser on a token sequence -/

theorem Parser.binaryLoop_exit {tokens : List Token} {cond : Parser Bool} {sub : Parser ExprAST}
    {i : Nat} (fuel : Nat) (e : ExprAST) (h : cond i = .ok (false, i)) :
    Parser.binaryLoop tokens cond sub (fuel + 1) e i = .ok (e, i) := by
  simp [Parser.binaryLoop, h]

theorem Parser.binaryLoop_step {tokens : List Token} {cond : Parser Bool} {sub : Parser ExprAST}
    {i j : Nat} {op : Token} {r : ExprAST} (fuel : Nat) (e : ExprAST)
    (h : cond i = .ok (true, i + 1)) (hop : tokens[i]? = some op) (hr : sub (i + 1) = .ok (r, j)) :
    Parser.binaryLoop tokens cond sub (fuel + 1) e i =
      Parser.binaryLoop tokens cond sub fuel (BinaryExprAST (firstChar op.lexeme) e r) j := by
  simp [Parser.binaryLoop, h, Parser.previous_of_get hop, hr]

/-- A `factor` that is a single operand: the next token is neither `*` nor `/`. -/
theorem Parser.factor_one {tokens : List Token} {unary : Parser ExprAST} {i j : Nat}
    {a : ExprAST} {t : Token} (fuel : Nat) (ha : unary i = .ok (a, j))
    (ht : tokens[j]? = some t) (h1 : t.type ≠ TOK_STAR) (h2 : t.type ≠ TOK_SLASH) :
    Parser.factor tokens unary (fuel + 1) i = .ok (a, j) := by
  simp [Parser.factor, ha, Parser.binaryLoop_exit fuel a (Parser.matchOr_miss _ _ ht h1 h2)]

/-- A `factor` of two operands joined by the token `op`, which is `*` or `/`. -/
theorem Parser.factor_two {tokens : List Token} {unary : Parser ExprAST} {i j k : Nat}
    {a b : ExprAST} {op t : Token} (fuel : Nat) (ha : unary i = .ok (a, j))
    (hop : tokens[j]? = some op) (hty : op.type = TOK_STAR ∨ op.type = TOK_SLASH)
    (hb : unary (j + 1) = .ok (b, k))
    (ht : tokens[k]? = some t) (h1 : t.type ≠ TOK_STAR) (h2 : t.type ≠ TOK_SLASH) :
    Parser.factor tokens unary (fuel + 2) i =
      .ok (BinaryExprAST (firstChar op.lexeme) a b, k) := by
  have hc := Parser.matchOr_hit TOK_STAR TOK_SLASH hop hty (by decide) (by decide)
  simp [Parser.factor, ha, Parser.binaryLoop_step (fuel + 1) a hc hop hb,
    Parser.binaryLoop_exit fuel _ (Parser.matchOr_miss _ _ ht h1 h2)]

/-- A `term` that is a single `factor`: the next token is neither `+` nor `-`. -/
theorem Parser.term_one {tokens : List Token} {unary : Parser ExprAST} {i j : Nat}
    {a : ExprAST} {t : Token} (fuel : Nat)
    (ha : Parser.factor tokens unary (fuel + 1) i = .ok (a, j))
    (ht : tokens[j]? = some t) (h1 : t.type ≠ TOK_PLUS) (h2 : t.type ≠ TOK_MINUS) :
    Parser.term tokens unary (fuel + 1) i = .ok (a, j) := by
  simp [Parser.term, ha, Parser.binaryLoop_exit fuel a (Parser.matchOr_miss _ _ ht h1 h2)]

/-- A `term` of two factors joined by the token `op`, which is `+` or `-`. -/
theorem Parser.term_two {tokens : List Token} {unary : Parser ExprAST} {i j k : Nat}
    {a b : ExprAST} {op t : Token} (fuel : Nat)
    (ha : Parser.factor tokens unary (fuel + 2) i = .ok (a, j))
    (hop : tokens[j]? = some op) (hty : op.type = TOK_PLUS ∨ op.type = TOK_MINUS)
    (hb : Parser.factor tokens unary (fuel + 2) (j + 1) = .ok (b, k))
    (ht : tokens[k]? = some t) (h1 : t.type ≠ TOK_PLUS) (h2 : t.type ≠ TOK_MINUS) :
    Parser.term tokens unary (fuel + 2) i =
      .ok (BinaryExprAST (firstChar op.lexeme) a b, k) := by
  have hc := Parser.matchOr_hit TOK_PLUS TOK_MINUS hop hty (by decide) (by decide)
  simp [Parser.term, ha, Parser.binaryLoop_step (fuel + 1) a hc hop hb,
    Parser.binaryLoop_exit fuel _ (Parser.matchOr_miss _ _ ht h1 h2)]

/-- An `expression` that is a single `term`: the next token is no comparison and no
equality operator. -/
theorem Parser.expression_of_term {tokens : List Token} {i j : Nat} {e : ExprAST} {t : Token}
    (fuel : Nat)
    (he : Parser.term tokens (Parser.unary tokens (fuel + 1)) (fuel + 1) i = .ok (e, j))
    (ht : tokens[j]? = some t)
    (hcmp : t.type ∉ [TOK_GREATER, TOK_GREATER_EQUAL, TOK_LESS, TOK_LESS_EQUAL])
    (h1 : t.type ≠ TOK_EQUAL_EQUAL) (h2 : t.type ≠ TOK_BANG_EQUAL) :
    Parser.expression tokens (fuel + 1) i = .ok (e, j) := by
  simp [Parser.expression, Parser.equality, Parser.comparison, he,
    Parser.binaryLoop_exit fuel e (Parser.matchList_miss ht _ hcmp),
    Parser.binaryLoop_exit fuel e (Parser.matchOr_miss _ _ ht h1 h2)]

/-- The statement `yap(e);` with a single argument. -/
theorem Parser.yapStatement_one {tokens : List Token} {i j : Nat} {e : ExprAST}
    {t : Token} {l : List Token} (fuel : Nat)
    (hd : tokens.drop i = tok TOK_LEFT_PAREN "(" :: t :: l)
    (ht1 : t.type ≠ TOK_RIGHT_PAREN)
    (he : Parser.expression tokens (fuel + 1) (i + 1) = .ok (e, j)) {l2 : List Token}
    (hd2 : tokens.drop j = tok TOK_RIGHT_PAREN ")" :: tok TOK_SEMICOLON ";" :: l2) :
    Parser.yapStatement tokens (fuel + 1) i = .ok (YapStmtAST [e], j + 1 + 1) := by
  have g0 := drop_get hd
  have g1 := drop_get (drop_next hd)
  have g2 := drop_get hd2
  have g3 := drop_get (drop_next hd2)
  have c0 := Parser.consume_hit TOK_LEFT_PAREN g0 rfl (by decide)
  have c1 := Parser.check_of_get g1 TOK_RIGHT_PAREN
  have c2 := Parser.match_miss TOK_COMMA g2 (by decide)
  have c3 := Parser.consume_hit TOK_RIGHT_PAREN g2 rfl (by decide)
  have c4 := Parser.consume_hit TOK_SEMICOLON g3 rfl (by decide)
  simp [Parser.yapStatement, c0, c1, ht1, Parser.argsLoop, he, c2, c3, c4]

/-- A `cook` block that holds the single statement `yap(e);`. -/
theorem Parser.cook_yap_one {T : List Token} {e : ExprAST} {t : Token} {l : List Token}
    {j : Nat} (fuel : Nat)
    (d0 : T.drop 0 = tok TOK_COOK "cook" :: tok TOK_LEFT_BRACE "\x7b" :: tok TOK_YAP "yap" ::
      tok TOK_LEFT_PAREN "(" :: t :: l)
    (ht1 : t.type ≠ TOK_RIGHT_PAREN)
    (he : Parser.expression T (fuel + 1) 4 = .ok (e, j))
    (dj : T.drop j = [tok TOK_RIGHT_PAREN ")", tok TOK_SEMICOLON ";",
      tok TOK_RIGHT_BRACE "\x7d", eofToken]) :
    Parser.cook T (fuel + 2) 0 = .ok (⟨[YapStmtAST [e]]⟩, j + 1 + 1 + 1) := by
  have d1 := drop_next d0
  have d2 := drop_next d1
  have d3 := drop_next d2
  have dj2 := drop_next (drop_next dj)
  have c0 := Parser.match_hit TOK_COOK (drop_get d0) rfl (by decide)
  have c1 := Parser.consume_hit TOK_LEFT_BRACE (drop_get d1) rfl (by decide)
  have c2 := Parser.check_of_get (drop_get d2) TOK_RIGHT_BRACE
  have c3 := Parser.isAtEnd_of_get (drop_get d2)
  have c4 := Parser.match_hit TOK_YAP (drop_get d2) rfl (by decide)
  have c5 := Parser.yapStatement_one fuel d3 ht1 he dj
  have c6 := Parser.check_of_get (drop_get dj2) TOK_RIGHT_BRACE
  have c7 := Parser.consume_hit TOK_RIGHT_BRACE (drop_get dj2) rfl (by decide)
  simp only [Nat.zero_add, Nat.reduceAdd] at c0 c1 c2 c3 c4 c5
  simp [Parser.cook, c0, c1, Parser.statementLoop, c2, c3, tok, Parser.statement, c4, c5, c6, c7]

theorem IsOperand.head {ts : List Token} {e : ExprAST} (h : IsOperand ts e) :
    ∃ t l, ts = t :: l ∧ t.type ≠ TOK_RIGHT_PAREN := by
  cases ts with
  | nil =>
    have := h [] 0 0 [] rfl (Nat.le_refl _)
    simp [Parser.unary] at this
  | cons t l =>
    refine ⟨t, l, rfl, ?_⟩
    intro ht
    have h1 := h (t :: l) 0 (l.length + 1) [] (by simp) (Nat.le_refl _)
    have g : (t :: l)[0]? = some t := by simp
    simp [Parser.unary, Parser.matchOr_miss TOK_MINUS TOK_BANG g (by rw [ht]; decide)
      (by rw [ht]; decide), Parser.primary,
      Parser.match_miss TOK_NUMBER_LITERAL g (by rw [ht]; decide),
      Parser.match_miss TOK_IDENTIFIER g (by rw [ht]; decide),
      Parser.match_miss TOK_STRING_LITERAL g (by rw [ht]; decide),
      Parser.match_miss TOK_LEFT_PAREN g (by rw [ht]; decide)] at h1


theorem parseCook_of_cook {T : List Token} {ast : CookAST} {j : Nat} (n : Nat)
    (hlen : T.length + 1 = n) (h : Parser.cook T n 0 = .ok (ast, j)) :
    parseCook T = .ok ast := by
  simp [parseCook, parseCookAt, hlen, h]

/-- A number token whose text converts is an operand. -/
theorem isOperand_number (t : Token) (e : ExprAST) (ht : t.type = TOK_NUMBER_LITERAL)
    (hn : numberOfToken t = .ok e) : IsOperand [t] e := by
  intro T i fuel rest hd hf
  obtain ⟨f, rfl⟩ : ∃ f, fuel = f + 1 := ⟨fuel - 1, by simp at hf; omega⟩
  have g := drop_get hd
  simp [Parser.unary, Parser.matchOr_miss TOK_MINUS TOK_BANG g (by rw [ht]; decide)
    (by rw [ht]; decide), Parser.primary,
    Parser.match_hit TOK_NUMBER_LITERAL g ht (by decide), Parser.previous_of_get g, hn]

/-- An identifier token is an operand, a variable reference. -/
theorem isOperand_identifier (t : Token) (ht : t.type = TOK_IDENTIFIER) :
    IsOperand [t] (VariableExprAST t.lexeme) := by
  intro T i fuel rest hd hf
  obtain ⟨f, rfl⟩ : ∃ f, fuel = f + 1 := ⟨fuel - 1, by simp at hf; omega⟩
  have g := drop_get hd
  simp [Parser.unary, Parser.matchOr_miss TOK_MINUS TOK_BANG g (by rw [ht]; decide)
    (by rw [ht]; decide), Parser.primary,
    Parser.match_miss TOK_NUMBER_LITERAL g (by rw [ht]; decide),
    Parser.match_hit TOK_IDENTIFIER g ht (by decide), Parser.previous_of_get g]

/-- A string token is an operand, a string literal. -/
theorem isOperand_string (t : Token) (ht : t.type = TOK_STRING_LITERAL) :
    IsOperand [t] (StringExprAST t.lexeme) := by
  intro T i fuel rest hd hf
  obtain ⟨f, rfl⟩ : ∃ f, fuel = f + 1 := ⟨fuel - 1, by simp at hf; omega⟩
  have g := drop_get hd
  simp [Parser.unary, Parser.matchOr_miss TOK_MINUS TOK_BANG g (by rw [ht]; decide)
    (by rw [ht]; decide), Parser.primary,
    Parser.match_miss TOK_NUMBER_LITERAL g (by rw [ht]; decide),
    Parser.match_miss TOK_IDENTIFIER g (by rw [ht]; decide),
    Parser.match_hit TOK_STRING_LITERAL g ht (by decide), Parser.previous_of_get g]

/-! ## The parser reads one token of lookahead and nothing behind it -/

theorem Agree.weaken {T T' : List Token} {n m : Nat} (h : Agree T T' n) (hm : m ≤ n) :
    Agree T T' m := fun i hi => h i (Nat.lt_of_lt_of_le hi hm)

theorem local_pure {T T' : List Token} {α : Type} (a : α) :
    Local T T' (pure a : Parser α) (pure a) := by
  intro c b c' h
  simp only [StateExcept.pure_apply, Except.ok.injEq, Prod.mk.injEq] at h
  obtain ⟨rfl, rfl⟩ := h
  exact ⟨Nat.le_refl _, fun _ => rfl⟩

theorem local_fail {T T' : List Token} {α : Type} (err : Err) (q : Parser α) :
    Local T T' (StateExcept.fail err : Parser α) q := by
  intro c b c' h
  simp [StateExcept.fail] at h

theorem local_throwRuntime {T T' : List Token} {α : Type} (m : Str) (q : Parser α) :
    Local T T' (StateExcept.throwRuntime m : Parser α) q :=
  local_fail _ q

theorem local_bind {T T' : List Token} {α β : Type} {p p' : Parser α} {f f' : α → Parser β}
    (hp : Local T T' p p') (hf : ∀ a, Local T T' (f a) (f' a)) :
    Local T T' (p >>= f) (p' >>= f') := by
  intro c b c' h
  obtain ⟨a, c1, h1, h2⟩ := StateExcept.bind_ok h
  obtain ⟨l1, r1⟩ := hp c a c1 h1
  obtain ⟨l2, r2⟩ := hf a c1 b c' h2
  refine ⟨Nat.le_trans l1 l2, fun ha => ?_⟩
  simp only [StateExcept.bind_apply, r1 (ha.weaken (by omega)), r2 ha]

theorem local_ite {T T' : List Token} {α : Type} {P : Prop} [Decidable P]
    {p p' q q' : Parser α} (hp : Local T T' p p') (hq : Local T T' q q') :
    Local T T' (if P then p else q) (if P then p' else q') := by
  by_cases h : P
  · simpa only [if_pos h] using hp
  · simpa only [if_neg h] using hq

theorem Parser.peek_local (T T' : List Token) : Local T T' (Parser.peek T) (Parser.peek T') := by
  intro c a c' h
  unfold Parser.peek at h ⊢
  cases ht : T[c]? with
  | none => simp [ht] at h
  | some t =>
    simp only [ht, Except.ok.injEq, Prod.mk.injEq] at h
    obtain ⟨rfl, rfl⟩ := h
    exact ⟨Nat.le_refl _, fun ha => by rw [ha c (by omega), ht]⟩

theorem Parser.previous_local (T T' : List Token) :
    Local T T' (Parser.previous T) (Parser.previous T') := by
  intro c a c' h
  unfold Parser.previous at h ⊢
  by_cases hc : c = 0
  · simp [hc] at h
  · simp only [if_neg hc] at h ⊢
    cases ht : T[c - 1]? with
    | none => simp [ht] at h
    | some t =>
      simp only [ht, Except.ok.injEq, Prod.mk.injEq] at h
      obtain ⟨rfl, rfl⟩ := h
      exact ⟨Nat.le_refl _, fun ha => by rw [ha (c - 1) (by omega), ht]⟩

theorem local_step (T T' : List Token) :
    Local T T' (fun current => .ok ((), current + 1) : Parser Unit)
      (fun current => .ok ((), current + 1)) := by
  intro c a c' h
  simp only [Except.ok.injEq, Prod.mk.injEq] at h
  obtain ⟨-, rfl⟩ := h
  exact ⟨Nat.le_succ _, fun _ => rfl⟩

theorem Parser.isAtEnd_local (T T' : List Token) :
    Local T T' (Parser.isAtEnd T) (Parser.isAtEnd T') := by
  unfold Parser.isAtEnd
  repeat' first
    | exact local_pure _
    | exact Parser.peek_local T T'
    | refine local_bind ?_ (fun _ => ?_)

theorem Parser.advance_local (T T' : List Token) :
    Local T T' (Parser.advance T) (Parser.advance T') := by
  unfold Parser.advance
  repeat' first
    | exact local_pure _
    | exact local_step T T'
    | exact Parser.isAtEnd_local T T'
    | exact Parser.previous_local T T'
    | refine local_bind ?_ (fun _ => ?_)
    | refine local_ite ?_ ?_

theorem Parser.check_local (T T' : List Token) (type : TokenType) :
    Local T T' (Parser.check T type) (Parser.check T' type) := by
  unfold Parser.check
  repeat' first
    | exact local_pure _
    | exact Parser.isAtEnd_local T T'
    | exact Parser.peek_local T T'
    | refine local_bind ?_ (fun _ => ?_)
    | refine local_ite ?_ ?_

theorem Parser.match_local (T T' : List Token) (type : TokenType) :
    Local T T' (Parser.match T type) (Parser.match T' type) := by
  unfold Parser.match
  repeat' first
    | exact local_pure _
    | exact Parser.check_local T T' _
    | exact Parser.advance_local T T'
    | refine local_bind ?_ (fun _ => ?_)
    | refine local_ite ?_ ?_

theorem Parser.matchList_local (T T' : List Token) :
    ∀ types : List TokenType, Local T T' (Parser.matchList T types) (Parser.matchList T' types)
  | [] => local_pure _
  | type :: types => by
    have ih := Parser.matchList_local T T' types
    unfold Parser.matchList
    repeat' first
      | exact local_pure _
      | exact ih
      | exact Parser.check_local T T' _
      | exact Parser.advance_local T T'
      | refine local_bind ?_ (fun _ => ?_)
      | refine local_ite ?_ ?_

theorem Parser.matchOr_local (T T' : List Token) (a b : TokenType) :
    Local T T' (Parser.matchOr T a b) (Parser.matchOr T' a b) := by
  unfold Parser.matchOr
  repeat' first
    | exact local_pure _
    | exact Parser.match_local T T' _
    | refine local_bind ?_ (fun _ => ?_)
    | refine local_ite ?_ ?_

theorem Parser.consume_local (T T' : List Token) (type : TokenType) (message : Str) :
    Local T T' (Parser.consume T type message) (Parser.consume T' type message) := by
  unfold Parser.consume
  repeat' first
    | exact local_throwRuntime _ _
    | exact Parser.check_local T T' _
    | exact Parser.advance_local T T'
    | refine local_bind ?_ (fun _ => ?_)
    | refine local_ite ?_ ?_


theorem Parser.binaryLoop_local {T T' : List Token} {cond cond' : Parser Bool}
    {sub sub' : Parser ExprAST} (hc : Local T T' cond cond') (hs : Local T T' sub sub') :
    ∀ (fuel fuel' : Nat), fuel ≤ fuel' → ∀ expr : ExprAST,
      Local T T' (Parser.binaryLoop T cond sub fuel expr)
        (Parser.binaryLoop T' cond' sub' fuel' expr)
  | 0, _, _, _ => local_fail _ _
  | fuel + 1, 0, h, _ => absurd h (by omega)
  | fuel + 1, fuel' + 1, h, expr => by
    have ih := Parser.binaryLoop_local hc hs fuel fuel' (by omega)
    unfold Parser.binaryLoop
    repeat' first
      | exact local_pure _
      | exact ih _
      | exact hc
      | exact hs
      | exact Parser.previous_local T T'
      | refine local_bind ?_ (fun _ => ?_)
      | refine local_ite ?_ ?_

theorem Parser.factor_local {T T' : List Token} {unary unary' : Parser ExprAST}
    (hu : Local T T' unary unary') {fuel fuel' : Nat} (h : fuel ≤ fuel') :
    Local T T' (Parser.factor T unary fuel) (Parser.factor T' unary' fuel') := by
  unfold Parser.factor
  exact local_bind hu (fun _ =>
    Parser.binaryLoop_local (Parser.matchOr_local T T' _ _) hu _ _ h _)

theorem Parser.term_local {T T' : List Token} {unary unary' : Parser ExprAST}
    (hu : Local T T' unary unary') {fuel fuel' : Nat} (h : fuel ≤ fuel') :
    Local T T' (Parser.term T unary fuel) (Parser.term T' unary' fuel') := by
  unfold Parser.term
  exact local_bind (Parser.factor_local hu h) (fun _ =>
    Parser.binaryLoop_local (Parser.matchOr_local T T' _ _) (Parser.factor_local hu h) _ _ h _)

theorem Parser.comparison_local {T T' : List Token} {unary unary' : Parser ExprAST}
    (hu : Local T T' unary unary') {fuel fuel' : Nat} (h : fuel ≤ fuel') :
    Local T T' (Parser.comparison T unary fuel) (Parser.comparison T' unary' fuel') := by
  unfold Parser.comparison
  exact local_bind (Parser.term_local hu h) (fun _ =>
    Parser.binaryLoop_local (Parser.matchList_local T T' _) (Parser.term_local hu h) _ _ h _)

theorem Parser.equality_local {T T' : List Token} {unary unary' : Parser ExprAST}
    (hu : Local T T' unary unary') {fuel fuel' : Nat} (h : fuel ≤ fuel') :
    Local T T' (Parser.equality T unary fuel) (Parser.equality T' unary' fuel') := by
  unfold Parser.equality
  exact local_bind (Parser.comparison_local hu h) (fun _ =>
    Parser.binaryLoop_local (Parser.matchOr_local T T' _ _) (Parser.comparison_local hu h)
      _ _ h _)

theorem Parser.primary_local {T T' : List Token} {expression expression' : Parser ExprAST}
    (he : Local T T' expression expression') :
    Local T T' (Parser.primary T expression) (Parser.primary T' expression') := by
  unfold Parser.primary
  repeat' first
    | exact local_pure _
    | exact local_throwRuntime _ _
    | (generalize numberOfToken _ = r
       cases r
       · exact local_fail _ _
       · exact local_pure _)
    | exact he
    | exact Parser.match_local T T' _
    | exact Parser.consume_local T T' _ _
    | exact Parser.previous_local T T'
    | refine local_bind ?_ (fun _ => ?_)
    | refine local_ite ?_ ?_

theorem Parser.unary_local (T T' : List Token) :
    ∀ (fuel fuel' : Nat), fuel ≤ fuel' →
      Local T T' (Parser.unary T fuel) (Parser.unary T' fuel')
  | 0, _, _ => local_fail _ _
  | fuel + 1, 0, h => absurd h (by omega)
  | fuel + 1, fuel' + 1, h => by
    have ih := Parser.unary_local T T' fuel fuel' (by omega)
    have he := Parser.equality_local ih (Nat.le_of_succ_le_succ h)
    unfold Parser.unary
    repeat' first
      | exact local_pure _
      | exact ih
      | exact Parser.primary_local he
      | exact Parser.matchOr_local T T' _ _
      | exact Parser.previous_local T T'
      | refine local_bind ?_ (fun _ => ?_)
      | refine local_ite ?_ ?_

theorem Parser.expression_local (T T' : List Token) {fuel fuel' : Nat} (h : fuel ≤ fuel') :
    Local T T' (Parser.expression T fuel) (Parser.expression T' fuel') :=
  Parser.equality_local (Parser.unary_local T T' fuel fuel' h) h

theorem Parser.statementLoop_local {T T' : List Token} {statement statement' : Parser StmtAST}
    (hs : Local T T' statement statement') :
    ∀ (fuel fuel' : Nat), fuel ≤ fuel' → ∀ statements : List StmtAST,
      Local T T' (Parser.statementLoop T statement fuel statements)
        (Parser.statementLoop T' statement' fuel' statements)
  | 0, _, _, _ => local_fail _ _
  | fuel + 1, 0, h, _ => absurd h (by omega)
  | fuel + 1, fuel' + 1, h, statements => by
    have ih := Parser.statementLoop_local hs fuel fuel' (by omega)
    unfold Parser.statementLoop
    repeat' first
      | exact local_pure _
      | exact ih _
      | exact hs
      | exact Parser.check_local T T' _
      | exact Parser.isAtEnd_local T T'
      | refine local_bind ?_ (fun _ => ?_)
      | refine local_ite ?_ ?_

theorem Parser.block_local {T T' : List Token} {statement statement' : Parser StmtAST}
    (hs : Local T T' statement statement') {fuel fuel' : Nat} (h : fuel ≤ fuel') :
    Local T T' (Parser.block T statement fuel) (Parser.block T' statement' fuel') := by
  unfold Parser.block
  repeat' first
    | exact local_pure _
    | exact Parser.statementLoop_local hs _ _ h _
    | exact Parser.consume_local T T' _ _
    | refine local_bind ?_ (fun _ => ?_)

theorem Parser.argsLoop_local {T T' : List Token} {expression expression' : Parser ExprAST}
    (he : Local T T' expression expression') :
    ∀ (fuel fuel' : Nat), fuel ≤ fuel' → ∀ args : List ExprAST,
      Local T T' (Parser.argsLoop T expression fuel args)
        (Parser.argsLoop T' expression' fuel' args)
  | 0, _, _, _ => local_fail _ _
  | fuel + 1, 0, h, _ => absurd h (by omega)
  | fuel + 1, fuel' + 1, h, args => by
    have ih := Parser.argsLoop_local he fuel fuel' (by omega)
    unfold Parser.argsLoop
    repeat' first
      | exact local_pure _
      | exact ih _
      | exact he
      | exact Parser.match_local T T' _
      | refine local_bind ?_ (fun _ => ?_)
      | refine local_ite ?_ ?_

theorem Parser.yapStatement_local (T T' : List Token) {fuel fuel' : Nat} (h : fuel ≤ fuel') :
    Local T T' (Parser.yapStatement T fuel) (Parser.yapStatement T' fuel') := by
  unfold Parser.yapStatement
  repeat' first
    | exact local_pure _
    | exact Parser.argsLoop_local (Parser.expression_local T T' h) _ _ h _
    | exact Parser.check_local T T' _
    | exact Parser.consume_local T T' _ _
    | refine local_bind ?_ (fun _ => ?_)
    | refine local_ite ?_ ?_

theorem Parser.frStatement_local {T T' : List Token} {statement statement' : Parser StmtAST}
    (hs : Local T T' statement statement') {fuel fuel' : Nat} (h : fuel ≤ fuel') :
    Local T T' (Parser.frStatement T statement fuel)
      (Parser.frStatement T' statement' fuel') := by
  unfold Parser.frStatement
  repeat' first
    | exact local_pure _
    | exact Parser.expression_local T T' h
    | exact Parser.block_local hs h
    | exact Parser.match_local T T' _
    | exact Parser.consume_local T T' _ _
    | refine local_bind ?_ (fun _ => ?_)
    | refine local_ite ?_ ?_

theorem Parser.betStatement_local {T T' : List Token} {statement statement' : Parser StmtAST}
    (hs : Local T T' statement statement') {fuel fuel' : Nat} (h : fuel ≤ fuel') :
    Local T T' (Parser.betStatement T statement fuel)
      (Parser.betStatement T' statement' fuel') := by
  unfold Parser.betStatement
  repeat' first
    | exact local_pure _
    | exact Parser.expression_local T T' h
    | exact Parser.block_local hs h
    | exact Parser.match_local T T' _
    | exact Parser.consume_local T T' _ _
    | refine local_bind ?_ (fun _ => ?_)
    | refine local_ite ?_ ?_

theorem Parser.paramsLoop_local (T T' : List Token) :
    ∀ (fuel fuel' : Nat), fuel ≤ fuel' → ∀ parameters : List Str,
      Local T T' (Parser.paramsLoop T fuel parameters) (Parser.paramsLoop T' fuel' parameters)
  | 0, _, _, _ => local_fail _ _
  | fuel + 1, 0, h, _ => absurd h (by omega)
  | fuel + 1, fuel' + 1, h, parameters => by
    have ih := Parser.paramsLoop_local T T' fuel fuel' (by omega)
    unfold Parser.paramsLoop
    repeat' first
      | exact local_pure _
      | exact ih _
      | exact Parser.match_local T T' _
      | exact Parser.consume_local T T' _ _
      | refine local_bind ?_ (fun _ => ?_)
      | refine local_ite ?_ ?_

theorem Parser.bruhStatement_local {T T' : List Token} {statement statement' : Parser StmtAST}
    (hs : Local T T' statement statement') {fuel fuel' : Nat} (h : fuel ≤ fuel') :
    Local T T' (Parser.bruhStatement T statement fuel)
      (Parser.bruhStatement T' statement' fuel') := by
  unfold Parser.bruhStatement
  repeat' first
    | exact local_pure _
    | exact Parser.paramsLoop_local T T' _ _ h _
    | exact Parser.block_local hs h
    | exact Parser.check_local T T' _
    | exact Parser.consume_local T T' _ _
    | refine local_bind ?_ (fun _ => ?_)
    | refine local_ite ?_ ?_

theorem Parser.statement_local (T T' : List Token) :
    ∀ (fuel fuel' : Nat), fuel ≤ fuel' →
      Local T T' (Parser.statement T fuel) (Parser.statement T' fuel')
  | 0, _, _ => local_fail _ _
  | fuel + 1, 0, h => absurd h (by omega)
  | fuel + 1, fuel' + 1, h => by
    have ih := Parser.statement_local T T' fuel fuel' (by omega)
    have hf : fuel ≤ fuel' := Nat.le_of_succ_le_succ h
    unfold Parser.statement
    repeat' first
      | exact local_pure _
      | exact local_throwRuntime _ _
      | exact Parser.yapStatement_local T T' hf
      | exact Parser.frStatement_local ih hf
      | exact Parser.betStatement_local ih hf
      | exact Parser.bruhStatement_local ih hf
      | exact Parser.expression_local T T' hf
      | exact Parser.block_local ih hf
      | exact Parser.match_local T T' _
      | exact Parser.consume_local T T' _ _
      | refine local_bind ?_ (fun _ => ?_)
      | refine local_ite ?_ ?_


/-- What a successful `consume` says about the token at the cursor. -/
theorem Parser.consume_ok {T : List Token} {type : TokenType} {message : Str} {c c' : Nat}
    {t : Token} (h : Parser.consume T type message c = .ok (t, c')) :
    T[c]? = some t ∧ t.type = type ∧ type ≠ TOK_EOF ∧ c' = c + 1 := by
  cases ht : T[c]? with
  | none => simp [Parser.consume, Parser.check, Parser.isAtEnd, Parser.peek, ht] at h
  | some t0 =>
    by_cases hT : t0.type = type
    · by_cases hE : type = TOK_EOF
      · subst hT
        simp [Parser.consume, Parser.check_of_get ht, hE] at h
      · rw [Parser.consume_hit type ht hT hE message] at h
        simp only [Except.ok.injEq, Prod.mk.injEq] at h
        obtain ⟨rfl, rfl⟩ := h
        exact ⟨rfl, hT, hE, rfl⟩
    · rw [Parser.consume_miss type ht hT message] at h
      simp at h

theorem Agree.of_take {T T' : List Token} {n : Nat} (h : T'.take n = T.take n) :
    Agree T T' n := by
  intro i hi
  have h1 : (T'.take n)[i]? = (T.take n)[i]? := by rw [h]
  simpa [List.getElem?_take, hi] using h1

/-- The body of `parseCook` reads no token behind the closing brace it consumes last. -/
theorem Parser.cook_local (T T' : List Token) {fuel fuel' : Nat} (hf : fuel ≤ fuel')
    {ast : CookAST} {c0 c : Nat} (h : Parser.cook T fuel c0 = .ok (ast, c))
    (ha : Agree T T' c) :
    Parser.cook T' fuel' c0 = .ok (ast, c) ∧
      ∃ t, T[c - 1]? = some t ∧ t.type = TOK_RIGHT_BRACE ∧ 0 < c := by
  unfold Parser.cook at h
  obtain ⟨b, c1, h1, h⟩ := StateExcept.bind_ok h
  cases b with
  | false => simp at h
  | true =>
    simp only [Bool.not_true, Bool.false_eq_true, if_false] at h
    obtain ⟨t2, c2, h2, h⟩ := StateExcept.bind_ok h
    obtain ⟨body, c3, h3, h⟩ := StateExcept.bind_ok h
    obtain ⟨t4, c4, h4, h⟩ := StateExcept.bind_ok h
    simp only [StateExcept.pure_apply, Except.ok.injEq, Prod.mk.injEq] at h
    obtain ⟨rfl, rfl⟩ := h
    obtain ⟨g4, y4, e4, rfl⟩ := Parser.consume_ok h4
    obtain ⟨l1, r1⟩ := Parser.match_local T T' _ _ _ _ h1
    obtain ⟨l2, r2⟩ := Parser.consume_local T T' _ _ _ _ _ h2
    obtain ⟨l3, r3⟩ := Parser.statementLoop_local
      (Parser.statement_local T T' fuel fuel' hf) fuel fuel' hf [] _ _ _ h3
    have g4' : T'[c3]? = some t4 := by rw [ha c3 (by omega), g4]
    refine ⟨?_, t4, by simpa using g4, y4, by omega⟩
    simp only [Parser.cook, StateExcept.bind_apply, r1 (ha.weaken (by omega)),
      r2 (ha.weaken (by omega)), r3 (ha.weaken (by omega)), Bool.not_true, Bool.false_eq_true,
      if_false, Parser.consume_hit TOK_RIGHT_BRACE g4' y4 (by decide), StateExcept.pure_apply]

/-! ## Properties of what the parser returns -/

theorem Returns.of_pure {α : Type} {P : α → Prop} {a : α} (h : P a) :
    Returns P (pure a : Parser α) := by
  intro c b c' hb
  simp only [StateExcept.pure_apply, Except.ok.injEq, Prod.mk.injEq] at hb
  obtain ⟨rfl, -⟩ := hb
  exact h

theorem Returns.of_fail {α : Type} {P : α → Prop} (err : Err) :
    Returns P (StateExcept.fail err : Parser α) := by
  intro c b c' hb
  simp at hb

theorem Returns.of_throw {α : Type} {P : α → Prop} (m : Str) :
    Returns P (StateExcept.throwRuntime m : Parser α) :=
  Returns.of_fail _

theorem Returns.of_bind {α β : Type} {Q : α → Prop} {P : β → Prop} {p : Parser α}
    {f : α → Parser β} (hp : Returns Q p) (hf : ∀ a, Q a → Returns P (f a)) :
    Returns P (p >>= f) := by
  intro c b c' h
  obtain ⟨a, c1, h1, h2⟩ := StateExcept.bind_ok h
  exact hf a (hp c a c1 h1) c1 b c' h2

theorem Returns.of_ite {α : Type} {P : α → Prop} {C : Prop} [Decidable C] {p q : Parser α}
    (hp : Returns P p) (hq : Returns P q) : Returns P (if C then p else q) := by
  by_cases h : C
  · simpa only [if_pos h] using hp
  · simpa only [if_neg h] using hq

theorem Returns.any {α : Type} (p : Parser α) : Returns (fun _ => True) p :=
  fun _ _ _ _ => trivial

theorem Returns.of_bind_any {α β : Type} {P : β → Prop} {p : Parser α} {f : α → Parser β}
    (hf : ∀ a, Returns P (f a)) : Returns P (p >>= f) :=
  Returns.of_bind (Returns.any p) (fun a _ => hf a)

theorem noBareExprs_append (l : List StmtAST) (s : StmtAST) :
    noBareExprs (l ++ [s]) = (noBareExprs l && noBareExpr s) := by
  induction l with
  | nil => simp [noBareExprs]
  | cons x xs ih => simp [noBareExprs, ih, Bool.and_assoc]

theorem Parser.statementLoop_bare (T : List Token) {statement : Parser StmtAST}
    (hs : Returns (fun s => noBareExpr s = true) statement) :
    ∀ (fuel : Nat) (statements : List StmtAST), noBareExprs statements = true →
      Returns (fun l => noBareExprs l = true) (Parser.statementLoop T statement fuel statements)
  | 0, _, _ => Returns.of_fail _
  | fuel + 1, statements, h => by
    have ih := Parser.statementLoop_bare T hs fuel
    unfold Parser.statementLoop
    refine Returns.of_bind (Returns.any _) (fun _ _ => Returns.of_ite (Returns.of_pure h) ?_)
    refine Returns.of_bind (Returns.any _) (fun _ _ => Returns.of_ite (Returns.of_pure h) ?_)
    refine Returns.of_bind hs (fun s hs1 => ih _ ?_)
    rw [noBareExprs_append, h, hs1]
    rfl

theorem Parser.block_bare (T : List Token) {statement : Parser StmtAST}
    (hs : Returns (fun s => noBareExpr s = true) statement) (fuel : Nat) :
    Returns (fun l => noBareExprs l = true) (Parser.block T statement fuel) := by
  unfold Parser.block
  refine Returns.of_bind (Returns.any _) (fun _ _ => ?_)
  refine Returns.of_bind (Parser.statementLoop_bare T hs fuel [] rfl) (fun l hl => ?_)
  exact Returns.of_bind (Returns.any _) (fun _ _ => Returns.of_pure hl)

theorem Parser.statement_bare (T : List Token) :
    ∀ fuel : Nat, Returns (fun s => noBareExpr s = true) (Parser.statement T fuel)
  | 0 => Returns.of_fail _
  | fuel + 1 => by
    have hb := Parser.block_bare T (Parser.statement_bare T fuel) fuel
    unfold Parser.statement Parser.yapStatement Parser.frStatement Parser.betStatement
      Parser.bruhStatement
    repeat' first
      | exact Returns.of_throw _
      | exact Returns.of_pure (by simp [noBareExpr, noBareExprs, *])
      | refine Returns.of_bind hb (fun _ _ => ?_)
      | refine Returns.of_bind
          (Returns.of_pure rfl : Returns (fun l => noBareExprs l = true) (pure [])) (fun _ _ => ?_)
      | refine Returns.of_bind_any (fun _ => ?_)
      | refine Returns.of_ite ?_ ?_

theorem Parser.cook_bare (T : List Token) (fuel : Nat) :
    Returns (fun ast => noBareExprs ast.body = true) (Parser.cook T fuel) := by
  unfold Parser.cook
  refine Returns.of_bind (Returns.any _) (fun _ _ => Returns.of_ite (Returns.of_throw _) ?_)
  refine Returns.of_bind (Returns.any _) (fun _ _ => ?_)
  refine Returns.of_bind
    (Parser.statementLoop_bare T (Parser.statement_bare T fuel) fuel [] rfl) (fun l hl => ?_)
  exact Returns.of_bind (Returns.any _) (fun _ _ => Returns.of_pure hl)

theorem parseCook_ok {T : List Token} {ast : CookAST} (h : parseCook T = .ok ast) :
    ∃ c, Parser.cook T (T.length + 1) 0 = .ok (ast, c) := by
  unfold parseCook parseCookAt at h
  cases hc : Parser.cook T (T.length + 1) 0 with
  | error e => rw [hc] at h; simp at h
  | ok p =>
    obtain ⟨a, c⟩ := p
    rw [hc] at h
    simp only [Except.ok.injEq] at h
    subst h
    exact ⟨c, rfl⟩

/-! ### The operator tags of the binary nodes -/

theorem operatorChar_mem {ty : TokenType} {c : Char} (h : operatorChar ty = some c) :
    c ∈ lexedOperators := by
  cases ty <;> simp [operatorChar] at h <;> subst h <;> decide

theorem Parser.match_true {T : List Token} {ty : TokenType} {c c' : Nat}
    (h : Parser.match T ty c = .ok (true, c')) :
    ∃ t, T[c]? = some t ∧ t.type = ty ∧ c' = c + 1 := by
  cases hT : T[c]? with
  | none => simp [Parser.match, Parser.check, Parser.isAtEnd, Parser.peek, hT] at h
  | some t =>
    by_cases hty : t.type = ty
    · by_cases hE : ty = TOK_EOF
      · subst hty
        simp [Parser.match, Parser.check_of_get hT, hE] at h
      · rw [Parser.match_hit ty hT hty hE] at h
        simp only [Except.ok.injEq, Prod.mk.injEq, true_and] at h
        exact ⟨t, rfl, hty, h.symm⟩
    · rw [Parser.match_miss ty hT hty] at h
      simp at h

/-- After a successful `match`, `previous` is the token matched. -/
theorem Parser.match_previous {T : List Token} {ty : TokenType} {c c' : Nat}
    (h : Parser.match T ty c = .ok (true, c')) :
    ∃ t, Parser.previous T c' = .ok (t, c') ∧ t ∈ T ∧ t.type = ty := by
  obtain ⟨t, hT, hty, rfl⟩ := Parser.match_true h
  exact ⟨t, Parser.previous_of_get hT, List.mem_iff_getElem?.mpr ⟨c, hT⟩, hty⟩

theorem Parser.matchOr_previous {T : List Token} {a b : TokenType} {c c' : Nat}
    (h : Parser.matchOr T a b c = .ok (true, c')) :
    ∃ t, Parser.previous T c' = .ok (t, c') ∧ t ∈ T ∧ t.type ∈ [a, b] := by
  unfold Parser.matchOr at h
  obtain ⟨x, c1, h1, h2⟩ := StateExcept.bind_ok h
  cases x with
  | true =>
    simp only [if_true, StateExcept.pure_apply, Except.ok.injEq, Prod.mk.injEq, true_and] at h2
    subst h2
    obtain ⟨t, p1, p2, p3⟩ := Parser.match_previous h1
    exact ⟨t, p1, p2, by simp [p3]⟩
  | false =>
    simp only [Bool.false_eq_true, if_false] at h2
    obtain ⟨t, p1, p2, p3⟩ := Parser.match_previous h2
    exact ⟨t, p1, p2, by simp [p3]⟩

theorem Parser.matchList_previous {T : List Token} :
    ∀ (types : List TokenType) {c c' : Nat}, Parser.matchList T types c = .ok (true, c') →
      ∃ t, Parser.previous T c' = .ok (t, c') ∧ t ∈ T ∧ t.type ∈ types
  | [], c, c', h => by simp [Parser.matchList] at h
  | ty :: types, c, c', h => by
    have hm : Parser.matchList T (ty :: types) =
        (Parser.match T ty >>= fun b =>
          if b = true then pure true else Parser.matchList T types) := by
      funext c
      simp only [Parser.matchList, Parser.match, StateExcept.bind_apply]
      cases Parser.check T ty c with
      | error e => rfl
      | ok p =>
        obtain ⟨b, c1⟩ := p
        cases b with
        | false => rfl
        | true =>
          simp only [if_true, StateExcept.bind_apply]
          cases Parser.advance T c1 with
          | error e => rfl
          | ok q => rfl
    rw [hm] at h
    obtain ⟨x, c1, h1, h2⟩ := StateExcept.bind_ok h
    cases x with
    | true =>
      simp only [if_true, StateExcept.pure_apply, Except.ok.injEq, Prod.mk.injEq,
        true_and] at h2
      subst h2
      obtain ⟨t, p1, p2, p3⟩ := Parser.match_previous h1
      exact ⟨t, p1, p2, by simp [p3]⟩
    | false =>
      simp only [Bool.false_eq_true, if_false] at h2
      obtain ⟨t, p1, p2, p3⟩ := Parser.matchList_previous types h2
      exact ⟨t, p1, p2, List.mem_cons_of_mem _ p3⟩

theorem Parser.binaryLoop_ops {T : List Token} (H : LexedTokens T) {cond : Parser Bool}
    {sub : Parser ExprAST} (types : List TokenType)
    (ht : ∀ ty ∈ types, (operatorChar ty).isSome = true)
    (hc : ∀ c c', cond c = .ok (true, c') →
      ∃ t, Parser.previous T c' = .ok (t, c') ∧ t ∈ T ∧ t.type ∈ types)
    (hs : Returns (fun e => binaryOps e ⊆ lexedOperators) sub) :
    ∀ (fuel : Nat) (expr : ExprAST), binaryOps expr ⊆ lexedOperators →
      Returns (fun e => binaryOps e ⊆ lexedOperators) (Parser.binaryLoop T cond sub fuel expr)
  | 0, _, _ => Returns.of_fail _
  | fuel + 1, expr, he => by
    intro c a c' h
    unfold Parser.binaryLoop at h
    obtain ⟨b, c1, h1, h2⟩ := StateExcept.bind_ok h
    cases b with
    | false =>
      simp only [Bool.false_eq_true, if_false, StateExcept.pure_apply, Except.ok.injEq,
        Prod.mk.injEq] at h2
      obtain ⟨rfl, -⟩ := h2
      exact he
    | true =>
      simp only [if_true] at h2
      obtain ⟨op, c2, h3, h4⟩ := StateExcept.bind_ok h2
      obtain ⟨right, c3, h5, h6⟩ := StateExcept.bind_ok h4
      obtain ⟨t, p1, p2, p3⟩ := hc c c1 h1
      rw [p1] at h3
      simp only [Except.ok.injEq, Prod.mk.injEq] at h3
      obtain ⟨rfl, rfl⟩ := h3
      obtain ⟨x, hx⟩ := Option.isSome_iff_exists.mp (ht _ p3)
      have hop : firstChar t.lexeme ∈ lexedOperators := by
        rw [H t p2 x hx]
        exact operatorChar_mem hx
      refine Parser.binaryLoop_ops H types ht hc hs fuel _ ?_ c3 a c' h6
      intro y hy
      simp only [binaryOps, List.mem_cons, List.mem_append] at hy
      rcases hy with rfl | hy | hy
      · exact hop
      · exact he hy
      · exact hs _ _ _ h5 hy

theorem Parser.equality_ops {T : List Token} (H : LexedTokens T) {unary : Parser ExprAST}
    (hu : Returns (fun e => binaryOps e ⊆ lexedOperators) unary) (fuel : Nat) :
    Returns (fun e => binaryOps e ⊆ lexedOperators) (Parser.equality T unary fuel) := by
  have hf : Returns (fun e => binaryOps e ⊆ lexedOperators) (Parser.factor T unary fuel) :=
    Returns.of_bind hu (fun e he =>
      Parser.binaryLoop_ops H [TOK_STAR, TOK_SLASH] (by decide)
        (fun _ _ h => Parser.matchOr_previous h) hu fuel e he)
  have ht : Returns (fun e => binaryOps e ⊆ lexedOperators) (Parser.term T unary fuel) :=
    Returns.of_bind hf (fun e he =>
      Parser.binaryLoop_ops H [TOK_PLUS, TOK_MINUS] (by decide)
        (fun _ _ h => Parser.matchOr_previous h) hf fuel e he)
  have hc : Returns (fun e => binaryOps e ⊆ lexedOperators) (Parser.comparison T unary fuel) :=
    Returns.of_bind ht (fun e he =>
      Parser.binaryLoop_ops H
        [TOK_GREATER, TOK_GREATER_EQUAL, TOK_LESS, TOK_LESS_EQUAL] (by decide)
        (fun _ _ h => Parser.matchList_previous _ h) ht fuel e he)
  exact Returns.of_bind hc (fun e he =>
    Parser.binaryLoop_ops H [TOK_EQUAL_EQUAL, TOK_BANG_EQUAL] (by decide)
      (fun _ _ h => Parser.matchOr_previous h) hc fuel e he)

theorem numberOfToken_ops {t : Token} {e : ExprAST} (h : numberOfToken t = .ok e) :
    binaryOps e = [] := by
  unfold numberOfToken at h
  split_ifs at h
  · cases hs : stod t.lexeme with
    | error err => rw [hs] at h; simp at h
    | ok v =>
      rw [hs] at h
      simp only [Except.ok.injEq] at h
      subst h
      rfl
  · cases hs : stoi t.lexeme with
    | error err => rw [hs] at h; simp at h
    | ok v =>
      rw [hs] at h
      simp only [Except.ok.injEq] at h
      subst h
      rfl

theorem Parser.number_ops (t : Token) :
    Returns (fun e => binaryOps e ⊆ lexedOperators)
      (match numberOfToken t with
        | .error err => StateExcept.fail err
        | .ok e => (pure e : Parser ExprAST)) := by
  cases h : numberOfToken t with
  | error err => exact Returns.of_fail _
  | ok e => exact Returns.of_pure (by rw [numberOfToken_ops h]; simp)

theorem Parser.unary_ops {T : List Token} (H : LexedTokens T) :
    ∀ fuel : Nat, Returns (fun e => binaryOps e ⊆ lexedOperators) (Parser.unary T fuel)
  | 0 => Returns.of_fail _
  | fuel + 1 => by
    have ih := Parser.unary_ops H fuel
    have he := Parser.equality_ops H ih fuel
    unfold Parser.unary Parser.primary
    repeat' first
      | exact Returns.of_throw _
      | exact Parser.number_ops _
      | exact Returns.of_pure (by simp [binaryOps, *])
      | refine Returns.of_bind ih (fun _ _ => ?_)
      | refine Returns.of_bind he (fun _ _ => ?_)
      | refine Returns.of_bind_any (fun _ => ?_)
      | refine Returns.of_ite ?_ ?_

theorem Parser.expression_ops {T : List Token} (H : LexedTokens T) (fuel : Nat) :
    Returns (fun e => binaryOps e ⊆ lexedOperators) (Parser.expression T fuel) :=
  Parser.equality_ops H (Parser.unary_ops H fuel) fuel

theorem binaryOpsList_append (l : List ExprAST) (e : ExprAST) :
    binaryOpsList (l ++ [e]) = binaryOpsList l ++ binaryOps e := by
  induction l with
  | nil => simp [binaryOpsList]
  | cons x xs ih => simp [binaryOpsList, ih]

theorem binaryOpsStmts_append (l : List StmtAST) (s : StmtAST) :
    binaryOpsStmts (l ++ [s]) = binaryOpsStmts l ++ binaryOpsStmt s := by
  induction l with
  | nil => simp [binaryOpsStmts]
  | cons x xs ih => simp [binaryOpsStmts, ih]

theorem Parser.argsLoop_ops (T : List Token) {expression : Parser ExprAST}
    (he : Returns (fun e => binaryOps e ⊆ lexedOperators) expression) :
    ∀ (fuel : Nat) (args : List ExprAST), binaryOpsList args ⊆ lexedOperators →
      Returns (fun l => binaryOpsList l ⊆ lexedOperators)
        (Parser.argsLoop T expression fuel args)
  | 0, _, _ => Returns.of_fail _
  | fuel + 1, args, h => by
    have ih := Parser.argsLoop_ops T he fuel
    unfold Parser.argsLoop
    refine Returns.of_bind he (fun e he1 => ?_)
    have h1 : binaryOpsList (args ++ [e]) ⊆ lexedOperators := by
      rw [binaryOpsList_append]
      exact List.append_subset.mpr ⟨h, he1⟩
    exact Returns.of_bind_any (fun _ => Returns.of_ite (ih _ h1) (Returns.of_pure h1))

theorem Parser.statementLoop_ops (T : List Token) {statement : Parser StmtAST}
    (hs : Returns (fun s => binaryOpsStmt s ⊆ lexedOperators) statement) :
    ∀ (fuel : Nat) (statements : List StmtAST), binaryOpsStmts statements ⊆ lexedOperators →
      Returns (fun l => binaryOpsStmts l ⊆ lexedOperators)
        (Parser.statementLoop T statement fuel statements)
  | 0, _, _ => Returns.of_fail _
  | fuel + 1, statements, h => by
    have ih := Parser.statementLoop_ops T hs fuel
    unfold Parser.statementLoop
    refine Returns.of_bind_any (fun _ => Returns.of_ite (Returns.of_pure h) ?_)
    refine Returns.of_bind_any (fun _ => Returns.of_ite (Returns.of_pure h) ?_)
    refine Returns.of_bind hs (fun s hs1 => ih _ ?_)
    rw [binaryOpsStmts_append]
    exact List.append_subset.mpr ⟨h, hs1⟩

theorem Parser.block_ops (T : List Token) {statement : Parser StmtAST}
    (hs : Returns (fun s => binaryOpsStmt s ⊆ lexedOperators) statement) (fuel : Nat) :
    Returns (fun l => binaryOpsStmts l ⊆ lexedOperators) (Parser.block T statement fuel) := by
  unfold Parser.block
  refine Returns.of_bind_any (fun _ => ?_)
  refine Returns.of_bind
    (Parser.statementLoop_ops T hs fuel [] (by simp [binaryOpsStmts])) (fun l hl => ?_)
  exact Returns.of_bind_any (fun _ => Returns.of_pure hl)

theorem Parser.statement_ops {T : List Token} (H : LexedTokens T) :
    ∀ fuel : Nat, Returns (fun s => binaryOpsStmt s ⊆ lexedOperators) (Parser.statement T fuel)
  | 0 => Returns.of_fail _
  | fuel + 1 => by
    have hb := Parser.block_ops T (Parser.statement_ops H fuel) fuel
    have he := Parser.expression_ops H fuel
    have ha := Parser.argsLoop_ops T he fuel [] (by simp [binaryOpsList])
    unfold Parser.statement Parser.yapStatement Parser.frStatement Parser.betStatement
      Parser.bruhStatement
    repeat' first
      | exact Returns.of_throw _
      | exact Returns.of_pure (by
          simp [binaryOpsStmt, binaryOpsStmts, binaryOpsOpt, binaryOps, binaryOpsList, *])
      | refine Returns.of_bind hb (fun _ _ => ?_)
      | refine Returns.of_bind he (fun _ _ => ?_)
      | refine Returns.of_bind ha (fun _ _ => ?_)
      | refine Returns.of_bind (Returns.of_pure (by simp [binaryOpsStmts]) :
          Returns (fun l => binaryOpsStmts l ⊆ lexedOperators) (pure [])) (fun _ _ => ?_)
      | refine Returns.of_bind (Returns.of_pure (by simp [binaryOpsList]) :
          Returns (fun l => binaryOpsList l ⊆ lexedOperators) (pure [])) (fun _ _ => ?_)
      | refine Returns.of_bind (Returns.of_pure (by simp [binaryOpsStmt, binaryOps, *]) :
          Returns (fun s => binaryOpsStmt s ⊆ lexedOperators) (pure _)) (fun _ _ => ?_)
      | refine Returns.of_bind_any (fun _ => ?_)
      | refine Returns.of_ite ?_ ?_

theorem Parser.cook_ops {T : List Token} (H : LexedTokens T) (fuel : Nat) :
    Returns (fun ast => binaryOpsStmts ast.body ⊆ lexedOperators) (Parser.cook T fuel) := by
  unfold Parser.cook
  refine Returns.of_bind_any (fun _ => Returns.of_ite (Returns.of_throw _) ?_)
  refine Returns.of_bind_any (fun _ => ?_)
  refine Returns.of_bind (Parser.statementLoop_ops T (Parser.statement_ops H fuel) fuel []
    (by simp [binaryOpsStmts])) (fun l hl => ?_)
  exact Returns.of_bind_any (fun _ => Returns.of_pure hl)

theorem scanTokens_lexedTokens {source : Str} {tokens : List Token}
    (h : scanTokens source = .ok tokens) : LexedTokens tokens := by
  obtain ⟨ts, rfl, hts⟩ := scanTokens_lexed source tokens h
  intro t ht c hc
  rcases List.mem_append.mp ht with ht | ht
  · exact (hts t ht).2 c hc
  · simp only [List.mem_singleton] at ht
    subst ht
    simp [eofToken, operatorChar] at hc

/-! ## The parser under the replacement of the or-equal tokens -/

theorem StateExcept.bind_assoc {σ α β γ : Type} (p : StateExcept σ α)
    (f : α → StateExcept σ β) (g : β → StateExcept σ γ) :
    (p >>= f) >>= g = p >>= fun a => f a >>= g := by
  funext s
  simp only [StateExcept.bind_apply]
  cases p s with
  | error e => rfl
  | ok r => rfl

theorem StateExcept.pure_bind {σ α β : Type} (a : α) (f : α → StateExcept σ β) :
    (pure a : StateExcept σ α) >>= f = f a := rfl

theorem relaxComparison_beq (t : Token) (ty : TokenType) (h : ty ∉ comparisonTypes) :
    ((relaxComparison t).type == ty) = (t.type == ty) := by
  unfold relaxComparison
  split_ifs with h1 h2
  · cases ty <;> simp [h1.1, comparisonTypes] at h ⊢
  · cases ty <;> simp [h2.1, comparisonTypes] at h ⊢
  · rfl

theorem relaxComparison_type (t : Token) (ty : TokenType) (h : ty ∉ comparisonTypes) :
    ((relaxComparison t).type = ty) ↔ (t.type = ty) := by
  have := relaxComparison_beq t ty h
  constructor
  · intro e
    have h1 : ((relaxComparison t).type == ty) = true := by simp [e]
    rw [this] at h1
    simpa using h1
  · intro e
    have h1 : (t.type == ty) = true := by simp [e]
    rw [← this] at h1
    simpa using h1

theorem relaxComparison_mem (t : Token) :
    ((relaxComparison t).type ∈ comparisonTypes) = (t.type ∈ comparisonTypes) := by
  unfold relaxComparison
  split_ifs with h1 h2
  · simp [h1.1, comparisonTypes]
  · simp [h2.1, comparisonTypes]
  · rfl

theorem relaxComparison_firstChar (t : Token) :
    firstChar (relaxComparison t).lexeme = firstChar t.lexeme := by
  unfold relaxComparison
  split_ifs with h1 h2
  · simp [h1.2, firstChar]
  · simp [h2.2, firstChar]
  · rfl

theorem relaxComparison_of_type (t : Token) (ty : TokenType) (h : ty ∉ comparisonTypes)
    (ht : t.type = ty) : relaxComparison t = t := by
  unfold relaxComparison
  subst ht
  rw [if_neg (fun e => h (by simp [e.1, comparisonTypes])),
    if_neg (fun e => h (by simp [e.1, comparisonTypes]))]

theorem getElem_relax (T : List Token) (c : Nat) :
    (T.map relaxComparison)[c]? = (T[c]?).map relaxComparison := List.getElem?_map _ _ _

theorem Parser.isAtEnd_relax (T : List Token) :
    Parser.isAtEnd (T.map relaxComparison) = Parser.isAtEnd T := by
  funext c
  cases h : T[c]? with
  | none =>
    have h' : (T.map relaxComparison)[c]? = none := by rw [getElem_relax, h]; rfl
    simp [Parser.isAtEnd, Parser.peek, h, h']
  | some t =>
    have h' : (T.map relaxComparison)[c]? = some (relaxComparison t) := by
      rw [getElem_relax, h]; rfl
    rw [Parser.isAtEnd_of_get h, Parser.isAtEnd_of_get h',
      relaxComparison_beq t TOK_EOF (by decide)]

theorem Parser.check_relax (T : List Token) (ty : TokenType) (hty : ty ∉ comparisonTypes) :
    Parser.check (T.map relaxComparison) ty = Parser.check T ty := by
  funext c
  cases h : T[c]? with
  | none =>
    have h' : (T.map relaxComparison)[c]? = none := by rw [getElem_relax, h]; rfl
    simp [Parser.check, Parser.isAtEnd, Parser.peek, h, h']
  | some t =>
    have h' : (T.map relaxComparison)[c]? = some (relaxComparison t) := by
      rw [getElem_relax, h]; rfl
    rw [Parser.check_of_get h, Parser.check_of_get h',
      relaxComparison_beq t TOK_EOF (by decide), relaxComparison_beq t ty hty]

theorem Parser.previous_relax (T : List Token) :
    Parser.previous (T.map relaxComparison) =
      Parser.previous T >>= fun t => pure (relaxComparison t) := by
  funext c
  unfold Parser.previous
  by_cases hc : c = 0
  · simp [hc]
  · simp only [if_neg hc, StateExcept.bind_apply, getElem_relax]
    cases T[c - 1]? with
    | none => rfl
    | some t => rfl

theorem Parser.advance_relax (T : List Token) :
    Parser.advance (T.map relaxComparison) =
      Parser.advance T >>= fun t => pure (relaxComparison t) := by
  funext c
  simp only [Parser.advance, Parser.isAtEnd_relax, Parser.previous_relax,
    StateExcept.bind_apply]
  cases Parser.isAtEnd T c with
  | error e => rfl
  | ok p =>
    obtain ⟨b, c1⟩ := p
    cases b with
    | false =>
      simp only [Bool.not_false, if_true]
      cases Parser.previous T (c1 + 1) with
      | error e => rfl
      | ok q => rfl
    | true =>
      simp only [Bool.not_true, Bool.false_eq_true, if_false, StateExcept.pure_apply]
      cases Parser.previous T c1 with
      | error e => rfl
      | ok q => rfl

theorem Parser.match_relax (T : List Token) (ty : TokenType) (hty : ty ∉ comparisonTypes) :
    Parser.match (T.map relaxComparison) ty = Parser.match T ty := by
  unfold Parser.match
  simp only [Parser.check_relax T ty hty, Parser.advance_relax, StateExcept.bind_assoc,
    StateExcept.pure_bind]

theorem Parser.matchOr_relax (T : List Token) (a b : TokenType) (ha : a ∉ comparisonTypes)
    (hb : b ∉ comparisonTypes) :
    Parser.matchOr (T.map relaxComparison) a b = Parser.matchOr T a b := by
  unfold Parser.matchOr
  rw [Parser.match_relax T a ha, Parser.match_relax T b hb]

theorem Parser.consume_relax (T : List Token) (ty : TokenType) (message : Str)
    (hty : ty ∉ comparisonTypes) :
    Parser.consume (T.map relaxComparison) ty message = Parser.consume T ty message := by
  funext c
  cases h : T[c]? with
  | none =>
    have h' : (T.map relaxComparison)[c]? = none := by rw [getElem_relax, h]; rfl
    simp [Parser.consume, Parser.check, Parser.isAtEnd, Parser.peek, h, h']
  | some t =>
    have h' : (T.map relaxComparison)[c]? = some (relaxComparison t) := by
      rw [getElem_relax, h]; rfl
    by_cases ht : t.type = ty
    · have e := relaxComparison_of_type t ty hty ht
      rw [e] at h'
      subst ht
      simp only [Parser.consume, StateExcept.bind_apply, Parser.check_of_get h,
        Parser.check_of_get h']
      by_cases hE : t.type = TOK_EOF
      · simp [hE]
      · simp [hE, Parser.advance_of_get h hE, Parser.advance_of_get h' hE]
    · have ht' : (relaxComparison t).type ≠ ty :=
        fun e => ht ((relaxComparison_type t ty hty).mp e)
      rw [Parser.consume_miss ty h ht, Parser.consume_miss ty h' ht']

theorem Parser.matchList_hit {T : List Token} {c : Nat} {t : Token} (h : T[c]? = some t) :
    ∀ types : List TokenType, t.type ∈ types → TOK_EOF ∉ types →
      Parser.matchList T types c = .ok (true, c + 1)
  | [], hm, _ => by simp at hm
  | ty :: types, hm, hE => by
    have hne : t.type ≠ TOK_EOF := fun e => hE (e ▸ hm)
    by_cases hty : t.type = ty
    · simp [Parser.matchList, Parser.check_of_get h, hty ▸ hne, hty,
        Parser.advance_of_get h hne]
    · have hm' : t.type ∈ types := by
        rcases List.mem_cons.mp hm with e | e
        · exact absurd e hty
        · exact e
      have ih := Parser.matchList_hit h types hm' (fun e => hE (List.mem_cons_of_mem _ e))
      simp [Parser.matchList, Parser.check_of_get h, hty, ih]

theorem Parser.matchList_relax (T : List Token) :
    Parser.matchList (T.map relaxComparison) comparisonTypes =
      Parser.matchList T comparisonTypes := by
  funext c
  cases h : T[c]? with
  | none =>
    have h' : (T.map relaxComparison)[c]? = none := by rw [getElem_relax, h]; rfl
    simp [comparisonTypes, Parser.matchList, Parser.check, Parser.isAtEnd, Parser.peek, h, h']
  | some t =>
    have h' : (T.map relaxComparison)[c]? = some (relaxComparison t) := by
      rw [getElem_relax, h]; rfl
    by_cases hm : t.type ∈ comparisonTypes
    · rw [Parser.matchList_hit h _ hm (by decide),
        Parser.matchList_hit h' _ (by rw [relaxComparison_mem]; exact hm) (by decide)]
    · rw [Parser.matchList_miss h _ hm,
        Parser.matchList_miss h' _ (by rw [relaxComparison_mem]; exact hm)]


theorem Parser.binaryLoop_relax (T : List Token) (cond : Parser Bool) (sub : Parser ExprAST) :
    ∀ (fuel : Nat) (expr : ExprAST),
      Parser.binaryLoop (T.map relaxComparison) cond sub fuel expr =
        Parser.binaryLoop T cond sub fuel expr
  | 0, _ => rfl
  | fuel + 1, expr => by
    have ih := Parser.binaryLoop_relax T cond sub fuel
    simp only [Parser.binaryLoop, ih, Parser.previous_relax, StateExcept.bind_assoc,
      StateExcept.pure_bind, relaxComparison_firstChar]

theorem Parser.equality_relax (T : List Token) (unary : Parser ExprAST) (fuel : Nat) :
    Parser.equality (T.map relaxComparison) unary fuel = Parser.equality T unary fuel := by
  have h : comparisonTypes = [TOK_GREATER, TOK_GREATER_EQUAL, TOK_LESS, TOK_LESS_EQUAL] := rfl
  simp only [Parser.equality, Parser.comparison, Parser.term, Parser.factor,
    Parser.binaryLoop_relax, Parser.matchOr_relax T TOK_STAR TOK_SLASH (by decide) (by decide),
    Parser.matchOr_relax T TOK_PLUS TOK_MINUS (by decide) (by decide),
    Parser.matchOr_relax T TOK_EQUAL_EQUAL TOK_BANG_EQUAL (by decide) (by decide),
    ← h, Parser.matchList_relax]

/-- A `match` followed by `previous` sees a token of the type matched. -/
theorem Parser.match_then {α : Type} (T : List Token) (ty : TokenType)
    {k k' : Token → Parser α} {q q' : Parser α} (hk : ∀ t, t.type = ty → k t = k' t)
    (hq : q = q') :
    (Parser.match T ty >>= fun b => if b = true then Parser.previous T >>= k else q) =
      (Parser.match T ty >>= fun b => if b = true then Parser.previous T >>= k' else q') := by
  subst hq
  funext c
  simp only [StateExcept.bind_apply]
  cases hm : Parser.match T ty c with
  | error e => rfl
  | ok p =>
    obtain ⟨b, c1⟩ := p
    cases b with
    | false => rfl
    | true =>
      obtain ⟨t, p1, -, p3⟩ := Parser.match_previous hm
      simp only [if_true, StateExcept.bind_apply, p1, hk t p3]

theorem Parser.primary_relax (T : List Token) (expression : Parser ExprAST) :
    Parser.primary (T.map relaxComparison) expression = Parser.primary T expression := by
  simp only [Parser.primary, Parser.match_relax T TOK_NUMBER_LITERAL (by decide),
    Parser.match_relax T TOK_IDENTIFIER (by decide),
    Parser.match_relax T TOK_STRING_LITERAL (by decide),
    Parser.match_relax T TOK_LEFT_PAREN (by decide),
    Parser.consume_relax T TOK_RIGHT_PAREN _ (by decide), Parser.previous_relax,
    StateExcept.bind_assoc, StateExcept.pure_bind]
  refine Parser.match_then T _ (fun t ht => ?_) ?_
  · rw [relaxComparison_of_type t _ (by decide) ht]
  refine Parser.match_then T _ (fun t ht => ?_) ?_
  · rw [relaxComparison_of_type t _ (by decide) ht]
  refine Parser.match_then T _ (fun t ht => ?_) rfl
  rw [relaxComparison_of_type t _ (by decide) ht]

theorem Parser.unary_relax (T : List Token) :
    ∀ fuel : Nat, Parser.unary (T.map relaxComparison) fuel = Parser.unary T fuel
  | 0 => rfl
  | fuel + 1 => by
    have ih := Parser.unary_relax T fuel
    simp only [Parser.unary, ih, Parser.equality_relax, Parser.primary_relax,
      Parser.matchOr_relax T TOK_MINUS TOK_BANG (by decide) (by decide), Parser.previous_relax,
      StateExcept.bind_assoc, StateExcept.pure_bind, relaxComparison_firstChar]

theorem Parser.expression_relax (T : List Token) (fuel : Nat) :
    Parser.expression (T.map relaxComparison) fuel = Parser.expression T fuel := by
  simp only [Parser.expression, Parser.unary_relax, Parser.equality_relax]

theorem Parser.statementLoop_relax (T : List Token) (statement : Parser StmtAST) :
    ∀ (fuel : Nat) (statements : List StmtAST),
      Parser.statementLoop (T.map relaxComparison) statement fuel statements =
        Parser.statementLoop T statement fuel statements
  | 0, _ => rfl
  | fuel + 1, statements => by
    have ih := Parser.statementLoop_relax T statement fuel
    simp only [Parser.statementLoop, ih, Parser.isAtEnd_relax,
      Parser.check_relax T TOK_RIGHT_BRACE (by decide)]

theorem Parser.block_relax (T : List Token) (statement : Parser StmtAST) (fuel : Nat) :
    Parser.block (T.map relaxComparison) statement fuel = Parser.block T statement fuel := by
  simp only [Parser.block, Parser.statementLoop_relax,
    Parser.consume_relax T TOK_LEFT_BRACE _ (by decide),
    Parser.consume_relax T TOK_RIGHT_BRACE _ (by decide)]

theorem Parser.argsLoop_relax (T : List Token) (expression : Parser ExprAST) :
    ∀ (fuel : Nat) (args : List ExprAST),
      Parser.argsLoop (T.map relaxComparison) expression fuel args =
        Parser.argsLoop T expression fuel args
  | 0, _ => rfl
  | fuel + 1, args => by
    have ih := Parser.argsLoop_relax T expression fuel
    simp only [Parser.argsLoop, ih, Parser.match_relax T TOK_COMMA (by decide)]

theorem Parser.paramsLoop_relax (T : List Token) :
    ∀ (fuel : Nat) (parameters : List Str),
      Parser.paramsLoop (T.map relaxComparison) fuel parameters =
        Parser.paramsLoop T fuel parameters
  | 0, _ => rfl
  | fuel + 1, parameters => by
    have ih := Parser.paramsLoop_relax T fuel
    simp only [Parser.paramsLoop, ih, Parser.match_relax T TOK_COMMA (by decide),
      Parser.consume_relax T TOK_IDENTIFIER _ (by decide)]

theorem Parser.statement_relax (T : List Token) :
    ∀ fuel : Nat, Parser.statement (T.map relaxComparison) fuel = Parser.statement T fuel
  | 0 => rfl
  | fuel + 1 => by
    have ih := Parser.statement_relax T fuel
    simp only [Parser.statement, Parser.yapStatement, Parser.frStatement, Parser.betStatement,
      Parser.bruhStatement, ih, Parser.expression_relax, Parser.block_relax,
      Parser.argsLoop_relax, Parser.paramsLoop_relax,
      Parser.match_relax T TOK_YAP (by decide), Parser.match_relax T TOK_FR (by decide),
      Parser.match_relax T TOK_BET (by decide), Parser.match_relax T TOK_POOKIE (by decide),
      Parser.match_relax T TOK_NO_CAP (by decide), Parser.match_relax T TOK_BRUH (by decide),
      Parser.match_relax T TOK_CAP (by decide),
      Parser.check_relax T TOK_RIGHT_PAREN (by decide),
      Parser.consume_relax T TOK_LEFT_PAREN _ (by decide),
      Parser.consume_relax T TOK_RIGHT_PAREN _ (by decide),
      Parser.consume_relax T TOK_SEMICOLON _ (by decide),
      Parser.consume_relax T TOK_IDENTIFIER _ (by decide),
      Parser.consume_relax T TOK_EQUAL _ (by decide),
      Parser.consume_relax T TOK_COMMA _ (by decide)]

theorem Parser.cook_relax (T : List Token) (fuel : Nat) :
    Parser.cook (T.map relaxComparison) fuel = Parser.cook T fuel := by
  simp only [Parser.cook, Parser.statement_relax, Parser.statementLoop_relax,
    Parser.match_relax T TOK_COOK (by decide),
    Parser.consume_relax T TOK_LEFT_BRACE _ (by decide),
    Parser.consume_relax T TOK_RIGHT_BRACE _ (by decide)]

/-! ## Chains of binary operators -/

/-- Two rounds of the loop of a binary chain nest to the left. -/
theorem Parser.binaryLoop_three {tokens : List Token} {cond : Parser Bool}
    {sub : Parser ExprAST} {j1 j2 k : Nat} {op1 op2 : Token} {b c : ExprAST} (fuel : Nat)
    (a : ExprAST) (h1 : cond j1 = .ok (true, j1 + 1)) (hop1 : tokens[j1]? = some op1)
    (hb : sub (j1 + 1) = .ok (b, j2)) (h2 : cond j2 = .ok (true, j2 + 1))
    (hop2 : tokens[j2]? = some op2) (hc : sub (j2 + 1) = .ok (c, k))
    (h3 : cond k = .ok (false, k)) :
    Parser.binaryLoop tokens cond sub (fuel + 3) a j1 =
      .ok (BinaryExprAST (firstChar op2.lexeme) (BinaryExprAST (firstChar op1.lexeme) a b) c,
        k) := by
  rw [Parser.binaryLoop_step (fuel + 2) a h1 hop1 hb,
    Parser.binaryLoop_step (fuel + 1) _ h2 hop2 hc, Parser.binaryLoop_exit fuel _ h3]

theorem Parser.matchOr_mem {tokens : List Token} {i : Nat} {t : Token} (a b : TokenType)
    (h : tokens[i]? = some t) (ht : t.type ∈ [a, b]) (ha : a ≠ TOK_EOF) (hb : b ≠ TOK_EOF) :
    Parser.matchOr tokens a b i = .ok (true, i + 1) :=
  Parser.matchOr_hit a b h (by simpa using ht) ha hb

theorem Parser.matchOr_not_mem {tokens : List Token} {i : Nat} {t : Token} (a b : TokenType)
    (h : tokens[i]? = some t) (ht : t.type ∉ [a, b]) :
    Parser.matchOr tokens a b i = .ok (false, i) :=
  Parser.matchOr_miss a b h (fun e => ht (by simp [e])) (fun e => ht (by simp [e]))

theorem type_not_mem_of_mem {ty : TokenType} {l l' : List TokenType} (h : ty ∈ l)
    (hd : ∀ x ∈ l, x ∉ l') : ty ∉ l' := hd ty h

/-- A `comparison` that is a single `term`: the next token is no comparison operator. -/
theorem Parser.comparison_one {tokens : List Token} {unary : Parser ExprAST} {i j : Nat}
    {a : ExprAST} {t : Token} (fuel : Nat)
    (ha : Parser.term tokens unary (fuel + 1) i = .ok (a, j)) (ht : tokens[j]? = some t)
    (h : t.type ∉ [TOK_GREATER, TOK_GREATER_EQUAL, TOK_LESS, TOK_LESS_EQUAL]) :
    Parser.comparison tokens unary (fuel + 1) i = .ok (a, j) := by
  simp [Parser.comparison, ha, Parser.binaryLoop_exit fuel a (Parser.matchList_miss ht _ h)]

/-- An `equality` that is a single `comparison`: the next token is no equality operator. -/
theorem Parser.equality_one {tokens : List Token} {unary : Parser ExprAST} {i j : Nat}
    {a : ExprAST} {t : Token} (fuel : Nat)
    (ha : Parser.comparison tokens unary (fuel + 1) i = .ok (a, j)) (ht : tokens[j]? = some t)
    (h : t.type ∉ [TOK_EQUAL_EQUAL, TOK_BANG_EQUAL]) :
    Parser.equality tokens unary (fuel + 1) i = .ok (a, j) := by
  simp [Parser.equality, ha,
    Parser.binaryLoop_exit fuel a (Parser.matchOr_not_mem _ _ ht h)]

/-- The chain `a op1 b op2 c` at one level, followed by the token `)`: the expression is
the left-nested tree. -/
theorem Parser.expression_chain {T : List Token} {unary : Parser ExprAST} {j1 j2 k : Nat}
    {op1 op2 cl : Token} {A B C : ExprAST} (fuel : Nat) (level : List TokenType)
    (hl : level ∈ operatorLevels) (h1 : op1.type ∈ level) (h2 : op2.type ∈ level)
    (ua : unary 4 = .ok (A, j1)) (g1 : T[j1]? = some op1)
    (ub : unary (j1 + 1) = .ok (B, j2)) (g2 : T[j2]? = some op2)
    (uc : unary (j2 + 1) = .ok (C, k)) (g3 : T[k]? = some cl)
    (hcl : cl.type = TOK_RIGHT_PAREN) :
    Parser.equality T unary (fuel + 3) 4 =
      .ok (BinaryExprAST (firstChar op2.lexeme) (BinaryExprAST (firstChar op1.lexeme) A B) C,
        k) := by
  have cF : cl.type ∉ [TOK_STAR, TOK_SLASH] := by rw [hcl]; decide
  have cT : cl.type ∉ [TOK_PLUS, TOK_MINUS] := by rw [hcl]; decide
  have cC : cl.type ∉ [TOK_GREATER, TOK_GREATER_EQUAL, TOK_LESS, TOK_LESS_EQUAL] := by
    rw [hcl]; decide
  have cE : cl.type ∉ [TOK_EQUAL_EQUAL, TOK_BANG_EQUAL] := by rw [hcl]; decide
  simp only [operatorLevels, List.mem_cons, List.mem_singleton, List.not_mem_nil,
    or_false] at hl
  rcases hl with rfl | rfl | rfl | rfl
  · -- the level of `factor`
    have f3 : Parser.factor T unary (fuel + 3) 4 =
        .ok (BinaryExprAST (firstChar op2.lexeme) (BinaryExprAST (firstChar op1.lexeme) A B) C, k) := by
      simp only [Parser.factor, StateExcept.bind_apply, ua]
      exact Parser.binaryLoop_three fuel A
        (Parser.matchOr_mem _ _ g1 h1 (by decide) (by decide)) g1 ub
        (Parser.matchOr_mem _ _ g2 h2 (by decide) (by decide)) g2 uc
        (Parser.matchOr_not_mem _ _ g3 cF)
    have t1 := Parser.term_one (fuel + 2) f3 g3 (fun e => cT (by simp [e]))
      (fun e => cT (by simp [e]))
    exact Parser.equality_one (fuel + 2) (Parser.comparison_one (fuel + 2) t1 g3 cC) g3 cE
  · -- the level of `term`
    have n1 : op1.type ∉ [TOK_STAR, TOK_SLASH] := type_not_mem_of_mem h1 (by decide)
    have n2 : op2.type ∉ [TOK_STAR, TOK_SLASH] := type_not_mem_of_mem h2 (by decide)
    have fa := Parser.factor_one (fuel + 2) ua g1 (fun e => n1 (by simp [e]))
      (fun e => n1 (by simp [e]))
    have fb := Parser.factor_one (fuel + 2) ub g2 (fun e => n2 (by simp [e]))
      (fun e => n2 (by simp [e]))
    have fc := Parser.factor_one (fuel + 2) uc g3 (fun e => cF (by simp [e]))
      (fun e => cF (by simp [e]))
    have t3 : Parser.term T unary (fuel + 3) 4 =
        .ok (BinaryExprAST (firstChar op2.lexeme) (BinaryExprAST (firstChar op1.lexeme) A B) C, k) := by
      simp only [Parser.term, StateExcept.bind_apply, fa]
      exact Parser.binaryLoop_three fuel A
        (Parser.matchOr_mem _ _ g1 h1 (by decide) (by decide)) g1 fb
        (Parser.matchOr_mem _ _ g2 h2 (by decide) (by decide)) g2 fc
        (Parser.matchOr_not_mem _ _ g3 cT)
    exact Parser.equality_one (fuel + 2) (Parser.comparison_one (fuel + 2) t3 g3 cC) g3 cE
  · -- the level of `comparison`
    have n1 : op1.type ∉ [TOK_STAR, TOK_SLASH] := type_not_mem_of_mem h1 (by decide)
    have n2 : op2.type ∉ [TOK_STAR, TOK_SLASH] := type_not_mem_of_mem h2 (by decide)
    have m1 : op1.type ∉ [TOK_PLUS, TOK_MINUS] := type_not_mem_of_mem h1 (by decide)
    have m2 : op2.type ∉ [TOK_PLUS, TOK_MINUS] := type_not_mem_of_mem h2 (by decide)
    have ta := Parser.term_one (fuel + 2)
      (Parser.factor_one (fuel + 2) ua g1 (fun e => n1 (by simp [e]))
        (fun e => n1 (by simp [e]))) g1 (fun e => m1 (by simp [e])) (fun e => m1 (by simp [e]))
    have tb := Parser.term_one (fuel + 2)
      (Parser.factor_one (fuel + 2) ub g2 (fun e => n2 (by simp [e]))
        (fun e => n2 (by simp [e]))) g2 (fun e => m2 (by simp [e])) (fun e => m2 (by simp [e]))
    have tc := Parser.term_one (fuel + 2)
      (Parser.factor_one (fuel + 2) uc g3 (fun e => cF (by simp [e]))
        (fun e => cF (by simp [e]))) g3 (fun e => cT (by simp [e])) (fun e => cT (by simp [e]))
    have c3 : Parser.comparison T unary (fuel + 3) 4 =
        .ok (BinaryExprAST (firstChar op2.lexeme) (BinaryExprAST (firstChar op1.lexeme) A B) C, k) := by
      simp only [Parser.comparison, StateExcept.bind_apply, ta]
      exact Parser.binaryLoop_three fuel A
        (Parser.matchList_hit g1 _ h1 (by decide)) g1 tb
        (Parser.matchList_hit g2 _ h2 (by decide)) g2 tc
        (Parser.matchList_miss g3 _ cC)
    exact Parser.equality_one (fuel + 2) c3 g3 cE
  · -- the level of `equality`
    have n1 : op1.type ∉ [TOK_STAR, TOK_SLASH] := type_not_mem_of_mem h1 (by decide)
    have n2 : op2.type ∉ [TOK_STAR, TOK_SLASH] := type_not_mem_of_mem h2 (by decide)
    have m1 : op1.type ∉ [TOK_PLUS, TOK_MINUS] := type_not_mem_of_mem h1 (by decide)
    have m2 : op2.type ∉ [TOK_PLUS, TOK_MINUS] := type_not_mem_of_mem h2 (by decide)
    have k1 : op1.type ∉ [TOK_GREATER, TOK_GREATER_EQUAL, TOK_LESS, TOK_LESS_EQUAL] :=
      type_not_mem_of_mem h1 (by decide)
    have k2 : op2.type ∉ [TOK_GREATER, TOK_GREATER_EQUAL, TOK_LESS, TOK_LESS_EQUAL] :=
      type_not_mem_of_mem h2 (by decide)
    have ca := Parser.comparison_one (fuel + 2) (Parser.term_one (fuel + 2)
      (Parser.factor_one (fuel + 2) ua g1 (fun e => n1 (by simp [e]))
        (fun e => n1 (by simp [e]))) g1 (fun e => m1 (by simp [e]))
      (fun e => m1 (by simp [e]))) g1 k1
    have cb := Parser.comparison_one (fuel + 2) (Parser.term_one (fuel + 2)
      (Parser.factor_one (fuel + 2) ub g2 (fun e => n2 (by simp [e]))
        (fun e => n2 (by simp [e]))) g2 (fun e => m2 (by simp [e]))
      (fun e => m2 (by simp [e]))) g2 k2
    have cc := Parser.comparison_one (fuel + 2) (Parser.term_one (fuel + 2)
      (Parser.factor_one (fuel + 2) uc g3 (fun e => cF (by simp [e]))
        (fun e => cF (by simp [e]))) g3 (fun e => cT (by simp [e]))
      (fun e => cT (by simp [e]))) g3 cC
    simp only [Parser.equality, StateExcept.bind_apply, ca]
    exact Parser.binaryLoop_three fuel A
      (Parser.matchOr_mem _ _ g1 h1 (by decide) (by decide)) g1 cb
      (Parser.matchOr_mem _ _ g2 h2 (by decide) (by decide)) g2 cc
      (Parser.matchOr_not_mem _ _ g3 cE)

/-! ## The parser stays within its tokens -/

theorem endsWithEof_of_getLast (T : List Token) (hne : T ≠ [])
    (hlast : (T.getLast hne).type = TOK_EOF) : EndsWithEof T := by
  intro c t ht hE
  have hc : c < T.length := by
    by_contra hge
    rw [List.getElem?_eq_none (Nat.le_of_not_lt hge)] at ht
    cases ht
  by_contra hn
  have hcl : c = T.length - 1 := by omega
  have : T.getLast hne = t := by
    rw [List.getLast_eq_getElem]
    have h2 := List.getElem?_eq_getElem hc
    rw [ht] at h2
    simp only [Option.some.injEq] at h2
    subst hcl
    exact h2.symm
  rw [this] at hlast
  exact hE hlast

theorem within_get {T : List Token} {c : Nat} (h : Parser.Within T c) :
    ∃ t, T[c]? = some t := by
  cases ht : T[c]? with
  | none =>
    rw [List.getElem?_eq_none_iff] at ht
    exact absurd h.1 (by omega)
  | some t => exact ⟨t, rfl⟩

theorem within_next {T : List Token} (H : EndsWithEof T) {c : Nat} {t : Token}
    (h : Parser.Within T c) (ht : T[c]? = some t) (hE : t.type ≠ TOK_EOF) :
    Parser.Within T (c + 1) := by
  refine ⟨H c t ht hE, fun i u hi hu => ?_⟩
  rcases Nat.lt_succ_iff_lt_or_eq.mp hi with h1 | h1
  · exact h.2 i u h1 hu
  · subst h1
    rw [ht] at hu
    cases hu
    exact hE

theorem safe_vacuous {T : List Token} {lo : Nat} {α : Type} (p : Parser α) (d : α → Nat)
    (h : T.length ≤ lo) : Safe T lo p d := by
  intro c hlo hw
  exact absurd hw.1 (by omega)

theorem safe_mono {T : List Token} {lo lo' : Nat} {α : Type} {p : Parser α} {d : α → Nat}
    (h : Safe T lo p d) (hl : lo ≤ lo') : Safe T lo' p d :=
  fun c hlo hw => h c (Nat.le_trans hl hlo) hw

theorem safe_zero {T : List Token} {lo : Nat} {α : Type} {p : Parser α} {d : α → Nat}
    (h : Safe T lo p d) : Safe T lo p (fun _ => 0) := by
  intro c hlo hw
  obtain ⟨h1, h3⟩ := h c hlo hw
  refine ⟨h1, fun a c' hr => ⟨?_, (h3 a c' hr).2⟩⟩
  have := (h3 a c' hr).1
  show c + 0 ≤ c'
  omega

theorem safe_pure {T : List Token} {lo : Nat} {α : Type} (a : α) :
    Safe T lo (pure a : Parser α) (fun _ => 0) := by
  intro c hlo hw
  refine ⟨fun err h => by simp at h, fun b c' h => ?_⟩
  simp only [StateExcept.pure_apply, Except.ok.injEq, Prod.mk.injEq] at h
  obtain ⟨-, rfl⟩ := h
  exact ⟨Nat.le_refl _, hw⟩

theorem safe_fail {T : List Token} {lo : Nat} {α : Type} {d : α → Nat} (err : Err)
    (h1 : err ≠ .outOfBounds) (h2 : err ≠ .fuel) :
    Safe T lo (StateExcept.fail err : Parser α) d := by
  intro c hlo hw
  refine ⟨fun e h => ?_, fun b c' h => by simp at h⟩
  simp only [StateExcept.fail_apply, Except.error.injEq] at h
  subst h
  exact ⟨h1, h2⟩

theorem safe_throw {T : List Token} {lo : Nat} {α : Type} {d : α → Nat} (m : Str) :
    Safe T lo (StateExcept.throwRuntime m : Parser α) d :=
  safe_fail _ (by simp) (by simp)

/-- Sequencing, pointwise: the second computation starts where the first one ended. -/
theorem safe_seq {T : List Token} {lo : Nat} {α β : Type} {p : Parser α}
    {f : α → Parser β} {d : α → Nat} {e : β → Nat} (n : Nat) (hp : Safe T lo p d)
    (hf : ∀ a, Safe T (lo + d a) (f a) (fun b => e b - n)) (hn : ∀ a, n ≤ d a) :
    Safe T lo (p >>= f) e := by
  intro c hlo hw
  obtain ⟨p1, p3⟩ := hp c hlo hw
  cases hr : p c with
  | error err =>
    have hb : (p >>= f) c = .error err := by simp [StateExcept.bind_apply, hr]
    rw [hb]
    refine ⟨fun e' h => ?_, fun b c' h => by simp at h⟩
    simp only [Except.error.injEq] at h
    subst h
    exact p1 err hr
  | ok r =>
    obtain ⟨a, c1⟩ := r
    have hb : (p >>= f) c = f a c1 := by simp [StateExcept.bind_apply, hr]
    rw [hb]
    obtain ⟨q1, q2⟩ := p3 a c1 hr
    obtain ⟨r1, r3⟩ := hf a c1 (by omega) q2
    refine ⟨r1, fun b c' h => ⟨?_, (r3 b c' h).2⟩⟩
    have h1 := (r3 b c' h).1
    have h2 := hn a
    simp only at h1
    omega

theorem safe_bind {T : List Token} {lo : Nat} {α β : Type} {p : Parser α}
    {f : α → Parser β} {d : α → Nat} {e : β → Nat} (hp : Safe T lo p d)
    (hf : ∀ a, Safe T lo (f a) e) : Safe T lo (p >>= f) e :=
  safe_seq 0 hp (fun a => safe_mono (hf a) (Nat.le_add_right _ _)) (fun _ => Nat.zero_le _)

theorem safe_then {T : List Token} {lo : Nat} {α β : Type} {p : Parser α}
    {f : α → Parser β} {e : β → Nat} (hp : Safe T lo p (fun _ => 0))
    (hf : ∀ a, Safe T lo (f a) e) : Safe T lo (p >>= f) e :=
  safe_bind hp hf

/-- Sequencing after a computation that consumes a token. -/
theorem safe_bind_step {T : List Token} {lo : Nat} {α β : Type} {p : Parser α}
    {f : α → Parser β} {e : β → Nat} (hp : Safe T lo p (fun _ => 1))
    (hf : ∀ a, Safe T (lo + 1) (f a) e) : Safe T lo (p >>= f) e :=
  safe_seq 0 hp hf (fun _ => Nat.zero_le _)

theorem safe_ite {T : List Token} {lo : Nat} {α : Type} {C : Prop} [Decidable C]
    {p q : Parser α} {e : α → Nat} (hp : Safe T lo p e) (hq : Safe T lo q e) :
    Safe T lo (if C then p else q) e := by
  by_cases h : C
  · simpa only [if_pos h] using hp
  · simpa only [if_neg h] using hq

/-- A branch on a condition that consumes a token when it holds. -/
theorem safe_cond {T : List Token} {lo : Nat} {α : Type} {cnd : Parser Bool}
    {p q : Parser α} {e : α → Nat} (hc : Safe T lo cnd matchStep)
    (hp : Safe T (lo + 1) p e) (hq : Safe T lo q e) :
    Safe T lo (cnd >>= fun b => if b = true then p else q) e := by
  refine safe_seq 0 hc (fun b => ?_) (fun _ => Nat.zero_le _)
  cases b with
  | true => simpa [matchStep] using hp
  | false => simpa [matchStep] using hq

/-- A branch on a condition that consumes a token when it holds, taken the other way. -/
theorem safe_condNot {T : List Token} {lo : Nat} {α : Type} {cnd : Parser Bool}
    {p q : Parser α} {e : α → Nat} (hc : Safe T lo cnd matchStep)
    (hp : Safe T lo p e) (hq : Safe T (lo + 1) q e) :
    Safe T lo (cnd >>= fun b => if (!b) = true then p else q) e := by
  refine safe_seq 0 hc (fun b => ?_) (fun _ => Nat.zero_le _)
  cases b with
  | true => simpa [matchStep] using hq
  | false => simpa [matchStep] using hp

/-- A branch that consumes a token whichever way it goes. -/
theorem safe_cond_step {T : List Token} {lo : Nat} {α : Type} {cnd : Parser Bool}
    {p q : Parser α} (hc : Safe T lo cnd matchStep)
    (hp : Safe T (lo + 1) p (fun _ => 0)) (hq : Safe T lo q (fun _ => 1)) :
    Safe T lo (cnd >>= fun b => if b = true then p else q) (fun _ => 1) := by
  intro c hlo hw
  obtain ⟨p1, p3⟩ := hc c hlo hw
  cases hr : cnd c with
  | error err =>
    have hb : (cnd >>= fun b => if b = true then p else q) c = .error err := by
      simp [StateExcept.bind_apply, hr]
    rw [hb]
    refine ⟨fun e' h => ?_, fun b c' h => by simp at h⟩
    simp only [Except.error.injEq] at h
    subst h
    exact p1 err hr
  | ok r =>
    obtain ⟨b, c1⟩ := r
    obtain ⟨q1, q2⟩ := p3 b c1 hr
    cases b with
    | true =>
      have hb : (cnd >>= fun b => if b = true then p else q) c = p c1 := by
        simp [StateExcept.bind_apply, hr]
      rw [hb]
      simp only [matchStep, if_true] at q1
      obtain ⟨r1, r3⟩ := hp c1 (by omega) q2
      refine ⟨r1, fun a c' h => ⟨?_, (r3 a c' h).2⟩⟩
      have h1 : c1 + 0 ≤ c' := (r3 a c' h).1
      show c + 1 ≤ c'
      omega
    | false =>
      have hb : (cnd >>= fun b => if b = true then p else q) c = q c1 := by
        simp [StateExcept.bind_apply, hr]
      rw [hb]
      simp only [matchStep, Bool.false_eq_true, if_false] at q1
      obtain ⟨r1, r3⟩ := hq c1 (by omega) q2
      refine ⟨r1, fun a c' h => ⟨?_, (r3 a c' h).2⟩⟩
      have h1 : c1 + 1 ≤ c' := (r3 a c' h).1
      show c + 1 ≤ c'
      omega

/-! ### The primitives of the parser -/

theorem Parser.peek_safe (T : List Token) (lo : Nat) :
    Safe T lo (Parser.peek T) (fun _ => 0) := by
  intro c hlo hw
  obtain ⟨t, ht⟩ := within_get hw
  rw [Parser.peek_of_get ht]
  refine ⟨fun err h => by simp at h, fun a c' h => ?_⟩
  simp only [Except.ok.injEq, Prod.mk.injEq] at h
  obtain ⟨-, rfl⟩ := h
  exact ⟨Nat.le_refl _, hw⟩

theorem Parser.previous_safe (T : List Token) {lo : Nat} (h1 : 1 ≤ lo) :
    Safe T lo (Parser.previous T) (fun _ => 0) := by
  intro c hlo hw
  obtain ⟨k, rfl⟩ : ∃ k, c = k + 1 := ⟨c - 1, by omega⟩
  have hk : k < T.length := by have := hw.1; omega
  cases ht : T[k]? with
  | none =>
    rw [List.getElem?_eq_none_iff] at ht
    exact absurd hk (by omega)
  | some t =>
    rw [Parser.previous_of_get ht]
    refine ⟨fun err h => by simp at h, fun a c' h => ?_⟩
    simp only [Except.ok.injEq, Prod.mk.injEq] at h
    obtain ⟨-, rfl⟩ := h
    exact ⟨Nat.le_refl _, hw⟩

theorem Parser.isAtEnd_safe (T : List Token) (lo : Nat) :
    Safe T lo (Parser.isAtEnd T) (fun _ => 0) := by
  intro c hlo hw
  obtain ⟨t, ht⟩ := within_get hw
  rw [Parser.isAtEnd_of_get ht]
  refine ⟨fun err h => by simp at h, fun a c' h => ?_⟩
  simp only [Except.ok.injEq, Prod.mk.injEq] at h
  obtain ⟨-, rfl⟩ := h
  exact ⟨Nat.le_refl _, hw⟩

theorem Parser.check_safe (T : List Token) (lo : Nat) (ty : TokenType) :
    Safe T lo (Parser.check T ty) (fun _ => 0) := by
  intro c hlo hw
  obtain ⟨t, ht⟩ := within_get hw
  rw [Parser.check_of_get ht]
  refine ⟨fun err h => by simp at h, fun a c' h => ?_⟩
  simp only [Except.ok.injEq, Prod.mk.injEq] at h
  obtain ⟨-, rfl⟩ := h
  exact ⟨Nat.le_refl _, hw⟩

/-- What `advance` does at a cursor within the tokens. -/
theorem Parser.advance_within {T : List Token} (H : EndsWithEof T) {c c' : Nat} {t : Token}
    (hw : Parser.Within T c) (h : Parser.advance T c = .ok (t, c')) :
    c ≤ c' ∧ Parser.Within T c' := by
  obtain ⟨u, hu⟩ := within_get hw
  by_cases hE : u.type = TOK_EOF
  · simp only [Parser.advance, StateExcept.bind_apply, Parser.isAtEnd_of_get hu, hE,
      beq_self_eq_true, Bool.not_true, Bool.false_eq_true, if_false,
      StateExcept.pure_apply] at h
    unfold Parser.previous at h
    split at h
    · simp at h
    · split at h
      · simp only [Except.ok.injEq, Prod.mk.injEq] at h
        obtain ⟨-, rfl⟩ := h
        exact ⟨Nat.le_refl _, hw⟩
      · simp at h
  · rw [Parser.advance_of_get hu hE] at h
    simp only [Except.ok.injEq, Prod.mk.injEq] at h
    obtain ⟨-, rfl⟩ := h
    exact ⟨Nat.le_succ _, within_next H hw hu hE⟩

theorem Parser.match_safe {T : List Token} (H : EndsWithEof T) (lo : Nat) (ty : TokenType) :
    Safe T lo (Parser.match T ty) matchStep := by
  intro c hlo hw
  obtain ⟨t, ht⟩ := within_get hw
  by_cases hh : t.type = ty ∧ ty ≠ TOK_EOF
  · rw [Parser.match_hit ty ht hh.1 hh.2]
    refine ⟨fun err h => by simp at h, fun a c' h => ?_⟩
    simp only [Except.ok.injEq, Prod.mk.injEq] at h
    obtain ⟨rfl, rfl⟩ := h
    exact ⟨by simp [matchStep], within_next H hw ht (hh.1 ▸ hh.2)⟩
  · have hm : Parser.match T ty c = .ok (false, c) := by
      by_cases h1 : t.type = ty
      · have h2 : ty = TOK_EOF := by
          by_contra h2
          exact hh ⟨h1, h2⟩
        subst h1
        simp [Parser.match, Parser.check_of_get ht, h2]
      · exact Parser.match_miss ty ht h1
    rw [hm]
    refine ⟨fun err h => by simp at h, fun a c' h => ?_⟩
    simp only [Except.ok.injEq, Prod.mk.injEq] at h
    obtain ⟨rfl, rfl⟩ := h
    exact ⟨by simp [matchStep], hw⟩

theorem Parser.consume_safe {T : List Token} (H : EndsWithEof T) (lo : Nat) (ty : TokenType)
    (m : Str) : Safe T lo (Parser.consume T ty m) (fun _ => 1) := by
  intro c hlo hw
  obtain ⟨t, ht⟩ := within_get hw
  by_cases hh : t.type = ty ∧ ty ≠ TOK_EOF
  · rw [Parser.consume_hit ty ht hh.1 hh.2]
    refine ⟨fun err h => by simp at h, fun a c' h => ?_⟩
    simp only [Except.ok.injEq, Prod.mk.injEq] at h
    obtain ⟨rfl, rfl⟩ := h
    exact ⟨Nat.le_refl _, within_next H hw ht (hh.1 ▸ hh.2)⟩
  · have hm : Parser.consume T ty m c = .error (.runtime m) := by
      by_cases h1 : t.type = ty
      · have h2 : ty = TOK_EOF := by
          by_contra h2
          exact hh ⟨h1, h2⟩
        subst h1
        simp [Parser.consume, Parser.check_of_get ht, h2]
      · exact Parser.consume_miss ty ht h1 m
    rw [hm]
    refine ⟨fun err h => ?_, fun a c' h => by simp at h⟩
    simp only [Except.error.injEq] at h
    subst h
    exact ⟨by simp, by simp⟩

theorem Parser.matchOr_safe {T : List Token} (H : EndsWithEof T) (lo : Nat)
    (a b : TokenType) : Safe T lo (Parser.matchOr T a b) matchStep := by
  intro c hlo hw
  obtain ⟨p1, p3⟩ := Parser.match_safe H lo a c hlo hw
  unfold Parser.matchOr
  simp only [StateExcept.bind_apply]
  cases hr : Parser.match T a c with
  | error err =>
    refine ⟨fun e' h => ?_, fun x c' h => by simp at h⟩
    simp only [Except.error.injEq] at h
    subst h
    exact p1 err hr
  | ok r =>
    obtain ⟨x, c1⟩ := r
    obtain ⟨q1, q2⟩ := p3 x c1 hr
    cases x with
    | true =>
      simp only [if_true, StateExcept.pure_apply]
      refine ⟨fun err h => by simp at h, fun y c' h => ?_⟩
      simp only [Except.ok.injEq, Prod.mk.injEq] at h
      obtain ⟨rfl, rfl⟩ := h
      exact ⟨q1, q2⟩
    | false =>
      simp only [Bool.false_eq_true, if_false]
      obtain ⟨r1, r3⟩ := Parser.match_safe H lo b c1 (by omega) q2
      refine ⟨r1, fun y c' h => ⟨?_, (r3 y c' h).2⟩⟩
      have h1 := (r3 y c' h).1
      omega

theorem Parser.matchList_safe {T : List Token} (H : EndsWithEof T) (lo : Nat) :
    ∀ types : List TokenType, Safe T lo (Parser.matchList T types) matchStep
  | [] => by
    intro c hlo hw
    refine ⟨fun err h => by simp [Parser.matchList] at h, fun a c' h => ?_⟩
    simp only [Parser.matchList, StateExcept.pure_apply, Except.ok.injEq,
      Prod.mk.injEq] at h
    obtain ⟨rfl, rfl⟩ := h
    exact ⟨by simp [matchStep], hw⟩
  | ty :: types => by
    intro c hlo hw
    obtain ⟨t, ht⟩ := within_get hw
    by_cases hh : t.type = ty ∧ t.type ≠ TOK_EOF
    · have hm : Parser.matchList T (ty :: types) c = .ok (true, c + 1) := by
        simp [Parser.matchList, Parser.check_of_get ht, hh.2, ← hh.1,
          Parser.advance_of_get ht hh.2]
      rw [hm]
      refine ⟨fun err h => by simp at h, fun a c' h => ?_⟩
      simp only [Except.ok.injEq, Prod.mk.injEq] at h
      obtain ⟨rfl, rfl⟩ := h
      exact ⟨by simp [matchStep], within_next H hw ht hh.2⟩
    · have hm : Parser.matchList T (ty :: types) c = Parser.matchList T types c := by
        have hb : (!(t.type == TOK_EOF) && t.type == ty) = false := by
          by_cases h1 : t.type = ty
          · have h2 : t.type = TOK_EOF := by
              by_contra h2
              exact hh ⟨h1, h2⟩
            simp [h2]
          · simp [h1]
        simp [Parser.matchList, Parser.check_of_get ht, hb]
      rw [hm]
      exact Parser.matchList_safe H lo types c hlo hw

/-! ### Expressions -/

theorem Parser.binaryLoop_safe {T : List Token} {cond : Parser Bool} {sub : Parser ExprAST} :
    ∀ (k lo : Nat) (e : ExprAST), Safe T lo cond matchStep → Safe T lo sub (fun _ => 0) →
      T.length ≤ lo + k → Safe T lo (Parser.binaryLoop T cond sub k e) (fun _ => 0)
  | 0, lo, e, _, _, hL => safe_vacuous _ _ (by omega)
  | k + 1, lo, e, hc, hs, hL => by
    intro c hlo hw
    have key : Safe T c (Parser.binaryLoop T cond sub (k + 1) e) (fun _ => 0) := by
      unfold Parser.binaryLoop
      refine safe_cond (safe_mono hc hlo) ?_ (safe_pure _)
      refine safe_bind (Parser.previous_safe T (Nat.le_add_left 1 c)) (fun op => ?_)
      refine safe_bind (safe_mono hs (by omega)) (fun right => ?_)
      exact Parser.binaryLoop_safe k (c + 1) _ (safe_mono hc (by omega))
        (safe_mono hs (by omega)) (by omega)
    exact key c (Nat.le_refl c) hw

theorem Parser.factor_safe {T : List Token} (H : EndsWithEof T) {unary : Parser ExprAST}
    {lo f : Nat} (hu : Safe T lo unary (fun _ => 0)) (hL : T.length ≤ lo + f) :
    Safe T lo (Parser.factor T unary f) (fun _ => 0) := by
  unfold Parser.factor
  exact safe_bind hu (fun _ =>
    Parser.binaryLoop_safe f lo _ (Parser.matchOr_safe H lo _ _) hu hL)

theorem Parser.term_safe {T : List Token} (H : EndsWithEof T) {unary : Parser ExprAST}
    {lo f : Nat} (hu : Safe T lo unary (fun _ => 0)) (hL : T.length ≤ lo + f) :
    Safe T lo (Parser.term T unary f) (fun _ => 0) := by
  unfold Parser.term
  exact safe_bind (Parser.factor_safe H hu hL) (fun _ =>
    Parser.binaryLoop_safe f lo _ (Parser.matchOr_safe H lo _ _)
      (Parser.factor_safe H hu hL) hL)

theorem Parser.comparison_safe {T : List Token} (H : EndsWithEof T) {unary : Parser ExprAST}
    {lo f : Nat} (hu : Safe T lo unary (fun _ => 0)) (hL : T.length ≤ lo + f) :
    Safe T lo (Parser.comparison T unary f) (fun _ => 0) := by
  unfold Parser.comparison
  exact safe_bind (Parser.term_safe H hu hL) (fun _ =>
    Parser.binaryLoop_safe f lo _ (Parser.matchList_safe H lo _)
      (Parser.term_safe H hu hL) hL)

theorem Parser.equality_safe {T : List Token} (H : EndsWithEof T) {unary : Parser ExprAST}
    {lo f : Nat} (hu : Safe T lo unary (fun _ => 0)) (hL : T.length ≤ lo + f) :
    Safe T lo (Parser.equality T unary f) (fun _ => 0) := by
  unfold Parser.equality
  exact safe_bind (Parser.comparison_safe H hu hL) (fun _ =>
    Parser.binaryLoop_safe f lo _ (Parser.matchOr_safe H lo _ _)
      (Parser.comparison_safe H hu hL) hL)

/-- The conversions of `Parser::primary` raise the exceptions of `std::stod` and
`std::stoi` only. -/
theorem numberOfToken_error (t : Token) (e : Err) (h : numberOfToken t = .error e) :
    e ≠ .outOfBounds ∧ e ≠ .fuel := by
  unfold numberOfToken at h
  split at h
  · split at h
    · rename_i err hst
      simp only [Except.error.injEq] at h
      subst h
      unfold stod at hst
      dsimp only at hst
      split at hst
      · simp only [Except.error.injEq] at hst
        subst hst
        exact ⟨by simp, by simp⟩
      · rw [roundBinary64_error _ _ _ hst]
        exact ⟨by simp, by simp⟩
    · simp at h
  · split at h
    · rename_i err hst
      simp only [Except.error.injEq] at h
      subst h
      unfold stoi at hst
      dsimp only at hst
      split_ifs at hst <;>
        (simp only [Except.error.injEq] at hst
         subst hst
         exact ⟨by simp, by simp⟩)
    · simp at h

theorem Parser.primary_safe {T : List Token} (H : EndsWithEof T) {expression : Parser ExprAST}
    {lo : Nat} (he : Safe T (lo + 1) expression (fun _ => 0)) :
    Safe T lo (Parser.primary T expression) (fun _ => 0) := by
  unfold Parser.primary
  repeat' first
    | exact safe_pure _
    | exact safe_throw _
    | exact he
    | exact Parser.previous_safe T (Nat.le_add_left 1 _)
    | exact safe_zero (Parser.consume_safe H _ _ _)
    | (generalize hn : numberOfToken _ = r
       cases r
       · exact safe_fail _ (numberOfToken_error _ _ hn).1 (numberOfToken_error _ _ hn).2
       · exact safe_pure _)
    | refine safe_cond (Parser.match_safe H _ _) ?_ ?_
    | refine safe_then ?_ (fun _ => ?_)

theorem Parser.unary_safe {T : List Token} (H : EndsWithEof T) :
    ∀ (f lo : Nat), T.length ≤ lo + f → Safe T lo (Parser.unary T f) (fun _ => 0)
  | 0, lo, hL => safe_vacuous _ _ (by omega)
  | f + 1, lo, hL => by
    have ih := Parser.unary_safe H f (lo + 1) (by omega)
    unfold Parser.unary
    refine safe_cond (Parser.matchOr_safe H _ _ _) ?_ ?_
    · refine safe_bind (Parser.previous_safe T (Nat.le_add_left 1 _)) (fun op => ?_)
      exact safe_bind ih (fun _ => safe_pure _)
    · exact Parser.primary_safe H (Parser.equality_safe H ih (by omega))

theorem Parser.expression_safe {T : List Token} (H : EndsWithEof T) {f lo : Nat}
    (hL : T.length ≤ lo + f) : Safe T lo (Parser.expression T f) (fun _ => 0) :=
  Parser.equality_safe H (Parser.unary_safe H f lo hL) hL

/-! ### Statements -/

theorem Parser.statementLoop_safe {T : List Token} {statement : Parser StmtAST} :
    ∀ (k lo : Nat) (l : List StmtAST), Safe T lo statement (fun _ => 1) →
      T.length ≤ lo + k → Safe T lo (Parser.statementLoop T statement k l) (fun _ => 0)
  | 0, lo, l, _, hL => safe_vacuous _ _ (by omega)
  | k + 1, lo, l, hs, hL => by
    intro c hlo hw
    have key : Safe T c (Parser.statementLoop T statement (k + 1) l) (fun _ => 0) := by
      unfold Parser.statementLoop
      refine safe_bind (Parser.check_safe T _ _) (fun _ => safe_ite (safe_pure _) ?_)
      refine safe_bind (Parser.isAtEnd_safe T _) (fun _ => safe_ite (safe_pure _) ?_)
      refine safe_bind_step (safe_mono hs hlo) (fun s => ?_)
      exact Parser.statementLoop_safe k (c + 1) _ (safe_mono hs (by omega)) (by omega)
    exact key c (Nat.le_refl c) hw

theorem Parser.block_safe {T : List Token} (H : EndsWithEof T) {statement : Parser StmtAST}
    {lo f : Nat} (hs : Safe T lo statement (fun _ => 1)) (hL : T.length ≤ lo + f) :
    Safe T lo (Parser.block T statement f) (fun _ => 0) := by
  unfold Parser.block
  repeat' first
    | exact safe_pure _
    | exact Parser.statementLoop_safe _ _ _ hs hL
    | exact safe_zero (Parser.consume_safe H _ _ _)
    | refine safe_then ?_ (fun _ => ?_)

theorem Parser.argsLoop_safe {T : List Token} (H : EndsWithEof T)
    {expression : Parser ExprAST} :
    ∀ (k lo : Nat) (args : List ExprAST), Safe T lo expression (fun _ => 0) →
      T.length ≤ lo + k → Safe T lo (Parser.argsLoop T expression k args) (fun _ => 0)
  | 0, lo, _, _, hL => safe_vacuous _ _ (by omega)
  | k + 1, lo, args, he, hL => by
    intro c hlo hw
    have key : Safe T c (Parser.argsLoop T expression (k + 1) args) (fun _ => 0) := by
      unfold Parser.argsLoop
      refine safe_bind (safe_mono he hlo) (fun e => ?_)
      refine safe_cond (Parser.match_safe H _ _) ?_ (safe_pure _)
      exact Parser.argsLoop_safe H k (c + 1) _ (safe_mono he (by omega)) (by omega)
    exact key c (Nat.le_refl c) hw

theorem Parser.yapStatement_safe {T : List Token} (H : EndsWithEof T) {lo f : Nat}
    (hL : T.length ≤ lo + f) : Safe T lo (Parser.yapStatement T f) (fun _ => 0) := by
  unfold Parser.yapStatement
  repeat' first
    | exact safe_pure _
    | exact Parser.argsLoop_safe H _ _ _ (Parser.expression_safe H hL) hL
    | exact Parser.check_safe T _ _
    | exact safe_zero (Parser.consume_safe H _ _ _)
    | refine safe_then ?_ (fun _ => ?_)
    | refine safe_ite ?_ ?_

theorem Parser.frStatement_safe {T : List Token} (H : EndsWithEof T)
    {statement : Parser StmtAST} {lo f : Nat}
    (hs : Safe T lo statement (fun _ => 1)) (hL : T.length ≤ lo + f) :
    Safe T lo (Parser.frStatement T statement f) (fun _ => 0) := by
  unfold Parser.frStatement
  repeat' first
    | exact safe_pure _
    | exact Parser.expression_safe H (by omega)
    | exact Parser.block_safe H (safe_mono hs (by omega)) (by omega)
    | exact safe_zero (Parser.consume_safe H _ _ _)
    | refine safe_cond (Parser.match_safe H _ _) ?_ ?_
    | refine safe_then ?_ (fun _ => ?_)

theorem Parser.betStatement_safe {T : List Token} (H : EndsWithEof T)
    {statement : Parser StmtAST} {lo f : Nat}
    (hs : Safe T lo statement (fun _ => 1)) (hL : T.length ≤ lo + f) :
    Safe T lo (Parser.betStatement T statement f) (fun _ => 0) := by
  unfold Parser.betStatement
  repeat' first
    | exact safe_pure _
    | exact Parser.expression_safe H (by omega)
    | exact Parser.block_safe H (safe_mono hs (by omega)) (by omega)
    | exact safe_zero (Parser.consume_safe H _ _ _)
    | refine safe_cond (Parser.match_safe H _ _) ?_ ?_
    | refine safe_then ?_ (fun _ => ?_)

theorem Parser.paramsLoop_safe {T : List Token} (H : EndsWithEof T) :
    ∀ (k lo : Nat) (l : List Str), T.length ≤ lo + k →
      Safe T lo (Parser.paramsLoop T k l) (fun _ => 0)
  | 0, lo, _, hL => safe_vacuous _ _ (by omega)
  | k + 1, lo, l, hL => by
    intro c hlo hw
    have key : Safe T c (Parser.paramsLoop T (k + 1) l) (fun _ => 0) := by
      unfold Parser.paramsLoop
      refine safe_bind (Parser.consume_safe H _ _ _) (fun e => ?_)
      refine safe_cond (Parser.match_safe H _ _) ?_ (safe_pure _)
      exact Parser.paramsLoop_safe H k (c + 1) _ (by omega)
    exact key c (Nat.le_refl c) hw

theorem Parser.bruhStatement_safe {T : List Token} (H : EndsWithEof T)
    {statement : Parser StmtAST} {lo f : Nat}
    (hs : Safe T lo statement (fun _ => 1)) (hL : T.length ≤ lo + f) :
    Safe T lo (Parser.bruhStatement T statement f) (fun _ => 0) := by
  unfold Parser.bruhStatement
  repeat' first
    | exact safe_pure _
    | exact Parser.paramsLoop_safe H _ _ _ hL
    | exact Parser.block_safe H hs hL
    | exact Parser.check_safe T _ _
    | exact safe_zero (Parser.consume_safe H _ _ _)
    | refine safe_then ?_ (fun _ => ?_)
    | refine safe_ite ?_ ?_

theorem Parser.statement_safe {T : List Token} (H : EndsWithEof T) :
    ∀ (f lo : Nat), T.length ≤ lo + f → Safe T lo (Parser.statement T f) (fun _ => 1)
  | 0, lo, hL => safe_vacuous _ _ (by omega)
  | f + 1, lo, hL => by
    have ih := Parser.statement_safe H f (lo + 1) (by omega)
    have hf : T.length ≤ lo + 1 + f := by omega
    unfold Parser.statement
    repeat' first
      | exact safe_pure _
      | exact safe_throw _
      | exact Parser.yapStatement_safe H hf
      | exact Parser.frStatement_safe H ih hf
      | exact Parser.betStatement_safe H ih hf
      | exact Parser.bruhStatement_safe H ih hf
      | exact Parser.expression_safe H (by omega)
      | exact Parser.block_safe H (safe_mono ih (by omega)) (by omega)
      | exact safe_zero (Parser.consume_safe H _ _ _)
      | refine safe_cond_step (Parser.match_safe H _ _) ?_ ?_
      | refine safe_cond (Parser.match_safe H _ _) ?_ ?_
      | refine safe_then ?_ (fun _ => ?_)

theorem Parser.cook_safe {T : List Token} (H : EndsWithEof T) :
    Safe T 0 (Parser.cook T (T.length + 1)) (fun _ => 0) := by
  unfold Parser.cook
  refine safe_condNot (Parser.match_safe H _ _) (safe_throw _) ?_
  refine safe_bind (Parser.consume_safe H _ _ _) (fun _ => ?_)
  refine safe_bind (Parser.statementLoop_safe _ _ _
    (Parser.statement_safe H _ _ (by omega)) (by omega)) (fun _ => ?_)
  exact safe_bind (Parser.consume_safe H _ _ _) (fun _ => safe_pure _)

/-! ## The parser under the respelling of the conditional keyword -/

theorem frSpelling_beq (t : Token) (ty : TokenType) (h : ty ∉ conditionalTypes) :
    ((frSpelling t).type == ty) = (t.type == ty) := by
  unfold frSpelling
  split_ifs with h1
  · have e1 : t.type ≠ ty := fun e => h (e ▸ h1)
    have e2 : TOK_FR ≠ ty := fun e => h (by simp [← e, conditionalTypes])
    simp [e1, e2]
  · rfl

theorem frSpelling_of_type (t : Token) (ty : TokenType) (h : ty ∉ conditionalTypes)
    (ht : t.type = ty) : frSpelling t = t := by
  unfold frSpelling
  rw [if_neg (fun e => h (ht ▸ e))]

theorem frSpelling_of_mem (t : Token) (types : List TokenType)
    (h : ∀ ty ∈ types, ty ∉ conditionalTypes) (ht : t.type ∈ types) : frSpelling t = t :=
  frSpelling_of_type t _ (h _ ht) rfl

theorem getElem_spell (T : List Token) (c : Nat) :
    (T.map frSpelling)[c]? = (T[c]?).map frSpelling := List.getElem?_map _ _ _

theorem Parser.isAtEnd_spell (T : List Token) :
    Parser.isAtEnd (T.map frSpelling) = Parser.isAtEnd T := by
  funext c
  cases h : T[c]? with
  | none =>
    have h' : (T.map frSpelling)[c]? = none := by rw [getElem_spell, h]; rfl
    simp [Parser.isAtEnd, Parser.peek, h, h']
  | some t =>
    have h' : (T.map frSpelling)[c]? = some (frSpelling t) := by
      rw [getElem_spell, h]; rfl
    rw [Parser.isAtEnd_of_get h, Parser.isAtEnd_of_get h',
      frSpelling_beq t TOK_EOF (by decide)]

theorem Parser.check_spell (T : List Token) (ty : TokenType) (hty : ty ∉ conditionalTypes) :
    Parser.check (T.map frSpelling) ty = Parser.check T ty := by
  funext c
  cases h : T[c]? with
  | none =>
    have h' : (T.map frSpelling)[c]? = none := by rw [getElem_spell, h]; rfl
    simp [Parser.check, Parser.isAtEnd, Parser.peek, h, h']
  | some t =>
    have h' : (T.map frSpelling)[c]? = some (frSpelling t) := by
      rw [getElem_spell, h]; rfl
    rw [Parser.check_of_get h, Parser.check_of_get h',
      frSpelling_beq t TOK_EOF (by decide), frSpelling_beq t ty hty]

theorem Parser.previous_spell (T : List Token) :
    Parser.previous (T.map frSpelling) =
      Parser.previous T >>= fun t => pure (frSpelling t) := by
  funext c
  unfold Parser.previous
  by_cases hc : c = 0
  · simp [hc]
  · simp only [if_neg hc, StateExcept.bind_apply, getElem_spell]
    cases T[c - 1]? with
    | none => rfl
    | some t => rfl

theorem Parser.advance_spell (T : List Token) :
    Parser.advance (T.map frSpelling) =
      Parser.advance T >>= fun t => pure (frSpelling t) := by
  funext c
  simp only [Parser.advance, Parser.isAtEnd_spell, Parser.previous_spell,
    StateExcept.bind_apply]
  cases Parser.isAtEnd T c with
  | error e => rfl
  | ok p =>
    obtain ⟨b, c1⟩ := p
    cases b with
    | false =>
      simp only [Bool.not_false, if_true]
      cases Parser.previous T (c1 + 1) with
      | error e => rfl
      | ok q => rfl
    | true =>
      simp only [Bool.not_true, Bool.false_eq_true, if_false, StateExcept.pure_apply]
      cases Parser.previous T c1 with
      | error e => rfl
      | ok q => rfl

theorem Parser.match_spell (T : List Token) (ty : TokenType) (hty : ty ∉ conditionalTypes) :
    Parser.match (T.map frSpelling) ty = Parser.match T ty := by
  unfold Parser.match
  simp only [Parser.check_spell T ty hty, Parser.advance_spell, StateExcept.bind_assoc,
    StateExcept.pure_bind]

theorem Parser.matchOr_spell (T : List Token) (a b : TokenType) (ha : a ∉ conditionalTypes)
    (hb : b ∉ conditionalTypes) :
    Parser.matchOr (T.map frSpelling) a b = Parser.matchOr T a b := by
  unfold Parser.matchOr
  rw [Parser.match_spell T a ha, Parser.match_spell T b hb]

theorem Parser.matchList_spell (T : List Token) :
    ∀ types : List TokenType, (∀ ty ∈ types, ty ∉ conditionalTypes) →
      Parser.matchList (T.map frSpelling) types = Parser.matchList T types
  | [], _ => rfl
  | ty :: types, h => by
    have ih := Parser.matchList_spell T types (fun x hx => h x (List.mem_cons_of_mem _ hx))
    simp only [Parser.matchList, ih, Parser.check_spell T ty (h ty (List.mem_cons_self _ _)),
      Parser.advance_spell, StateExcept.bind_assoc, StateExcept.pure_bind]

theorem Parser.consume_spell (T : List Token) (ty : TokenType) (message : Str)
    (hty : ty ∉ conditionalTypes) :
    Parser.consume (T.map frSpelling) ty message = Parser.consume T ty message := by
  funext c
  cases h : T[c]? with
  | none =>
    have h' : (T.map frSpelling)[c]? = none := by rw [getElem_spell, h]; rfl
    simp [Parser.consume, Parser.check, Parser.isAtEnd, Parser.peek, h, h']
  | some t =>
    have h' : (T.map frSpelling)[c]? = some (frSpelling t) := by
      rw [getElem_spell, h]; rfl
    by_cases ht : t.type = ty
    · have e := frSpelling_of_type t ty hty ht
      rw [e] at h'
      subst ht
      simp only [Parser.consume, StateExcept.bind_apply, Parser.check_of_get h,
        Parser.check_of_get h']
      by_cases hE : t.type = TOK_EOF
      · simp [hE]
      · simp [hE, Parser.advance_of_get h hE, Parser.advance_of_get h' hE]
    · have ht' : (frSpelling t).type ≠ ty := by
        intro e
        have h1 : ((frSpelling t).type == ty) = true := by simp [e]
        rw [frSpelling_beq t ty hty] at h1
        exact ht (by simpa using h1)
      rw [Parser.consume_miss ty h ht, Parser.consume_miss ty h' ht']

/-- A condition followed by `previous` sees the token the condition has matched. -/
theorem Parser.cond_then {α : Type} (T : List Token) (cond : Parser Bool)
    (P : Token → Prop)
    (hc : ∀ c c', cond c = .ok (true, c') → ∃ t, Parser.previous T c' = .ok (t, c') ∧ P t)
    {k k' : Token → Parser α} {q : Parser α} (hk : ∀ t, P t → k t = k' t) :
    (cond >>= fun b => if b = true then Parser.previous T >>= k else q) =
      (cond >>= fun b => if b = true then Parser.previous T >>= k' else q) := by
  funext c
  simp only [StateExcept.bind_apply]
  cases hm : cond c with
  | error e => rfl
  | ok p =>
    obtain ⟨b, c1⟩ := p
    cases b with
    | false => rfl
    | true =>
      obtain ⟨t, p1, p3⟩ := hc c c1 hm
      simp only [if_true, StateExcept.bind_apply, p1, hk t p3]

theorem Parser.binaryLoop_spell (T : List Token) (cond : Parser Bool) (sub : Parser ExprAST)
    (hc : ∀ c c', cond c = .ok (true, c') →
      ∃ t, Parser.previous T c' = .ok (t, c') ∧ frSpelling t = t) :
    ∀ (fuel : Nat) (expr : ExprAST),
      Parser.binaryLoop (T.map frSpelling) cond sub fuel expr =
        Parser.binaryLoop T cond sub fuel expr
  | 0, _ => rfl
  | fuel + 1, expr => by
    have ih := Parser.binaryLoop_spell T cond sub hc fuel
    simp only [Parser.binaryLoop, ih, Parser.previous_spell, StateExcept.bind_assoc,
      StateExcept.pure_bind]
    exact Parser.cond_then T cond _ hc (fun t ht => by rw [ht])

theorem Parser.matchOr_kept {T : List Token} {a b : TokenType} (ha : a ∉ conditionalTypes)
    (hb : b ∉ conditionalTypes) (c c' : Nat) (h : Parser.matchOr T a b c = .ok (true, c')) :
    ∃ t, Parser.previous T c' = .ok (t, c') ∧ frSpelling t = t := by
  obtain ⟨t, p1, -, p3⟩ := Parser.matchOr_previous h
  refine ⟨t, p1, frSpelling_of_mem t [a, b] (fun ty hty => ?_) p3⟩
  rcases List.mem_cons.mp hty with rfl | hty
  · exact ha
  · rw [List.mem_singleton.mp hty]; exact hb

theorem Parser.matchList_kept {T : List Token} (types : List TokenType)
    (hd : ∀ ty ∈ types, ty ∉ conditionalTypes) (c c' : Nat)
    (h : Parser.matchList T types c = .ok (true, c')) :
    ∃ t, Parser.previous T c' = .ok (t, c') ∧ frSpelling t = t := by
  obtain ⟨t, p1, -, p3⟩ := Parser.matchList_previous types h
  exact ⟨t, p1, frSpelling_of_mem t types hd p3⟩

theorem Parser.match_kept {T : List Token} {ty : TokenType} (hty : ty ∉ conditionalTypes)
    (c c' : Nat) (h : Parser.match T ty c = .ok (true, c')) :
    ∃ t, Parser.previous T c' = .ok (t, c') ∧ frSpelling t = t := by
  obtain ⟨t, p1, -, p3⟩ := Parser.match_previous h
  exact ⟨t, p1, frSpelling_of_type t ty hty p3⟩

theorem Parser.equality_spell (T : List Token) (unary : Parser ExprAST) (fuel : Nat) :
    Parser.equality (T.map frSpelling) unary fuel = Parser.equality T unary fuel := by
  simp only [Parser.equality, Parser.comparison, Parser.term, Parser.factor,
    Parser.matchOr_spell T TOK_STAR TOK_SLASH (by decide) (by decide),
    Parser.matchOr_spell T TOK_PLUS TOK_MINUS (by decide) (by decide),
    Parser.matchOr_spell T TOK_EQUAL_EQUAL TOK_BANG_EQUAL (by decide) (by decide),
    Parser.matchList_spell T [TOK_GREATER, TOK_GREATER_EQUAL, TOK_LESS, TOK_LESS_EQUAL]
      (by decide),
    Parser.binaryLoop_spell T _ _ (Parser.matchOr_kept (a := TOK_STAR) (b := TOK_SLASH)
      (by decide) (by decide)),
    Parser.binaryLoop_spell T _ _ (Parser.matchOr_kept (a := TOK_PLUS) (b := TOK_MINUS)
      (by decide) (by decide)),
    Parser.binaryLoop_spell T _ _ (Parser.matchOr_kept (a := TOK_EQUAL_EQUAL)
      (b := TOK_BANG_EQUAL) (by decide) (by decide)),
    Parser.binaryLoop_spell T _ _ (Parser.matchList_kept
      [TOK_GREATER, TOK_GREATER_EQUAL, TOK_LESS, TOK_LESS_EQUAL] (by decide))]

theorem Parser.primary_spell (T : List Token) (expression : Parser ExprAST) :
    Parser.primary (T.map frSpelling) expression = Parser.primary T expression := by
  simp only [Parser.primary, Parser.match_spell T TOK_NUMBER_LITERAL (by decide),
    Parser.match_spell T TOK_IDENTIFIER (by decide),
    Parser.match_spell T TOK_STRING_LITERAL (by decide),
    Parser.match_spell T TOK_LEFT_PAREN (by decide),
    Parser.consume_spell T TOK_RIGHT_PAREN _ (by decide), Parser.previous_spell,
    StateExcept.bind_assoc, StateExcept.pure_bind]
  refine Parser.match_then T _ (fun t ht => ?_) ?_
  · rw [frSpelling_of_type t _ (by decide) ht]
  refine Parser.match_then T _ (fun t ht => ?_) ?_
  · rw [frSpelling_of_type t _ (by decide) ht]
  refine Parser.match_then T _ (fun t ht => ?_) rfl
  rw [frSpelling_of_type t _ (by decide) ht]

theorem Parser.unary_spell (T : List Token) :
    ∀ fuel : Nat, Parser.unary (T.map frSpelling) fuel = Parser.unary T fuel
  | 0 => rfl
  | fuel + 1 => by
    have ih := Parser.unary_spell T fuel
    simp only [Parser.unary, ih, Parser.equality_spell, Parser.primary_spell,
      Parser.matchOr_spell T TOK_MINUS TOK_BANG (by decide) (by decide), Parser.previous_spell,
      StateExcept.bind_assoc, StateExcept.pure_bind]
    exact Parser.cond_then T _ _
      (Parser.matchOr_kept (a := TOK_MINUS) (b := TOK_BANG) (by decide) (by decide))
      (fun t ht => by rw [ht])

theorem Parser.expression_spell (T : List Token) (fuel : Nat) :
    Parser.expression (T.map frSpelling) fuel = Parser.expression T fuel := by
  simp only [Parser.expression, Parser.unary_spell, Parser.equality_spell]

theorem Parser.argsLoop_spell (T : List Token) (expression : Parser ExprAST) :
    ∀ (fuel : Nat) (args : List ExprAST),
      Parser.argsLoop (T.map frSpelling) expression fuel args =
        Parser.argsLoop T expression fuel args
  | 0, _ => rfl
  | fuel + 1, args => by
    have ih := Parser.argsLoop_spell T expression fuel
    simp only [Parser.argsLoop, ih, Parser.match_spell T TOK_COMMA (by decide)]

theorem Parser.paramsLoop_spell (T : List Token) :
    ∀ (fuel : Nat) (parameters : List Str),
      Parser.paramsLoop (T.map frSpelling) fuel parameters =
        Parser.paramsLoop T fuel parameters
  | 0, _ => rfl
  | fuel + 1, parameters => by
    have ih := Parser.paramsLoop_spell T fuel
    simp only [Parser.paramsLoop, ih, Parser.match_spell T TOK_COMMA (by decide),
      Parser.consume_spell T TOK_IDENTIFIER _ (by decide)]

theorem Parser.yapStatement_spell (T : List Token) (fuel : Nat) :
    Parser.yapStatement (T.map frSpelling) fuel = Parser.yapStatement T fuel := by
  simp only [Parser.yapStatement, Parser.expression_spell, Parser.argsLoop_spell,
    Parser.check_spell T TOK_RIGHT_PAREN (by decide),
    Parser.consume_spell T TOK_LEFT_PAREN _ (by decide),
    Parser.consume_spell T TOK_RIGHT_PAREN _ (by decide),
    Parser.consume_spell T TOK_SEMICOLON _ (by decide)]

/-! ### Computations with the same outcome -/

theorem sameOutcome_refl {α : Type} (p : Parser α) : SameOutcome p p := fun _ => rfl

theorem sameOutcome_of_eq {α : Type} {p p' : Parser α} (h : p = p') : SameOutcome p p' :=
  h ▸ sameOutcome_refl p

theorem sameOutcome_bind {α β : Type} {p p' : Parser α} {f f' : α → Parser β}
    (hp : SameOutcome p p') (hf : ∀ a, SameOutcome (f a) (f' a)) :
    SameOutcome (p >>= f) (p' >>= f') := by
  intro c
  have h := hp c
  simp only [StateExcept.bind_apply]
  cases h1 : p c with
  | error e =>
    cases h2 : p' c with
    | error e' =>
      rw [h1, h2] at h
      simp only [Except.mapError, Except.error.injEq] at h
      simp only [Except.mapError, h]
    | ok r =>
      rw [h1, h2] at h
      simp [Except.mapError] at h
  | ok r =>
    cases h2 : p' c with
    | error e' =>
      rw [h1, h2] at h
      simp [Except.mapError] at h
    | ok r' =>
      rw [h1, h2] at h
      simp only [Except.mapError, Except.ok.injEq] at h
      subst h
      exact hf r.1 r.2

theorem sameOutcome_ite {α : Type} {C : Prop} [Decidable C] {p p' q q' : Parser α}
    (hp : SameOutcome p p') (hq : SameOutcome q q') :
    SameOutcome (if C then p else q) (if C then p' else q') := by
  by_cases h : C
  · simpa only [if_pos h] using hp
  · simpa only [if_neg h] using hq

/-- The two messages of the missing parenthesis are the same up to the keyword. -/
theorem Parser.consume_sameOutcome (T : List Token) (ty : TokenType) :
    SameOutcome (Parser.consume T ty "Expected '(' after 'fr'".toList)
      (Parser.consume T ty "Expected '(' after 'no_cap'".toList) := by
  intro c
  simp only [Parser.consume, StateExcept.bind_apply]
  cases Parser.check T ty c with
  | error e => rfl
  | ok r =>
    obtain ⟨b, c1⟩ := r
    cases b with
    | true => rfl
    | false => rfl

theorem Parser.statementLoop_sameOutcome (T : List Token) {st st' : Parser StmtAST}
    (hs : SameOutcome st' st) : ∀ (k : Nat) (l : List StmtAST),
    SameOutcome (Parser.statementLoop (T.map frSpelling) st' k l)
      (Parser.statementLoop T st k l)
  | 0, _ => sameOutcome_refl _
  | k + 1, l => by
    have ih := Parser.statementLoop_sameOutcome T hs k
    simp only [Parser.statementLoop, Parser.isAtEnd_spell,
      Parser.check_spell T TOK_RIGHT_BRACE (by decide)]
    repeat' first
      | exact ih _
      | exact hs
      | with_reducible exact sameOutcome_refl _
      | refine sameOutcome_bind ?_ (fun _ => ?_)
      | refine sameOutcome_ite ?_ ?_

theorem Parser.block_sameOutcome (T : List Token) {st st' : Parser StmtAST}
    (hs : SameOutcome st' st) (f : Nat) :
    SameOutcome (Parser.block (T.map frSpelling) st' f) (Parser.block T st f) := by
  simp only [Parser.block, Parser.consume_spell T TOK_LEFT_BRACE _ (by decide),
    Parser.consume_spell T TOK_RIGHT_BRACE _ (by decide)]
  repeat' first
    | exact Parser.statementLoop_sameOutcome T hs _ _
    | with_reducible exact sameOutcome_refl _
    | refine sameOutcome_bind ?_ (fun _ => ?_)

theorem Parser.frStatement_sameOutcome (T : List Token) {st st' : Parser StmtAST}
    (hs : SameOutcome st' st) (f : Nat) :
    SameOutcome (Parser.frStatement (T.map frSpelling) st' f) (Parser.frStatement T st f) := by
  simp only [Parser.frStatement, Parser.expression_spell,
    Parser.match_spell T TOK_CAP (by decide),
    Parser.consume_spell T TOK_LEFT_PAREN _ (by decide),
    Parser.consume_spell T TOK_RIGHT_PAREN _ (by decide)]
  repeat' first
    | exact Parser.block_sameOutcome T hs _
    | with_reducible exact sameOutcome_refl _
    | refine sameOutcome_bind ?_ (fun _ => ?_)
    | refine sameOutcome_ite ?_ ?_

theorem Parser.betStatement_sameOutcome (T : List Token) {st st' : Parser StmtAST}
    (hs : SameOutcome st' st) (f : Nat) :
    SameOutcome (Parser.betStatement (T.map frSpelling) st' f)
      (Parser.betStatement T st f) := by
  simp only [Parser.betStatement, Parser.expression_spell,
    Parser.match_spell T TOK_POOKIE (by decide),
    Parser.consume_spell T TOK_LEFT_PAREN _ (by decide),
    Parser.consume_spell T TOK_RIGHT_PAREN _ (by decide),
    Parser.consume_spell T TOK_IDENTIFIER _ (by decide),
    Parser.consume_spell T TOK_EQUAL _ (by decide),
    Parser.consume_spell T TOK_COMMA _ (by decide)]
  repeat' first
    | exact Parser.block_sameOutcome T hs _
    | with_reducible exact sameOutcome_refl _
    | refine sameOutcome_bind ?_ (fun _ => ?_)
    | refine sameOutcome_ite ?_ ?_

theorem Parser.bruhStatement_sameOutcome (T : List Token) {st st' : Parser StmtAST}
    (hs : SameOutcome st' st) (f : Nat) :
    SameOutcome (Parser.bruhStatement (T.map frSpelling) st' f)
      (Parser.bruhStatement T st f) := by
  simp only [Parser.bruhStatement, Parser.paramsLoop_spell,
    Parser.check_spell T TOK_RIGHT_PAREN (by decide),
    Parser.consume_spell T TOK_LEFT_PAREN _ (by decide),
    Parser.consume_spell T TOK_RIGHT_PAREN _ (by decide),
    Parser.consume_spell T TOK_IDENTIFIER _ (by decide)]
  repeat' first
    | exact Parser.block_sameOutcome T hs _
    | with_reducible exact sameOutcome_refl _
    | refine sameOutcome_bind ?_ (fun _ => ?_)
    | refine sameOutcome_ite ?_ ?_

/-- The chain of `match` calls of `Parser::statement` at a cursor on the token `t`. -/
theorem Parser.dispatch {α : Type} {T : List Token} {c : Nat} {t : Token}
    (ht : T[c]? = some t) (yap fr bet pookie nocap bruh other : Parser α) :
    (Parser.match T TOK_YAP >>= fun b => if b = true then yap else
      Parser.match T TOK_FR >>= fun b => if b = true then fr else
      Parser.match T TOK_BET >>= fun b => if b = true then bet else
      Parser.match T TOK_POOKIE >>= fun b => if b = true then pookie else
      Parser.match T TOK_NO_CAP >>= fun b => if b = true then nocap else
      Parser.match T TOK_BRUH >>= fun b => if b = true then bruh else other) c =
    if t.type = TOK_YAP then yap (c + 1)
    else if t.type = TOK_FR then fr (c + 1)
    else if t.type = TOK_BET then bet (c + 1)
    else if t.type = TOK_POOKIE then pookie (c + 1)
    else if t.type = TOK_NO_CAP then nocap (c + 1)
    else if t.type = TOK_BRUH then bruh (c + 1)
    else other c := by
  have m : ∀ ty, ty ≠ TOK_EOF → Parser.match T ty c =
      if t.type = ty then .ok (true, c + 1) else .ok (false, c) := by
    intro ty hE
    by_cases h : t.type = ty
    · rw [if_pos h, Parser.match_hit ty ht h hE]
    · rw [if_neg h, Parser.match_miss ty ht h]
  simp only [StateExcept.bind_apply, m TOK_YAP (by decide)]
  by_cases h1 : t.type = TOK_YAP
  · simp only [h1, if_true]
  simp only [h1, if_false, Bool.false_eq_true, StateExcept.bind_apply, m TOK_FR (by decide)]
  by_cases h2 : t.type = TOK_FR
  · simp only [h2, if_true]
  simp only [h2, if_false, Bool.false_eq_true, StateExcept.bind_apply, m TOK_BET (by decide)]
  by_cases h3 : t.type = TOK_BET
  · simp only [h3, if_true]
  simp only [h3, if_false, Bool.false_eq_true, StateExcept.bind_apply,
    m TOK_POOKIE (by decide)]
  by_cases h4 : t.type = TOK_POOKIE
  · simp only [h4, if_true]
  simp only [h4, if_false, Bool.false_eq_true, StateExcept.bind_apply,
    m TOK_NO_CAP (by decide)]
  by_cases h5 : t.type = TOK_NO_CAP
  · simp only [h5, if_true]
  simp only [h5, if_false, Bool.false_eq_true, StateExcept.bind_apply,
    m TOK_BRUH (by decide)]
  by_cases h6 : t.type = TOK_BRUH
  · simp only [h6, if_true]
  simp only [h6, if_false, Bool.false_eq_true]

/-- At either spelling of the conditional keyword, `Parser::statement` goes on as
`Parser::frStatement` does after the keyword. -/
theorem Parser.statement_conditional {T : List Token} {c : Nat} {t : Token} (f : Nat)
    (ht : T[c]? = some t) (hty : t.type = TOK_FR ∨ t.type = TOK_NO_CAP) :
    (Parser.statement T (f + 1) c).mapError frMessage =
      (Parser.frStatement T (Parser.statement T f) f (c + 1)).mapError frMessage := by
  rw [Parser.statement, Parser.dispatch ht]
  rcases hty with h | h
  · simp only [h, if_true, reduceCtorEq, if_false]
  · simp only [h, if_true, reduceCtorEq, if_false]
    unfold Parser.frStatement
    exact (sameOutcome_bind (Parser.consume_sameOutcome T _)
      (fun _ => sameOutcome_refl _) (c + 1)).symm

theorem Parser.statement_sameOutcome (T : List Token) :
    ∀ f : Nat, SameOutcome (Parser.statement (T.map frSpelling) f) (Parser.statement T f)
  | 0 => sameOutcome_refl _
  | f + 1 => by
    have ih := Parser.statement_sameOutcome T f
    intro c
    cases ht : T[c]? with
    | none =>
      have ht' : (T.map frSpelling)[c]? = none := by rw [getElem_spell, ht]; rfl
      simp [Parser.statement, Parser.match, Parser.check, Parser.isAtEnd, Parser.peek, ht,
        ht']
    | some t =>
      have ht' : (T.map frSpelling)[c]? = some (frSpelling t) := by
        rw [getElem_spell, ht]; rfl
      by_cases hS : t.type ∈ conditionalTypes
      · have hty : t.type = TOK_FR ∨ t.type = TOK_NO_CAP := by
          simpa [conditionalTypes] using hS
        have hty' : (frSpelling t).type = TOK_FR ∨ (frSpelling t).type = TOK_NO_CAP := by
          left
          simp [frSpelling, hS]
        rw [Parser.statement_conditional f ht' hty', Parser.statement_conditional f ht hty]
        exact Parser.frStatement_sameOutcome T ih f (c + 1)
      · have hk : frSpelling t = t := by simp [frSpelling, hS]
        rw [hk] at ht'
        have n1 : t.type ≠ TOK_FR := fun e => hS (by simp [e, conditionalTypes])
        have n2 : t.type ≠ TOK_NO_CAP := fun e => hS (by simp [e, conditionalTypes])
        rw [Parser.statement, Parser.statement, Parser.dispatch ht', Parser.dispatch ht]
        simp only [n1, n2, if_false]
        split_ifs
        · rw [Parser.yapStatement_spell]
        · exact Parser.betStatement_sameOutcome T ih f (c + 1)
        · simp only [Parser.expression_spell,
            Parser.consume_spell T TOK_IDENTIFIER _ (by decide),
            Parser.consume_spell T TOK_EQUAL _ (by decide),
            Parser.consume_spell T TOK_SEMICOLON _ (by decide)]
        · exact Parser.bruhStatement_sameOutcome T ih f (c + 1)
        · rfl

theorem Parser.cook_sameOutcome (T : List Token) (f : Nat) :
    SameOutcome (Parser.cook (T.map frSpelling) f) (Parser.cook T f) := by
  simp only [Parser.cook, Parser.match_spell T TOK_COOK (by decide),
    Parser.consume_spell T TOK_LEFT_BRACE _ (by decide),
    Parser.consume_spell T TOK_RIGHT_BRACE _ (by decide)]
  repeat' first
    | exact Parser.statementLoop_sameOutcome T (Parser.statement_sameOutcome T f) _ _
    | with_reducible exact sameOutcome_refl _
    | refine sameOutcome_bind ?_ (fun _ => ?_)
    | refine sameOutcome_ite ?_ ?_

/-- The outcome of `parseCook` on a token sequence is its outcome on the sequence with
every conditional keyword spelled `fr`. -/
theorem parseCook_spell (T : List Token) :
    (parseCook (T.map frSpelling)).mapError frMessage = (parseCook T).mapError frMessage := by
  have h := Parser.cook_sameOutcome T (T.length + 1) 0
  unfold parseCook parseCookAt
  rw [List.length_map]
  cases h1 : Parser.cook (T.map frSpelling) (T.length + 1) 0 with
  | error e =>
    cases h2 : Parser.cook T (T.length + 1) 0 with
    | error e' =>
      rw [h1, h2] at h
      simpa [Except.mapError] using h
    | ok r =>
      rw [h1, h2] at h
      simp [Except.mapError] at h
  | ok r =>
    cases h2 : Parser.cook T (T.length + 1) 0 with
    | error e' =>
      rw [h1, h2] at h
      simp [Except.mapError] at h
    | ok r' =>
      rw [h1, h2] at h
      simp only [Except.mapError, Except.ok.injEq] at h
      subst h
      rfl

theorem mapError_ok_iff {α : Type} (r : Except Err α) (a : α) :
    r.mapError frMessage = .ok a ↔ r = .ok a := by
  cases r with
  | error e => simp [Except.mapError]
  | ok b => simp [Except.mapError]

theorem mapError_runtime_iff {α : Type} (r : Except Err α) :
    (∃ m, r.mapError frMessage = .error (.runtime m)) ↔ ∃ m, r = .error (.runtime m) := by
  cases r with
  | ok b => simp [Except.mapError]
  | error e =>
    cases e with
    | runtime m =>
      simp only [Except.mapError, frMessage]
      constructor
      · intro _
        exact ⟨m, rfl⟩
      · intro _
        split_ifs
        · exact ⟨_, rfl⟩
        · exact ⟨_, rfl⟩
    | outOfRange fn => simp [Except.mapError, frMessage]
    | invalidArgument fn => simp [Except.mapError, frMessage]
    | outOfBounds => simp [Except.mapError, frMessage]
    | fuel => simp [Except.mapError, frMessage]

/-! ## The parser consumes a token -/

/-- Sequencing after a computation that consumes a token: the whole consumes one. -/
theorem safe_first {T : List Token} {lo : Nat} {α β : Type} {p : Parser α}
    {f : α → Parser β} (hp : Safe T lo p (fun _ => 1))
    (hf : ∀ a, Safe T (lo + 1) (f a) (fun _ => 0)) : Safe T lo (p >>= f) (fun _ => 1) := by
  intro c hlo hw
  obtain ⟨p1, p3⟩ := hp c hlo hw
  cases hr : p c with
  | error err =>
    have hb : (p >>= f) c = .error err := by simp [StateExcept.bind_apply, hr]
    rw [hb]
    refine ⟨fun e' h => ?_, fun b c' h => by simp at h⟩
    simp only [Except.error.injEq] at h
    subst h
    exact p1 err hr
  | ok r =>
    obtain ⟨a, c1⟩ := r
    have hb : (p >>= f) c = f a c1 := by simp [StateExcept.bind_apply, hr]
    rw [hb]
    obtain ⟨q1, q2⟩ := p3 a c1 hr
    have q1' : c + 1 ≤ c1 := q1
    obtain ⟨r1, r3⟩ := hf a c1 (by omega) q2
    refine ⟨r1, fun b c' h => ⟨?_, (r3 b c' h).2⟩⟩
    have h1 : c1 + 0 ≤ c' := (r3 b c' h).1
    show c + 1 ≤ c'
    omega

theorem Parser.primary_step {T : List Token} (H : EndsWithEof T) {expression : Parser ExprAST}
    {lo : Nat} (he : Safe T (lo + 1) expression (fun _ => 0)) :
    Safe T lo (Parser.primary T expression) (fun _ => 1) := by
  unfold Parser.primary
  repeat' first
    | exact safe_pure _
    | exact safe_throw _
    | exact he
    | exact Parser.previous_safe T (Nat.le_add_left 1 _)
    | exact safe_zero (Parser.consume_safe H _ _ _)
    | (generalize hn : numberOfToken _ = r
       cases r
       · exact safe_fail _ (numberOfToken_error _ _ hn).1 (numberOfToken_error _ _ hn).2
       · exact safe_pure _)
    | refine safe_cond_step (Parser.match_safe H _ _) ?_ ?_
    | refine safe_then ?_ (fun _ => ?_)

theorem Parser.unary_step {T : List Token} (H : EndsWithEof T) :
    ∀ (f lo : Nat), T.length ≤ lo + f → Safe T lo (Parser.unary T f) (fun _ => 1)
  | 0, lo, hL => safe_vacuous _ _ (by omega)
  | f + 1, lo, hL => by
    have ih := Parser.unary_safe H f (lo + 1) (by omega)
    unfold Parser.unary
    refine safe_cond_step (Parser.matchOr_safe H _ _ _) ?_ ?_
    · refine safe_then (Parser.previous_safe T (Nat.le_add_left 1 _)) (fun op => ?_)
      exact safe_then ih (fun _ => safe_pure _)
    · exact Parser.primary_step H (Parser.equality_safe H ih (by omega))

theorem Parser.factor_step {T : List Token} (H : EndsWithEof T) {unary : Parser ExprAST}
    {lo f : Nat} (hu : Safe T lo unary (fun _ => 1)) (hL : T.length ≤ lo + f) :
    Safe T lo (Parser.factor T unary f) (fun _ => 1) := by
  unfold Parser.factor
  exact safe_first hu (fun _ =>
    Parser.binaryLoop_safe f (lo + 1) _ (Parser.matchOr_safe H _ _ _)
      (safe_mono (safe_zero hu) (Nat.le_succ lo)) (by omega))

theorem Parser.term_step {T : List Token} (H : EndsWithEof T) {unary : Parser ExprAST}
    {lo f : Nat} (hu : Safe T lo unary (fun _ => 1)) (hL : T.length ≤ lo + f) :
    Safe T lo (Parser.term T unary f) (fun _ => 1) := by
  unfold Parser.term
  exact safe_first (Parser.factor_step H hu hL) (fun _ =>
    Parser.binaryLoop_safe f (lo + 1) _ (Parser.matchOr_safe H _ _ _)
      (safe_mono (Parser.factor_safe H (safe_zero hu) hL) (Nat.le_succ lo)) (by omega))

theorem Parser.comparison_step {T : List Token} (H : EndsWithEof T) {unary : Parser ExprAST}
    {lo f : Nat} (hu : Safe T lo unary (fun _ => 1)) (hL : T.length ≤ lo + f) :
    Safe T lo (Parser.comparison T unary f) (fun _ => 1) := by
  unfold Parser.comparison
  exact safe_first (Parser.term_step H hu hL) (fun _ =>
    Parser.binaryLoop_safe f (lo + 1) _ (Parser.matchList_safe H _ _)
      (safe_mono (Parser.term_safe H (safe_zero hu) hL) (Nat.le_succ lo)) (by omega))

theorem Parser.equality_step {T : List Token} (H : EndsWithEof T) {unary : Parser ExprAST}
    {lo f : Nat} (hu : Safe T lo unary (fun _ => 1)) (hL : T.length ≤ lo + f) :
    Safe T lo (Parser.equality T unary f) (fun _ => 1) := by
  unfold Parser.equality
  exact safe_first (Parser.comparison_step H hu hL) (fun _ =>
    Parser.binaryLoop_safe f (lo + 1) _ (Parser.matchOr_safe H _ _ _)
      (safe_mono (Parser.comparison_safe H (safe_zero hu) hL) (Nat.le_succ lo)) (by omega))

theorem Parser.expression_step {T : List Token} (H : EndsWithEof T) {f lo : Nat}
    (hL : T.length ≤ lo + f) : Safe T lo (Parser.expression T f) (fun _ => 1) :=
  Parser.equality_step H (Parser.unary_step H f lo hL) hL

theorem Parser.block_step {T : List Token} (H : EndsWithEof T) {statement : Parser StmtAST}
    {lo f : Nat} (hs : Safe T lo statement (fun _ => 1)) (hL : T.length ≤ lo + f) :
    Safe T lo (Parser.block T statement f) (fun _ => 1) := by
  unfold Parser.block
  refine safe_first (Parser.consume_safe H _ _ _) (fun _ => ?_)
  refine safe_then (Parser.statementLoop_safe _ _ _ (safe_mono hs (Nat.le_succ lo))
    (by omega)) (fun _ => ?_)
  exact safe_then (safe_zero (Parser.consume_safe H _ _ _)) (fun _ => safe_pure _)

/-- What `Safe` says at one cursor, with the fuel error alone. -/
theorem safe_at {T : List Token} {α : Type} {p : Parser α} {c : Nat}
    (h : Safe T c p (fun _ => 1)) (hw : Parser.Within T c) :
    p c ≠ .error .fuel ∧ ∀ a c', p c = .ok (a, c') → c < c' := by
  obtain ⟨h1, h2⟩ := h c (Nat.le_refl c) hw
  exact ⟨fun e => (h1 _ e).2 rfl, fun a c' e => (h2 a c' e).1⟩

/-! ## The recorded operations of the lowering -/

theorem generateExpr_binary (op : Char) (l r : ExprAST) (g g1 g2 : CodeGen) (L R : Value)
    (hl : generateExpr l g = .ok (L, g1)) (hr : generateExpr r g1 = .ok (R, g2)) :
    generateExpr (BinaryExprAST op l r) g = Gen.binaryOp op L R g2 := by
  simp [generateExpr, hl, hr]

theorem Gen.createSIToFP_eq (v : Value) (g : CodeGen) :
    Gen.createSIToFP v g = .ok (.reg g.nextId .double, g.record [.siToFP g.nextId v] 1) := rfl

theorem Gen.createBinary_eq (op : BinOp) (a b : Value) (g : CodeGen) :
    Gen.createBinary op a b g =
      .ok (.reg g.nextId (if op.isCmp then .i1 else a.type),
        g.record [.binary g.nextId op a b] 1) := rfl

theorem CodeGen.record_record (g : CodeGen) (is js : List Instr) (m n : Nat) :
    (g.record is m).record js n = g.record (is ++ js) (m + n) := by
  simp [CodeGen.record, List.foldl_append, Nat.add_assoc]

@[simp] theorem CodeGen.record_nextId (g : CodeGen) (is : List Instr) (m : Nat) :
    (g.record is m).nextId = g.nextId + m := rfl

/-- The lowering of a division whose operands are both not of floating kind. -/
theorem Gen.binaryOp_div_int (L R : Value) (g : CodeGen) (hL : L.isDoubleTy = false)
    (hR : R.isDoubleTy = false) :
    Gen.binaryOp '/' L R g =
      .ok (.reg (g.nextId + 2) .double,
        g.record [.siToFP g.nextId L, .siToFP (g.nextId + 1) R,
          .binary (g.nextId + 2) .FDiv (.reg g.nextId .double) (.reg (g.nextId + 1) .double)] 3) := by
  simp [Gen.binaryOp, hL, hR, Gen.createSIToFP_eq, Gen.createBinary_eq, CodeGen.record_record,
    BinOp.isCmp, Value.type]


/-- The lowering of a binary node whose left operand only is of floating kind. -/
theorem Gen.binaryOp_float_left (op : Char) (fop : BinOp) (L R : Value) (g : CodeGen)
    (hop : floatOp op = some fop) (hL : L.isDoubleTy = true) (hR : R.isDoubleTy = false) :
    Gen.binaryOp op L R g =
      .ok (.reg (g.nextId + 1) (if fop.isCmp then .i1 else .double),
        g.record [.siToFP g.nextId R, .binary (g.nextId + 1) fop L (.reg g.nextId .double)] 2) := by
  have hL' : L.type = .double := by simpa [Value.isDoubleTy] using hL
  simp [Gen.binaryOp, hL, hR, hop, Gen.createSIToFP_eq, Gen.createBinary_eq,
    CodeGen.record_record, hL']

/-- The lowering of a binary node whose right operand only is of floating kind. -/
theorem Gen.binaryOp_float_right (op : Char) (fop : BinOp) (L R : Value) (g : CodeGen)
    (hop : floatOp op = some fop) (hL : L.isDoubleTy = false) (hR : R.isDoubleTy = true) :
    Gen.binaryOp op L R g =
      .ok (.reg (g.nextId + 1) (if fop.isCmp then .i1 else .double),
        g.record [.siToFP g.nextId L, .binary (g.nextId + 1) fop (.reg g.nextId .double) R] 2) := by
  simp [Gen.binaryOp, hL, hR, hop, Gen.createSIToFP_eq, Gen.createBinary_eq,
    CodeGen.record_record, Value.type]

/-- The lowering of a binary node whose operands are both of floating kind. -/
theorem Gen.binaryOp_float_both (op : Char) (fop : BinOp) (L R : Value) (g : CodeGen)
    (hop : floatOp op = some fop) (hL : L.isDoubleTy = true) (hR : R.isDoubleTy = true) :
    Gen.binaryOp op L R g =
      .ok (.reg g.nextId (if fop.isCmp then .i1 else .double),
        g.record [.binary g.nextId fop L R] 1) := by
  have hL' : L.type = .double := by simpa [Value.isDoubleTy] using hL
  simp [Gen.binaryOp, hL, hR, hop, Gen.createBinary_eq, hL']

theorem isDoubleTy_of_integer {v : Value} (h : v.isIntegerTy = true) : v.isDoubleTy = false := by
  cases hv : v.type <;> simp_all [Value.isIntegerTy, Value.isDoubleTy]

theorem floatOp_spec {op : Char} (hop : op ∈ ['+', '-', '*', '/', '<', '>', '=']) :
    ∃ fop, floatOp op = some fop ∧ fop.isFloatOp = true := by
  simp only [List.mem_cons, List.mem_singleton, List.not_mem_nil, or_false] at hop
  rcases hop with h | h | h | h | h | h | h <;> subst h <;> exact ⟨_, rfl, rfl⟩


/-! ## What the lowering leaves alone -/

theorem ExprFrame.refl (g : CodeGen) : ExprFrame g g := ⟨rfl, rfl, rfl, rfl, fun _ _ => rfl⟩

theorem ExprFrame.trans {g1 g2 g3 : CodeGen} (h1 : ExprFrame g1 g2) (h2 : ExprFrame g2 g3) :
    ExprFrame g1 g3 := by
  obtain ⟨a1, a2, a3, a4, a5⟩ := h1
  obtain ⟨b1, b2, b3, b4, b5⟩ := h2
  refine ⟨b1.trans a1, b2.trans a2, b3.trans a3, b4.trans a4, fun b hb => ?_⟩
  rw [b5 b (by rw [a1]; exact hb), a5 b hb]

theorem appendInstr_length (bs : List BasicBlock) (b : Nat) (i : Instr) :
    (appendInstr bs b i).length = bs.length := by
  induction bs generalizing b with
  | nil => rfl
  | cons bb bbs ih => cases b <;> simp [appendInstr, ih]

theorem appendInstr_get_ne (bs : List BasicBlock) (b c : Nat) (i : Instr) (h : c ≠ b) :
    (appendInstr bs b i)[c]? = bs[c]? := by
  induction bs generalizing b c with
  | nil => rfl
  | cons bb bbs ih =>
    cases b with
    | zero =>
      cases c with
      | zero => exact absurd rfl h
      | succ c => simp [appendInstr]
    | succ b =>
      cases c with
      | zero => simp [appendInstr]
      | succ c => simpa [appendInstr] using ih b c (fun e => h (by rw [e]))

theorem Gen.emit_frame (i : Instr) (g g' : CodeGen) (u : Unit) (h : Gen.emit i g = .ok (u, g')) :
    ExprFrame g g' := by
  simp only [Gen.emit, Except.ok.injEq, Prod.mk.injEq] at h
  obtain ⟨-, rfl⟩ := h
  exact ⟨rfl, appendInstr_length _ _ _, rfl, rfl, fun b hb => appendInstr_get_ne _ _ _ _ hb⟩

theorem Holds.pure {σ α : Type} {R : σ → σ → Prop} (hR : ∀ s, R s s) (a : α) :
    Holds R (pure a : StateExcept σ α) := by
  intro s b s' h
  simp only [StateExcept.pure_apply, Except.ok.injEq, Prod.mk.injEq] at h
  obtain ⟨-, rfl⟩ := h
  exact hR s

theorem Holds.fail {σ α : Type} {R : σ → σ → Prop} (err : Err) :
    Holds R (StateExcept.fail err : StateExcept σ α) := by
  intro s b s' h
  simp at h

theorem Holds.throwRuntime {σ α : Type} {R : σ → σ → Prop} (m : Str) :
    Holds R (StateExcept.throwRuntime m : StateExcept σ α) := by
  intro s b s' h
  simp at h

theorem Holds.bind {σ α β : Type} {R : σ → σ → Prop}
    (hR : ∀ s1 s2 s3, R s1 s2 → R s2 s3 → R s1 s3) {p : StateExcept σ α}
    {f : α → StateExcept σ β} (hp : Holds R p) (hf : ∀ a, Holds R (f a)) :
    Holds R (p >>= f) := by
  intro s b s' h
  simp only [StateExcept.bind_apply] at h
  split at h
  · simp at h
  · rename_i a s1 hps
    exact hR _ _ _ (hp _ _ _ hps) (hf a _ _ _ h)

theorem Holds.mono {σ α : Type} {R R' : σ → σ → Prop} (h : ∀ s s', R s s' → R' s s')
    {p : StateExcept σ α} (hp : Holds R p) : Holds R' p :=
  fun s a s' e => h _ _ (hp s a s' e)

theorem exprFrame_trans : ∀ s1 s2 s3 : CodeGen, ExprFrame s1 s2 → ExprFrame s2 s3 →
    ExprFrame s1 s3 := fun _ _ _ h1 h2 => h1.trans h2

theorem Gen.emit_holds (i : Instr) : Holds ExprFrame (Gen.emit i) :=
  fun g u g' h => Gen.emit_frame i g g' u h

theorem Gen.fresh_holds : Holds ExprFrame Gen.fresh := by
  intro g a g' h
  simp only [Gen.fresh, Except.ok.injEq, Prod.mk.injEq] at h
  obtain ⟨-, rfl⟩ := h
  exact ⟨rfl, rfl, rfl, rfl, fun _ _ => rfl⟩

theorem Gen.findNamed_holds (name : Str) : Holds ExprFrame (Gen.findNamed name) := by
  intro g a g' h
  simp only [Gen.findNamed, Except.ok.injEq, Prod.mk.injEq] at h
  obtain ⟨-, rfl⟩ := h
  exact ExprFrame.refl g

theorem Gen.createGlobalStringPtr_holds (s : Str) :
    Holds ExprFrame (Gen.createGlobalStringPtr s) := by
  intro g a g' h
  simp only [Gen.createGlobalStringPtr, Except.ok.injEq, Prod.mk.injEq] at h
  obtain ⟨-, rfl⟩ := h
  exact ⟨rfl, rfl, rfl, rfl, fun _ _ => rfl⟩

theorem Gen.record1_holds {α : Type} (mk : Nat → Instr) (a : Nat → α) :
    Holds ExprFrame (do let id ← Gen.fresh; Gen.emit (mk id); pure (a id) : Gen α) :=
  Holds.bind exprFrame_trans Gen.fresh_holds fun _ =>
    Holds.bind exprFrame_trans (Gen.emit_holds _) fun _ => Holds.pure ExprFrame.refl _

theorem Gen.createLoad_holds (ptr : Value) (name : Str) :
    Holds ExprFrame (Gen.createLoad ptr name) := Gen.record1_holds _ _

theorem Gen.createSIToFP_holds (v : Value) : Holds ExprFrame (Gen.createSIToFP v) :=
  Gen.record1_holds _ _

theorem Gen.createBinary_holds (op : BinOp) (a b : Value) :
    Holds ExprFrame (Gen.createBinary op a b) := Gen.record1_holds _ _

theorem Gen.createFNeg_holds (v : Value) : Holds ExprFrame (Gen.createFNeg v) :=
  Gen.record1_holds _ _

theorem Gen.createCall_holds (c : Str) (args : List Value) :
    Holds ExprFrame (Gen.createCall c args) := Gen.record1_holds _ _

theorem Gen.binaryOp_holds (op : Char) (L R : Value) : Holds ExprFrame (Gen.binaryOp op L R) := by
  unfold Gen.binaryOp
  simp only []
  repeat' first
    | exact Holds.pure ExprFrame.refl _
    | exact Holds.throwRuntime _
    | exact Gen.createSIToFP_holds _
    | exact Gen.createBinary_holds _ _ _
    | exact Gen.createFNeg_holds _
    | exact Gen.createCall_holds _ _
    | exact Gen.createLoad_holds _ _
    | exact Gen.createGlobalStringPtr_holds _
    | exact Gen.emit_holds _
    | exact Gen.findNamed_holds _
    | refine Holds.bind exprFrame_trans ?_ (fun _ => ?_)
    | split

mutual
theorem generateExpr_holds : ∀ e : ExprAST, Holds ExprFrame (generateExpr e)
  | VariableExprAST name => by
    unfold generateExpr
    repeat' first
      | exact Holds.pure ExprFrame.refl _
      | exact Holds.throwRuntime _
      | exact Gen.createSIToFP_holds _
      | exact Gen.createBinary_holds _ _ _
      | exact Gen.createFNeg_holds _
      | exact Gen.createCall_holds _ _
      | exact Gen.createLoad_holds _ _
      | exact Gen.createGlobalStringPtr_holds _
      | exact Gen.emit_holds _
      | exact Gen.findNamed_holds _
      | refine Holds.bind exprFrame_trans ?_ (fun _ => ?_)
      | split
  | NumberExprAST (.ofDouble _) => by
    unfold generateExpr
    exact Holds.pure ExprFrame.refl _
  | NumberExprAST (.ofInt _) => by
    unfold generateExpr
    exact Holds.pure ExprFrame.refl _
  | StringExprAST value => by
    unfold generateExpr
    exact Gen.createGlobalStringPtr_holds _
  | BinaryExprAST op lhs rhs => by
    unfold generateExpr
    exact Holds.bind exprFrame_trans (generateExpr_holds lhs) fun _ =>
      Holds.bind exprFrame_trans (generateExpr_holds rhs) fun _ => Gen.binaryOp_holds _ _ _
  | UnaryExprAST op operand => by
    have ih := generateExpr_holds operand
    unfold generateExpr
    repeat' first
      | exact Holds.pure ExprFrame.refl _
      | exact Holds.throwRuntime _
      | exact Gen.createSIToFP_holds _
      | exact Gen.createBinary_holds _ _ _
      | exact Gen.createFNeg_holds _
      | exact Gen.createCall_holds _ _
      | exact Gen.createLoad_holds _ _
      | exact Gen.createGlobalStringPtr_holds _
      | exact Gen.emit_holds _
      | exact Gen.findNamed_holds _
      | exact ih
      | refine Holds.bind exprFrame_trans ?_ (fun _ => ?_)
      | split
  | GroupingExprAST e => by
    unfold generateExpr
    exact generateExpr_holds e
  | AssignExprAST name value => by
    have ih := generateExpr_holds value
    unfold generateExpr
    repeat' first
      | exact Holds.pure ExprFrame.refl _
      | exact Holds.throwRuntime _
      | exact Gen.createSIToFP_holds _
      | exact Gen.createBinary_holds _ _ _
      | exact Gen.createFNeg_holds _
      | exact Gen.createCall_holds _ _
      | exact Gen.createLoad_holds _ _
      | exact Gen.createGlobalStringPtr_holds _
      | exact Gen.emit_holds _
      | exact Gen.findNamed_holds _
      | exact ih
      | refine Holds.bind exprFrame_trans ?_ (fun _ => ?_)
      | split
  | CallExprAST callee args => by
    have ih := generateCallArgs_holds args
    unfold generateExpr
    repeat' first
      | exact Holds.pure ExprFrame.refl _
      | exact Holds.throwRuntime _
      | exact Gen.createSIToFP_holds _
      | exact Gen.createBinary_holds _ _ _
      | exact Gen.createFNeg_holds _
      | exact Gen.createCall_holds _ _
      | exact Gen.createLoad_holds _ _
      | exact Gen.createGlobalStringPtr_holds _
      | exact Gen.emit_holds _
      | exact Gen.findNamed_holds _
      | exact ih _ _
      | refine Holds.bind exprFrame_trans ?_ (fun _ => ?_)
      | split
theorem generateCallArgs_holds : ∀ (args : List ExprAST) (f : Str) (vs : List Value),
    Holds ExprFrame (generateCallArgs args f vs)
  | [], f, vs => by
    unfold generateCallArgs
    exact Holds.pure ExprFrame.refl _
  | arg :: args, f, vs => by
    unfold generateCallArgs
    exact Holds.bind exprFrame_trans (generateExpr_holds arg) fun _ =>
      generateCallArgs_holds args _ _
end

theorem StmtFrame.stay (g : CodeGen) : StmtFrame g g :=
  ⟨Nat.le_refl _, Or.inl rfl, id, ⟨[], by simp⟩, fun _ _ _ _ => rfl⟩

theorem StmtFrame.andThen {g1 g2 g3 : CodeGen} (h1 : StmtFrame g1 g2) (h2 : StmtFrame g2 g3) :
    StmtFrame g1 g3 := by
  refine ⟨Nat.le_trans h1.len_le h2.len_le, ?_, fun h => h2.valid (h1.valid h), ?_, ?_⟩
  · rcases h2.insert with h | h
    · rcases h1.insert with h' | h'
      · exact Or.inl (h.trans h')
      · exact Or.inr (by rw [h]; exact h')
    · exact Or.inr (Nat.le_trans h1.len_le h)
  · obtain ⟨l1, e1⟩ := h1.layout
    obtain ⟨l2, e2⟩ := h2.layout
    exact ⟨l1 ++ l2, by rw [e2, e1, List.append_assoc]⟩
  · intro b hb h0 hi
    have hb2 : b < g2.blocks.length := Nat.lt_of_lt_of_le hb h1.len_le
    have hi2 : b ≠ g2.insertBlock := by
      rcases h1.insert with h | h
      · rw [h]; exact hi
      · omega
    rw [h2.other b hb2 h0 hi2, h1.other b hb h0 hi]

theorem stmtFrame_trans : ∀ s1 s2 s3 : CodeGen, StmtFrame s1 s2 → StmtFrame s2 s3 →
    StmtFrame s1 s3 := fun _ _ _ h1 h2 => h1.andThen h2

theorem ExprFrame.toStmt {g g' : CodeGen} (h : ExprFrame g g') : StmtFrame g g' := by
  obtain ⟨a1, a2, a3, a4, a5⟩ := h
  exact ⟨by omega, Or.inl a1, fun hv => by omega, ⟨[], by simp [a3]⟩, fun b _ _ hi => a5 b hi⟩

theorem prependInstr_length (bs : List BasicBlock) (b : Nat) (i : Instr) :
    (prependInstr bs b i).length = bs.length := by
  induction bs generalizing b with
  | nil => rfl
  | cons bb bbs ih => cases b <;> simp [prependInstr, ih]

theorem prependInstr_get_ne (bs : List BasicBlock) (b c : Nat) (i : Instr) (h : c ≠ b) :
    (prependInstr bs b i)[c]? = bs[c]? := by
  induction bs generalizing b c with
  | nil => rfl
  | cons bb bbs ih =>
    cases b with
    | zero =>
      cases c with
      | zero => exact absurd rfl h
      | succ c => simp [prependInstr]
    | succ b =>
      cases c with
      | zero => simp [prependInstr]
      | succ c => simpa [prependInstr] using ih b c (fun e => h (by rw [e]))

theorem Gen.createEntryAlloca_holds (name : Str) :
    Holds StmtFrame (Gen.createEntryAlloca name) := by
  intro g a g' h
  simp only [Gen.createEntryAlloca, Except.ok.injEq, Prod.mk.injEq] at h
  obtain ⟨-, rfl⟩ := h
  exact ⟨by simp [prependInstr_length], Or.inl rfl, fun hv => by simpa [prependInstr_length] using hv,
    ⟨[], by simp⟩, fun b _ h0 _ => prependInstr_get_ne _ _ _ _ h0⟩

theorem Gen.setNamed_holds (name : Str) (v : Value) : Holds StmtFrame (Gen.setNamed name v) := by
  intro g a g' h
  simp only [Gen.setNamed, Except.ok.injEq, Prod.mk.injEq] at h
  obtain ⟨-, rfl⟩ := h
  exact ⟨Nat.le_refl _, Or.inl rfl, id, ⟨[], by simp⟩, fun _ _ _ _ => rfl⟩

theorem generateYapArgs_holds : ∀ (args : List ExprAST) (f : Str) (vs : List Value),
    Holds ExprFrame (generateYapArgs args f vs)
  | [], f, vs => by
    unfold generateYapArgs
    exact Holds.pure ExprFrame.refl _
  | arg :: args, f, vs => by
    unfold generateYapArgs
    exact Holds.bind exprFrame_trans (generateExpr_holds arg) fun _ =>
      generateYapArgs_holds args _ _

theorem Gen.condition_holds (v : Value) : Holds ExprFrame (Gen.condition v) := by
  unfold Gen.condition
  split
  · exact Gen.createBinary_holds _ _ _
  · exact Holds.pure ExprFrame.refl _

/-- The lowering of a conditional, state by state. -/
theorem generateStmt_sus (c : ExprAST) (t e : List StmtAST) (g : CodeGen) :
    generateStmt (SusStmtAST c t e) g =
      match generateExpr c g with
      | .error err => .error err
      | .ok (cv0, g0) =>
        match Gen.condition cv0 g0 with
        | .error err => .error err
        | .ok (cv, g1) =>
          match generateStmts t (g1.openIf cv) with
          | .error err => .error err
          | .ok (_, g3) =>
            match generateStmts e
                (g3.branchAndEnter (g1.blocks.length + 2) (g1.blocks.length + 1)) with
            | .error err => .error err
            | .ok (_, g5) =>
              .ok ((), g5.branchAndEnter (g1.blocks.length + 2) (g1.blocks.length + 2)) := by
  rw [generateStmt]
  simp only [StateExcept.bind_apply, Gen.createBlock, Gen.emit, Gen.setInsertPoint,
    Gen.insertIntoFunction, CodeGen.openIf, CodeGen.branchAndEnter,
    List.length_append, List.length_singleton, List.append_assoc, List.singleton_append,
    if_true, Bool.false_eq_true, if_false, StateExcept.pure_apply, List.length_cons,
    List.length_nil, Nat.add_assoc, Nat.reduceAdd, List.cons_append, List.nil_append]
  cases generateExpr c g with
  | error err => rfl
  | ok p0 =>
    obtain ⟨cv0, g0⟩ := p0
    simp only []
    cases Gen.condition cv0 g0 with
    | error err => rfl
    | ok p1 =>
      obtain ⟨cv, g1⟩ := p1
      simp only []
      generalize generateStmts t _ = r3
      cases r3 with
      | error err => rfl
      | ok p3 =>
        obtain ⟨u3, g3⟩ := p3
        simp only []
        generalize generateStmts e _ = r5
        cases r5 with
        | error err => rfl
        | ok p5 => rfl

/-- The lowering of a loop, state by state. -/
theorem generateStmt_bet (init : Option StmtAST) (cond : Option ExprAST)
    (inc : Option StmtAST) (body : List StmtAST) (g : CodeGen) :
    generateStmt (BetStmtAST init cond inc body) g =
      match generateOptStmt init g.openLoop with
      | .error err => .error err
      | .ok (_, g1) =>
        match (match cond with
            | some c => (generateExpr c >>= Gen.condition) (g1.enterCond g.blocks.length)
            | none => .ok (.constBool true, g1.enterCond g.blocks.length)) with
        | .error err => .error err
        | .ok (cv, g3) =>
          match generateStmts body
              (g3.enterBody cv (g.blocks.length + 1) (g.blocks.length + 2)) with
          | .error err => .error err
          | .ok (_, g5) =>
            match generateOptStmt inc g5 with
            | .error err => .error err
            | .ok (_, g6) =>
              .ok ((), g6.branchAndEnter g.blocks.length (g.blocks.length + 2)) := by
  rw [generateStmt]
  cases cond with
  | none =>
    simp only [StateExcept.bind_apply, Gen.createBlock, Gen.emit, Gen.setInsertPoint,
      Gen.insertIntoFunction, CodeGen.openLoop, CodeGen.enterCond, CodeGen.enterBody,
      CodeGen.branchAndEnter,
      List.length_append, List.length_singleton, List.append_assoc, List.singleton_append,
      if_true, Bool.false_eq_true, if_false, StateExcept.pure_apply, List.length_cons,
      List.length_nil, Nat.add_assoc, Nat.reduceAdd, List.cons_append, List.nil_append]
    generalize generateOptStmt init _ = r1
    cases r1 with
    | error err => rfl
    | ok p1 =>
      obtain ⟨u1, g1⟩ := p1
      simp only []
      generalize generateStmts body _ = r5
      cases r5 with
      | error err => rfl
      | ok p5 =>
        obtain ⟨u5, g5⟩ := p5
        simp only []
        cases generateOptStmt inc g5 with
        | error err => rfl
        | ok p6 => rfl
  | some c =>
    simp only [StateExcept.bind_apply, Gen.createBlock, Gen.emit, Gen.setInsertPoint,
      Gen.insertIntoFunction, CodeGen.openLoop, CodeGen.enterCond, CodeGen.enterBody,
      CodeGen.branchAndEnter,
      List.length_append, List.length_singleton, List.append_assoc, List.singleton_append,
      if_true, Bool.false_eq_true, if_false, StateExcept.pure_apply, List.length_cons,
      List.length_nil, Nat.add_assoc, Nat.reduceAdd, List.cons_append, List.nil_append]
    generalize generateOptStmt init _ = r1
    cases r1 with
    | error err => rfl
    | ok p1 =>
      obtain ⟨u1, g1⟩ := p1
      simp only []
      generalize generateExpr c _ = r2
      cases r2 with
      | error err => rfl
      | ok p2 =>
        obtain ⟨cv0, g2⟩ := p2
        simp only []
        cases Gen.condition cv0 g2 with
        | error err => rfl
        | ok p3 =>
          obtain ⟨cv, g3⟩ := p3
          simp only []
          generalize generateStmts body _ = r5
          cases r5 with
          | error err => rfl
          | ok p5 =>
            obtain ⟨u5, g5⟩ := p5
            simp only []
            cases generateOptStmt inc g5 with
            | error err => rfl
            | ok p6 => rfl

theorem StmtFrame.openIf (h : CodeGen) (cv : Value) : StmtFrame h (h.openIf cv) := by
  refine ⟨?_, Or.inr (Nat.le_refl _), fun _ => ?_, ⟨[h.blocks.length], rfl⟩, fun b hb _ hi => ?_⟩
  · simp [CodeGen.openIf, appendInstr_length]
  · simp [CodeGen.openIf, appendInstr_length]
  · simp only [CodeGen.openIf]
    rw [appendInstr_get_ne _ _ _ _ hi, List.getElem?_append_left hb]

theorem StmtFrame.openLoop (h : CodeGen) : StmtFrame h h.openLoop := by
  refine ⟨?_, Or.inl rfl, fun hv => ?_, ⟨[h.blocks.length], rfl⟩, fun b hb _ _ => ?_⟩
  · simp [CodeGen.openLoop]
  · simp only [CodeGen.openLoop, List.length_append]
    omega
  · simp only [CodeGen.openLoop]
    rw [List.getElem?_append_left hb]

/-- Recording a terminator and moving the builder into a block created since `g`
keeps the frame of `g`. -/
theorem StmtFrame.enter {g h h' : CodeGen} (hf : StmtFrame g h) (i : Instr) (next : Nat)
    (hb : h'.blocks = appendInstr h.blocks h.insertBlock i) (hi : h'.insertBlock = next)
    (hl : ∃ l, h'.layout = h.layout ++ l) (hn : g.blocks.length ≤ next)
    (hv : next < h.blocks.length) : StmtFrame g h' := by
  refine ⟨?_, Or.inr (by rw [hi]; exact hn), fun _ => ?_, ?_, fun b hb1 h0 hib => ?_⟩
  · rw [hb, appendInstr_length]; exact hf.len_le
  · rw [hb, appendInstr_length, hi]; exact hv
  · obtain ⟨l1, e1⟩ := hf.layout
    obtain ⟨l2, e2⟩ := hl
    exact ⟨l1 ++ l2, by rw [e2, e1, List.append_assoc]⟩
  · have hne : b ≠ h.insertBlock := by
      rcases hf.insert with e | e
      · rw [e]; exact hib
      · omega
    rw [hb, appendInstr_get_ne _ _ _ _ hne, hf.other b hb1 h0 hib]

theorem exprFrame_stmt : ∀ s s' : CodeGen, ExprFrame s s' → StmtFrame s s' :=
  fun _ _ h => h.toStmt

mutual
theorem generateStmt_holds : ∀ s : StmtAST, Holds StmtFrame (generateStmt s)
  | VarDeclStmtAST name initializer => by
    rw [generateStmt]
    exact Holds.bind stmtFrame_trans (Gen.createEntryAlloca_holds _) fun _ =>
      Holds.bind stmtFrame_trans (Holds.mono exprFrame_stmt (generateExpr_holds _)) fun _ =>
        Holds.bind stmtFrame_trans (Holds.mono exprFrame_stmt (Gen.emit_holds _)) fun _ =>
          Gen.setNamed_holds _ _
  | YapStmtAST args => by
    rw [generateStmt]
    refine Holds.mono exprFrame_stmt ?_
    exact Holds.bind exprFrame_trans (generateYapArgs_holds _ _ _) fun _ =>
      Holds.bind exprFrame_trans (Gen.createGlobalStringPtr_holds _) fun _ =>
        Holds.bind exprFrame_trans (Gen.createCall_holds _ _) fun _ =>
          Holds.pure ExprFrame.refl _
  | SusStmtAST c t e => by
    intro g u g' h
    rw [generateStmt_sus] at h
    cases h0 : generateExpr c g with
    | error err => rw [h0] at h; simp at h
    | ok p0 =>
      obtain ⟨cv0, g0⟩ := p0
      rw [h0] at h
      simp only [] at h
      cases h1 : Gen.condition cv0 g0 with
      | error err => rw [h1] at h; simp at h
      | ok p1 =>
        obtain ⟨cv, g1⟩ := p1
        rw [h1] at h
        simp only [] at h
        cases h3 : generateStmts t (g1.openIf cv) with
        | error err => rw [h3] at h; simp at h
        | ok p3 =>
          obtain ⟨u3, g3⟩ := p3
          rw [h3] at h
          simp only [] at h
          cases h5 : generateStmts e
              (g3.branchAndEnter (g1.blocks.length + 2) (g1.blocks.length + 1)) with
          | error err => rw [h5] at h; simp at h
          | ok p5 =>
            obtain ⟨u5, g5⟩ := p5
            rw [h5] at h
            simp only [Except.ok.injEq, Prod.mk.injEq, true_and] at h
            subst h
            have f1 : StmtFrame g g1 :=
              ((generateExpr_holds c _ _ _ h0).trans (Gen.condition_holds _ _ _ _ h1)).toStmt
            have f3 : StmtFrame (g1.openIf cv) g3 := generateStmts_holds t _ _ _ h3
            have f5 := generateStmts_holds e _ _ _ h5
            have l2 : (g1.openIf cv).blocks.length = g1.blocks.length + 3 := by
              simp [CodeGen.openIf, appendInstr_length]
            have g3len := f3.len_le
            have g5len := f5.len_le
            have l4 : (g3.branchAndEnter (g1.blocks.length + 2) (g1.blocks.length + 1)).blocks.length
                = g3.blocks.length := by
              simp [CodeGen.branchAndEnter, appendInstr_length]
            have glen := f1.len_le
            have f3' : StmtFrame g g3 := (f1.andThen (StmtFrame.openIf g1 cv)).andThen f3
            have f4 : StmtFrame g
                (g3.branchAndEnter (g1.blocks.length + 2) (g1.blocks.length + 1)) :=
              f3'.enter _ (g1.blocks.length + 1) rfl rfl ⟨_, rfl⟩ (by omega) (by omega)
            exact (f4.andThen f5).enter _ (g1.blocks.length + 2) rfl rfl ⟨_, rfl⟩ (by omega)
              (by omega)
  | BetStmtAST init cond inc body => by
    intro g u g' h
    rw [generateStmt_bet] at h
    cases h1 : generateOptStmt init g.openLoop with
    | error err => rw [h1] at h; simp at h
    | ok p1 =>
      obtain ⟨u1, g1⟩ := p1
      rw [h1] at h
      simp only [] at h
      have f1 : StmtFrame g g1 := (StmtFrame.openLoop g).andThen (generateOptStmt_holds init _ _ _ h1)
      have l0 : g.openLoop.blocks.length = g.blocks.length + 3 := by simp [CodeGen.openLoop]
      have g1len := (generateOptStmt_holds init _ _ _ h1).len_le
      have f2 : StmtFrame g (g1.enterCond g.blocks.length) :=
        f1.enter _ g.blocks.length rfl rfl ⟨[], by simp [CodeGen.enterCond]⟩ (Nat.le_refl _)
          (by omega)
      have l2 : (g1.enterCond g.blocks.length).blocks.length = g1.blocks.length := by
        simp [CodeGen.enterCond, appendInstr_length]
      have key : ∀ cv g3, StmtFrame g g3 → g1.blocks.length ≤ g3.blocks.length →
          (match generateStmts body
              (g3.enterBody cv (g.blocks.length + 1) (g.blocks.length + 2)) with
          | .error err => .error err
          | .ok (_, g5) =>
            match generateOptStmt inc g5 with
            | .error err => .error err
            | .ok (_, g6) =>
              .ok ((), g6.branchAndEnter g.blocks.length (g.blocks.length + 2)))
            = Except.ok (u, g') → StmtFrame g g' := by
        intro cv g3 f3 g3len h
        cases h5 : generateStmts body
            (g3.enterBody cv (g.blocks.length + 1) (g.blocks.length + 2)) with
        | error err => rw [h5] at h; simp at h
        | ok p5 =>
          obtain ⟨u5, g5⟩ := p5
          rw [h5] at h
          simp only [] at h
          cases h6 : generateOptStmt inc g5 with
          | error err => rw [h6] at h; simp at h
          | ok p6 =>
            obtain ⟨u6, g6⟩ := p6
            rw [h6] at h
            simp only [Except.ok.injEq, Prod.mk.injEq, true_and] at h
            subst h
            have f4 : StmtFrame g (g3.enterBody cv (g.blocks.length + 1) (g.blocks.length + 2)) :=
              f3.enter _ (g.blocks.length + 1) rfl rfl ⟨_, rfl⟩ (by omega) (by omega)
            have l4 : (g3.enterBody cv (g.blocks.length + 1) (g.blocks.length + 2)).blocks.length
                = g3.blocks.length := by
              simp [CodeGen.enterBody, appendInstr_length]
            have f5 := generateStmts_holds body _ _ _ h5
            have f6 := generateOptStmt_holds inc _ _ _ h6
            have g5len := f5.len_le
            have g6len := f6.len_le
            exact ((f4.andThen f5).andThen f6).enter _ (g.blocks.length + 2) rfl rfl ⟨_, rfl⟩
              (by omega) (by omega)
      cases cond with
      | none => exact key _ _ f2 (by omega) h
      | some c =>
        simp only [StateExcept.bind_apply] at h
        cases h2 : generateExpr c (g1.enterCond g.blocks.length) with
        | error err => rw [h2] at h; simp at h
        | ok p2 =>
          obtain ⟨cv0, g2⟩ := p2
          rw [h2] at h
          simp only [] at h
          cases h3 : Gen.condition cv0 g2 with
          | error err => rw [h3] at h; simp at h
          | ok p3 =>
            obtain ⟨cv, g3⟩ := p3
            rw [h3] at h
            simp only [] at h
            have e23 := (generateExpr_holds c _ _ _ h2).trans (Gen.condition_holds _ _ _ _ h3)
            have : g3.blocks.length = g1.blocks.length := by rw [e23.2.1, l2]
            exact key _ _ (f2.andThen e23.toStmt) (by omega) h
  | BruhAST _ _ _ => by
    rw [generateStmt]
    exact Holds.pure StmtFrame.stay _
  | ExprStmtAST expr => by
    rw [generateStmt]
    exact Holds.bind stmtFrame_trans (Holds.mono exprFrame_stmt (generateExpr_holds _)) fun _ =>
      Holds.pure StmtFrame.stay _
theorem generateStmts_holds : ∀ ss : List StmtAST, Holds StmtFrame (generateStmts ss)
  | [] => by
    rw [generateStmts]
    exact Holds.pure StmtFrame.stay _
  | s :: ss => by
    rw [generateStmts]
    exact Holds.bind stmtFrame_trans (generateStmt_holds s) fun _ => generateStmts_holds ss
theorem generateOptStmt_holds : ∀ o : Option StmtAST, Holds StmtFrame (generateOptStmt o)
  | none => by
    rw [generateOptStmt]
    exact Holds.pure StmtFrame.stay _
  | some s => by
    rw [generateOptStmt]
    exact generateStmt_holds s
end

theorem Bound.of_named {g g' : CodeGen} {d : List Str} (h : Bound g d)
    (e : g'.namedValues = g.namedValues) : Bound g' d := by
  intro n
  rw [e]
  exact h n

theorem generateExpr_named {e : ExprAST} {g g' : CodeGen} {v : Value}
    (h : generateExpr e g = .ok (v, g')) : g'.namedValues = g.namedValues :=
  (generateExpr_holds e g v g' h).2.2.2.1

mutual
theorem generateExpr_scoped : ∀ (e : ExprAST) (g g' : CodeGen) (v : Value) (d : List Str),
    generateExpr e g = .ok (v, g') → Bound g d → unboundInExpr d e = []
  | VariableExprAST name, g, g', v, d, h, hb => by
    rw [generateExpr] at h
    obtain ⟨o, g1, h1, h2⟩ := StateExcept.bind_ok h
    simp only [Gen.findNamed, Except.ok.injEq, Prod.mk.injEq] at h1
    obtain ⟨rfl, rfl⟩ := h1
    cases hl : List.lookup name g.namedValues with
    | none => rw [hl] at h2; simp at h2
    | some p =>
      have : name ∈ d := (hb name).mpr (by rw [hl]; simp)
      simp [unboundInExpr, this]
  | NumberExprAST _, _, _, _, _, _, _ => by simp [unboundInExpr]
  | StringExprAST _, _, _, _, _, _, _ => by simp [unboundInExpr]
  | BinaryExprAST op lhs rhs, g, g', v, d, h, hb => by
    rw [generateExpr] at h
    obtain ⟨L, g1, h1, h2⟩ := StateExcept.bind_ok h
    obtain ⟨R, g2, h3, -⟩ := StateExcept.bind_ok h2
    have a := generateExpr_scoped lhs g g1 L d h1 hb
    have b := generateExpr_scoped rhs g1 g2 R d h3 (hb.of_named (generateExpr_named h1))
    simp [unboundInExpr, a, b]
  | UnaryExprAST op operand, g, g', v, d, h, hb => by
    rw [generateExpr] at h
    obtain ⟨L, g1, h1, -⟩ := StateExcept.bind_ok h
    simpa [unboundInExpr] using generateExpr_scoped operand g g1 L d h1 hb
  | GroupingExprAST e, g, g', v, d, h, hb => by
    rw [generateExpr] at h
    simpa [unboundInExpr] using generateExpr_scoped e g g' v d h hb
  | AssignExprAST name value, g, g', v, d, h, hb => by
    rw [generateExpr] at h
    obtain ⟨L, g1, h1, -⟩ := StateExcept.bind_ok h
    simpa [unboundInExpr] using generateExpr_scoped value g g1 L d h1 hb
  | CallExprAST callee args, g, g', v, d, h, hb => by
    rw [generateExpr] at h
    split at h
    · obtain ⟨p, g1, h1, -⟩ := StateExcept.bind_ok h
      simpa [unboundInExpr] using generateCallArgs_scoped args [] [] g g1 p d h1 hb
    · simp at h
theorem generateCallArgs_scoped : ∀ (args : List ExprAST) (f : Str) (vs : List Value)
    (g g' : CodeGen) (p : Str × List Value) (d : List Str),
    generateCallArgs args f vs g = .ok (p, g') → Bound g d → unboundInExprs d args = []
  | [], _, _, _, _, _, _, _, _ => by simp [unboundInExprs]
  | arg :: args, f, vs, g, g', p, d, h, hb => by
    rw [generateCallArgs] at h
    obtain ⟨a, g1, h1, h2⟩ := StateExcept.bind_ok h
    have x := generateExpr_scoped arg g g1 a d h1 hb
    have y := generateCallArgs_scoped args _ _ g1 g' p d h2 (hb.of_named (generateExpr_named h1))
    simp [unboundInExprs, x, y]
end

theorem generateYapArgs_scoped : ∀ (args : List ExprAST) (f : Str) (vs : List Value)
    (g g' : CodeGen) (p : Str × List Value) (d : List Str),
    generateYapArgs args f vs g = .ok (p, g') → Bound g d → unboundInExprs d args = []
  | [], _, _, _, _, _, _, _, _ => by simp [unboundInExprs]
  | arg :: args, f, vs, g, g', p, d, h, hb => by
    rw [generateYapArgs] at h
    obtain ⟨a, g1, h1, h2⟩ := StateExcept.bind_ok h
    have x := generateExpr_scoped arg g g1 a d h1 hb
    have y := generateYapArgs_scoped args _ _ g1 g' p d h2 (hb.of_named (generateExpr_named h1))
    simp [unboundInExprs, x, y]

theorem generateYapArgs_named {args : List ExprAST} {f : Str} {vs : List Value}
    {g g' : CodeGen} {p : Str × List Value} (h : generateYapArgs args f vs g = .ok (p, g')) :
    g'.namedValues = g.namedValues :=
  (generateYapArgs_holds args f vs g p g' h).2.2.2.1

theorem Gen.condition_named {v v' : Value} {g g' : CodeGen}
    (h : Gen.condition v g = .ok (v', g')) : g'.namedValues = g.namedValues :=
  (Gen.condition_holds v g v' g' h).2.2.2.1

theorem lookup_filter_ne (l : List (Str × Value)) (name n : Str) (h : n ≠ name) :
    List.lookup n (l.filter (fun kv => kv.1 != name)) = List.lookup n l := by
  induction l with
  | nil => rfl
  | cons kv l ih =>
    obtain ⟨k, v⟩ := kv
    by_cases hk : k = name
    · subst hk
      have : (n == k) = false := by simpa using h
      simp [List.filter, List.lookup, this, ih]
    · have hk' : (k != name) = true := by simpa using hk
      simp only [List.filter, hk', List.lookup]
      split <;> simp_all

theorem Bound.setNamed {g : CodeGen} {d : List Str} (h : Bound g d) (name : Str) (v : Value)
    {g' : CodeGen} (e : g'.namedValues =
      (name, v) :: g.namedValues.filter (fun kv => kv.1 != name)) :
    Bound g' (name :: d) := by
  intro n
  rw [e]
  by_cases hn : n = name
  · subst hn
    simp [List.lookup]
  · have : (n == name) = false := by simpa using hn
    simp only [List.mem_cons, hn, false_or, List.lookup, this]
    rw [lookup_filter_ne _ _ _ hn]
    exact h n


mutual
theorem generateStmt_scoped : ∀ (s : StmtAST) (g g' : CodeGen) (u : Unit) (d : List Str),
    generateStmt s g = .ok (u, g') → Bound g d →
      (unboundInStmt d s).1 = [] ∧ Bound g' (unboundInStmt d s).2
  | VarDeclStmtAST name initializer, g, g', u, d, h, hb => by
    rw [generateStmt] at h
    obtain ⟨a, g1, h1, h2⟩ := StateExcept.bind_ok h
    obtain ⟨v, g2, h3, h4⟩ := StateExcept.bind_ok h2
    obtain ⟨w, g3, h5, h6⟩ := StateExcept.bind_ok h4
    simp only [Gen.createEntryAlloca, Except.ok.injEq, Prod.mk.injEq] at h1
    obtain ⟨-, rfl⟩ := h1
    have n3 : g3.namedValues = g2.namedValues := (Gen.emit_holds _ g2 w g3 h5).2.2.2.1
    have n2 := generateExpr_named h3
    simp only [Gen.setNamed, Except.ok.injEq, Prod.mk.injEq] at h6
    obtain ⟨-, rfl⟩ := h6
    refine ⟨?_, ?_⟩
    · simpa [unboundInStmt] using generateExpr_scoped initializer _ g2 v d h3 (hb.of_named rfl)
    · simp only [unboundInStmt]
      exact Bound.setNamed (hb.of_named (n3.trans n2)) name a rfl
  | YapStmtAST args, g, g', u, d, h, hb => by
    rw [generateStmt] at h
    obtain ⟨p, g1, h1, h2⟩ := StateExcept.bind_ok h
    obtain ⟨f, g2, h3, h4⟩ := StateExcept.bind_ok h2
    obtain ⟨c, g3, h5, h6⟩ := StateExcept.bind_ok h4
    simp only [StateExcept.pure_apply, Except.ok.injEq, Prod.mk.injEq] at h6
    obtain ⟨-, rfl⟩ := h6
    have n1 := generateYapArgs_named h1
    have n2 : g2.namedValues = g1.namedValues :=
      (Gen.createGlobalStringPtr_holds _ g1 f g2 h3).2.2.2.1
    have n3 : g3.namedValues = g2.namedValues := (Gen.createCall_holds _ _ g2 c g3 h5).2.2.2.1
    refine ⟨?_, ?_⟩
    · simpa [unboundInStmt] using generateYapArgs_scoped args _ _ g g1 p d h1 hb
    · simp only [unboundInStmt]
      exact hb.of_named (n3.trans (n2.trans n1))
  | SusStmtAST c t e, g, g', u, d, h, hb => by
    rw [generateStmt_sus] at h
    cases h0 : generateExpr c g with
    | error err => rw [h0] at h; simp at h
    | ok p0 =>
      obtain ⟨cv0, g0⟩ := p0
      rw [h0] at h
      simp only [] at h
      cases h1 : Gen.condition cv0 g0 with
      | error err => rw [h1] at h; simp at h
      | ok p1 =>
        obtain ⟨cv, g1⟩ := p1
        rw [h1] at h
        simp only [] at h
        cases h3 : generateStmts t (g1.openIf cv) with
        | error err => rw [h3] at h; simp at h
        | ok p3 =>
          obtain ⟨u3, g3⟩ := p3
          rw [h3] at h
          simp only [] at h
          cases h5 : generateStmts e
              (g3.branchAndEnter (g1.blocks.length + 2) (g1.blocks.length + 1)) with
          | error err => rw [h5] at h; simp at h
          | ok p5 =>
            obtain ⟨u5, g5⟩ := p5
            rw [h5] at h
            simp only [Except.ok.injEq, Prod.mk.injEq, true_and] at h
            subst h
            have a := generateExpr_scoped c g g0 cv0 d h0 hb
            have b1 : Bound (g1.openIf cv) d :=
              hb.of_named ((Gen.condition_named h1).trans (generateExpr_named h0))
            obtain ⟨x1, x2⟩ := generateStmts_scoped t _ g3 u3 d h3 b1
            obtain ⟨y1, y2⟩ := generateStmts_scoped e _ g5 u5 _ h5 (x2.of_named rfl)
            refine ⟨?_, ?_⟩
            · simp [unboundInStmt, a, x1, y1]
            · simp only [unboundInStmt]
              exact y2.of_named rfl
  | BetStmtAST init cond inc body, g, g', u, d, h, hb => by
    rw [generateStmt_bet] at h
    cases h1 : generateOptStmt init g.openLoop with
    | error err => rw [h1] at h; simp at h
    | ok p1 =>
      obtain ⟨u1, g1⟩ := p1
      rw [h1] at h
      simp only [] at h
      obtain ⟨i1, i2⟩ := generateOptStmt_scoped init _ g1 u1 d h1 (hb.of_named rfl)
      have key : ∀ cv g3, Bound g3 (unboundInOptStmt d init).2 →
          (match generateStmts body
              (g3.enterBody cv (g.blocks.length + 1) (g.blocks.length + 2)) with
          | .error err => .error err
          | .ok (_, g5) =>
            match generateOptStmt inc g5 with
            | .error err => .error err
            | .ok (_, g6) =>
              .ok ((), g6.branchAndEnter g.blocks.length (g.blocks.length + 2)))
            = Except.ok (u, g') →
          (unboundInStmts (unboundInOptStmt d init).2 body).1 = [] ∧
            (unboundInOptStmt (unboundInStmts (unboundInOptStmt d init).2 body).2 inc).1 = [] ∧
            Bound g' (unboundInOptStmt
              (unboundInStmts (unboundInOptStmt d init).2 body).2 inc).2 := by
        intro cv g3 b3 h
        cases h5 : generateStmts body
            (g3.enterBody cv (g.blocks.length + 1) (g.blocks.length + 2)) with
        | error err => rw [h5] at h; simp at h
        | ok p5 =>
          obtain ⟨u5, g5⟩ := p5
          rw [h5] at h
          simp only [] at h
          cases h6 : generateOptStmt inc g5 with
          | error err => rw [h6] at h; simp at h
          | ok p6 =>
            obtain ⟨u6, g6⟩ := p6
            rw [h6] at h
            simp only [Except.ok.injEq, Prod.mk.injEq, true_and] at h
            subst h
            obtain ⟨x1, x2⟩ := generateStmts_scoped body _ g5 u5 _ h5 (b3.of_named rfl)
            obtain ⟨y1, y2⟩ := generateOptStmt_scoped inc g5 g6 u6 _ h6 x2
            exact ⟨x1, y1, y2.of_named rfl⟩
      cases cond with
      | none =>
        simp only [] at h
        have b3 : Bound (g1.enterCond g.blocks.length) (unboundInOptStmt d init).2 :=
          i2.of_named rfl
        obtain ⟨k1, k2, k3⟩ := key _ _ b3 h
        refine ⟨?_, ?_⟩
        · simp [unboundInStmt, i1, k1, k2]
        · simpa only [unboundInStmt] using k3
      | some c =>
        simp only [StateExcept.bind_apply] at h
        cases h2 : generateExpr c (g1.enterCond g.blocks.length) with
        | error err => rw [h2] at h; simp at h
        | ok p2 =>
          obtain ⟨cv0, g2⟩ := p2
          rw [h2] at h
          simp only [] at h
          cases h3 : Gen.condition cv0 g2 with
          | error err => rw [h3] at h; simp at h
          | ok p3 =>
            obtain ⟨cv, g3⟩ := p3
            rw [h3] at h
            simp only [] at h
            have c1 := generateExpr_scoped c _ g2 cv0 _ h2 (i2.of_named rfl)
            have b2 : Bound (g1.enterCond g.blocks.length) (unboundInOptStmt d init).2 :=
              i2.of_named rfl
            have b3 : Bound g3 (unboundInOptStmt d init).2 :=
              b2.of_named ((Gen.condition_named h3).trans (generateExpr_named h2))
            obtain ⟨k1, k2, k3⟩ := key _ _ b3 h
            refine ⟨?_, ?_⟩
            · simp [unboundInStmt, i1, c1, k1, k2]
            · simpa only [unboundInStmt] using k3
  | BruhAST _ _ _, g, g', u, d, h, hb => by
    rw [generateStmt] at h
    simp only [StateExcept.pure_apply, Except.ok.injEq, Prod.mk.injEq] at h
    obtain ⟨-, rfl⟩ := h
    exact ⟨rfl, hb⟩
  | ExprStmtAST expr, g, g', u, d, h, hb => by
    rw [generateStmt] at h
    obtain ⟨v, g1, h1, h2⟩ := StateExcept.bind_ok h
    simp only [StateExcept.pure_apply, Except.ok.injEq, Prod.mk.injEq] at h2
    obtain ⟨-, rfl⟩ := h2
    exact ⟨by simpa [unboundInStmt] using generateExpr_scoped expr g g1 v d h1 hb,
      hb.of_named (generateExpr_named h1)⟩
theorem generateStmts_scoped : ∀ (ss : List StmtAST) (g g' : CodeGen) (u : Unit)
    (d : List Str), generateStmts ss g = .ok (u, g') → Bound g d →
      (unboundInStmts d ss).1 = [] ∧ Bound g' (unboundInStmts d ss).2
  | [], g, g', u, d, h, hb => by
    rw [generateStmts] at h
    simp only [StateExcept.pure_apply, Except.ok.injEq, Prod.mk.injEq] at h
    obtain ⟨-, rfl⟩ := h
    exact ⟨rfl, hb⟩
  | s :: ss, g, g', u, d, h, hb => by
    rw [generateStmts] at h
    obtain ⟨u1, g1, h1, h2⟩ := StateExcept.bind_ok h
    obtain ⟨x1, x2⟩ := generateStmt_scoped s g g1 u1 d h1 hb
    obtain ⟨y1, y2⟩ := generateStmts_scoped ss g1 g' u _ h2 x2
    exact ⟨by simp [unboundInStmts, x1, y1], by simpa only [unboundInStmts] using y2⟩
theorem generateOptStmt_scoped : ∀ (o : Option StmtAST) (g g' : CodeGen) (u : Unit)
    (d : List Str), generateOptStmt o g = .ok (u, g') → Bound g d →
      (unboundInOptStmt d o).1 = [] ∧ Bound g' (unboundInOptStmt d o).2
  | none, g, g', u, d, h, hb => by
    rw [generateOptStmt] at h
    simp only [StateExcept.pure_apply, Except.ok.injEq, Prod.mk.injEq] at h
    obtain ⟨-, rfl⟩ := h
    exact ⟨rfl, hb⟩
  | some s, g, g', u, d, h, hb => by
    rw [generateOptStmt] at h
    simpa only [unboundInOptStmt] using generateStmt_scoped s g g' u d h hb
end


/-- Lowering a reference to a name without a slot raises the named error. -/
theorem generateExpr_unknown (name : Str) (g : CodeGen)
    (h : g.namedValues.lookup name = none) :
    generateExpr (VariableExprAST name) g =
      .error (.runtime ("Unknown variable name: ".toList ++ name)) := by
  simp [generateExpr, Gen.findNamed, h]

/-! ## The argument loop of the print statement -/

theorem Gen.createCall_eq (callee : Str) (args : List Value) (g : CodeGen) :
    Gen.createCall callee args g =
      .ok (.reg g.nextId .i32, g.record [.call g.nextId callee args] 1) := rfl

theorem generateExprs_length : ∀ (args : List ExprAST) (g g1 : CodeGen) (vs : List Value),
    generateExprs args g = .ok (vs, g1) → vs.length = args.length
  | [], g, g1, vs, h => by
    simp only [generateExprs, StateExcept.pure_apply, Except.ok.injEq, Prod.mk.injEq] at h
    obtain ⟨rfl, -⟩ := h
    rfl
  | arg :: args, g, g1, vs, h => by
    rw [generateExprs] at h
    obtain ⟨v, g2, h1, h2⟩ := StateExcept.bind_ok h
    obtain ⟨ws, g3, h3, h4⟩ := StateExcept.bind_ok h2
    simp only [StateExcept.pure_apply, Except.ok.injEq, Prod.mk.injEq] at h4
    rw [← h4.1, List.length_cons, List.length_cons, generateExprs_length args g2 g3 ws h3]

/-- The argument loop of the print statement lowers the arguments in order and adds the
format token of each. -/
theorem generateYapArgs_eq : ∀ (args : List ExprAST) (f : Str) (vs : List Value) (g : CodeGen),
    generateYapArgs args f vs g =
      match generateExprs args g with
      | .error err => .error err
      | .ok (ws, g1) =>
        .ok ((f ++ (List.zipWith yapFormatToken args ws).flatten, vs ++ ws), g1)
  | [], f, vs, g => by simp [generateYapArgs, generateExprs]
  | arg :: args, f, vs, g => by
    simp only [generateYapArgs, generateExprs, StateExcept.bind_apply]
    cases generateExpr arg g with
    | error e => rfl
    | ok p =>
      obtain ⟨v, g2⟩ := p
      simp only []
      rw [generateYapArgs_eq args _ _ g2]
      cases generateExprs args g2 with
      | error e => rfl
      | ok q =>
        obtain ⟨ws, g3⟩ := q
        simp only [StateExcept.pure_apply, List.zipWith_cons_cons, List.flatten_cons,
          List.append_assoc, List.singleton_append]
        unfold yapFormatToken
        split_ifs <;> simp

/-- The print statement, state by state: when the arguments lower to the values `vs`,
`generateStmt` records one call of `printf` at the insertion point, with the format string
first and then the lowered values in argument order. -/
theorem generateStmt_yap_eq (args : List ExprAST) (g g1 : CodeGen) (vs : List Value)
    (h : generateExprs args g = .ok (vs, g1)) :
    vs.length = args.length ∧
      generateStmt (YapStmtAST args) g =
        .ok ((), CodeGen.record { g1 with globals := g1.globals ++ [yapFormat args vs] }
          [.call g1.nextId "printf".toList (.globalString (yapFormat args vs) :: vs)] 1) := by
  refine ⟨generateExprs_length args g g1 vs h, ?_⟩
  simp [generateStmt, generateYapArgs_eq, h, Gen.createGlobalStringPtr, Gen.createCall_eq,
    yapFormat]

/-! ## Lowering a loop -/

theorem Parser.binaryLoop_plain (T : List Token) (cond : Parser Bool) {sub : Parser ExprAST}
    (hs : Returns (fun e => plainExpr e = true) sub) :
    ∀ (fuel : Nat) (expr : ExprAST), plainExpr expr = true →
      Returns (fun e => plainExpr e = true) (Parser.binaryLoop T cond sub fuel expr)
  | 0, _, _ => Returns.of_fail _
  | fuel + 1, expr, he => by
    have ih := Parser.binaryLoop_plain T cond hs fuel
    unfold Parser.binaryLoop
    refine Returns.of_bind_any (fun _ => Returns.of_ite ?_ (Returns.of_pure he))
    refine Returns.of_bind_any (fun op => Returns.of_bind hs (fun r hr => ih _ ?_))
    simp [plainExpr, he, hr]

theorem Parser.equality_plain {T : List Token} {unary : Parser ExprAST}
    (hu : Returns (fun e => plainExpr e = true) unary) (fuel : Nat) :
    Returns (fun e => plainExpr e = true) (Parser.equality T unary fuel) := by
  have hf : Returns (fun e => plainExpr e = true) (Parser.factor T unary fuel) :=
    Returns.of_bind hu (fun e he => Parser.binaryLoop_plain _ _ hu fuel e he)
  have ht : Returns (fun e => plainExpr e = true) (Parser.term T unary fuel) :=
    Returns.of_bind hf (fun e he => Parser.binaryLoop_plain _ _ hf fuel e he)
  have hc : Returns (fun e => plainExpr e = true) (Parser.comparison T unary fuel) :=
    Returns.of_bind ht (fun e he => Parser.binaryLoop_plain _ _ ht fuel e he)
  exact Returns.of_bind hc (fun e he => Parser.binaryLoop_plain _ _ hc fuel e he)

theorem numberOfToken_plain {t : Token} {e : ExprAST} (h : numberOfToken t = .ok e) :
    plainExpr e = true := by
  unfold numberOfToken at h
  split_ifs at h
  · cases hs : stod t.lexeme with
    | error err => rw [hs] at h; simp at h
    | ok v =>
      rw [hs] at h
      simp only [Except.ok.injEq] at h
      subst h
      rfl
  · cases hs : stoi t.lexeme with
    | error err => rw [hs] at h; simp at h
    | ok v =>
      rw [hs] at h
      simp only [Except.ok.injEq] at h
      subst h
      rfl

theorem Parser.number_plain (t : Token) :
    Returns (fun e => plainExpr e = true)
      (match numberOfToken t with
        | .error err => StateExcept.fail err
        | .ok e => (pure e : Parser ExprAST)) := by
  cases h : numberOfToken t with
  | error err => exact Returns.of_fail _
  | ok e => exact Returns.of_pure (numberOfToken_plain h)

theorem Parser.unary_plain (T : List Token) :
    ∀ fuel : Nat, Returns (fun e => plainExpr e = true) (Parser.unary T fuel)
  | 0 => Returns.of_fail _
  | fuel + 1 => by
    have ih := Parser.unary_plain T fuel
    have he := Parser.equality_plain (T := T) ih fuel
    unfold Parser.unary Parser.primary
    repeat' first
      | exact Returns.of_throw _
      | exact Parser.number_plain _
      | exact Returns.of_pure (by simp [plainExpr, *])
      | refine Returns.of_bind ih (fun _ _ => ?_)
      | refine Returns.of_bind he (fun _ _ => ?_)
      | refine Returns.of_bind_any (fun _ => ?_)
      | refine Returns.of_ite ?_ ?_

theorem Parser.expression_plain (T : List Token) (fuel : Nat) :
    Returns (fun e => plainExpr e = true) (Parser.expression T fuel) :=
  Parser.equality_plain (Parser.unary_plain T fuel) fuel

/-! ### The statements the parser builds -/

theorem parsedStmts_append (l : List StmtAST) (s : StmtAST) :
    parsedStmts (l ++ [s]) = (parsedStmts l && parsedStmt s) := by
  induction l with
  | nil => simp [parsedStmts]
  | cons x xs ih => simp [parsedStmts, ih, Bool.and_assoc]

theorem Parser.argsLoop_plain (T : List Token) {expression : Parser ExprAST}
    (he : Returns (fun e => plainExpr e = true) expression) :
    ∀ (fuel : Nat) (args : List ExprAST), args.all plainExpr = true →
      Returns (fun l => l.all plainExpr = true) (Parser.argsLoop T expression fuel args)
  | 0, _, _ => Returns.of_fail _
  | fuel + 1, args, h => by
    have ih := Parser.argsLoop_plain T he fuel
    unfold Parser.argsLoop
    refine Returns.of_bind he (fun e he1 => ?_)
    have h1 : (args ++ [e]).all plainExpr = true := by
      rw [List.all_append, h]
      simp [he1]
    exact Returns.of_bind_any (fun _ => Returns.of_ite (ih _ h1) (Returns.of_pure h1))

theorem Parser.statementLoop_parsed (T : List Token) {statement : Parser StmtAST}
    (hs : Returns (fun s => parsedStmt s = true) statement) :
    ∀ (fuel : Nat) (statements : List StmtAST), parsedStmts statements = true →
      Returns (fun l => parsedStmts l = true) (Parser.statementLoop T statement fuel statements)
  | 0, _, _ => Returns.of_fail _
  | fuel + 1, statements, h => by
    have ih := Parser.statementLoop_parsed T hs fuel
    unfold Parser.statementLoop
    refine Returns.of_bind_any (fun _ => Returns.of_ite (Returns.of_pure h) ?_)
    refine Returns.of_bind_any (fun _ => Returns.of_ite (Returns.of_pure h) ?_)
    refine Returns.of_bind hs (fun s hs1 => ih _ ?_)
    rw [parsedStmts_append, h, hs1]
    rfl

theorem Parser.block_parsed (T : List Token) {statement : Parser StmtAST}
    (hs : Returns (fun s => parsedStmt s = true) statement) (fuel : Nat) :
    Returns (fun l => parsedStmts l = true) (Parser.block T statement fuel) := by
  unfold Parser.block
  refine Returns.of_bind_any (fun _ => ?_)
  refine Returns.of_bind (Parser.statementLoop_parsed T hs fuel [] rfl) (fun l hl => ?_)
  exact Returns.of_bind_any (fun _ => Returns.of_pure hl)

theorem Parser.statement_parsed (T : List Token) :
    ∀ fuel : Nat, Returns (fun s => parsedStmt s = true) (Parser.statement T fuel)
  | 0 => Returns.of_fail _
  | fuel + 1 => by
    have hb := Parser.block_parsed T (Parser.statement_parsed T fuel) fuel
    have he := Parser.expression_plain T fuel
    have ha := Parser.argsLoop_plain T he fuel [] rfl
    unfold Parser.statement Parser.yapStatement Parser.frStatement Parser.betStatement
      Parser.bruhStatement
    repeat' first
      | exact Returns.of_throw _
      | exact Returns.of_pure (by
          simp [parsedStmt, parsedStmts, isAssignStmt.eq_1, plainExpr, *])
      | refine Returns.of_bind hb (fun _ _ => ?_)
      | refine Returns.of_bind he (fun _ _ => ?_)
      | refine Returns.of_bind ha (fun _ _ => ?_)
      | refine Returns.of_bind (Returns.of_pure rfl :
          Returns (fun l => parsedStmts l = true) (pure [])) (fun _ _ => ?_)
      | refine Returns.of_bind (Returns.of_pure rfl :
          Returns (fun l => List.all l plainExpr = true) (pure [])) (fun _ _ => ?_)
      | refine Returns.of_bind (Returns.of_pure (by simp [isLoopInit, isAssignStmt, *]) :
          Returns (fun s => isLoopInit s = true) (pure _)) (fun _ _ => ?_)
      | refine Returns.of_bind_any (fun _ => ?_)
      | refine Returns.of_ite ?_ ?_

theorem Parser.cook_parsed (T : List Token) (fuel : Nat) :
    Returns (fun ast => parsedStmts ast.body = true) (Parser.cook T fuel) := by
  unfold Parser.cook
  refine Returns.of_bind_any (fun _ => Returns.of_ite (Returns.of_throw _) ?_)
  refine Returns.of_bind_any (fun _ => ?_)
  refine Returns.of_bind
    (Parser.statementLoop_parsed T (Parser.statement_parsed T fuel) fuel [] rfl)
    (fun l hl => ?_)
  exact Returns.of_bind_any (fun _ => Returns.of_pure hl)

/-- Every program `parseCook` returns has the shape `parsedStmts`. -/
theorem parseCook_parsed {T : List Token} {ast : CookAST} (h : parseCook T = .ok ast) :
    parsedStmts ast.body = true := by
  obtain ⟨c, hc⟩ := parseCook_ok h
  exact Parser.cook_parsed T _ 0 ast c hc

/-! ### The exceptions of the lowering -/

theorem raises_pure {σ α : Type} {P : Err → Prop} (a : α) :
    Raises P (pure a : StateExcept σ α) := by
  intro s e h
  simp at h

theorem raises_ok {σ α : Type} {P : Err → Prop} {p : StateExcept σ α}
    (h : ∀ s, ∃ r, p s = .ok r) : Raises P p := by
  intro s e he
  obtain ⟨r, hr⟩ := h s
  rw [hr] at he
  cases he

theorem raises_throw {σ α : Type} {P : Err → Prop} (m : Str) (h : P (.runtime m)) :
    Raises P (StateExcept.throwRuntime m : StateExcept σ α) := by
  intro s e he
  simp only [StateExcept.throwRuntime_apply, Except.error.injEq] at he
  subst he
  exact h

theorem raises_bind {σ α β : Type} {P : Err → Prop} {p : StateExcept σ α}
    {f : α → StateExcept σ β} (hp : Raises P p) (hf : ∀ a, Raises P (f a)) :
    Raises P (p >>= f) := by
  intro s e h
  simp only [StateExcept.bind_apply] at h
  cases hr : p s with
  | error err =>
    rw [hr] at h
    simp only [Except.error.injEq] at h
    subst h
    exact hp s _ hr
  | ok r =>
    rw [hr] at h
    exact hf r.1 r.2 e h

theorem raises_ite {σ α : Type} {P : Err → Prop} {C : Prop} [Decidable C]
    {p q : StateExcept σ α} (hp : Raises P p) (hq : Raises P q) :
    Raises P (if C then p else q) := by
  by_cases h : C
  · simpa only [if_pos h] using hp
  · simpa only [if_neg h] using hq

theorem Gen.findNamed_raises (P : Err → Prop) (name : Str) : Raises P (Gen.findNamed name) :=
  raises_ok (fun _ => ⟨_, rfl⟩)

theorem Gen.createLoad_raises (P : Err → Prop) (ptr : Value) (name : Str) :
    Raises P (Gen.createLoad ptr name) := raises_ok (fun _ => ⟨_, rfl⟩)

theorem Gen.createGlobalStringPtr_raises (P : Err → Prop) (s : Str) :
    Raises P (Gen.createGlobalStringPtr s) := raises_ok (fun _ => ⟨_, rfl⟩)

theorem Gen.emit_raises (P : Err → Prop) (i : Instr) : Raises P (Gen.emit i) :=
  raises_ok (fun _ => ⟨_, rfl⟩)

theorem Gen.createStore_raises (P : Err → Prop) (v ptr : Value) :
    Raises P (Gen.createStore v ptr) := raises_ok (fun _ => ⟨_, rfl⟩)

theorem Gen.createSIToFP_raises (P : Err → Prop) (v : Value) :
    Raises P (Gen.createSIToFP v) := raises_ok (fun _ => ⟨_, rfl⟩)

theorem Gen.createBinary_raises (P : Err → Prop) (op : BinOp) (l r : Value) :
    Raises P (Gen.createBinary op l r) := raises_ok (fun _ => ⟨_, rfl⟩)

theorem Gen.createFNeg_raises (P : Err → Prop) (v : Value) :
    Raises P (Gen.createFNeg v) := raises_ok (fun _ => ⟨_, rfl⟩)

theorem Gen.createCall_raises (P : Err → Prop) (callee : Str) (args : List Value) :
    Raises P (Gen.createCall callee args) := raises_ok (fun _ => ⟨_, rfl⟩)

theorem Gen.createEntryAlloca_raises (P : Err → Prop) (name : Str) :
    Raises P (Gen.createEntryAlloca name) := raises_ok (fun _ => ⟨_, rfl⟩)

theorem Gen.setNamed_raises (P : Err → Prop) (name : Str) (v : Value) :
    Raises P (Gen.setNamed name v) := raises_ok (fun _ => ⟨_, rfl⟩)

theorem Gen.createBlock_raises (P : Err → Prop) (name : Str) (b : Bool) :
    Raises P (Gen.createBlock name b) := raises_ok (fun _ => ⟨_, rfl⟩)

theorem Gen.setInsertPoint_raises (P : Err → Prop) (bb : Nat) :
    Raises P (Gen.setInsertPoint bb) := raises_ok (fun _ => ⟨_, rfl⟩)

theorem Gen.insertIntoFunction_raises (P : Err → Prop) (bb : Nat) :
    Raises P (Gen.insertIntoFunction bb) := raises_ok (fun _ => ⟨_, rfl⟩)

theorem loweringError_binary : LoweringError (.runtime "Invalid binary operator".toList) :=
  ⟨_, rfl, Or.inl rfl⟩

theorem loweringError_unary : LoweringError (.runtime "Invalid unary operator".toList) :=
  ⟨_, rfl, Or.inr (Or.inl rfl)⟩

theorem loweringError_unknown (name : Str) :
    LoweringError (.runtime ("Unknown variable name: ".toList ++ name)) :=
  ⟨_, rfl, Or.inr (Or.inr (Or.inl ⟨name, rfl⟩))⟩

theorem loweringError_undefined (name : Str) :
    LoweringError (.runtime ("Undefined variable: ".toList ++ name)) :=
  ⟨_, rfl, Or.inr (Or.inr (Or.inr ⟨name, rfl⟩))⟩

theorem Gen.binaryOp_raises (op : Char) (L R : Value) :
    Raises LoweringError (Gen.binaryOp op L R) := by
  unfold Gen.binaryOp
  repeat' first
    | exact raises_pure _
    | exact raises_throw _ loweringError_binary
    | exact Gen.createSIToFP_raises _ _
    | exact Gen.createBinary_raises _ _ _ _
    | refine raises_bind ?_ (fun _ => ?_)
    | refine raises_ite ?_ ?_
    | split

theorem Gen.condition_raises (v : Value) : Raises LoweringError (Gen.condition v) := by
  unfold Gen.condition
  exact raises_ite (Gen.createBinary_raises _ _ _ _) (raises_pure _)

/-- The lowering of a plain expression throws for an unknown variable or an invalid
operator and for nothing else. -/
theorem generateExpr_raises : ∀ e : ExprAST, plainExpr e = true →
    Raises LoweringError (generateExpr e)
  | VariableExprAST name, _ => by
    unfold generateExpr
    refine raises_bind (Gen.findNamed_raises _ _) (fun r => ?_)
    cases r with
    | none => exact raises_throw _ (loweringError_unknown _)
    | some ptr => exact Gen.createLoad_raises _ _ _
  | NumberExprAST (.ofDouble _), _ => by
    unfold generateExpr
    exact raises_pure _
  | NumberExprAST (.ofInt _), _ => by
    unfold generateExpr
    exact raises_pure _
  | StringExprAST value, _ => by
    unfold generateExpr
    exact Gen.createGlobalStringPtr_raises _ _
  | BinaryExprAST op lhs rhs, h => by
    simp only [plainExpr, Bool.and_eq_true] at h
    unfold generateExpr
    exact raises_bind (generateExpr_raises lhs h.1) fun _ =>
      raises_bind (generateExpr_raises rhs h.2) fun _ => Gen.binaryOp_raises _ _ _
  | UnaryExprAST op operand, h => by
    simp only [plainExpr] at h
    unfold generateExpr
    refine raises_bind (generateExpr_raises operand h) (fun _ => ?_)
    exact raises_ite (Gen.createFNeg_raises _ _) (raises_throw _ loweringError_unary)
  | GroupingExprAST e, h => by
    simp only [plainExpr] at h
    unfold generateExpr
    exact generateExpr_raises e h
  | AssignExprAST name value, h => by simp [plainExpr] at h
  | CallExprAST callee args, h => by simp [plainExpr] at h

theorem generateYapArgs_raises : ∀ (args : List ExprAST) (fmt : Str) (vs : List Value),
    args.all plainExpr = true → Raises LoweringError (generateYapArgs args fmt vs)
  | [], _, _, _ => by
    unfold generateYapArgs
    exact raises_pure _
  | arg :: args, fmt, vs, h => by
    simp only [List.all_cons, Bool.and_eq_true] at h
    unfold generateYapArgs
    exact raises_bind (generateExpr_raises arg h.1) fun _ =>
      generateYapArgs_raises args _ _ h.2

/-- The lowering of the assignment of a plain expression. -/
theorem generateExpr_assign_raises (name : Str) (value : ExprAST)
    (h : plainExpr value = true) :
    Raises LoweringError (generateExpr (AssignExprAST name value)) := by
  unfold generateExpr
  refine raises_bind (generateExpr_raises value h) (fun _ => ?_)
  refine raises_bind (Gen.findNamed_raises _ _) (fun r => ?_)
  cases r with
  | none => exact raises_throw _ (loweringError_undefined _)
  | some ptr => exact raises_bind (Gen.createStore_raises _ _ _) fun _ => raises_pure _

theorem generateStmt_varDecl_raises (name : Str) (init : ExprAST)
    (h : plainExpr init = true) :
    Raises LoweringError (generateStmt (VarDeclStmtAST name init)) := by
  rw [generateStmt]
  exact raises_bind (Gen.createEntryAlloca_raises _ _) fun _ =>
    raises_bind (generateExpr_raises init h) fun _ =>
      raises_bind (Gen.createStore_raises _ _ _) fun _ => Gen.setNamed_raises _ _ _

theorem generateStmt_assign_raises : ∀ s : StmtAST, isAssignStmt s = true →
    Raises LoweringError (generateStmt s)
  | ExprStmtAST (AssignExprAST name value), h => by
    simp only [isAssignStmt] at h
    rw [generateStmt]
    exact raises_bind (generateExpr_assign_raises name value h) fun _ => raises_pure _
  | ExprStmtAST (NumberExprAST _), h => by simp [isAssignStmt] at h
  | ExprStmtAST (StringExprAST _), h => by simp [isAssignStmt] at h
  | ExprStmtAST (VariableExprAST _), h => by simp [isAssignStmt] at h
  | ExprStmtAST (BinaryExprAST _ _ _), h => by simp [isAssignStmt] at h
  | ExprStmtAST (UnaryExprAST _ _), h => by simp [isAssignStmt] at h
  | ExprStmtAST (CallExprAST _ _), h => by simp [isAssignStmt] at h
  | ExprStmtAST (GroupingExprAST _), h => by simp [isAssignStmt] at h
  | YapStmtAST _, h => by simp [isAssignStmt] at h
  | SusStmtAST _ _ _, h => by simp [isAssignStmt] at h
  | BetStmtAST _ _ _ _, h => by simp [isAssignStmt] at h
  | BruhAST _ _ _, h => by simp [isAssignStmt] at h
  | VarDeclStmtAST _ _, h => by simp [isAssignStmt] at h

theorem generateStmt_init_raises : ∀ s : StmtAST, isLoopInit s = true →
    Raises LoweringError (generateStmt s)
  | VarDeclStmtAST name init, h => by
    simp only [isLoopInit] at h
    exact generateStmt_varDecl_raises name init h
  | ExprStmtAST e, h => generateStmt_assign_raises _ (by simpa [isLoopInit] using h)
  | YapStmtAST _, h => by simp [isLoopInit, isAssignStmt] at h
  | SusStmtAST _ _ _, h => by simp [isLoopInit, isAssignStmt] at h
  | BetStmtAST _ _ _ _, h => by simp [isLoopInit, isAssignStmt] at h
  | BruhAST _ _ _, h => by simp [isLoopInit, isAssignStmt] at h

mutual
/-- The lowering of a statement of the shape the parser builds throws for an unknown
variable or an invalid operator and for nothing else. -/
theorem generateStmt_raises : ∀ s : StmtAST, parsedStmt s = true →
    Raises LoweringError (generateStmt s)
  | VarDeclStmtAST name init, h => by
    simp only [parsedStmt] at h
    exact generateStmt_varDecl_raises name init h
  | YapStmtAST args, h => by
    simp only [parsedStmt] at h
    rw [generateStmt]
    exact raises_bind (generateYapArgs_raises args _ _ h) fun _ =>
      raises_bind (Gen.createGlobalStringPtr_raises _ _) fun _ =>
        raises_bind (Gen.createCall_raises _ _ _) fun _ => raises_pure _
  | SusStmtAST c t e, h => by
    simp only [parsedStmt, Bool.and_eq_true] at h
    have ht := generateStmts_raises t h.2.1
    have he := generateStmts_raises e h.2.2
    rw [generateStmt]
    repeat' first
      | exact raises_pure _
      | exact ht
      | exact he
      | exact generateExpr_raises c h.1
      | exact Gen.condition_raises _
      | exact Gen.createBlock_raises _ _ _
      | exact Gen.emit_raises _ _
      | exact Gen.setInsertPoint_raises _ _
      | exact Gen.insertIntoFunction_raises _ _
      | refine raises_bind ?_ (fun _ => ?_)
  | BetStmtAST init cond inc body, h => by
    simp only [parsedStmt, Bool.and_eq_true] at h
    obtain ⟨h1, h2, h3, h4⟩ := h
    have hb := generateStmts_raises body h4
    cases init with
    | none => simp at h1
    | some i =>
      cases cond with
      | none => simp at h2
      | some c =>
        cases inc with
        | none => simp at h3
        | some n =>
          simp only at h1 h2 h3
          have hi := generateStmt_init_raises i h1
          have hn := generateStmt_assign_raises n h3
          rw [generateStmt]
          simp only [generateOptStmt]
          repeat' first
            | exact raises_pure _
            | exact hb
            | exact hi
            | exact hn
            | exact generateExpr_raises c h2
            | exact Gen.condition_raises _
            | exact Gen.createBlock_raises _ _ _
            | exact Gen.emit_raises _ _
            | exact Gen.setInsertPoint_raises _ _
            | exact Gen.insertIntoFunction_raises _ _
            | refine raises_bind ?_ (fun _ => ?_)
  | BruhAST _ _ _, _ => by
    rw [generateStmt]
    exact raises_pure _
  | ExprStmtAST _, h => by simp [parsedStmt] at h
theorem generateStmts_raises : ∀ l : List StmtAST, parsedStmts l = true →
    Raises LoweringError (generateStmts l)
  | [], _ => by
    rw [generateStmts]
    exact raises_pure _
  | s :: ss, h => by
    simp only [parsedStmts, Bool.and_eq_true] at h
    rw [generateStmts]
    exact raises_bind (generateStmt_raises s h.1) fun _ => generateStmts_raises ss h.2
end

theorem generateCode_raises {ast : CookAST} (h : parsedStmts ast.body = true) (e : Err)
    (he : generateCode ast = .error e) : LoweringError e := by
  have hr : Raises LoweringError
      (do generateStmts ast.body; Gen.emit (.ret (.constInt 0)) : Gen Unit) :=
    raises_bind (generateStmts_raises _ h) fun _ => Gen.emit_raises _ _
  unfold generateCode at he
  split at he
  · rename_i err hx
    simp only [Except.error.injEq] at he
    subst he
    exact hr _ _ hx
  · simp at he

theorem loweringMessage_not_function {m : Str} (h : loweringMessage m) (callee : Str) :
    m ≠ "Unknown function: ".toList ++ callee := by
  rcases h with rfl | rfl | ⟨name, rfl⟩ | ⟨name, rfl⟩ <;> simp [String.toList]

theorem loweringMessage_not_type {m : Str} (h : loweringMessage m) :
    m ≠ "Unknown expression type".toList := by
  rcases h with rfl | rfl | ⟨name, rfl⟩ | ⟨name, rfl⟩ <;> simp [String.toList]

/-! ### The clauses of the loops -/

theorem clauseAssign_of_isAssignStmt : ∀ s : StmtAST, isAssignStmt s = true →
    clauseAssign s = true
  | ExprStmtAST (AssignExprAST _ _), _ => rfl
  | ExprStmtAST (NumberExprAST _), h => by simp [isAssignStmt] at h
  | ExprStmtAST (StringExprAST _), h => by simp [isAssignStmt] at h
  | ExprStmtAST (VariableExprAST _), h => by simp [isAssignStmt] at h
  | ExprStmtAST (BinaryExprAST _ _ _), h => by simp [isAssignStmt] at h
  | ExprStmtAST (UnaryExprAST _ _), h => by simp [isAssignStmt] at h
  | ExprStmtAST (CallExprAST _ _), h => by simp [isAssignStmt] at h
  | ExprStmtAST (GroupingExprAST _), h => by simp [isAssignStmt] at h
  | YapStmtAST _, h => by simp [isAssignStmt] at h
  | SusStmtAST _ _ _, h => by simp [isAssignStmt] at h
  | BetStmtAST _ _ _ _, h => by simp [isAssignStmt] at h
  | BruhAST _ _ _, h => by simp [isAssignStmt] at h
  | VarDeclStmtAST _ _, h => by simp [isAssignStmt] at h

theorem clauseInit_of_isLoopInit : ∀ s : StmtAST, isLoopInit s = true → clauseInit s = true
  | VarDeclStmtAST _ _, _ => rfl
  | ExprStmtAST e, h => by
    have := clauseAssign_of_isAssignStmt (ExprStmtAST e) (by simpa [isLoopInit] using h)
    simpa [clauseInit] using this
  | YapStmtAST _, h => by simp [isLoopInit, isAssignStmt] at h
  | SusStmtAST _ _ _, h => by simp [isLoopInit, isAssignStmt] at h
  | BetStmtAST _ _ _ _, h => by simp [isLoopInit, isAssignStmt] at h
  | BruhAST _ _ _, h => by simp [isLoopInit, isAssignStmt] at h

mutual
theorem completeLoops_of_parsed : ∀ s : StmtAST, parsedStmt s = true →
    completeLoops s = true
  | VarDeclStmtAST _ _, _ => by simp [completeLoops]
  | YapStmtAST _, _ => by simp [completeLoops]
  | ExprStmtAST _, _ => by simp [completeLoops]
  | BruhAST _ _ body, h => by
    simp only [parsedStmt] at h
    simp only [completeLoops]
    exact completeLoopsList_of_parsed body h
  | SusStmtAST _ t e, h => by
    simp only [parsedStmt, Bool.and_eq_true] at h
    simp only [completeLoops, Bool.and_eq_true]
    exact ⟨completeLoopsList_of_parsed t h.2.1, completeLoopsList_of_parsed e h.2.2⟩
  | BetStmtAST init cond inc body, h => by
    simp only [parsedStmt, Bool.and_eq_true] at h
    obtain ⟨h1, h2, h3, h4⟩ := h
    have hb := completeLoopsList_of_parsed body h4
    cases init with
    | none => simp at h1
    | some i =>
      cases cond with
      | none => simp at h2
      | some c =>
        cases inc with
        | none => simp at h3
        | some n =>
          simp only at h1 h3
          simp [completeLoops, clauseInit_of_isLoopInit i h1,
            clauseAssign_of_isAssignStmt n h3, hb]
theorem completeLoopsList_of_parsed : ∀ l : List StmtAST, parsedStmts l = true →
    completeLoopsList l = true
  | [], _ => rfl
  | s :: ss, h => by
    simp only [parsedStmts, Bool.and_eq_true] at h
    simp only [completeLoopsList, Bool.and_eq_true]
    exact ⟨completeLoops_of_parsed s h.1, completeLoopsList_of_parsed ss h.2⟩
end

theorem lowersAbsentCondition_assign : ∀ s : StmtAST, clauseAssign s = true →
    lowersAbsentCondition s = false
  | ExprStmtAST _, _ => by simp [lowersAbsentCondition]
  | YapStmtAST _, _ => by simp [lowersAbsentCondition]
  | VarDeclStmtAST _ _, _ => by simp [lowersAbsentCondition]
  | BruhAST _ _ _, _ => by simp [lowersAbsentCondition]
  | SusStmtAST _ _ _, h => by simp [clauseAssign] at h
  | BetStmtAST _ _ _ _, h => by simp [clauseAssign] at h

theorem lowersAbsentCondition_init : ∀ s : StmtAST, clauseInit s = true →
    lowersAbsentCondition s = false
  | ExprStmtAST _, _ => by simp [lowersAbsentCondition]
  | YapStmtAST _, _ => by simp [lowersAbsentCondition]
  | VarDeclStmtAST _ _, _ => by simp [lowersAbsentCondition]
  | BruhAST _ _ _, _ => by simp [lowersAbsentCondition]
  | SusStmtAST _ _ _, h => by simp [clauseInit, clauseAssign] at h
  | BetStmtAST _ _ _ _, h => by simp [clauseInit, clauseAssign] at h

mutual
/-- The lowering of a statement whose loops have their clauses comes to no loop with an
absent condition. -/
theorem lowersAbsentCondition_of_complete : ∀ s : StmtAST, completeLoops s = true →
    lowersAbsentCondition s = false
  | VarDeclStmtAST _ _, _ => by simp [lowersAbsentCondition]
  | YapStmtAST _, _ => by simp [lowersAbsentCondition]
  | ExprStmtAST _, _ => by simp [lowersAbsentCondition]
  | BruhAST _ _ _, _ => by simp [lowersAbsentCondition]
  | SusStmtAST _ t e, h => by
    simp only [completeLoops, Bool.and_eq_true] at h
    simp [lowersAbsentCondition, lowersAbsentConditionList_of_complete t h.1,
      lowersAbsentConditionList_of_complete e h.2]
  | BetStmtAST init cond inc body, h => by
    simp only [completeLoops, Bool.and_eq_true] at h
    obtain ⟨h1, h2, h3, h4⟩ := h
    have hb := lowersAbsentConditionList_of_complete body h4
    cases init with
    | none => simp at h1
    | some i =>
      cases cond with
      | none => simp at h2
      | some c =>
        cases inc with
        | none => simp at h3
        | some n =>
          simp only at h1 h3
          simp [lowersAbsentCondition, lowersAbsentConditionOpt,
            lowersAbsentCondition_init i h1, lowersAbsentCondition_assign n h3, hb]
theorem lowersAbsentConditionList_of_complete : ∀ l : List StmtAST,
    completeLoopsList l = true → lowersAbsentConditionList l = false
  | [], _ => rfl
  | s :: ss, h => by
    simp only [completeLoopsList, Bool.and_eq_true] at h
    simp [lowersAbsentConditionList, lowersAbsentCondition_of_complete s h.1,
      lowersAbsentConditionList_of_complete ss h.2]
end

/-! ## The exception of a lowering that fails -/

theorem FirstUnbound.left {l : List Str} {err : Err} (h : FirstUnbound l err) (r : List Str) :
    FirstUnbound (l ++ r) err := by
  rcases h with ⟨n, hn, he⟩ | h
  · refine Or.inl ⟨n, ?_, he⟩
    cases l with
    | nil => simp at hn
    | cons a l => simpa using hn
  · exact Or.inr h

theorem FirstUnbound.right {l r : List Str} {err : Err} (hl : l = [])
    (h : FirstUnbound r err) : FirstUnbound (l ++ r) err := by
  subst hl
  simpa using h

theorem FirstUnbound.other {m : Str} (h : otherLoweringMessage m) (l : List Str) :
    FirstUnbound l (.runtime m) := Or.inr ⟨m, rfl, h⟩

/-- A sequence that throws has thrown in its first part, or in the second after the first
returned. -/
theorem StateExcept.bind_error {σ α β : Type} {p : StateExcept σ α}
    {f : α → StateExcept σ β} {s : σ} {err : Err} (h : (p >>= f) s = .error err) :
    p s = .error err ∨ ∃ a s1, p s = .ok (a, s1) ∧ f a s1 = .error err := by
  simp only [StateExcept.bind_apply] at h
  split at h
  · rename_i e hp
    simp only [Except.error.injEq] at h
    subst h
    exact Or.inl hp
  · rename_i a s1 hp
    exact Or.inr ⟨a, s1, hp, h⟩

/-- After both operands are lowered a binary node throws for its operator only. -/
theorem Gen.binaryOp_error {op : Char} {L R : Value} {g : CodeGen} {err : Err}
    (h : Gen.binaryOp op L R g = .error err) :
    err = .runtime "Invalid binary operator".toList := by
  have hr : Raises (fun e => e = .runtime "Invalid binary operator".toList)
      (Gen.binaryOp op L R) := by
    unfold Gen.binaryOp
    repeat' first
      | exact raises_pure _
      | exact raises_throw _ rfl
      | exact Gen.createSIToFP_raises _ _
      | exact Gen.createBinary_raises _ _ _ _
      | refine raises_bind ?_ (fun _ => ?_)
      | refine raises_ite ?_ ?_
      | split
  exact hr g err h

theorem Gen.condition_error {v : Value} {g : CodeGen} {err : Err}
    (h : Gen.condition v g = .error err) : False := by
  have hr : Raises (fun _ => False) (Gen.condition v) := by
    unfold Gen.condition
    exact raises_ite (Gen.createBinary_raises _ _ _ _) (raises_pure _)
  exact hr g err h

mutual
theorem generateExpr_first : ∀ (e : ExprAST) (g : CodeGen) (d : List Str) (err : Err),
    Bound g d → generateExpr e g = .error err → FirstUnbound (unboundInExpr d e) err
  | VariableExprAST name, g, d, err, hb, h => by
    rw [generateExpr] at h
    simp only [StateExcept.bind_apply, Gen.findNamed] at h
    cases hl : List.lookup name g.namedValues with
    | none =>
      rw [hl] at h
      simp only [StateExcept.throwRuntime_apply, Except.error.injEq] at h
      subst h
      have hn : name ∉ d := fun hm => (hb name).mp hm hl
      exact Or.inl ⟨name, by simp [unboundInExpr, hn], rfl⟩
    | some p =>
      rw [hl] at h
      exact absurd h (by simp [Gen.createLoad, Gen.fresh, Gen.emit])
  | NumberExprAST (.ofDouble _), g, d, err, hb, h => by
    rw [generateExpr] at h
    simp at h
  | NumberExprAST (.ofInt _), g, d, err, hb, h => by
    rw [generateExpr] at h
    simp at h
  | StringExprAST _, g, d, err, hb, h => by
    rw [generateExpr] at h
    simp [Gen.createGlobalStringPtr] at h
  | BinaryExprAST op lhs rhs, g, d, err, hb, h => by
    rw [generateExpr] at h
    simp only [unboundInExpr]
    rcases StateExcept.bind_error h with h1 | ⟨L, g1, h1, h2⟩
    · exact (generateExpr_first lhs g d err hb h1).left _
    · have a := generateExpr_scoped lhs g g1 L d h1 hb
      have b1 := hb.of_named (generateExpr_named h1)
      rcases StateExcept.bind_error h2 with h3 | ⟨R, g2, h3, h4⟩
      · exact FirstUnbound.right a (generateExpr_first rhs g1 d err b1 h3)
      · rw [Gen.binaryOp_error h4]
        exact FirstUnbound.other (Or.inl rfl) _
  | UnaryExprAST op operand, g, d, err, hb, h => by
    rw [generateExpr] at h
    simp only [unboundInExpr]
    rcases StateExcept.bind_error h with h1 | ⟨L, g1, h1, h2⟩
    · exact generateExpr_first operand g d err hb h1
    · by_cases ho : op = '-'
      · rw [if_pos ho] at h2
        exact absurd h2 (by simp [Gen.createFNeg, Gen.fresh, Gen.emit])
      · rw [if_neg ho] at h2
        simp only [StateExcept.throwRuntime_apply, Except.error.injEq] at h2
        subst h2
        exact FirstUnbound.other (Or.inr (Or.inl rfl)) _
  | GroupingExprAST e, g, d, err, hb, h => by
    rw [generateExpr] at h
    simpa only [unboundInExpr] using generateExpr_first e g d err hb h
  | AssignExprAST name value, g, d, err, hb, h => by
    rw [generateExpr] at h
    simp only [unboundInExpr]
    rcases StateExcept.bind_error h with h1 | ⟨v, g1, h1, h2⟩
    · exact generateExpr_first value g d err hb h1
    · simp only [StateExcept.bind_apply, Gen.findNamed] at h2
      cases hl : List.lookup name g1.namedValues with
      | none =>
        rw [hl] at h2
        simp only [StateExcept.throwRuntime_apply, Except.error.injEq] at h2
        subst h2
        exact FirstUnbound.other (Or.inr (Or.inr (Or.inl ⟨name, rfl⟩))) _
      | some p =>
        rw [hl] at h2
        exact absurd h2 (by simp [Gen.createStore, Gen.emit])
  | CallExprAST callee args, g, d, err, hb, h => by
    rw [generateExpr] at h
    simp only [unboundInExpr]
    split at h
    · rcases StateExcept.bind_error h with h1 | ⟨p, g1, h1, h2⟩
      · exact generateCallArgs_first args [] [] g d err hb h1
      · exact absurd h2 (by simp [Gen.createGlobalStringPtr, Gen.createCall, Gen.fresh,
          Gen.emit])
    · simp only [StateExcept.throwRuntime_apply, Except.error.injEq] at h
      subst h
      exact FirstUnbound.other (Or.inr (Or.inr (Or.inr ⟨callee, rfl⟩))) _
theorem generateCallArgs_first : ∀ (args : List ExprAST) (f : Str) (vs : List Value)
    (g : CodeGen) (d : List Str) (err : Err),
    Bound g d → generateCallArgs args f vs g = .error err →
      FirstUnbound (unboundInExprs d args) err
  | [], _, _, _, _, _, _, h => by
    rw [generateCallArgs] at h
    simp at h
  | arg :: args, f, vs, g, d, err, hb, h => by
    rw [generateCallArgs] at h
    simp only [unboundInExprs]
    rcases StateExcept.bind_error h with h1 | ⟨a, g1, h1, h2⟩
    · exact (generateExpr_first arg g d err hb h1).left _
    · exact FirstUnbound.right (generateExpr_scoped arg g g1 a d h1 hb)
        (generateCallArgs_first args _ _ g1 d err (hb.of_named (generateExpr_named h1)) h2)
end

theorem generateYapArgs_first : ∀ (args : List ExprAST) (f : Str) (vs : List Value)
    (g : CodeGen) (d : List Str) (err : Err),
    Bound g d → generateYapArgs args f vs g = .error err →
      FirstUnbound (unboundInExprs d args) err
  | [], _, _, _, _, _, _, h => by
    rw [generateYapArgs] at h
    simp at h
  | arg :: args, f, vs, g, d, err, hb, h => by
    rw [generateYapArgs] at h
    simp only [unboundInExprs]
    rcases StateExcept.bind_error h with h1 | ⟨a, g1, h1, h2⟩
    · exact (generateExpr_first arg g d err hb h1).left _
    · exact FirstUnbound.right (generateExpr_scoped arg g g1 a d h1 hb)
        (generateYapArgs_first args _ _ g1 d err (hb.of_named (generateExpr_named h1)) h2)

mutual
theorem generateStmt_first : ∀ (s : StmtAST) (g : CodeGen) (d : List Str) (err : Err),
    Bound g d → generateStmt s g = .error err → FirstUnbound (unboundInStmt d s).1 err
  | VarDeclStmtAST name initializer, g, d, err, hb, h => by
    rw [generateStmt] at h
    simp only [unboundInStmt]
    rcases StateExcept.bind_error h with h1 | ⟨a, g1, h1, h2⟩
    · simp [Gen.createEntryAlloca] at h1
    · simp only [Gen.createEntryAlloca, Except.ok.injEq, Prod.mk.injEq] at h1
      obtain ⟨-, rfl⟩ := h1
      rcases StateExcept.bind_error h2 with h3 | ⟨v, g2, h3, h4⟩
      · exact generateExpr_first initializer _ d err (hb.of_named (by rfl)) h3
      · exact absurd h4 (by simp [Gen.createStore, Gen.emit, Gen.setNamed])
  | YapStmtAST args, g, d, err, hb, h => by
    rw [generateStmt] at h
    simp only [unboundInStmt]
    rcases StateExcept.bind_error h with h1 | ⟨p, g1, h1, h2⟩
    · exact generateYapArgs_first args [] [] g d err hb h1
    · exact absurd h2 (by simp [Gen.createGlobalStringPtr, Gen.createCall, Gen.fresh,
        Gen.emit])
  | SusStmtAST c t e, g, d, err, hb, h => by
    rw [generateStmt_sus] at h
    simp only [unboundInStmt]
    cases h0 : generateExpr c g with
    | error e0 =>
      rw [h0] at h
      simp only [Except.error.injEq] at h
      subst h
      exact ((generateExpr_first c g d _ hb h0).left _).left _
    | ok p0 =>
      obtain ⟨cv0, g0⟩ := p0
      rw [h0] at h
      simp only [] at h
      have a := generateExpr_scoped c g g0 cv0 d h0 hb
      cases h1 : Gen.condition cv0 g0 with
      | error e1 => exact (Gen.condition_error h1).elim
      | ok p1 =>
        obtain ⟨cv, g1⟩ := p1
        rw [h1] at h
        simp only [] at h
        have b1 : Bound (g1.openIf cv) d :=
          hb.of_named ((Gen.condition_named h1).trans (generateExpr_named h0))
        cases h3 : generateStmts t (g1.openIf cv) with
        | error e3 =>
          rw [h3] at h
          simp only [Except.error.injEq] at h
          subst h
          exact (FirstUnbound.right a (generateStmts_first t _ d _ b1 h3)).left _
        | ok p3 =>
          obtain ⟨u3, g3⟩ := p3
          rw [h3] at h
          simp only [] at h
          obtain ⟨x1, x2⟩ := generateStmts_scoped t _ g3 u3 d h3 b1
          cases h5 : generateStmts e
              (g3.branchAndEnter (g1.blocks.length + 2) (g1.blocks.length + 1)) with
          | error e5 =>
            rw [h5] at h
            simp only [Except.error.injEq] at h
            subst h
            exact FirstUnbound.right (by simp [a, x1])
              (generateStmts_first e _ _ _ (x2.of_named (by rfl)) h5)
          | ok p5 =>
            rw [h5] at h
            simp at h
  | BetStmtAST init cond inc body, g, d, err, hb, h => by
    rw [generateStmt_bet] at h
    simp only [unboundInStmt]
    cases h1 : generateOptStmt init g.openLoop with
    | error e1 =>
      rw [h1] at h
      simp only [Except.error.injEq] at h
      subst h
      exact (((generateOptStmt_first init _ d _ (hb.of_named (by rfl)) h1).left _).left _).left _
    | ok p1 =>
      obtain ⟨u1, g1⟩ := p1
      rw [h1] at h
      simp only [] at h
      obtain ⟨i1, i2⟩ := generateOptStmt_scoped init _ g1 u1 d h1 (hb.of_named rfl)
      have key : ∀ cv g3 (lc : List Str), lc = [] → Bound g3 (unboundInOptStmt d init).2 →
          (match generateStmts body
              (g3.enterBody cv (g.blocks.length + 1) (g.blocks.length + 2)) with
          | .error err => .error err
          | .ok (_, g5) =>
            match generateOptStmt inc g5 with
            | .error err => .error err
            | .ok (_, g6) =>
              .ok ((), g6.branchAndEnter g.blocks.length (g.blocks.length + 2)))
            = Except.error err →
          FirstUnbound ((unboundInOptStmt d init).1 ++ lc ++
            (unboundInStmts (unboundInOptStmt d init).2 body).1 ++
            (unboundInOptStmt (unboundInStmts (unboundInOptStmt d init).2 body).2 inc).1)
            err := by
        intro cv g3 lc hlc b3 h
        cases h5 : generateStmts body
            (g3.enterBody cv (g.blocks.length + 1) (g.blocks.length + 2)) with
        | error e5 =>
          rw [h5] at h
          simp only [Except.error.injEq] at h
          subst h
          exact (FirstUnbound.right (by simp [i1, hlc])
            (generateStmts_first body _ _ _ (b3.of_named (by rfl)) h5)).left _
        | ok p5 =>
          obtain ⟨u5, g5⟩ := p5
          rw [h5] at h
          simp only [] at h
          obtain ⟨x1, x2⟩ := generateStmts_scoped body _ g5 u5 _ h5 (b3.of_named rfl)
          cases h6 : generateOptStmt inc g5 with
          | error e6 =>
            rw [h6] at h
            simp only [Except.error.injEq] at h
            subst h
            exact FirstUnbound.right (by simp [i1, hlc, x1])
              (generateOptStmt_first inc g5 _ _ x2 h6)
          | ok p6 =>
            rw [h6] at h
            simp at h
      cases cond with
      | none =>
        simp only [] at h
        exact key _ _ [] rfl (i2.of_named (by rfl)) h
      | some c =>
        simp only [StateExcept.bind_apply] at h
        have b2 : Bound (g1.enterCond g.blocks.length) (unboundInOptStmt d init).2 :=
          i2.of_named rfl
        cases h2 : generateExpr c (g1.enterCond g.blocks.length) with
        | error e2 =>
          rw [h2] at h
          simp only [Except.error.injEq] at h
          subst h
          exact ((FirstUnbound.right i1 (generateExpr_first c _ _ _ b2 h2)).left _).left _
        | ok p2 =>
          obtain ⟨cv0, g2⟩ := p2
          rw [h2] at h
          simp only [] at h
          cases h3 : Gen.condition cv0 g2 with
          | error e3 => exact (Gen.condition_error h3).elim
          | ok p3 =>
            obtain ⟨cv, g3⟩ := p3
            rw [h3] at h
            simp only [] at h
            have c1 := generateExpr_scoped c _ g2 cv0 _ h2 b2
            have b3 : Bound g3 (unboundInOptStmt d init).2 :=
              b2.of_named ((Gen.condition_named h3).trans (generateExpr_named h2))
            exact key _ _ _ c1 b3 h
  | BruhAST _ _ _, g, d, err, hb, h => by
    rw [generateStmt] at h
    simp at h
  | ExprStmtAST expr, g, d, err, hb, h => by
    rw [generateStmt] at h
    simp only [unboundInStmt]
    rcases StateExcept.bind_error h with h1 | ⟨v, g1, h1, h2⟩
    · exact generateExpr_first expr g d err hb h1
    · simp at h2
theorem generateStmts_first : ∀ (ss : List StmtAST) (g : CodeGen) (d : List Str) (err : Err),
    Bound g d → generateStmts ss g = .error err → FirstUnbound (unboundInStmts d ss).1 err
  | [], g, d, err, hb, h => by
    rw [generateStmts] at h
    simp at h
  | s :: ss, g, d, err, hb, h => by
    rw [generateStmts] at h
    simp only [unboundInStmts]
    rcases StateExcept.bind_error h with h1 | ⟨u1, g1, h1, h2⟩
    · exact (generateStmt_first s g d err hb h1).left _
    · obtain ⟨x1, x2⟩ := generateStmt_scoped s g g1 u1 d h1 hb
      exact FirstUnbound.right x1 (generateStmts_first ss g1 _ err x2 h2)
theorem generateOptStmt_first : ∀ (o : Option StmtAST) (g : CodeGen) (d : List Str)
    (err : Err), Bound g d → generateOptStmt o g = .error err →
      FirstUnbound (unboundInOptStmt d o).1 err
  | none, g, d, err, hb, h => by
    rw [generateOptStmt] at h
    simp at h
  | some s, g, d, err, hb, h => by
    rw [generateOptStmt] at h
    simpa only [unboundInOptStmt] using generateStmt_first s g d err hb h
end

/-- C1: for all operands `a`, `b`, `c` the program `cook { yap(a+b*c); }` parses to one
print statement whose single argument is `Binary('+', a, Binary('*', b, c))`, and
`cook { yap(a*b+c); }` to one whose argument is `Binary('+', Binary('*', a, b), c)`. -/
theorem multiplication_binds_tighter (ta tb tc : List Token) (A B C : ExprAST)
    (ha : IsOperand ta A) (hb : IsOperand tb B) (hc : IsOperand tc C) :
    parseCook (yapProgramTokens (ta ++ tok TOK_PLUS "+" :: (tb ++ tok TOK_STAR "*" :: tc))) =
        .ok ⟨[YapStmtAST [BinaryExprAST '+' A (BinaryExprAST '*' B C)]]⟩ ∧
      parseCook (yapProgramTokens (ta ++ tok TOK_STAR "*" :: (tb ++ tok TOK_PLUS "+" :: tc))) =
        .ok ⟨[YapStmtAST [BinaryExprAST '+' (BinaryExprAST '*' A B) C]]⟩ := by
  obtain ⟨t, l, hta, ht1⟩ := ha.head
  constructor
  · generalize hT : yapProgramTokens (ta ++ tok TOK_PLUS "+" :: (tb ++ tok TOK_STAR "*" :: tc)) = T
    have d0 : T.drop 0 = tok TOK_COOK "cook" :: tok TOK_LEFT_BRACE "\x7b" :: tok TOK_YAP "yap" ::
        tok TOK_LEFT_PAREN "(" :: t :: (l ++ tok TOK_PLUS "+" :: (tb ++ tok TOK_STAR "*" :: (tc ++
          [tok TOK_RIGHT_PAREN ")", tok TOK_SEMICOLON ";", tok TOK_RIGHT_BRACE "\x7d", eofToken]))) := by
      simp [← hT, yapProgramTokens, hta]
    have d4 : T.drop 4 = ta ++ tok TOK_PLUS "+" :: (tb ++ tok TOK_STAR "*" :: (tc ++
          [tok TOK_RIGHT_PAREN ")", tok TOK_SEMICOLON ";", tok TOK_RIGHT_BRACE "\x7d", eofToken])) := by
      simp [← hT, yapProgramTokens]
    have hlen : T.length + 1 = ta.length + tb.length + tc.length + 8 + 3 := by
      simp [← hT, yapProgramTokens]
      omega
    generalize ta.length + tb.length + tc.length + 8 = n at hlen
    have hn : ta.length ≤ n + 2 ∧ tb.length ≤ n + 2 ∧ tc.length ≤ n + 2 := by
      have : T.length = 4 + (ta.length + (1 + (tb.length + (1 + tc.length)))) + 4 := by
        simp [← hT, yapProgramTokens]
        omega
      omega
    have d5 := drop_skip d4
    have d6 := drop_next d5
    have d7 := drop_skip d6
    have d8 := drop_next d7
    have d9 := drop_skip d8
    have ua := ha T 4 (n + 2) _ d4 hn.1
    have ub := hb T _ (n + 2) _ d6 hn.2.1
    have uc := hc T _ (n + 2) _ d8 hn.2.2
    have fa := Parser.factor_one (n + 1) ua (drop_get d5) (by decide) (by decide)
    have fb := Parser.factor_two n ub (drop_get d7) (Or.inl rfl) uc (drop_get d9)
      (by decide) (by decide)
    have te := Parser.term_two n fa (drop_get d5) (Or.inl rfl) fb (drop_get d9)
      (by decide) (by decide)
    have ex := Parser.expression_of_term (n + 1) te (drop_get d9) (by decide) (by decide)
      (by decide)
    exact parseCook_of_cook _ hlen (Parser.cook_yap_one (n + 1) d0 ht1 ex d9)
  · generalize hT : yapProgramTokens (ta ++ tok TOK_STAR "*" :: (tb ++ tok TOK_PLUS "+" :: tc)) = T
    have d0 : T.drop 0 = tok TOK_COOK "cook" :: tok TOK_LEFT_BRACE "\x7b" :: tok TOK_YAP "yap" ::
        tok TOK_LEFT_PAREN "(" :: t :: (l ++ tok TOK_STAR "*" :: (tb ++ tok TOK_PLUS "+" :: (tc ++
          [tok TOK_RIGHT_PAREN ")", tok TOK_SEMICOLON ";", tok TOK_RIGHT_BRACE "\x7d", eofToken]))) := by
      simp [← hT, yapProgramTokens, hta]
    have d4 : T.drop 4 = ta ++ tok TOK_STAR "*" :: (tb ++ tok TOK_PLUS "+" :: (tc ++
          [tok TOK_RIGHT_PAREN ")", tok TOK_SEMICOLON ";", tok TOK_RIGHT_BRACE "\x7d", eofToken])) := by
      simp [← hT, yapProgramTokens]
    have hlen : T.length + 1 = ta.length + tb.length + tc.length + 8 + 3 := by
      simp [← hT, yapProgramTokens]
      omega
    generalize ta.length + tb.length + tc.length + 8 = n at hlen
    have hn : ta.length ≤ n + 2 ∧ tb.length ≤ n + 2 ∧ tc.length ≤ n + 2 := by
      have : T.length = 4 + (ta.length + (1 + (tb.length + (1 + tc.length)))) + 4 := by
        simp [← hT, yapProgramTokens]
        omega
      omega
    have d5 := drop_skip d4
    have d6 := drop_next d5
    have d7 := drop_skip d6
    have d8 := drop_next d7
    have d9 := drop_skip d8
    have ua := ha T 4 (n + 2) _ d4 hn.1
    have ub := hb T _ (n + 2) _ d6 hn.2.1
    have uc := hc T _ (n + 2) _ d8 hn.2.2
    have fa := Parser.factor_two n ua (drop_get d5) (Or.inl rfl) ub (drop_get d7)
      (by decide) (by decide)
    have fc := Parser.factor_one (n + 1) uc (drop_get d9) (by decide) (by decide)
    have te := Parser.term_two n fa (drop_get d7) (Or.inl rfl) fc (drop_get d9)
      (by decide) (by decide)
    have ex := Parser.expression_of_term (n + 1) te (drop_get d9) (by decide) (by decide)
      (by decide)
    exact parseCook_of_cook _ hlen (Parser.cook_yap_one (n + 1) d0 ht1 ex d9)

theorem multiplication_binds_tighter_witness :
    parseCook (yapProgramTokens [tok TOK_NUMBER_LITERAL "1", tok TOK_PLUS "+",
        tok TOK_NUMBER_LITERAL "2", tok TOK_STAR "*", tok TOK_NUMBER_LITERAL "3"]) =
        .ok ⟨[YapStmtAST [BinaryExprAST '+' (NumberExprAST (.ofInt 1))
          (BinaryExprAST '*' (NumberExprAST (.ofInt 2)) (NumberExprAST (.ofInt 3)))]]⟩ ∧
      parseCook (yapProgramTokens [tok TOK_NUMBER_LITERAL "1", tok TOK_STAR "*",
        tok TOK_NUMBER_LITERAL "2", tok TOK_PLUS "+", tok TOK_NUMBER_LITERAL "3"]) =
        .ok ⟨[YapStmtAST [BinaryExprAST '+' (BinaryExprAST '*' (NumberExprAST (.ofInt 1))
          (NumberExprAST (.ofInt 2))) (NumberExprAST (.ofInt 3))]]⟩ :=
  multiplication_binds_tighter [tok TOK_NUMBER_LITERAL "1"] [tok TOK_NUMBER_LITERAL "2"]
    [tok TOK_NUMBER_LITERAL "3"] _ _ _
    (isOperand_number _ _ rfl rfl) (isOperand_number _ _ rfl rfl) (isOperand_number _ _ rfl rfl)

/-- C2: the lexer turns the source `cook { pookie x = 5; yap(x); }` into exactly the
fourteen tokens cook, left brace, pookie, x, =, 5 (an integer literal), ;, yap, (, x, ), ;,
right brace, EOF, and the parser turns these tokens into
`Program[VarDecl(x, NumberLiteral int 5), Print[VariableRef(x)]]`. -/
theorem roundtrip_scan_then_parse :
    scanTokens roundTripSource = .ok roundTripTokens ∧
      parseCook roundTripTokens = .ok roundTripProgram :=
  ⟨by decide, by rfl⟩

/-- C3, the code at `cook { pookie x = 5; yap(x); }`: the initializer lowers to the `i32`
constant 5, and the declaration stores it as it is into the slot of `x`, an alloca of type
`double`; the reference loads a `double` from the slot, and the one call of `printf` has the
floating format `%.6f` and a newline, not `%d`.  No conversion of the integer is recorded,
where the binary case of `generateExpr` converts an integer operand that meets a `double`
with `CreateSIToFP`. -/
theorem roundtrip_lowering :
    generateCode roundTripProgram = .ok roundTripLowered ∧
      generateExpr (NumberExprAST (.ofInt 5)) CodeGen.start =
        .ok (.constInt 5, CodeGen.start) ∧
      (Value.constInt 5).isDoubleTy = false ∧
      roundTripLowered.instrsOf 0 =
        [.alloca 0 "x".toList,
         .store (.constInt 5) (.reg 0 .ptr),
         .load 1 (.reg 0 .ptr) "x".toList,
         .call 2 "printf".toList [.globalString "%.6f\n".toList, .reg 1 .double],
         .ret (.constInt 0)] ∧
      roundTripLowered.calls =
        [("printf".toList, [.globalString "%.6f\n".toList, .reg 1 .double])] ∧
      Gen.binaryOp '+' (.constInt 5) (.reg 1 .double) CodeGen.start =
        .ok (.reg 1 .double, CodeGen.start.record
          [.siToFP 0 (.constInt 5), .binary 1 .FAdd (.reg 0 .double) (.reg 1 .double)] 2) :=
  ⟨by decide, by rfl, by rfl, by rfl, by rfl, by rfl⟩

/-- C4, as amended: for every nonnegative integer `N` below `2 ^ 31`, the lexer turns
the decimal digits of `N` followed by `.0` into exactly one integer number token whose
text is the decimal digits of `N`, followed by EOF. -/
theorem whole_literal_is_demoted (N : Nat) (hN : N < 2 ^ 31) :
    scanTokens (Nat.toDigits 10 N ++ ".0".toList) =
      .ok [⟨TOK_NUMBER_LITERAL, Nat.toDigits 10 N, false⟩, eofToken] := by
  obtain ⟨hne, hdig, hval⟩ := toDigits_spec N
  obtain ⟨c, cs, hcs⟩ := List.exists_cons_of_ne_nil hne
  have hc : isDigit c = true := hdig c (by simp [hcs])
  have hcs' : ∀ x ∈ cs, isDigit x = true := fun x hx => hdig x (by simp [hcs, hx])
  have hD : ∀ x ∈ c :: cs, isDigit x = true := by rw [← hcs]; exact hdig
  have hstod : ∃ v, stod (c :: cs ++ '.' :: ['0']) = .ok v ∧ v.isIntegral = true ∧
      v.toInt = (N : Int) := by
    rw [stod_decimal (c :: cs) ['0'] hD (by simp) (by simp [isDigit])]
    have hn : digitsToNat (c :: cs ++ ['0']) = N * 10 := by
      rw [digitsToNat_append, ← hcs, hval]
      simp [digitsToNat, digitVal]
    rw [hn]
    rcases Nat.eq_zero_or_pos N with h0 | hpos
    · subst h0
      exact ⟨⟨0, 0⟩, by simp [roundBinary64], by decide, by decide⟩
    · obtain ⟨v, h1, h2, h3⟩ := roundBinary64_whole N 10 hpos (by decide) (by decide) (by omega)
      refine ⟨v, by simpa using h1, h2, ?_⟩
      have hN' : N < 2147483648 := by simpa using hN
      simp [Dbl.toInt, h3, hN']
  obtain ⟨v, hv1, hv2, hv3⟩ := hstod
  have hnum : number c (cs ++ '.' :: ['0']) =
      .ok (⟨TOK_NUMBER_LITERAL, Nat.toDigits 10 N, false⟩, []) := by
    rw [number_decimal c cs '0' [] hcs' (by decide) (by simp), hv1]
    simp [hv2, hv3, to_string]
  have hsrc : Nat.toDigits 10 N ++ ".0".toList = c :: (cs ++ '.' :: ['0']) := by
    rw [hcs]; rfl
  rw [hsrc]
  apply scanTokens_single
  rw [scanToken_digit c _ hc, hnum]

theorem whole_literal_is_demoted_witness :
    (7 : Nat) < 2 ^ 31 ∧ scanTokens (Nat.toDigits 10 7 ++ ".0".toList) =
      .ok [⟨TOK_NUMBER_LITERAL, Nat.toDigits 10 7, false⟩, eofToken] :=
  ⟨by decide, whole_literal_is_demoted 7 (by decide)⟩

/-- C4 fails as stated: at `N = 2147483648` the text `2147483648.0` is a whole `double`
that the conversion to `int` cannot hold, and the token is not the integer `2147483648`
(in the model, where the out-of-range conversion gives `INT_MIN`, it is `-2147483648`). -/
theorem whole_literal_overflow_counterexample :
    scanTokens (Nat.toDigits 10 2147483648 ++ ".0".toList) =
        .ok [⟨TOK_NUMBER_LITERAL, "-2147483648".toList, false⟩, eofToken] ∧
      scanTokens (Nat.toDigits 10 2147483648 ++ ".0".toList) ≠
        .ok [⟨TOK_NUMBER_LITERAL, Nat.toDigits 10 2147483648, false⟩, eofToken] := by
  decide

/-- C5, as amended: for every literal `D.F` of at most fifteen digits, where `D` and `F`
are non-empty digit runs and `F` has a non-zero digit, the lexer yields exactly one
floating number token whose text is `D.F` unchanged, followed by EOF. -/
theorem fractional_literal_is_kept (D F : Str) (hD : ∀ x ∈ D, isDigit x = true)
    (hF : ∀ x ∈ F, isDigit x = true) (hD0 : D ≠ []) (hnz : ∃ x ∈ F, x ≠ '0')
    (hlen : D.length + F.length ≤ 15) :
    scanTokens (D ++ '.' :: F) =
      .ok [⟨TOK_NUMBER_LITERAL, D ++ '.' :: F, true⟩, eofToken] := by
  obtain ⟨c, cs, hcs⟩ := List.exists_cons_of_ne_nil hD0
  subst hcs
  have hF0 : F ≠ [] := by
    rintro rfl
    simp at hnz
  obtain ⟨f, fs, hfs⟩ := List.exists_cons_of_ne_nil hF0
  subst hfs
  have hc : isDigit c = true := hD c (by simp)
  have hcs' : ∀ x ∈ cs, isDigit x = true := fun x hx => hD x (by simp [hx])
  have hf : isDigit f = true := hF f (by simp)
  have hfs' : ∀ x ∈ fs, isDigit x = true := fun x hx => hF x (by simp [hx])
  have hDF : ∀ x ∈ (c :: cs) ++ (f :: fs), isDigit x = true := by
    intro x hx
    rcases List.mem_append.mp hx with h | h
    · exact hD x h
    · exact hF x h
  have hDlen : 1 ≤ (c :: cs).length := by simp
  have hFlen : 1 ≤ (f :: fs).length := by simp
  have hn : digitsToNat ((c :: cs) ++ (f :: fs)) < 2 ^ 50 := by
    have h1 := digitsToNat_lt _ hDF
    have h2 : 10 ^ ((c :: cs) ++ (f :: fs)).length ≤ 10 ^ 15 :=
      Nat.pow_le_pow_right (by decide) (by rw [List.length_append]; exact hlen)
    have h3 : 10 ^ 15 < 2 ^ 50 := by decide
    omega
  have hd1 : 8 ≤ 10 ^ (f :: fs).length := by
    have : 10 ^ 1 ≤ 10 ^ (f :: fs).length := Nat.pow_le_pow_right (by decide) hFlen
    omega
  have hd2 : 10 ^ (f :: fs).length < 2 ^ 47 := by
    have h2 : 10 ^ (f :: fs).length ≤ 10 ^ 14 :=
      Nat.pow_le_pow_right (by decide) (by omega)
    have h3 : 10 ^ 14 < 2 ^ 47 := by decide
    omega
  have hmod : digitsToNat ((c :: cs) ++ (f :: fs)) % 10 ^ (f :: fs).length ≠ 0 := by
    rw [digitsToNat_append, Nat.add_comm, Nat.add_mul_mod_self_right,
      Nat.mod_eq_of_lt (digitsToNat_lt _ hF)]
    exact digitsToNat_ne_zero _ hF hnz
  obtain ⟨v, hv1, hv2⟩ := roundBinary64_fractional _ _ hn hd1 hd2 hmod
  have hstod : stod (c :: cs ++ '.' :: f :: fs) = .ok v := by
    rw [stod_decimal (c :: cs) (f :: fs) hD (by simp) hF]
    exact hv1
  have hnum : number c (cs ++ '.' :: f :: fs) =
      .ok (⟨TOK_NUMBER_LITERAL, c :: cs ++ '.' :: f :: fs, true⟩, []) := by
    rw [number_decimal c cs f fs hcs' hf hfs', hstod]
    simp [hv2]
  show scanTokens (c :: (cs ++ '.' :: f :: fs)) = _
  apply scanTokens_single
  rw [scanToken_digit c _ hc, hnum]

theorem fractional_literal_is_kept_witness :
    scanTokens "3.25".toList = .ok [⟨TOK_NUMBER_LITERAL, "3.25".toList, true⟩, eofToken] :=
  fractional_literal_is_kept "3".toList "25".toList (by decide) (by decide) (by decide)
    ⟨'2', by decide, by decide⟩ (by decide)

set_option maxRecDepth 4000 in
/-- C5 fails as stated: the literal `1.00000000000000000000001` has a non-zero digit
after the point, but the nearest `double` is `1.0`, so the lexer yields the integer
token `1` instead of a floating token with the source text. -/
theorem fractional_literal_rounding_counterexample :
    scanTokens "1.00000000000000000000001".toList =
        .ok [⟨TOK_NUMBER_LITERAL, "1".toList, false⟩, eofToken] ∧
      scanTokens "1.00000000000000000000001".toList ≠
        .ok [⟨TOK_NUMBER_LITERAL, "1.00000000000000000000001".toList, true⟩, eofToken] := by
  decide

/-- C6 (amended): `parseCook` returns as soon as it has consumed the closing brace of the
`cook` block. When it succeeds on `tokens` with the cursor at `c`, the token before `c` is
that closing brace, and on every token sequence with the same first `c` tokens (and no fewer
tokens in all) it succeeds with the same program: the tokens that follow are never read. -/
theorem parseCook_stops_at_closing_brace (tokens tokens' : List Token) (ast : CookAST)
    (c : Nat) (h : parseCookAt tokens = .ok (ast, c))
    (hsame : tokens'.take c = tokens.take c) (hlen : tokens.length ≤ tokens'.length) :
    parseCook tokens' = .ok ast ∧ parseCookAt tokens' = .ok (ast, c) ∧
      ∃ t, tokens[c - 1]? = some t ∧ t.type = TOK_RIGHT_BRACE ∧ 0 < c := by
  obtain ⟨h1, h2⟩ := Parser.cook_local tokens tokens' (Nat.succ_le_succ hlen) h
    (Agree.of_take hsame)
  have h3 : parseCookAt tokens' = .ok (ast, c) := h1
  exact ⟨by simp only [parseCook, h3], h3, h2⟩

/-- C6 at `cook`, opening brace, closing brace, end of input, against the same tokens with
`yap` put behind the closing brace: both parse to the empty program. -/
theorem parseCook_stops_at_closing_brace_witness :
    parseCookAt [tok TOK_COOK "cook", tok TOK_LEFT_BRACE "\x7b", tok TOK_RIGHT_BRACE "\x7d",
        eofToken] = .ok (⟨[]⟩, 3) ∧
      List.take 3 [tok TOK_COOK "cook", tok TOK_LEFT_BRACE "\x7b", tok TOK_RIGHT_BRACE "\x7d",
        tok TOK_YAP "yap", eofToken] =
        List.take 3 [tok TOK_COOK "cook", tok TOK_LEFT_BRACE "\x7b",
          tok TOK_RIGHT_BRACE "\x7d", eofToken] ∧
      (parseCook [tok TOK_COOK "cook", tok TOK_LEFT_BRACE "\x7b", tok TOK_RIGHT_BRACE "\x7d",
        tok TOK_YAP "yap", eofToken] = .ok ⟨[]⟩ ∧
       parseCookAt [tok TOK_COOK "cook", tok TOK_LEFT_BRACE "\x7b",
        tok TOK_RIGHT_BRACE "\x7d", tok TOK_YAP "yap", eofToken] = .ok (⟨[]⟩, 3) ∧
       ∃ t, [tok TOK_COOK "cook", tok TOK_LEFT_BRACE "\x7b", tok TOK_RIGHT_BRACE "\x7d",
        eofToken][3 - 1]? = some t ∧ t.type = TOK_RIGHT_BRACE ∧ 0 < 3) :=
  ⟨rfl, rfl, parseCook_stops_at_closing_brace _ _ _ _ rfl rfl (by decide)⟩

/-- C6 as written fails: in `cook`, opening brace, closing brace, `yap`, `(`, end of input,
tokens other than the end of input follow the closing brace of the `cook` block, and
`parseCook` returns the (empty) program instead of failing. -/
theorem trailing_tokens_counterexample :
    parseCook [tok TOK_COOK "cook", tok TOK_LEFT_BRACE "\x7b", tok TOK_RIGHT_BRACE "\x7d",
      tok TOK_YAP "yap", tok TOK_LEFT_PAREN "(", eofToken] = .ok ⟨[]⟩ :=
  rfl

/-- C8: a division node whose operands lower successfully lowers to a value of floating
kind, the result of a floating-point division of two floating operands; when neither
operand is of floating kind (two integers in particular) both are converted with
`sitofp` first.  No integer division is ever emitted. -/
theorem division_lowers_to_floating (l r : ExprAST) (g g1 g2 : CodeGen) (L R : Value)
    (hl : generateExpr l g = .ok (L, g1)) (hr : generateExpr r g1 = .ok (R, g2)) :
    ∃ (convs : List Instr) (a b : Value),
      generateExpr (BinaryExprAST '/' l r) g =
          .ok (.reg (g2.nextId + convs.length) .double,
            g2.record (convs ++ [.binary (g2.nextId + convs.length) .FDiv a b])
              (convs.length + 1)) ∧
        a.type = .double ∧ b.type = .double ∧
        (L.isDoubleTy = false → R.isDoubleTy = false →
          convs = [.siToFP g2.nextId L, .siToFP (g2.nextId + 1) R] ∧
            a = .reg g2.nextId .double ∧ b = .reg (g2.nextId + 1) .double) := by
  rw [generateExpr_binary '/' l r g g1 g2 L R hl hr]
  cases hL : L.isDoubleTy <;> cases hR : R.isDoubleTy
  · exact ⟨[.siToFP g2.nextId L, .siToFP (g2.nextId + 1) R], .reg g2.nextId .double,
      .reg (g2.nextId + 1) .double, Gen.binaryOp_div_int L R g2 hL hR, rfl, rfl,
      fun _ _ => ⟨rfl, rfl, rfl⟩⟩
  · exact ⟨[.siToFP g2.nextId L], .reg g2.nextId .double, R,
      Gen.binaryOp_float_right '/' .FDiv L R g2 rfl hL hR, rfl,
      by simpa [Value.isDoubleTy] using hR, fun _ h => by simp at h⟩
  · exact ⟨[.siToFP g2.nextId R], L, .reg g2.nextId .double,
      Gen.binaryOp_float_left '/' .FDiv L R g2 rfl hL hR,
      by simpa [Value.isDoubleTy] using hL, rfl, fun h _ => by simp at h⟩
  · exact ⟨[], L, R, Gen.binaryOp_float_both '/' .FDiv L R g2 rfl hL hR,
      by simpa [Value.isDoubleTy] using hL, by simpa [Value.isDoubleTy] using hR,
      fun h _ => by simp at h⟩

theorem division_lowers_to_floating_witness :
    generateExpr (BinaryExprAST '/' (NumberExprAST (.ofInt 6)) (NumberExprAST (.ofInt 4)))
        CodeGen.start =
        .ok (.reg 2 .double,
          CodeGen.start.record [.siToFP 0 (.constInt 6), .siToFP 1 (.constInt 4),
            .binary 2 .FDiv (.reg 0 .double) (.reg 1 .double)] 3) ∧
      (denoteInstrs [.siToFP 0 (.constInt 6), .siToFP 1 (.constInt 4),
        .binary 2 .FDiv (.reg 0 .double) (.reg 1 .double)] []).lookup 2 = some (3 / 2 : ℚ) ∧
      Dbl.toRat ⟨3, -1⟩ = (3 / 2 : ℚ) := by
  obtain ⟨convs, a, b, h, -, -, hc⟩ :=
    division_lowers_to_floating (NumberExprAST (.ofInt 6)) (NumberExprAST (.ofInt 4))
      CodeGen.start CodeGen.start CodeGen.start (.constInt 6) (.constInt 4) rfl rfl
  obtain ⟨rfl, rfl, rfl⟩ := hc rfl rfl
  refine ⟨h, ?_, ?_⟩
  · norm_num [denoteInstrs, denoteValue, denoteBinOp, List.lookup]
  · norm_num [Dbl.toRat]

/-- C9: for a binary node with an operator among `+ - * / < > =` whose operands lower
successfully, one to a value of floating kind and the other to a value of integer kind,
the lowering raises no error: it records a `sitofp` conversion of the integer operand
and then the floating-point operation of the operator on the floating operand and the
converted one. -/
theorem mixed_operands_are_widened (op : Char)
    (hop : op ∈ ['+', '-', '*', '/', '<', '>', '=']) (l r : ExprAST) (g g1 g2 : CodeGen)
    (L R : Value) (hl : generateExpr l g = .ok (L, g1)) (hr : generateExpr r g1 = .ok (R, g2)) :
    ∃ fop, floatOp op = some fop ∧ fop.isFloatOp = true ∧
      (L.isDoubleTy = true → R.isIntegerTy = true →
        generateExpr (BinaryExprAST op l r) g =
          .ok (.reg (g2.nextId + 1) (if fop.isCmp then .i1 else .double),
            g2.record [.siToFP g2.nextId R,
              .binary (g2.nextId + 1) fop L (.reg g2.nextId .double)] 2)) ∧
      (L.isIntegerTy = true → R.isDoubleTy = true →
        generateExpr (BinaryExprAST op l r) g =
          .ok (.reg (g2.nextId + 1) (if fop.isCmp then .i1 else .double),
            g2.record [.siToFP g2.nextId L,
              .binary (g2.nextId + 1) fop (.reg g2.nextId .double) R] 2)) := by
  obtain ⟨fop, h1, h2⟩ := floatOp_spec hop
  refine ⟨fop, h1, h2, ?_, ?_⟩
  · intro hL hR
    rw [generateExpr_binary op l r g g1 g2 L R hl hr]
    exact Gen.binaryOp_float_left op fop L R g2 h1 hL (isDoubleTy_of_integer hR)
  · intro hL hR
    rw [generateExpr_binary op l r g g1 g2 L R hl hr]
    exact Gen.binaryOp_float_right op fop L R g2 h1 (isDoubleTy_of_integer hL) hR


theorem mixed_operands_are_widened_witness :
    generateExpr (BinaryExprAST '+' (NumberExprAST (.ofDouble ⟨3, -1⟩))
        (NumberExprAST (.ofInt 2))) CodeGen.start =
      .ok (.reg 1 .double,
        CodeGen.start.record [.siToFP 0 (.constInt 2),
          .binary 1 .FAdd (.constFP ⟨3, -1⟩) (.reg 0 .double)] 2) := by
  obtain ⟨fop, h1, -, h3, -⟩ :=
    mixed_operands_are_widened '+' (by decide) (NumberExprAST (.ofDouble ⟨3, -1⟩))
      (NumberExprAST (.ofInt 2)) CodeGen.start CodeGen.start CodeGen.start
      (.constFP ⟨3, -1⟩) (.constInt 2) rfl rfl
  obtain rfl : BinOp.FAdd = fop := Option.some.inj h1
  exact h3 rfl rfl

/-- C12 (amended): for every source string, `Lexer::scanTokens` either returns a
non-empty token sequence whose last token is the end-of-input token and which holds
exactly one token of that type, or it is left by the `std::out_of_range` of `std::stod`,
and then the source holds a `.`. -/
theorem scan_ends_with_one_eof (source : Str) :
    (∃ tokens, scanTokens source = .ok tokens ∧ tokens ≠ [] ∧
        tokens.getLast? = some eofToken ∧
        tokens.countP (fun t => t.type == TOK_EOF) = 1) ∨
      (scanTokens source = .error (.outOfRange "stod".toList) ∧ '.' ∈ source) := by
  rcases scanLoop_spec source.length source [] (Nat.le_refl _) with ⟨ts, h1, h2⟩ | h
  · refine Or.inl ⟨ts ++ [eofToken], by simpa [scanTokens] using h1, by simp, by simp, ?_⟩
    have h0 : ts.countP (fun t => t.type == TOK_EOF) = 0 := by
      rw [List.countP_eq_zero]
      intro t ht
      simpa using (h2 t ht).1
    simp [List.countP_append, h0, eofToken]
  · exact Or.inr h

/-- C12 as written fails: on the literal `1` followed by 309 zeros and `.5`, which is
beyond the largest `double`, `Lexer::scanTokens` returns no token sequence; the
`std::out_of_range` of `std::stod` leaves it. -/
theorem scan_aborts_counterexample :
    scanTokens ('1' :: List.replicate 309 '0' ++ ".5".toList) =
      .error (.outOfRange "stod".toList) :=
  scanTokens_hugeLiteral

/-- C13 (amended): a skipped character, white space or unrecognized, contributes no
token: `Lexer::scanTokens` on `c` followed by `s` ends as it does on `s`, with the same
token sequence when that scan returns and with the same exception when it does not. -/
theorem skipped_character_adds_no_token (c : Char) (s : Str) (h : isSkipped c = true) :
    scanTokens (c :: s) = scanTokens s :=
  scanTokens_skip c s (scanToken_skipped c s h)

/-- C13 at the unrecognized character `@` in front of the source `x`. -/
theorem skipped_character_adds_no_token_witness :
    isSkipped '@' = true ∧ scanTokens ('@' :: "x".toList) = scanTokens "x".toList :=
  ⟨by decide, skipped_character_adds_no_token '@' "x".toList (by decide)⟩

/-- C13 as written fails: a blank is a skipped character, and the scan of a blank
followed by the literal `1`, 309 zeros, `.5` does abort. -/
theorem skipped_character_abort_counterexample :
    isSkipped ' ' = true ∧
      scanTokens (' ' :: hugeLiteral) = .error (.outOfRange "stod".toList) :=
  ⟨by decide, by rw [scanTokens_skip ' ' hugeLiteral rfl]; exact scanTokens_hugeLiteral⟩

/-- C14: when `Parser::statement` is entered at a token whose type is none of `yap`, `fr`,
`bet`, `pookie`, `no_cap`, `bruh`, each of its `match` calls leaves the cursor where it
is and it throws "Expected statement"; and in no program `parseCook` returns does a block
hold an expression statement. -/
theorem expression_statement_is_no_fallback (tokens : List Token) (i fuel : Nat) (t : Token)
    (ht : tokens[i]? = some t) (hk : t.type ∉ statementStarts) :
    Parser.statement tokens (fuel + 1) i = .error (.runtime "Expected statement".toList) ∧
      (∀ type ∈ statementStarts, Parser.match tokens type i = .ok (false, i)) ∧
      ∀ (tokens' : List Token) (ast : CookAST), parseCook tokens' = .ok ast →
        noBareExprs ast.body = true := by
  have hm : ∀ type ∈ statementStarts, Parser.match tokens type i = .ok (false, i) :=
    fun type hty => Parser.match_miss type ht (fun e => hk (e ▸ hty))
  refine ⟨?_, hm, fun tokens' ast h => ?_⟩
  · simp [Parser.statement, hm TOK_YAP (by decide), hm TOK_FR (by decide),
      hm TOK_BET (by decide), hm TOK_POOKIE (by decide), hm TOK_NO_CAP (by decide),
      hm TOK_BRUH (by decide)]
  · obtain ⟨c, hc⟩ := parseCook_ok h
    exact Parser.cook_bare tokens' _ 0 ast c hc

/-- C14 at the tokens `x = 5 ;`: an identifier begins no statement. -/
theorem expression_statement_is_no_fallback_witness :
    [tok TOK_IDENTIFIER "x", tok TOK_EQUAL "=", tok TOK_NUMBER_LITERAL "5",
        tok TOK_SEMICOLON ";", eofToken][0]? = some (tok TOK_IDENTIFIER "x") ∧
      (tok TOK_IDENTIFIER "x").type ∉ statementStarts ∧
      (Parser.statement [tok TOK_IDENTIFIER "x", tok TOK_EQUAL "=", tok TOK_NUMBER_LITERAL "5",
          tok TOK_SEMICOLON ";", eofToken] (5 + 1) 0 =
            .error (.runtime "Expected statement".toList) ∧
        (∀ type ∈ statementStarts,
          Parser.match [tok TOK_IDENTIFIER "x", tok TOK_EQUAL "=", tok TOK_NUMBER_LITERAL "5",
            tok TOK_SEMICOLON ";", eofToken] type 0 = .ok (false, 0)) ∧
        ∀ (tokens' : List Token) (ast : CookAST), parseCook tokens' = .ok ast →
          noBareExprs ast.body = true) :=
  ⟨rfl, by decide, expression_statement_is_no_fallback _ 0 5 _ rfl (by decide)⟩

/-- C15: replacing each `<=` token by `<` and each `>=` token by `>` in a token sequence
does not change what `parseCook` returns or throws; `1 <= 2` parses to the binary node
with tag `<` and `1 >= 2` to the one with tag `>`. -/
theorem or_equal_parses_as_strict (tokens : List Token) :
    parseCook (tokens.map relaxComparison) = parseCook tokens ∧
      parseCook (yapProgramTokens [tok TOK_NUMBER_LITERAL "1", tok TOK_LESS_EQUAL "<=",
        tok TOK_NUMBER_LITERAL "2"]) =
        .ok ⟨[YapStmtAST [BinaryExprAST '<' (NumberExprAST (.ofInt 1))
          (NumberExprAST (.ofInt 2))]]⟩ ∧
      parseCook (yapProgramTokens [tok TOK_NUMBER_LITERAL "1", tok TOK_GREATER_EQUAL ">=",
        tok TOK_NUMBER_LITERAL "2"]) =
        .ok ⟨[YapStmtAST [BinaryExprAST '>' (NumberExprAST (.ofInt 1))
          (NumberExprAST (.ofInt 2))]]⟩ := by
  refine ⟨?_, rfl, rfl⟩
  simp only [parseCook, parseCookAt, List.length_map, Parser.cook_relax]

/-- C16 (amended): in every program `parseCook` returns on the tokens `scanTokens` returns
for a source, the operator tag of every binary node is one of `+ - * / < > = !`; the tag
is the first character of the text of the operator token, `!` for the token `!=`. -/
theorem binary_operator_tags (source : Str) (tokens : List Token) (ast : CookAST)
    (hs : scanTokens source = .ok tokens) (hp : parseCook tokens = .ok ast) :
    ∀ op ∈ binaryOpsStmts ast.body, op ∈ "+-*/<>=!".toList := by
  obtain ⟨c, hc⟩ := parseCook_ok hp
  exact fun op hop => Parser.cook_ops (scanTokens_lexedTokens hs) _ 0 ast c hc hop

/-- C16 at the source `cook \x7b yap(1 + 2 * 3); \x7d`. -/
theorem binary_operator_tags_witness :
    scanTokens "cook \x7b yap(1 + 2 * 3); \x7d".toList = .ok (yapProgramTokens
        [tok TOK_NUMBER_LITERAL "1", tok TOK_PLUS "+", tok TOK_NUMBER_LITERAL "2",
          tok TOK_STAR "*", tok TOK_NUMBER_LITERAL "3"]) ∧
      parseCook (yapProgramTokens
        [tok TOK_NUMBER_LITERAL "1", tok TOK_PLUS "+", tok TOK_NUMBER_LITERAL "2",
          tok TOK_STAR "*", tok TOK_NUMBER_LITERAL "3"]) =
        .ok ⟨[YapStmtAST [BinaryExprAST '+' (NumberExprAST (.ofInt 1))
          (BinaryExprAST '*' (NumberExprAST (.ofInt 2)) (NumberExprAST (.ofInt 3)))]]⟩ ∧
      ∀ op ∈ binaryOpsStmts (CookAST.mk [YapStmtAST [BinaryExprAST '+' (NumberExprAST (.ofInt 1))
          (BinaryExprAST '*' (NumberExprAST (.ofInt 2)) (NumberExprAST (.ofInt 3)))]]).body,
        op ∈ "+-*/<>=!".toList :=
  ⟨by decide, rfl, binary_operator_tags "cook \x7b yap(1 + 2 * 3); \x7d".toList
    (yapProgramTokens [tok TOK_NUMBER_LITERAL "1", tok TOK_PLUS "+", tok TOK_NUMBER_LITERAL "2",
      tok TOK_STAR "*", tok TOK_NUMBER_LITERAL "3"])
    ⟨[YapStmtAST [BinaryExprAST '+' (NumberExprAST (.ofInt 1))
      (BinaryExprAST '*' (NumberExprAST (.ofInt 2)) (NumberExprAST (.ofInt 3)))]]⟩
    (by decide) rfl⟩

/-- C16 as written fails: the source `cook \x7b yap(1 != 2); \x7d` scans and parses to a
program whose binary node has the operator tag `!`, which is none of `+ - * / < > =`. -/
theorem bang_equal_tag_counterexample :
    scanTokens "cook \x7b yap(1 != 2); \x7d".toList = .ok (yapProgramTokens
        [tok TOK_NUMBER_LITERAL "1", tok TOK_BANG_EQUAL "!=", tok TOK_NUMBER_LITERAL "2"]) ∧
      parseCook (yapProgramTokens
        [tok TOK_NUMBER_LITERAL "1", tok TOK_BANG_EQUAL "!=", tok TOK_NUMBER_LITERAL "2"]) =
        .ok ⟨[YapStmtAST [BinaryExprAST '!' (NumberExprAST (.ofInt 1))
          (NumberExprAST (.ofInt 2))]]⟩ ∧
      '!' ∉ "+-*/<>=".toList :=
  ⟨by decide, rfl, by decide⟩

/-- C17, the code at `cook { yap(("hi")); }`: the argument, a string literal in
parentheses, lowers to the pointer to a global string, a value of pointer kind.  The print
statement of `generateStmt` hands it to `printf` with a format string that is the newline
alone, without a token for it.  On the same argument the `yap` call of `generateExpr`
records the format `%s` and a newline, and `getFormatString` gives the same format for the
lowered value. -/
theorem print_of_grouped_string :
    (scanTokens groupedStringSource >>= parseCook) = .ok groupedStringProgram ∧
      generateExpr (GroupingExprAST (StringExprAST "hi".toList)) CodeGen.start =
        .ok (.globalString "hi".toList, { CodeGen.start with globals := ["hi".toList] }) ∧
      (Value.globalString "hi".toList).isPointerTy = true ∧
      generateStmt (YapStmtAST [GroupingExprAST (StringExprAST "hi".toList)]) CodeGen.start =
        .ok ((), { CodeGen.start with
          globals := ["hi".toList, "\n".toList],
          blocks := [⟨"entry".toList,
            [.call 0 "printf".toList [.globalString "\n".toList, .globalString "hi".toList]]⟩],
          nextId := 1 }) ∧
      generateExpr (CallExprAST "yap".toList [GroupingExprAST (StringExprAST "hi".toList)])
          CodeGen.start =
        .ok (.reg 0 .i32, { CodeGen.start with
          globals := ["hi".toList, "%s\n".toList],
          blocks := [⟨"entry".toList,
            [.call 0 "printf".toList [.globalString "%s\n".toList, .globalString "hi".toList]]⟩],
          nextId := 1 }) ∧
      getFormatString (.globalString "hi".toList) CodeGen.start =
        .ok (.globalString "%s\n".toList, { CodeGen.start with globals := ["%s\n".toList] }) :=
  ⟨by rfl, by decide, by decide, by decide, by decide, by decide⟩

/-- C18: for every state of the lowering, a declaration `pookie name = init` whose
initializer lowers to `v` succeeds, whether or not `name` is bound already: the alloca is
put at the beginning of the entry block and defines the new storage, numbered by the
instruction counter (larger than the number of any storage defined before), the
initializer is lowered, the store of `v` into the new storage is recorded at the insertion
point, and in the symbol table `name` is bound to the new storage and every other name is
bound as before. -/
theorem declaration_binds_new_storage (g g1 : CodeGen) (name : Str) (init : ExprAST)
    (v : Value) (h : generateExpr init (g.withEntryAlloca name) = .ok (v, g1)) :
    ∃ g', generateStmt (VarDeclStmtAST name init) g = .ok ((), g') ∧
      (0 < g.blocks.length →
        (g.withEntryAlloca name).instrsOf 0 = .alloca g.nextId name :: g.instrsOf 0) ∧
      g'.blocks = appendInstr g1.blocks g1.insertBlock (.store v (.reg g.nextId .ptr)) ∧
      g'.namedValues.lookup name = some (.reg g.nextId .ptr) ∧
      (∀ n, n ≠ name → g'.namedValues.lookup n = g.namedValues.lookup n) ∧
      ((∀ n id ty, g.namedValues.lookup n = some (.reg id ty) → id < g.nextId) →
        ∀ n, g.namedValues.lookup n ≠ some (.reg g.nextId .ptr)) := by
  have hn : g1.namedValues = g.namedValues :=
    generateExpr_named (g := g.withEntryAlloca name) h
  refine ⟨{ g1 with
      blocks := appendInstr g1.blocks g1.insertBlock (.store v (.reg g.nextId .ptr)),
      namedValues := (name, .reg g.nextId .ptr) ::
        g1.namedValues.filter (fun kv => kv.1 != name) }, ?_, ?_, rfl, ?_, ?_, ?_⟩
  · have h' : generateExpr init
        { g with blocks := prependInstr g.blocks 0 (.alloca g.nextId name),
                 nextId := g.nextId + 1 } = .ok (v, g1) := h
    simp [generateStmt, Gen.createEntryAlloca, h', Gen.createStore, Gen.emit, Gen.setNamed]
  · intro hpos
    cases hb : g.blocks with
    | nil => rw [hb] at hpos; simp at hpos
    | cons bb bbs => simp [CodeGen.withEntryAlloca, CodeGen.instrsOf, hb, prependInstr]
  · simp [List.lookup]
  · intro n hne
    have hb : (n == name) = false := by simpa using hne
    simp only [List.lookup_cons, hb]
    rw [lookup_filter_ne _ _ _ hne, hn]
  · intro hlt n hn'
    exact Nat.lt_irrefl _ (hlt n _ _ hn')

/-- C18 at the declaration `pookie x = 2;` lowered where `x` is bound already: it
succeeds and binds `x` to the new storage. -/
theorem declaration_binds_new_storage_witness :
    generateExpr (NumberExprAST (.ofInt 2)) (afterDeclareX.withEntryAlloca "x".toList) =
        .ok (.constInt 2, afterDeclareX.withEntryAlloca "x".toList) ∧
      ∃ g', generateStmt (VarDeclStmtAST "x".toList (NumberExprAST (.ofInt 2))) afterDeclareX =
          .ok ((), g') ∧
        (0 < afterDeclareX.blocks.length →
          (afterDeclareX.withEntryAlloca "x".toList).instrsOf 0 =
            .alloca afterDeclareX.nextId "x".toList :: afterDeclareX.instrsOf 0) ∧
        g'.blocks = appendInstr (afterDeclareX.withEntryAlloca "x".toList).blocks
          (afterDeclareX.withEntryAlloca "x".toList).insertBlock
          (.store (.constInt 2) (.reg afterDeclareX.nextId .ptr)) ∧
        g'.namedValues.lookup "x".toList = some (.reg afterDeclareX.nextId .ptr) ∧
        (∀ n, n ≠ "x".toList → g'.namedValues.lookup n = afterDeclareX.namedValues.lookup n) ∧
        ((∀ n id ty, afterDeclareX.namedValues.lookup n = some (.reg id ty) →
            id < afterDeclareX.nextId) →
          ∀ n, afterDeclareX.namedValues.lookup n ≠ some (.reg afterDeclareX.nextId .ptr)) :=
  ⟨rfl, declaration_binds_new_storage afterDeclareX _ "x".toList (NumberExprAST (.ofInt 2))
    (.constInt 2) rfl⟩

/-- C19: for an assignment `name = value` whose value lowers to `v`: when `name` is bound
to the storage `ptr`, `generateExpr` records the store of `v` into `ptr` at the insertion
point, returns `v` and leaves the symbol table as it was; when `name` is not bound, it
throws "Undefined variable: " followed by the name, right after the value is lowered and
before any store is recorded. -/
theorem assignment_lowering (name : Str) (value : ExprAST) (g g1 : CodeGen) (v : Value)
    (h : generateExpr value g = .ok (v, g1)) :
    (∀ ptr, g.namedValues.lookup name = some ptr →
        generateExpr (AssignExprAST name value) g =
            .ok (v, { g1 with blocks := appendInstr g1.blocks g1.insertBlock (.store v ptr) }) ∧
          g1.namedValues = g.namedValues) ∧
      (g.namedValues.lookup name = none →
        generateExpr (AssignExprAST name value) g =
          .error (.runtime ("Undefined variable: ".toList ++ name))) := by
  have hn : g1.namedValues = g.namedValues := generateExpr_named h
  refine ⟨fun ptr hp => ⟨?_, hn⟩, fun hp => ?_⟩
  · simp [generateExpr, h, Gen.findNamed, hn, hp, Gen.createStore, Gen.emit]
  · simp [generateExpr, h, Gen.findNamed, hn, hp]

/-- C19 at `x = 2` where `x` is bound, and at `y = 2` where `y` is not. -/
theorem assignment_lowering_witness :
    generateExpr (NumberExprAST (.ofInt 2)) afterDeclareX = .ok (.constInt 2, afterDeclareX) ∧
      (∀ ptr, afterDeclareX.namedValues.lookup "x".toList = some ptr →
        generateExpr (AssignExprAST "x".toList (NumberExprAST (.ofInt 2))) afterDeclareX =
            .ok (.constInt 2, { afterDeclareX with
              blocks := appendInstr afterDeclareX.blocks afterDeclareX.insertBlock
                (.store (.constInt 2) ptr) }) ∧
          afterDeclareX.namedValues = afterDeclareX.namedValues) ∧
      (afterDeclareX.namedValues.lookup "y".toList = none →
        generateExpr (AssignExprAST "y".toList (NumberExprAST (.ofInt 2))) afterDeclareX =
          .error (.runtime ("Undefined variable: ".toList ++ "y".toList))) :=
  ⟨rfl, (assignment_lowering "x".toList (NumberExprAST (.ofInt 2)) afterDeclareX afterDeclareX
      (.constInt 2) rfl).1,
    (assignment_lowering "y".toList (NumberExprAST (.ofInt 2)) afterDeclareX afterDeclareX
      (.constInt 2) rfl).2⟩

/-- C20: for `c` one of `!`, `=`, `<`, `>` with its two-character token type `two` and
its one-character token type `one`, the scan of `c`, `=`, `s` is the two-character token
followed by the scan of `s`, and the scan of `c` followed by an `s` that does not begin
with `=` is the one-character token followed by the scan of `s`. -/
theorem maximal_munch (c : Char) (two one : TokenType) (s : Str)
    (h : (c, two, one) ∈ [('!', TOK_BANG_EQUAL, TOK_BANG), ('=', TOK_EQUAL_EQUAL, TOK_EQUAL),
      ('<', TOK_LESS_EQUAL, TOK_LESS), ('>', TOK_GREATER_EQUAL, TOK_GREATER)]) :
    scanTokens (c :: '=' :: s) =
        (scanTokens s).map (fun ts => ⟨two, [c, '='], false⟩ :: ts) ∧
      (s.head? ≠ some '=' →
        scanTokens (c :: s) = (scanTokens s).map (fun ts => ⟨one, [c], false⟩ :: ts)) := by
  have key : scanToken c = fun rest => .ok (lexOperator c two one rest) := by
    simp only [List.mem_cons, Prod.mk.injEq, List.mem_singleton, List.not_mem_nil,
      or_false] at h
    rcases h with ⟨rfl, rfl, rfl⟩ | ⟨rfl, rfl, rfl⟩ | ⟨rfl, rfl, rfl⟩ | ⟨rfl, rfl, rfl⟩ <;> rfl
  refine ⟨?_, fun hs => ?_⟩
  · exact scanTokens_cons c ('=' :: s) s _ (by rw [key]; rfl)
  · refine scanTokens_cons c s s _ ?_
    rw [key]
    cases s with
    | nil => rfl
    | cons x xs =>
      have hx : x ≠ '=' := fun e => hs (by simp [e])
      simp [lexOperator, lexMatch, hx]

/-- C20 at `<` and the source `1`: `<=1` begins with the token `<=`, `<1` with `<`. -/
theorem maximal_munch_witness :
    (('<', TOK_LESS_EQUAL, TOK_LESS) ∈
        [('!', TOK_BANG_EQUAL, TOK_BANG), ('=', TOK_EQUAL_EQUAL, TOK_EQUAL),
          ('<', TOK_LESS_EQUAL, TOK_LESS), ('>', TOK_GREATER_EQUAL, TOK_GREATER)]) ∧
      (scanTokens ('<' :: '=' :: "1".toList) =
          (scanTokens "1".toList).map (fun ts => ⟨TOK_LESS_EQUAL, ['<', '='], false⟩ :: ts) ∧
        ("1".toList.head? ≠ some '=' →
          scanTokens ('<' :: "1".toList) =
            (scanTokens "1".toList).map (fun ts => ⟨TOK_LESS, ['<'], false⟩ :: ts))) :=
  ⟨by decide, maximal_munch '<' TOK_LESS_EQUAL TOK_LESS "1".toList (by decide)⟩

/-- C21: for every string `s` without a double quote, the scan of `s` between two double
quotes is the string token with text `s`, not floating, followed by the end-of-input
token. -/
theorem string_literal_scan (s : Str) (h : '"' ∉ s) :
    scanTokens ('"' :: (s ++ ['"'])) = .ok [⟨TOK_STRING_LITERAL, s, false⟩, eofToken] := by
  have hs : ∀ x ∈ s, (x != '"') = true := fun x hx => by
    simp only [bne_iff_ne, ne_eq]
    exact fun e => h (e ▸ hx)
  apply scanTokens_single
  rw [scanToken_quote]
  unfold lexString
  rw [takeWhile_stop s [] '"' hs (by decide), dropWhile_stop s [] '"' hs (by decide)]

/-- C21 at a string with a blank and a newline in it. -/
theorem string_literal_scan_witness :
    '"' ∉ "a b\nc".toList ∧
      scanTokens ('"' :: ("a b\nc".toList ++ ['"'])) =
        .ok [⟨TOK_STRING_LITERAL, "a b\nc".toList, false⟩, eofToken] :=
  ⟨by decide, string_literal_scan "a b\nc".toList (by decide)⟩

/-- C22: for every source `p` whose scan returns and leaves no string open, and every
text `r` without a double quote, the scan of `p`, `"`, `r` returns the tokens of the
scan of `p`, which are tokens other than the end-of-input token followed by one
end-of-input token: the open quote and the text after it add nothing.  The scan of `"`,
`r` returns the end-of-input token alone. -/
theorem open_string_adds_no_token (p r : Str) (tokens : List Token)
    (h : scanTokens p = .ok tokens) (ho : leavesStringOpen p = false) (hr : '"' ∉ r) :
    scanTokens (p ++ '"' :: r) = .ok tokens ∧
      (∃ ts, tokens = ts ++ [eofToken] ∧ ∀ t ∈ ts, t.type ≠ TOK_EOF) ∧
      scanTokens ('"' :: r) = .ok [eofToken] := by
  refine ⟨?_, ?_, ?_⟩
  · have hlen : (p ++ '"' :: r).length = p.length + r.length + 1 := by
      simp only [List.length_append, List.length_cons]
      omega
    unfold scanTokens
    rw [hlen]
    exact scanLoop_open r hr p.length p [] tokens (Nat.le_refl _) h ho
  · obtain ⟨ts, h1, h2⟩ := scanTokens_lexed p tokens h
    exact ⟨ts, h1, fun t ht => (h2 t ht).1⟩
  · simp only [scanTokens, List.length_cons, scanLoop, scanToken_quote, lexString_open r hr]
    rfl

/-- C22 at the source `yap` and the text `hi`. -/
theorem open_string_adds_no_token_witness :
    scanTokens ("yap".toList ++ '"' :: "hi".toList) = .ok [tok TOK_YAP "yap", eofToken] ∧
      (∃ ts, [tok TOK_YAP "yap", eofToken] = ts ++ [eofToken] ∧
        ∀ t ∈ ts, t.type ≠ TOK_EOF) ∧
      scanTokens ('"' :: "hi".toList) = .ok [eofToken] :=
  open_string_adds_no_token "yap".toList "hi".toList [tok TOK_YAP "yap", eofToken]
    (by decide) (by decide) (by decide)

/-- C23: for every word that begins with a letter or underscore and goes on with letters,
digits and underscores, the scan is one token with the word as text, followed by the
end-of-input token; the type of the token is the one the keyword table gives the word,
and `TOK_IDENTIFIER` when the word is none of the 19 words of the table. -/
theorem word_scan (c : Char) (cs : Str) (hc : isAlpha c = true)
    (hcs : ∀ x ∈ cs, isAlphaNumeric x = true) :
    scanTokens (c :: cs) =
        .ok [⟨(keywords.lookup (c :: cs)).getD TOK_IDENTIFIER, c :: cs, false⟩, eofToken] ∧
      keywords.map Prod.fst = keywordWords ∧ keywordWords.length = 19 ∧
      (∀ kind, (c :: cs, kind) ∈ keywords → keywords.lookup (c :: cs) = some kind) ∧
      (c :: cs ∉ keywordWords → (keywords.lookup (c :: cs)).getD TOK_IDENTIFIER =
        TOK_IDENTIFIER) := by
  have hk : keywords.map Prod.fst = keywordWords := by decide
  refine ⟨?_, hk, by decide, ?_, ?_⟩
  · apply scanTokens_single
    rw [scanToken_alpha c cs hc]
    unfold identifier
    rw [takeWhile_all cs hcs, dropWhile_all cs hcs]
    dsimp only
    cases h : keywords.lookup (c :: cs) <;> rfl
  · have key : ∀ kv ∈ keywords, keywords.lookup kv.1 = some kv.2 := by decide
    exact fun kind hm => key _ hm
  · intro hn
    rw [lookup_eq_none (c :: cs) keywords (by rw [hk]; exact hn)]
    rfl

/-- C23 at the word `cook1`, of which the keyword `cook` is a proper prefix. -/
theorem word_scan_witness :
    isAlpha 'c' = true ∧ (∀ x ∈ "ook1".toList, isAlphaNumeric x = true) ∧
      (scanTokens ('c' :: "ook1".toList) =
          .ok [⟨(keywords.lookup ('c' :: "ook1".toList)).getD TOK_IDENTIFIER,
            'c' :: "ook1".toList, false⟩, eofToken] ∧
        keywords.map Prod.fst = keywordWords ∧ keywordWords.length = 19 ∧
        (∀ kind, ('c' :: "ook1".toList, kind) ∈ keywords →
          keywords.lookup ('c' :: "ook1".toList) = some kind) ∧
        ('c' :: "ook1".toList ∉ keywordWords →
          (keywords.lookup ('c' :: "ook1".toList)).getD TOK_IDENTIFIER = TOK_IDENTIFIER)) :=
  ⟨by decide, by decide, word_scan 'c' "ook1".toList (by decide) (by decide)⟩

/-- C24: for token sequences that differ in the spelling of conditional keywords only,
`fr` for `no_cap` or the reverse, `parseCook` returns the same program on both or fails
on both, with a syntax error on one exactly when on the other; the exceptions are the
same up to the keyword named in the message of the missing parenthesis.  At either
spelling `Parser::statement` goes on as `Parser::frStatement` does after the keyword,
which builds the node of the condition, the then block and the else block, the else
block empty when no `cap` follows. -/
theorem conditional_spellings_interchangeable (tokens tokens' : List Token)
    (h : tokens.map frSpelling = tokens'.map frSpelling) :
    (∀ ast, parseCook tokens = .ok ast ↔ parseCook tokens' = .ok ast) ∧
      ((∃ m, parseCook tokens = .error (.runtime m)) ↔
        ∃ m, parseCook tokens' = .error (.runtime m)) ∧
      (parseCook tokens).mapError frMessage = (parseCook tokens').mapError frMessage ∧
      ∀ fuel c t, tokens[c]? = some t → t.type = TOK_FR ∨ t.type = TOK_NO_CAP →
        (Parser.statement tokens (fuel + 1) c).mapError frMessage =
          (Parser.frStatement tokens (Parser.statement tokens fuel) fuel
            (c + 1)).mapError frMessage := by
  have key : (parseCook tokens).mapError frMessage =
      (parseCook tokens').mapError frMessage := by
    rw [← parseCook_spell tokens, ← parseCook_spell tokens', h]
  refine ⟨fun ast => ?_, ?_, key, fun fuel c t ht hty =>
    Parser.statement_conditional fuel ht hty⟩
  · rw [← mapError_ok_iff (parseCook tokens), ← mapError_ok_iff (parseCook tokens'), key]
  · rw [← mapError_runtime_iff (parseCook tokens), ← mapError_runtime_iff (parseCook tokens'),
      key]

/-- C24 at `cook \x7b fr (1) \x7b \x7d \x7d` and `cook \x7b no_cap (1) \x7b \x7d \x7d`:
both parse to the conditional on `1` with an empty then block and an empty else block. -/
theorem conditional_spellings_interchangeable_witness :
    parseCook [tok TOK_COOK "cook", tok TOK_LEFT_BRACE "\x7b", tok TOK_FR "fr",
        tok TOK_LEFT_PAREN "(", tok TOK_NUMBER_LITERAL "1", tok TOK_RIGHT_PAREN ")",
        tok TOK_LEFT_BRACE "\x7b", tok TOK_RIGHT_BRACE "\x7d", tok TOK_RIGHT_BRACE "\x7d",
        eofToken] = .ok ⟨[SusStmtAST (NumberExprAST (.ofInt 1)) [] []]⟩ ∧
      parseCook [tok TOK_COOK "cook", tok TOK_LEFT_BRACE "\x7b", tok TOK_NO_CAP "no_cap",
        tok TOK_LEFT_PAREN "(", tok TOK_NUMBER_LITERAL "1", tok TOK_RIGHT_PAREN ")",
        tok TOK_LEFT_BRACE "\x7b", tok TOK_RIGHT_BRACE "\x7d", tok TOK_RIGHT_BRACE "\x7d",
        eofToken] = .ok ⟨[SusStmtAST (NumberExprAST (.ofInt 1)) [] []]⟩ :=
  ⟨rfl, ((conditional_spellings_interchangeable
    [tok TOK_COOK "cook", tok TOK_LEFT_BRACE "\x7b", tok TOK_FR "fr",
      tok TOK_LEFT_PAREN "(", tok TOK_NUMBER_LITERAL "1", tok TOK_RIGHT_PAREN ")",
      tok TOK_LEFT_BRACE "\x7b", tok TOK_RIGHT_BRACE "\x7d", tok TOK_RIGHT_BRACE "\x7d",
      eofToken]
    [tok TOK_COOK "cook", tok TOK_LEFT_BRACE "\x7b", tok TOK_NO_CAP "no_cap",
      tok TOK_LEFT_PAREN "(", tok TOK_NUMBER_LITERAL "1", tok TOK_RIGHT_PAREN ")",
      tok TOK_LEFT_BRACE "\x7b", tok TOK_RIGHT_BRACE "\x7d", tok TOK_RIGHT_BRACE "\x7d",
      eofToken] (by decide)).1 _).mp rfl⟩

/-- C25, the code at `-5`: the operand lowers to the integer constant `5`, and
`generateExpr` records the floating-point negation `CreateFNeg` of it, not an
integer negation. -/
theorem negation_of_integer_operand :
    generateExpr (NumberExprAST (.ofInt 5)) CodeGen.start =
        .ok (.constInt 5, CodeGen.start) ∧
      (Value.constInt 5).isIntegerTy = true ∧
      generateExpr (UnaryExprAST '-' (NumberExprAST (.ofInt 5))) CodeGen.start =
        .ok (.reg 0 .i32, CodeGen.start.record [.fneg 0 (.constInt 5)] 1) :=
  ⟨rfl, rfl, rfl⟩

/-- C26: for all operands `a`, `b`, `c` and operator tokens `op1`, `op2` of one level
(both `*` or `/`, both `+` or `-`, both comparison operators, or both equality operators)
the program `cook \x7b yap(a op1 b op2 c); \x7d` parses to one print statement whose
argument is `Binary(o2, Binary(o1, a, b), c)`, the tags being the first characters of the
operator tokens. -/
theorem binary_chains_nest_left (ta tb tc : List Token) (A B C : ExprAST) (op1 op2 : Token)
    (level : List TokenType) (ha : IsOperand ta A) (hb : IsOperand tb B) (hc : IsOperand tc C)
    (hl : level ∈ operatorLevels) (h1 : op1.type ∈ level) (h2 : op2.type ∈ level) :
    parseCook (yapProgramTokens (ta ++ op1 :: (tb ++ op2 :: tc))) =
      .ok ⟨[YapStmtAST [BinaryExprAST (firstChar op2.lexeme)
        (BinaryExprAST (firstChar op1.lexeme) A B) C]]⟩ := by
  obtain ⟨t, l, hta, ht1⟩ := ha.head
  generalize hT : yapProgramTokens (ta ++ op1 :: (tb ++ op2 :: tc)) = T
  have d0 : T.drop 0 = tok TOK_COOK "cook" :: tok TOK_LEFT_BRACE "\x7b" :: tok TOK_YAP "yap" ::
      tok TOK_LEFT_PAREN "(" :: t :: (l ++ op1 :: (tb ++ op2 :: (tc ++
        [tok TOK_RIGHT_PAREN ")", tok TOK_SEMICOLON ";", tok TOK_RIGHT_BRACE "\x7d",
          eofToken]))) := by
    simp [← hT, yapProgramTokens, hta]
  have d4 : T.drop 4 = ta ++ op1 :: (tb ++ op2 :: (tc ++
        [tok TOK_RIGHT_PAREN ")", tok TOK_SEMICOLON ";", tok TOK_RIGHT_BRACE "\x7d",
          eofToken])) := by
    simp [← hT, yapProgramTokens]
  have hlen : T.length + 1 = ta.length + tb.length + tc.length + 7 + 4 := by
    simp [← hT, yapProgramTokens]
    omega
  generalize ta.length + tb.length + tc.length + 7 = n at hlen
  have hn : ta.length ≤ n + 3 ∧ tb.length ≤ n + 3 ∧ tc.length ≤ n + 3 := by
    have : T.length = 4 + (ta.length + (1 + (tb.length + (1 + tc.length)))) + 4 := by
      simp [← hT, yapProgramTokens]
      omega
    omega
  have d5 := drop_skip d4
  have d6 := drop_next d5
  have d7 := drop_skip d6
  have d8 := drop_next d7
  have d9 := drop_skip d8
  have ua := ha T 4 (n + 3) _ d4 hn.1
  have ub := hb T _ (n + 3) _ d6 hn.2.1
  have uc := hc T _ (n + 3) _ d8 hn.2.2
  have ex : Parser.expression T (n + 3) 4 = .ok (_, _) :=
    Parser.expression_chain n level hl h1 h2 ua (drop_get d5) ub (drop_get d7) uc
      (drop_get d9) rfl
  exact parseCook_of_cook _ hlen (Parser.cook_yap_one (n + 2) d0 ht1 ex d9)

/-- C26 at `1-2-3`. -/
theorem binary_chains_nest_left_witness :
    [TOK_PLUS, TOK_MINUS] ∈ operatorLevels ∧
      (tok TOK_MINUS "-").type ∈ [TOK_PLUS, TOK_MINUS] ∧
      parseCook (yapProgramTokens ([tok TOK_NUMBER_LITERAL "1"] ++ tok TOK_MINUS "-" ::
        ([tok TOK_NUMBER_LITERAL "2"] ++ tok TOK_MINUS "-" :: [tok TOK_NUMBER_LITERAL "3"]))) =
        .ok ⟨[YapStmtAST [BinaryExprAST (firstChar (tok TOK_MINUS "-").lexeme)
          (BinaryExprAST (firstChar (tok TOK_MINUS "-").lexeme) (NumberExprAST (.ofInt 1))
            (NumberExprAST (.ofInt 2))) (NumberExprAST (.ofInt 3))]]⟩ :=
  ⟨by decide, by decide,
    binary_chains_nest_left [tok TOK_NUMBER_LITERAL "1"] [tok TOK_NUMBER_LITERAL "2"]
      [tok TOK_NUMBER_LITERAL "3"] _ _ _ (tok TOK_MINUS "-") (tok TOK_MINUS "-")
      [TOK_PLUS, TOK_MINUS]
      (isOperand_number _ _ rfl rfl) (isOperand_number _ _ rfl rfl)
      (isOperand_number _ _ rfl rfl) (by decide) (by decide) (by decide)⟩

/-- C27: on a function declaration `generateStmt` returns without an error and leaves
every member of the lowering as it was: no operation is recorded, the symbol table and the
insertion block are unchanged, and no statement of the body is lowered. -/
theorem function_declaration_is_not_lowered (name : Str) (args : List Str)
    (body : List StmtAST) (g : CodeGen) :
    generateStmt (BruhAST name args body) g = .ok ((), g) := by
  rw [generateStmt]
  rfl

/-- C28, the code at `fr (1) \x7b \x7d`: the condition lowers to the integer constant `1`,
of type `i32`, and the conditional branch `generateStmt` records in the entry block is on
that value, which is not of boolean kind. -/
theorem branch_on_integer_condition :
    generateStmt (SusStmtAST (NumberExprAST (.ofInt 1)) [] []) CodeGen.start =
        .ok ((), ((CodeGen.start.openIf (.constInt 1)).branchAndEnter 3 2).branchAndEnter 3 3) ∧
      (((CodeGen.start.openIf (.constInt 1)).branchAndEnter 3 2).branchAndEnter 3 3).instrsOf 0 =
        [.condBr (.constInt 1) 1 2] ∧
      (Value.constInt 1).type = .i32 ∧ (Value.constInt 1).type ≠ .i1 := by
  refine ⟨?_, by decide, rfl, by decide⟩
  simp only [generateStmt_sus, generateStmts, generateExpr, Gen.condition, Value.isDoubleTy,
    Value.type, StateExcept.bind_apply, StateExcept.pure_apply]
  rfl

/-- C29, as the code has it: every number token of a scan that is not a float has a
text that is a non-empty run of decimal digits or the decimal text of a 32-bit signed
integer, of a value not below `-2^31`; `Parser::primary` makes the `NumberLiteral` of
that value of it when the value is below `2^31`, and raises `std::out_of_range`
otherwise. -/
theorem integer_token_conversion (source : Str) (tokens : List Token) (t : Token)
    (h : scanTokens source = .ok tokens) (ht : t ∈ tokens)
    (hty : t.type = TOK_NUMBER_LITERAL) (hf : t.isFloat = false) :
    IntegerText t.lexeme ∧ -(2 ^ 31 : Int) ≤ decimalValue t.lexeme ∧
      numberOfToken t = if decimalValue t.lexeme < 2 ^ 31
        then .ok (NumberExprAST (.ofInt (decimalValue t.lexeme)))
        else .error (.outOfRange "stoi".toList) := by
  have key : t.type = TOK_NUMBER_LITERAL → t.isFloat = false → IntegerText t.lexeme :=
    scanLoop_all
      (fun t => t.type = TOK_NUMBER_LITERAL → t.isFloat = false → IntegerText t.lexeme)
      (fun c rest t rest1 hs hty hf =>
        number_integerText c rest t rest1 (scanToken_number c rest t rest1 hs hty).1
          (scanToken_number c rest t rest1 hs hty).2 hf)
      (fun hty => by simp [eofToken] at hty)
      source.length source [] tokens h (by simp) t ht
  exact ⟨key hty hf, numberOfToken_integerText t hf (key hty hf)⟩

/-- C29 at the source `5`. -/
theorem integer_token_conversion_witness :
    scanTokens "5".toList = .ok [⟨TOK_NUMBER_LITERAL, "5".toList, false⟩, eofToken] ∧
      IntegerText "5".toList ∧ -(2 ^ 31 : Int) ≤ decimalValue "5".toList ∧
      numberOfToken ⟨TOK_NUMBER_LITERAL, "5".toList, false⟩ =
        if decimalValue "5".toList < 2 ^ 31
          then .ok (NumberExprAST (.ofInt (decimalValue "5".toList)))
          else .error (.outOfRange "stoi".toList) :=
  ⟨by decide,
    integer_token_conversion "5".toList
      [⟨TOK_NUMBER_LITERAL, "5".toList, false⟩, eofToken]
      ⟨TOK_NUMBER_LITERAL, "5".toList, false⟩ (by decide) (by simp) rfl rfl⟩

/-- C29 fails at the source `99999999999`: the scan makes one number token of it that is
not a float, and the conversion `std::stoi` of `Parser::primary` raises
`std::out_of_range` on that token. -/
theorem integer_token_out_of_range :
    scanTokens "99999999999".toList =
        .ok [⟨TOK_NUMBER_LITERAL, "99999999999".toList, false⟩, eofToken] ∧
      numberOfToken ⟨TOK_NUMBER_LITERAL, "99999999999".toList, false⟩ =
        .error (.outOfRange "stoi".toList) := by
  exact ⟨by decide, rfl⟩

/-- C30: on a non-empty token sequence whose last token is the end-of-input token,
`parseCook` makes no access outside of the token vector, neither `tokens[current]` in
`peek` nor `tokens[current - 1]` in `previous`, and the fuel of the model lasts for the
whole run; when it returns, the cursor stands on a token with no end-of-input token in
front of it; and `advance`, the one function that moves the cursor, takes a cursor that
has not passed the first end-of-input token to one that has not. -/
theorem token_accesses_in_bounds (tokens : List Token) (hne : tokens ≠ [])
    (hlast : (tokens.getLast hne).type = TOK_EOF) :
    parseCookAt tokens ≠ .error .outOfBounds ∧ parseCookAt tokens ≠ .error .fuel ∧
      (∀ ast c, parseCookAt tokens = .ok (ast, c) → Parser.Within tokens c) ∧
      ∀ c t c', Parser.Within tokens c → Parser.advance tokens c = .ok (t, c') →
        Parser.Within tokens c' := by
  have H := endsWithEof_of_getLast tokens hne hlast
  have h0 : Parser.Within tokens 0 :=
    ⟨List.length_pos.mpr hne, fun i t hi => absurd hi (Nat.not_lt_zero i)⟩
  obtain ⟨h1, h2⟩ := Parser.cook_safe H 0 (Nat.le_refl 0) h0
  refine ⟨fun h => (h1 _ h).1 rfl, fun h => (h1 _ h).2 rfl, fun ast c h => (h2 ast c h).2,
    fun c t c' hw h => (Parser.advance_within H hw h).2⟩

/-- C30 at the tokens of `cook \x7b \x7d`. -/
theorem token_accesses_in_bounds_witness :
    parseCookAt [tok TOK_COOK "cook", tok TOK_LEFT_BRACE "\x7b", tok TOK_RIGHT_BRACE "\x7d",
        eofToken] ≠ .error .outOfBounds ∧
      parseCookAt [tok TOK_COOK "cook", tok TOK_LEFT_BRACE "\x7b",
        tok TOK_RIGHT_BRACE "\x7d", eofToken] ≠ .error .fuel ∧
      (∀ ast c, parseCookAt [tok TOK_COOK "cook", tok TOK_LEFT_BRACE "\x7b",
          tok TOK_RIGHT_BRACE "\x7d", eofToken] = .ok (ast, c) →
        Parser.Within [tok TOK_COOK "cook", tok TOK_LEFT_BRACE "\x7b",
          tok TOK_RIGHT_BRACE "\x7d", eofToken] c) ∧
      ∀ c t c', Parser.Within [tok TOK_COOK "cook", tok TOK_LEFT_BRACE "\x7b",
          tok TOK_RIGHT_BRACE "\x7d", eofToken] c →
        Parser.advance [tok TOK_COOK "cook", tok TOK_LEFT_BRACE "\x7b",
          tok TOK_RIGHT_BRACE "\x7d", eofToken] c = .ok (t, c') →
        Parser.Within [tok TOK_COOK "cook", tok TOK_LEFT_BRACE "\x7b",
          tok TOK_RIGHT_BRACE "\x7d", eofToken] c' :=
  token_accesses_in_bounds [tok TOK_COOK "cook", tok TOK_LEFT_BRACE "\x7b",
    tok TOK_RIGHT_BRACE "\x7d", eofToken] (by simp) rfl

/-- C31: on a non-empty token sequence whose last token is the end-of-input token the
fuel of `parseCook`, one unit for each token and one more, does not run out: no loop
runs and no recursion nests more often than there are tokens.  From every cursor that
has not passed the first end-of-input token, with one unit of fuel for each token from
the cursor on, `statement`, `block` and `expression` do not run out of fuel, and when
they return the cursor has strictly increased; the fuel is the bound on the iterations
of the statement loops and of the operator chains inside them.  The recursive calls of
`unary` in itself and of `expression` in `primary` stand behind a `match` that has
moved the cursor by one. -/
theorem parse_terminates (tokens : List Token) (hne : tokens ≠ [])
    (hlast : (tokens.getLast hne).type = TOK_EOF) :
    parseCookAt tokens ≠ .error .fuel ∧
      (∀ fuel c, Parser.Within tokens c → tokens.length ≤ c + fuel →
        (Parser.statement tokens fuel c ≠ .error .fuel ∧
          ∀ s c', Parser.statement tokens fuel c = .ok (s, c') → c < c') ∧
        (Parser.block tokens (Parser.statement tokens fuel) fuel c ≠ .error .fuel ∧
          ∀ l c', Parser.block tokens (Parser.statement tokens fuel) fuel c = .ok (l, c') →
            c < c') ∧
        (Parser.expression tokens fuel c ≠ .error .fuel ∧
          ∀ e c', Parser.expression tokens fuel c = .ok (e, c') → c < c')) ∧
      (∀ c c', Parser.matchOr tokens TOK_MINUS TOK_BANG c = .ok (true, c') → c' = c + 1) ∧
      ∀ c c', Parser.match tokens TOK_LEFT_PAREN c = .ok (true, c') → c' = c + 1 := by
  have H := endsWithEof_of_getLast tokens hne hlast
  have h0 : Parser.Within tokens 0 :=
    ⟨List.length_pos.mpr hne, fun i t hi => absurd hi (Nat.not_lt_zero i)⟩
  refine ⟨fun h => ((Parser.cook_safe H 0 (Nat.le_refl 0) h0).1 _ h).2 rfl,
    fun fuel c hw hL => ⟨safe_at (Parser.statement_safe H fuel c hL) hw,
      safe_at (Parser.block_step H (Parser.statement_safe H fuel c hL) hL) hw,
      safe_at (Parser.expression_step H hL) hw⟩, fun c c' h => ?_, fun c c' h => ?_⟩
  · obtain ⟨x, c1, h1, h2⟩ := StateExcept.bind_ok h
    cases x with
    | true =>
      simp only [if_true, StateExcept.pure_apply, Except.ok.injEq, Prod.mk.injEq,
        true_and] at h2
      subst h2
      exact (Parser.match_true h1).choose_spec.2.2
    | false =>
      simp only [Bool.false_eq_true, if_false] at h2
      obtain ⟨t, p1, p2, p3⟩ := Parser.match_true h2
      have q3 : c1 = c := by
        cases hT : tokens[c]? with
        | none =>
          simp [Parser.match, Parser.check, Parser.isAtEnd, Parser.peek, hT] at h1
        | some u =>
          by_cases hu : u.type = TOK_MINUS
          · rw [Parser.match_hit TOK_MINUS hT hu (by decide)] at h1
            simp at h1
          · rw [Parser.match_miss TOK_MINUS hT hu] at h1
            simp only [Except.ok.injEq, Prod.mk.injEq, true_and] at h1
            exact h1.symm
      rw [p3, q3]
  · exact (Parser.match_true h).choose_spec.2.2

/-- C31 at the tokens of `cook \x7b \x7d`. -/
theorem parse_terminates_witness :
    parseCookAt [tok TOK_COOK "cook", tok TOK_LEFT_BRACE "\x7b", tok TOK_RIGHT_BRACE "\x7d",
      eofToken] ≠ .error .fuel :=
  (parse_terminates [tok TOK_COOK "cook", tok TOK_LEFT_BRACE "\x7b",
    tok TOK_RIGHT_BRACE "\x7d", eofToken] (by simp) rfl).1

/-- C32: in every program `parseCook` returns there is no call node, and an assignment
node or an expression statement stands nowhere but as the init or the increment of a
loop, where the expression statement wraps the assignment (`parsedStmts`).  Lowering
such a program throws for an unknown variable or an invalid operator and for nothing
else: never "Unknown function", whatever the name, and never "Unknown expression
type", for which the model has no node at all, every class of expression being
lowered. -/
theorem parsed_program_has_no_call (tokens : List Token) (ast : CookAST)
    (h : parseCook tokens = .ok ast) :
    parsedStmts ast.body = true ∧
      (∀ e, generateCode ast = .error e → LoweringError e) ∧
      (∀ callee, generateCode ast ≠ .error (.runtime ("Unknown function: ".toList ++ callee))) ∧
      generateCode ast ≠ .error (.runtime "Unknown expression type".toList) := by
  have hp := parseCook_parsed h
  refine ⟨hp, fun e he => generateCode_raises hp e he, fun callee he => ?_, fun he => ?_⟩
  · obtain ⟨m, hm, hl⟩ := generateCode_raises hp _ he
    simp only [Err.runtime.injEq] at hm
    exact loweringMessage_not_function hl callee hm.symm
  · obtain ⟨m, hm, hl⟩ := generateCode_raises hp _ he
    simp only [Err.runtime.injEq] at hm
    exact loweringMessage_not_type hl hm.symm

/-- C32 at `cook \x7b bet (i = 0, i < 3, i = i + 1) \x7b yap(i); \x7d \x7d`, whose lowering
throws for the variable `i`, which no declaration binds. -/
theorem parsed_program_has_no_call_witness :
    parseCook countingLoopTokens = .ok countingLoopProgram ∧
      parsedStmts countingLoopProgram.body = true ∧
      (∀ e, generateCode countingLoopProgram = .error e → LoweringError e) ∧
      (∀ callee, generateCode countingLoopProgram ≠
        .error (.runtime ("Unknown function: ".toList ++ callee))) ∧
      generateCode countingLoopProgram ≠ .error (.runtime "Unknown expression type".toList) :=
  ⟨rfl, parsed_program_has_no_call countingLoopTokens countingLoopProgram rfl⟩

/-- C33: in every program `parseCook` returns, every loop has its init, its condition
and its increment: the init is a variable declaration or an expression statement
wrapping an assignment, the increment is an expression statement wrapping an assignment
(`completeLoopsList`); so lowering the program comes to no loop with an absent
condition, for which `generateStmt` would take the constant `true`.  The header with
empty clauses of `cook \x7b bet (, , ) \x7b \x7d \x7d` is rejected with the syntax error
"Expected variable name". -/
theorem loops_have_all_clauses (tokens : List Token) (ast : CookAST)
    (h : parseCook tokens = .ok ast) :
    completeLoopsList ast.body = true ∧ lowersAbsentConditionList ast.body = false ∧
      parseCook emptyClausesTokens = .error (.runtime "Expected variable name".toList) := by
  have hc := completeLoopsList_of_parsed _ (parseCook_parsed h)
  exact ⟨hc, lowersAbsentConditionList_of_complete _ hc, rfl⟩

/-- C33 at `cook \x7b bet (i = 0, i < 3, i = i + 1) \x7b yap(i); \x7d \x7d`. -/
theorem loops_have_all_clauses_witness :
    parseCook countingLoopTokens = .ok countingLoopProgram ∧
      completeLoopsList countingLoopProgram.body = true ∧
      lowersAbsentConditionList countingLoopProgram.body = false ∧
      parseCook emptyClausesTokens = .error (.runtime "Expected variable name".toList) :=
  ⟨rfl, loops_have_all_clauses countingLoopTokens countingLoopProgram rfl⟩

end Brainrot
